import Mathlib

/-!
# PyMTets: marching tetrahedra over a sampled scalar field

A shallow embedding of `Vector3.h`, `Triangle.h`, `marchingcubes.cpp` and
`marchingcubes.h`, followed by theorems about it.

The program is embedded twice.  The definitions outside the namespace `Rounded`
compute in exact arithmetic; the definitions in `Rounded` are the same functions
with a rounding `r : ℚ → ℚ` applied to the result of every arithmetic operation
on doubles.

Modelling conventions.

* Outside `Rounded`, a C++ `double` is an exact rational number (`ℚ`): a
  statement about these definitions is a statement about the program in exact
  arithmetic.  Rounding, infinities and NaN are outside this model.  The
  quotient of `inverseLinearInterpolation` is the exact quotient wherever its
  denominator is non-zero (in `ℚ` a quotient by zero is `0`); the statements
  that depend on a quotient carry hypotheses under which the two corner values
  differ.
* In `Rounded`, a `double` is the rational number it stands for, and every sum,
  difference, product and quotient of doubles is `r` of the exact result, in
  the order in which the C++ expression is evaluated (no operation is fused
  with another); comparisons, `std::abs`, negation and the conversion of an
  `int` are exact.  With `r = roundDouble`, the rounding to the nearest
  IEEE 754 binary64 number with ties to even, this is the arithmetic of the
  compiled program as long as no result overflows; with `r = fun q => q` it is
  the exact model.  A decimal literal such as `1e-4` is `r` of its value.
* A C++ `int` is an unbounded integer outside `Rounded`; the conversion `(int)d`
  of a double truncates toward zero.  In `Rounded` the conversion is
  `castInt32`, which gives `INT_MIN` outside the range of `int`.
* `std::unordered_map` is the list of its nodes.  A lookup compares the key with
  the nodes that have its hash code, using `operator==`; the model returns the
  most recently inserted match.  The proof about the sphere example in double
  arithmetic uses only that a lookup ends at a node with the hash code of the
  key whose key `operator==` accepts, or else inserts the key.
* A heap object reached through a pointer is the value it holds: no `Vector3`
  is written to after it has been handed to another object, and a `Triangle`
  is only written to by the function that allocated it.
* `NULL` as a result is `none`; a `std::vector` is a `List`, `push_back`
  appends at the end.
-/

namespace PyMTets

/-! ## Vector3.h -/

/-- The tolerance `#define DBL_EPS 1e-4`. -/
def DBL_EPS : ℚ := 1 / 10000

/-- The comparison `#define DBL_APPROX(a, b) (std::abs((a) - (b)) < DBL_EPS)`. -/
def DBL_APPROX (a b : ℚ) : Bool := decide (|a - b| < DBL_EPS)

/-- Class `Vector3`: three coordinates and the attached scalar `info`. -/
structure Vector3 where
  info : ℚ
  x : ℚ
  y : ℚ
  z : ℚ
deriving DecidableEq

namespace Vector3

/-- Constructor `Vector3(double x, double y, double z)`; it sets `info = 0.0`. -/
def new (x y z : ℚ) : Vector3 := { info := 0, x := x, y := y, z := z }

/-- Method `multiply`: multiply each component by the scalar. -/
def multiply (A : Vector3) (s : ℚ) : Vector3 := new (A.x * s) (A.y * s) (A.z * s)

/-- Method `add`. -/
def add (A B : Vector3) : Vector3 := new (A.x + B.x) (A.y + B.y) (A.z + B.z)

/-- Method `sub`. -/
def sub (A B : Vector3) : Vector3 := new (A.x - B.x) (A.y - B.y) (A.z - B.z)

/-- Method `dot`. -/
def dot (A B : Vector3) : ℚ := (A.x * B.x) + (A.y * B.y) + (A.z * B.z)

/-- Method `cross`. -/
def cross (A B : Vector3) : Vector3 :=
  let i := (A.y * B.z) - (A.z * B.y)
  let j := (A.z * B.x) - (A.x * B.z)
  let k := (A.x * B.y) - (A.y * B.x)
  new i j k

/-- Method `interpolate`: `this->multiply(1.0 - t)->add(B->multiply(t))`. -/
def interpolate (A : Vector3) (t : ℚ) (B : Vector3) : Vector3 :=
  (A.multiply (1 - t)).add (B.multiply t)

/-- Method `equal`: exact comparison of the three coordinates. -/
def equal (A B : Vector3) : Bool :=
  decide (A.x = B.x) && decide (A.y = B.y) && decide (A.z = B.z)

/-- Method `operator==`: the three coordinates agree up to `DBL_EPS`. -/
def operatorEq (a b : Vector3) : Bool :=
  DBL_APPROX a.x b.x && DBL_APPROX a.y b.y && DBL_APPROX a.z b.z

end Vector3

/-- The conversion `(int)d` of a double: truncation toward zero. -/
def castInt (d : ℚ) : Int := Int.tdiv d.num d.den

/-- The library functor `std::hash<int>`, as in libstdc++ and libc++: the value
converted to the 64-bit `size_t`. -/
def stdHashInt (n : Int) : Nat := (n % 2 ^ 64).toNat

namespace Vector3Hash

/-- The three locals `x_int`, `y_int`, `z_int` of `Vector3Hash::operator()`. -/
def key (v : Vector3) : Int × Int × Int :=
  (castInt (v.x / DBL_EPS), castInt (v.y / DBL_EPS), castInt (v.z / DBL_EPS))

/-- Method `Vector3Hash::operator()`; `*` binds tighter than `^`, and `size_t`
arithmetic is modulo `2 ^ 64`. -/
def operatorCall (v : Vector3) : Nat :=
  let x_int := castInt (v.x / DBL_EPS)
  let y_int := castInt (v.y / DBL_EPS)
  let z_int := castInt (v.z / DBL_EPS)
  ((stdHashInt x_int * 73856093) % 2 ^ 64) ^^^
    ((stdHashInt y_int * 19349663) % 2 ^ 64) ^^^
    ((stdHashInt z_int * 83492791) % 2 ^ 64)

end Vector3Hash

/-! ## Triangle.h -/

/-- Class `Triangle`: three vertices in winding order. -/
structure Triangle where
  v0 : Vector3
  v1 : Vector3
  v2 : Vector3
deriving DecidableEq

namespace Triangle

/-- Method `isPoint`. -/
def isPoint (T : Triangle) : Bool := T.v0.equal T.v1 && T.v1.equal T.v2

/-- Method `normal`: `v1->sub(v0)->cross(v2->sub(v0))`. -/
def normal (T : Triangle) : Vector3 := (T.v1.sub T.v0).cross (T.v2.sub T.v0)

/-- Method `isCCW`: `(v0->sub(V))->dot(normal()) > 0`. -/
def isCCW (T : Triangle) (V : Vector3) : Bool := decide ((T.v0.sub V).dot T.normal > 0)

end Triangle

/-! ## marchingcubes.cpp -/

namespace mc

namespace private_

/-- Function `inverseLinearInterpolation`. -/
def inverseLinearInterpolation (f f1 f2 : ℚ) : ℚ := (f - f1) / (f2 - f1)

/-- Function `buildTriangle`; the result `NULL` is `none`. -/
def buildTriangle (V0 V1 V2 V3 : Vector3) (isovalue : ℚ) : Option Triangle :=
  let t01 := inverseLinearInterpolation isovalue V0.info V1.info
  let t02 := inverseLinearInterpolation isovalue V0.info V2.info
  let t03 := inverseLinearInterpolation isovalue V0.info V3.info
  let T0 := V0.interpolate t01 V1
  let T1 := V0.interpolate t03 V3
  let T2 := V0.interpolate t02 V2
  let T : Triangle := { v0 := T0, v1 := T1, v2 := T2 }
  let T : Triangle :=
    if Bool.xor (decide (V0.info > isovalue)) (T.isCCW V0) then { T with v1 := T2, v2 := T1 }
    else T
  if T.isPoint then none else some T

/-- Function `buildTriangles`. -/
def buildTriangles (V0 V1 V2 V3 : Vector3) (isovalue : ℚ) : List Triangle :=
  let t02 := inverseLinearInterpolation isovalue V0.info V2.info
  let t03 := inverseLinearInterpolation isovalue V0.info V3.info
  let t12 := inverseLinearInterpolation isovalue V1.info V2.info
  let t13 := inverseLinearInterpolation isovalue V1.info V3.info
  let T0 := V0.interpolate t02 V2
  let T1 := V1.interpolate t12 V2
  let T2 := V1.interpolate t13 V3
  let T3 := V0.interpolate t03 V3
  let triangle1 : Triangle := { v0 := T0, v1 := T1, v2 := T2 }
  let triangle1 : Triangle :=
    if Bool.xor (decide (V0.info > isovalue)) (triangle1.isCCW V0) then
      { triangle1 with v1 := T2, v2 := T1 }
    else triangle1
  let triangle2 : Triangle := { v0 := T2, v1 := T3, v2 := T0 }
  let triangle2 : Triangle :=
    if Bool.xor (decide (V0.info > isovalue)) (triangle2.isCCW V0) then
      { triangle2 with v1 := T0, v2 := T3 }
    else triangle2
  let triangles : List Triangle := []
  let triangles := if !triangle1.isPoint then triangles ++ [triangle1] else triangles
  let triangles := if !triangle2.isPoint then triangles ++ [triangle2] else triangles
  triangles

/-- The statement `if (triangle != NULL) triangles->push_back(triangle);`. -/
def pushIfNotNull (triangles : List Triangle) (triangle : Option Triangle) : List Triangle :=
  match triangle with
  | some t => triangles ++ [t]
  | none => triangles

/-- The loop `for (it = t->begin(); it != t->end(); ++it) triangles->push_back(*it);`. -/
def pushAll (triangles t : List Triangle) : List Triangle :=
  t.foldl (fun acc tri => acc ++ [tri]) triangles

/-- Function `marchTetrahedra`: the chain of sixteen tests on the sign bits. -/
def marchTetrahedra (V0 V1 V2 V3 : Vector3) (isovalue : ℚ) : List Triangle :=
  let triangles : List Triangle := []
  let s0 : Int := if V0.info > isovalue then 1 else 0
  let s1 : Int := if V1.info > isovalue then 1 else 0
  let s2 : Int := if V2.info > isovalue then 1 else 0
  let s3 : Int := if V3.info > isovalue then 1 else 0
  if s0 = 0 ∧ s1 = 0 ∧ s2 = 0 ∧ s3 = 0 then triangles
  else if s0 = 1 ∧ s1 = 0 ∧ s2 = 0 ∧ s3 = 0 then
    pushIfNotNull triangles (buildTriangle V0 V1 V2 V3 isovalue)
  else if s0 = 0 ∧ s1 = 1 ∧ s2 = 0 ∧ s3 = 0 then
    pushIfNotNull triangles (buildTriangle V1 V2 V0 V3 isovalue)
  else if s0 = 1 ∧ s1 = 1 ∧ s2 = 0 ∧ s3 = 0 then
    pushAll triangles (buildTriangles V0 V1 V2 V3 isovalue)
  else if s0 = 0 ∧ s1 = 0 ∧ s2 = 1 ∧ s3 = 0 then
    pushIfNotNull triangles (buildTriangle V2 V0 V1 V3 isovalue)
  else if s0 = 1 ∧ s1 = 0 ∧ s2 = 1 ∧ s3 = 0 then
    pushAll triangles (buildTriangles V0 V2 V1 V3 isovalue)
  else if s0 = 0 ∧ s1 = 1 ∧ s2 = 1 ∧ s3 = 0 then
    pushAll triangles (buildTriangles V1 V2 V0 V3 isovalue)
  else if s0 = 1 ∧ s1 = 1 ∧ s2 = 1 ∧ s3 = 0 then
    pushIfNotNull triangles (buildTriangle V3 V0 V2 V1 isovalue)
  else if s0 = 0 ∧ s1 = 0 ∧ s2 = 0 ∧ s3 = 1 then
    pushIfNotNull triangles (buildTriangle V3 V2 V1 V0 isovalue)
  else if s0 = 1 ∧ s1 = 0 ∧ s2 = 0 ∧ s3 = 1 then
    pushAll triangles (buildTriangles V0 V3 V1 V2 isovalue)
  else if s0 = 0 ∧ s1 = 1 ∧ s2 = 0 ∧ s3 = 1 then
    pushAll triangles (buildTriangles V1 V3 V0 V2 isovalue)
  else if s0 = 1 ∧ s1 = 1 ∧ s2 = 0 ∧ s3 = 1 then
    pushIfNotNull triangles (buildTriangle V2 V0 V1 V3 isovalue)
  else if s0 = 0 ∧ s1 = 0 ∧ s2 = 1 ∧ s3 = 1 then
    pushAll triangles (buildTriangles V2 V3 V0 V1 isovalue)
  else if s0 = 1 ∧ s1 = 0 ∧ s2 = 1 ∧ s3 = 1 then
    pushIfNotNull triangles (buildTriangle V1 V2 V0 V3 isovalue)
  else if s0 = 0 ∧ s1 = 1 ∧ s2 = 1 ∧ s3 = 1 then
    pushIfNotNull triangles (buildTriangle V0 V1 V2 V3 isovalue)
  else if s0 = 1 ∧ s1 = 1 ∧ s2 = 1 ∧ s3 = 1 then triangles
  else triangles

/-- Function `marchCellTetrahedra`: six tetrahedra, merged by six loops. -/
def marchCellTetrahedra (v0 v1 v2 v3 v4 v5 v6 v7 : Vector3) (isovalue : ℚ) : List Triangle :=
  let triangles : List Triangle := []
  let tetrahedra1Triangles := marchTetrahedra v0 v1 v3 v5 isovalue
  let tetrahedra2Triangles := marchTetrahedra v1 v2 v3 v5 isovalue
  let tetrahedra3Triangles := marchTetrahedra v0 v3 v4 v5 isovalue
  let tetrahedra4Triangles := marchTetrahedra v2 v3 v5 v6 isovalue
  let tetrahedra5Triangles := marchTetrahedra v3 v4 v5 v7 isovalue
  let tetrahedra6Triangles := marchTetrahedra v3 v5 v6 v7 isovalue
  let triangles := pushAll triangles tetrahedra1Triangles
  let triangles := pushAll triangles tetrahedra2Triangles
  let triangles := pushAll triangles tetrahedra3Triangles
  let triangles := pushAll triangles tetrahedra4Triangles
  let triangles := pushAll triangles tetrahedra5Triangles
  let triangles := pushAll triangles tetrahedra6Triangles
  triangles

end private_

/-! ## marchingcubes.h -/

/-- The state the lambda `add_vertex` captures by reference: the output vector
`vertices`, the hash map `vertex_map` and the counter `current_id`.

The `std::unordered_map<Vector3, int, Vector3Hash>` is the list of its nodes,
most recently inserted first. -/
structure WeldState where
  vertices : List ℚ
  vertex_map : List (Vector3 × Int)
  current_id : Int

/-- Lookup in the `std::unordered_map<Vector3, int, Vector3Hash>`, as done by
`find` and by `operator[]`: a node matches the searched key when its stored hash
code equals the hash code of the key (`Vector3Hash`) and the key comparison
(`Vector3::operator==`) accepts it.  This is the lookup of the node-based tables
of libstdc++ and libc++, which keep the hash code in the node and compare it
before the keys.  When several nodes match, the table's bucket order decides;
here the most recently inserted one is taken. -/
def vertexMapFind (vertex_map : List (Vector3 × Int)) (k : Vector3) : Option Int :=
  (vertex_map.find? fun e =>
    decide (Vector3Hash.operatorCall e.1 = Vector3Hash.operatorCall k) && k.operatorEq e.1).map
    Prod.snd

/-- The lambda `add_vertex` of `marching_cubes`: the returned index and the
state after the call. -/
def add_vertex (s : WeldState) (v : Vector3) : Int × WeldState :=
  match vertexMapFind s.vertex_map (Vector3.new v.x v.y v.z) with
  | none =>
    let vertices := s.vertices ++ [v.x]
    let vertices := vertices ++ [v.z]
    let vertices := vertices ++ [v.y]
    let current_id := s.current_id + 1
    (current_id,
      { vertices := vertices
        vertex_map := (Vector3.new v.x v.y v.z, current_id) :: s.vertex_map
        current_id := current_id })
  | some id => (id, s)

/-- The body of the innermost loop of the second pass of `marching_cubes`:
three `polygons.push_back(add_vertex(..))` for `tri->v0`, `tri->v2`, `tri->v1`.
The conversion of the `int` index to the unsigned `size_type` is `Int.toNat`. -/
def weldTriangle (st : WeldState × List Nat) (tri : Triangle) : WeldState × List Nat :=
  let r0 := add_vertex st.1 tri.v0
  let polygons := st.2 ++ [r0.1.toNat]
  let r2 := add_vertex r0.2 tri.v2
  let polygons := polygons ++ [r2.1.toNat]
  let r1 := add_vertex r2.2 tri.v1
  let polygons := polygons ++ [r1.1.toNat]
  (r1.2, polygons)

/-- The loop over `k` of the first pass of `marching_cubes`, for fixed `i`, `j`:
`n` iterations are left, `k` is the loop counter and `c4 .. c7` are the current
contents of `v[4] .. v[7]`.  The result lists `triangles[i][j][k]`,
`triangles[i][j][k+1]`, ... -/
def zLoop (f : ℚ → ℚ → ℚ → ℚ) (isovalue lower2 dz x x_dx y y_dy : ℚ) :
    Nat → Nat → ℚ → ℚ → ℚ → ℚ → List (List Triangle)
  | 0, _, _, _, _, _ => []
  | n + 1, k, c4, c5, c6, c7 =>
    let z := lower2 + dz * (k : ℚ)
    let z_dz := lower2 + dz * ((k + 1 : Nat) : ℚ)
    let c0 := c4
    let c1 := c5
    let c2 := c6
    let c3 := c7
    let c4 := f x y z_dz
    let c5 := f x_dx y z_dz
    let c6 := f x_dx y_dy z_dz
    let c7 := f x y_dy z_dz
    let v0 := { Vector3.new x z y with info := c0 }
    let v1 := { Vector3.new x_dx z y with info := c1 }
    let v2 := { Vector3.new x_dx z y_dy with info := c2 }
    let v3 := { Vector3.new x z y_dy with info := c3 }
    let v4 := { Vector3.new x z_dz y with info := c4 }
    let v5 := { Vector3.new x_dx z_dz y with info := c5 }
    let v6 := { Vector3.new x_dx z_dz y_dy with info := c6 }
    let v7 := { Vector3.new x z_dz y_dy with info := c7 }
    private_.marchCellTetrahedra v0 v1 v2 v3 v4 v5 v6 v7 isovalue ::
      zLoop f isovalue lower2 dz x x_dx y y_dy n (k + 1) c4 c5 c6 c7

/-- The first pass of `marching_cubes` (after the decrement of the three
counts): the array `triangles[i][j][k]` of the triangle lists of the cells. -/
def cellTriangles (lower : Fin 3 → ℚ) (dx dy dz : ℚ) (numx numy numz : Int)
    (f : ℚ → ℚ → ℚ → ℚ) (isovalue : ℚ) : List (List (List (List Triangle))) :=
  (List.range numx.toNat).map fun (i : Nat) =>
    let x := lower 0 + dx * (i : ℚ)
    let x_dx := lower 0 + dx * ((i + 1 : Nat) : ℚ)
    (List.range numy.toNat).map fun (j : Nat) =>
      let y := lower 1 + dy * (j : ℚ)
      let y_dy := lower 1 + dy * ((j + 1 : Nat) : ℚ)
      zLoop f isovalue (lower 2) dz x x_dx y y_dy numz.toNat 0
        (f x y (lower 2)) (f x_dx y (lower 2)) (f x_dx y_dy (lower 2)) (f x y_dy (lower 2))

/-- The second pass of `marching_cubes`: the four nested loops over
`triangles[i][j][k]` and its triangles. -/
def weldAll (triangles : List (List (List (List Triangle)))) (st : WeldState × List Nat) :
    WeldState × List Nat :=
  triangles.foldl (fun st ti =>
    ti.foldl (fun st tij =>
      tij.foldl (fun st tijk => tijk.foldl weldTriangle st) st) st) st

/-- Function template `marching_cubes`, for a container type `vector3` of three
doubles (`lower`, `upper`) and a callable `f`; the two output vectors are passed
in and returned. -/
def marching_cubes (lower upper : Fin 3 → ℚ) (numx numy numz : Int) (f : ℚ → ℚ → ℚ → ℚ)
    (isovalue : ℚ) (vertices : List ℚ) (polygons : List Nat) : List ℚ × List Nat :=
  if numx < 2 ∨ numy < 2 ∨ numz < 2 then (vertices, polygons)
  else if ¬ (lower 0 ≤ upper 0 ∧ lower 1 ≤ upper 1 ∧ lower 2 ≤ upper 2) then (vertices, polygons)
  else
    let numx := numx - 1
    let numy := numy - 1
    let numz := numz - 1
    let dx := (upper 0 - lower 0) / (numx : ℚ)
    let dy := (upper 1 - lower 1) / (numy : ℚ)
    let dz := (upper 2 - lower 2) / (numz : ℚ)
    let triangles := cellTriangles lower dx dy dz numx numy numz f isovalue
    let st := weldAll triangles
      ({ vertices := vertices, vertex_map := [], current_id := -1 }, polygons)
    (st.1.vertices, st.2)

end mc

/-! ## Predicates used by the statements -/

open mc mc.private_

/-- The sign bit of a corner: `value > isovalue`. -/
def signBit (V : Vector3) (isovalue : ℚ) : Bool := decide (V.info > isovalue)

/-- Six times the signed volume of the tetrahedron `V0 V1 V2 V3`: the triple
product of the three edge vectors leaving `V0`.  It is non-zero exactly when the
four positions are affinely independent. -/
def tetraDet (V0 V1 V2 V3 : Vector3) : ℚ :=
  (V1.sub V0).dot ((V2.sub V0).cross (V3.sub V0))

/-- The `i`-th sample coordinate along axis `a` of a grid with `num` samples on
that axis: `lower[a] + d * i` with the step `d = (upper[a] - lower[a]) / (num - 1)`
of `marching_cubes`. -/
def gridCoord (lower upper : Fin 3 → ℚ) (num : Int) (a : Fin 3) (i : Nat) : ℚ :=
  lower a + (upper a - lower a) / ((num - 1 : Int) : ℚ) * (i : ℚ)

/-- The vertices of the mesh stored in a flat coordinate sequence. -/
def meshVertex (vertices : List ℚ) (i : Nat) : ℚ × ℚ × ℚ :=
  (vertices.getD (3 * i) 0, vertices.getD (3 * i + 1) 0, vertices.getD (3 * i + 2) 0)

/-- The invariant of the welding pass, between two `push_back` on `polygons`:
with `V = current_id + 1` vertices so far, `vertices` holds `3 * V` numbers,
the indices pushed so far are exactly the numbers below `V`, and every index
stored in the map lies in `0 .. current_id`. -/
structure WeldInv (s : WeldState) (polygons : List Nat) : Prop where
  id_ge : -1 ≤ s.current_id
  vertices_length : s.vertices.length = 3 * (s.current_id + 1).toNat
  index_lt : ∀ i ∈ polygons, i < (s.current_id + 1).toNat
  index_used : ∀ i : Nat, i < (s.current_id + 1).toNat → i ∈ polygons
  map_range : ∀ e ∈ s.vertex_map, 0 ≤ e.2 ∧ e.2 ≤ s.current_id

/-- The invariant of the welding pass between two triangles. -/
def MeshInv (st : WeldState × List Nat) : Prop := WeldInv st.1 st.2 ∧ 3 ∣ st.2.length

/-- A field with one sample corner above the isovalue `0`: `1` at the point
`(1/20000, 1/20000, 1/20000)` and `-99999` elsewhere. -/
def spikeField : ℚ → ℚ → ℚ → ℚ := fun x y z =>
  if x = 1 / 20000 ∧ y = 1 / 20000 ∧ z = 1 / 20000 then 1 else -99999

/-- The dot product of the normal of `T` with `P - T.v0`: positive when the
normal points to the side of the triangle's plane on which `P` lies. -/
def normalSide (T : Triangle) (P : Vector3) : ℚ := T.normal.dot (P.sub T.v0)

/-- A tetrahedron with the corner `V0` on one side of the isovalue and the other
three on the other side. -/
def LoneCorner (V0 V1 V2 V3 : Vector3) (isovalue : ℚ) : Prop :=
  (isovalue < V0.info ∧ V1.info < isovalue ∧ V2.info < isovalue ∧ V3.info < isovalue) ∨
  (V0.info < isovalue ∧ isovalue < V1.info ∧ isovalue < V2.info ∧ isovalue < V3.info)

/-- A tetrahedron with the corners `V0`, `V1` on one side of the isovalue and
`V2`, `V3` on the other side. -/
def PairCorners (V0 V1 V2 V3 : Vector3) (isovalue : ℚ) : Prop :=
  (isovalue < V0.info ∧ isovalue < V1.info ∧ V2.info < isovalue ∧ V3.info < isovalue) ∨
  (V0.info < isovalue ∧ V1.info < isovalue ∧ isovalue < V2.info ∧ isovalue < V3.info)

/-- The normal of `T` points away from every corner among `V0 .. V3` above the
isovalue and toward every corner below it. -/
def FacesLower (T : Triangle) (V0 V1 V2 V3 : Vector3) (isovalue : ℚ) : Prop :=
  ∀ P : Vector3, P = V0 ∨ P = V1 ∨ P = V2 ∨ P = V3 →
    (isovalue < P.info → normalSide T P < 0) ∧ (P.info < isovalue → 0 < normalSide T P)

/-- The number of corners whose sign bit (`value > isovalue`) is set. -/
def bitsAbove (V0 V1 V2 V3 : Vector3) (isovalue : ℚ) : Nat :=
  (signBit V0 isovalue).toNat + (signBit V1 isovalue).toNat + (signBit V2 isovalue).toNat +
    (signBit V3 isovalue).toNat

/-- The point computed on the edge `A B`: `A->interpolate(t, B)` with
`t = inverseLinearInterpolation(isovalue, A->info, B->info)`. -/
def crossing (A B : Vector3) (isovalue : ℚ) : Vector3 :=
  A.interpolate (inverseLinearInterpolation isovalue A.info B.info) B

/-- The point `P` is the point computed on an edge of the tetrahedron
`V0 V1 V2 V3` whose two end points have different sign bits. -/
def IsCrossing (V0 V1 V2 V3 : Vector3) (isovalue : ℚ) (P : Vector3) : Prop :=
  ∃ A B : Vector3, (A = V0 ∨ A = V1 ∨ A = V2 ∨ A = V3) ∧ (B = V0 ∨ B = V1 ∨ B = V2 ∨ B = V3) ∧
    signBit A isovalue ≠ signBit B isovalue ∧ P = crossing A B isovalue

/-- The point `P` has the coordinates of a point of the segment from `A` to `B`. -/
def onSegment (A B P : Vector3) : Prop :=
  ∃ t : ℚ, 0 ≤ t ∧ t ≤ 1 ∧ (A.interpolate t B).equal P = true

/-- The corners joined to corner `c` by an edge of the cube, in the corner order
of `marchCellTetrahedra` (`0 1 2 3` one face in cyclic order, `4 5 6 7` the
opposite face, `i + 4` opposite `i`). -/
def cubeEdgeNeighbours : Fin 8 → List (Fin 8)
  | 0 => [1, 3, 4]
  | 1 => [0, 2, 5]
  | 2 => [1, 3, 6]
  | 3 => [0, 2, 7]
  | 4 => [0, 5, 7]
  | 5 => [1, 4, 6]
  | 6 => [2, 5, 7]
  | 7 => [3, 4, 6]

/-- The six corner quadruples `marchCellTetrahedra` passes to `marchTetrahedra`. -/
def tetrahedra : List (List (Fin 8)) :=
  [[0, 1, 3, 5], [1, 2, 3, 5], [0, 3, 4, 5], [2, 3, 5, 6], [3, 4, 5, 7], [3, 5, 6, 7]]

/-- The corners other than `c` that share one of the six tetrahedra with `c`:
the other end points of the tetrahedron edges at `c`. -/
def tetNeighbours (c : Fin 8) : List (Fin 8) :=
  (List.finRange 8).filter fun d =>
    decide (d ≠ c) && tetrahedra.any fun t => decide (c ∈ t) && decide (d ∈ t)

/-- The unit cell with the corner positions `marching_cubes` builds (y and z
swapped), value `1` at corner `0` and `-1` at the other seven corners. -/
def spikeCell : Fin 8 → Vector3
  | 0 => ⟨1, 0, 0, 0⟩
  | 1 => ⟨-1, 1, 0, 0⟩
  | 2 => ⟨-1, 1, 0, 1⟩
  | 3 => ⟨-1, 0, 0, 1⟩
  | 4 => ⟨-1, 0, 1, 0⟩
  | 5 => ⟨-1, 1, 1, 0⟩
  | 6 => ⟨-1, 1, 1, 1⟩
  | 7 => ⟨-1, 0, 1, 1⟩

/-- The corner point of a cell at the grid point `(x, y, z)`, sampled afresh: the
position `Vector3(x, z, y)` of `marching_cubes` (y and z swapped) carrying the
value `f(x, y, z)`. -/
def freshCorner (f : ℚ → ℚ → ℚ → ℚ) (x y z : ℚ) : Vector3 :=
  { Vector3.new x z y with info := f x y z }

/-- The triangle list of the cell between `(x, y, z)` and `(x_dx, y_dy, z_dz)` when
all eight corners are sampled afresh, in the corner order of `marching_cubes`. -/
def freshCell (f : ℚ → ℚ → ℚ → ℚ) (isovalue x x_dx y y_dy z z_dz : ℚ) : List Triangle :=
  private_.marchCellTetrahedra (freshCorner f x y z) (freshCorner f x_dx y z)
    (freshCorner f x_dx y_dy z) (freshCorner f x y_dy z) (freshCorner f x y z_dz)
    (freshCorner f x_dx y z_dz) (freshCorner f x_dx y_dy z_dz) (freshCorner f x y_dy z_dz)
    isovalue

/-- The array `triangles[i][j][k]` when every cell samples its eight corners afresh
(no reuse of the samples of the slab below). -/
def cellTrianglesFresh (lower : Fin 3 → ℚ) (dx dy dz : ℚ) (numx numy numz : Int)
    (f : ℚ → ℚ → ℚ → ℚ) (isovalue : ℚ) : List (List (List (List Triangle))) :=
  (List.range numx.toNat).map fun (i : Nat) =>
    (List.range numy.toNat).map fun (j : Nat) =>
      (List.range numz.toNat).map fun (k : Nat) =>
        freshCell f isovalue (lower 0 + dx * (i : ℚ)) (lower 0 + dx * ((i + 1 : Nat) : ℚ))
          (lower 1 + dy * (j : ℚ)) (lower 1 + dy * ((j + 1 : Nat) : ℚ))
          (lower 2 + dz * (k : ℚ)) (lower 2 + dz * ((k + 1 : Nat) : ℚ))

/-- The position of corner `p` of a cell along the caller's axis `a` (`0, 1, 2` for
x, y, z): `false` for the lower and `true` for the upper side, in the corner order
`(-,-,-) (+,-,-) (+,+,-) (-,+,-) (-,-,+) (+,-,+) (+,+,+) (-,+,+)`. -/
def cornerOffset : Fin 8 → Fin 3 → Bool
  | 0 => ![false, false, false]
  | 1 => ![true, false, false]
  | 2 => ![true, true, false]
  | 3 => ![false, true, false]
  | 4 => ![false, false, true]
  | 5 => ![true, false, true]
  | 6 => ![true, true, true]
  | 7 => ![false, true, true]

/-- Corner `p` of the cell between `(x, y, z)` and `(x_dx, y_dy, z_dz)`, placed by
`cornerOffset` and sampled at its own grid point. -/
def cellCorner (f : ℚ → ℚ → ℚ → ℚ) (x x_dx y y_dy z z_dz : ℚ) (p : Fin 8) : Vector3 :=
  freshCorner f (if cornerOffset p 0 then x_dx else x) (if cornerOffset p 1 then y_dy else y)
    (if cornerOffset p 2 then z_dz else z)

/-- The corner facing `p` across the cell along axis `a`: the translate of `p`
along that axis. -/
def acrossAxis : Fin 3 → Fin 8 → Fin 8
  | 0 => ![1, 0, 3, 2, 5, 4, 7, 6]
  | 1 => ![3, 2, 1, 0, 7, 6, 5, 4]
  | 2 => ![4, 5, 6, 7, 0, 1, 2, 3]

/-- The corners `p` and `q` are joined by an edge of one of the six tetrahedra. -/
def tetEdge (p q : Fin 8) : Bool :=
  decide (p ≠ q) && tetrahedra.any fun t => decide (p ∈ t) && decide (q ∈ t)

/-- The corners `p` and `q` are the two ends of a diagonal of the cube face on side
`s` of axis `a`: both lie on that face and they differ along both other axes. -/
def faceDiagonal (a : Fin 3) (s : Bool) (p q : Fin 8) : Bool :=
  (cornerOffset p a == s) && (cornerOffset q a == s) &&
    (List.finRange 3).all fun b => decide (b = a) || (cornerOffset p b != cornerOffset q b)

/-- The diagonals `(p, q)`, `p < q`, of the cube face on side `s` of axis `a` that
are edges of the six tetrahedra. -/
def faceDiagonalsUsed (a : Fin 3) (s : Bool) : List (Fin 8 × Fin 8) :=
  ((List.finRange 8).product (List.finRange 8)).filter fun e =>
    decide (e.1 < e.2) && tetEdge e.1 e.2 && faceDiagonal a s e.1 e.2

/-! ## The watertightness example: triangles by the edges that carry their vertices -/

/-- The triangle `buildTriangle A B C D` makes, each vertex named by the edge (the
pair of corner labels) on which it is computed. -/
def oneEdges {γ : Type} (A B C D : γ) : List ((γ × γ) × (γ × γ) × (γ × γ)) :=
  [((A, B), (A, D), (A, C))]

/-- The two triangles `buildTriangles A B C D` makes, each vertex named by the edge
on which it is computed. -/
def twoEdges {γ : Type} (A B C D : γ) : List ((γ × γ) × (γ × γ) × (γ × γ)) :=
  [((A, C), (B, C), (B, D)), ((B, D), (A, D), (A, C))]

/-- The chain of sixteen tests of `marchTetrahedra` on the sign bits `s0 .. s3`,
with the corners replaced by labels: the triangles of the tetrahedron, each
vertex named by the tetrahedron edge that carries it. -/
def tetEdges {γ : Type} (s0 s1 s2 s3 : Bool) (V0 V1 V2 V3 : γ) :
    List ((γ × γ) × (γ × γ) × (γ × γ)) :=
  match s0, s1, s2, s3 with
  | false, false, false, false => []
  | true, false, false, false => oneEdges V0 V1 V2 V3
  | false, true, false, false => oneEdges V1 V2 V0 V3
  | true, true, false, false => twoEdges V0 V1 V2 V3
  | false, false, true, false => oneEdges V2 V0 V1 V3
  | true, false, true, false => twoEdges V0 V2 V1 V3
  | false, true, true, false => twoEdges V1 V2 V0 V3
  | true, true, true, false => oneEdges V3 V0 V2 V1
  | false, false, false, true => oneEdges V3 V2 V1 V0
  | true, false, false, true => twoEdges V0 V3 V1 V2
  | false, true, false, true => twoEdges V1 V3 V0 V2
  | true, true, false, true => oneEdges V2 V0 V1 V3
  | false, false, true, true => twoEdges V2 V3 V0 V1
  | true, false, true, true => oneEdges V1 V2 V0 V3
  | false, true, true, true => oneEdges V0 V1 V2 V3
  | true, true, true, true => []

/-- The three vertices of the triangle `T` are, in some order, the points computed
on the three edges named by `s`, where the label `a` stands for the corner `P a`. -/
def TriOn {γ : Type} (P : γ → Vector3) (isovalue : ℚ) (T : Triangle)
    (s : (γ × γ) × (γ × γ) × (γ × γ)) : Prop :=
  List.Perm [T.v0, T.v1, T.v2]
    [crossing (P s.1.1) (P s.1.2) isovalue, crossing (P s.2.1.1) (P s.2.1.2) isovalue,
      crossing (P s.2.2.1) (P s.2.2.2) isovalue]

/-- The six calls of `marchTetrahedra` made by `marchCellTetrahedra`, with the
corners replaced by labels and `sg` giving the sign bit of a label. -/
def cellEdges {γ : Type} (sg : γ → Bool) (c0 c1 c2 c3 c4 c5 c6 c7 : γ) :
    List ((γ × γ) × (γ × γ) × (γ × γ)) :=
  tetEdges (sg c0) (sg c1) (sg c3) (sg c5) c0 c1 c3 c5 ++
  (tetEdges (sg c1) (sg c2) (sg c3) (sg c5) c1 c2 c3 c5 ++
  (tetEdges (sg c0) (sg c3) (sg c4) (sg c5) c0 c3 c4 c5 ++
  (tetEdges (sg c2) (sg c3) (sg c5) (sg c6) c2 c3 c5 c6 ++
  (tetEdges (sg c3) (sg c4) (sg c5) (sg c7) c3 c4 c5 c7 ++
  tetEdges (sg c3) (sg c5) (sg c6) (sg c7) c3 c5 c6 c7))))

/-- The field of the watertightness example: `f(x, y, z) = x^2 + y^2 + z^2 - 1`. -/
def sphereField : ℚ → ℚ → ℚ → ℚ := fun x y z => x ^ 2 + y ^ 2 + z ^ 2 - 1

/-- The mesh of the watertightness example: `marching_cubes` on the box from
`(-2, -2, -2)` to `(2, 2, 2)` with `20` samples on each axis, the field
`sphereField` and the isovalue `0`, started on empty output sequences. -/
def sphereMesh : List ℚ × List Nat :=
  marching_cubes (fun _ => -2) (fun _ => 2) 20 20 20 sphereField 0 [] []

/-- The sample point number `g = i + 20 * j + 400 * k` of the sphere example: the
grid point with the indices `(i, j, k)`, as a cell corner carrying its value. -/
def spherePoint (g : Nat) : Vector3 :=
  freshCorner sphereField (-2 + 4 / 19 * ((g % 20 : Nat) : ℚ))
    (-2 + 4 / 19 * ((g / 20 % 20 : Nat) : ℚ)) (-2 + 4 / 19 * ((g / 400 : Nat) : ℚ))

/-- The triangles of all cells of a grid with `20 x 20` samples per slab, in the
order of the loops of `marching_cubes`, each vertex named by the pair of sample
numbers of the edge that carries it; `sg` gives the sign bit of a sample. -/
def gridEdges (sg : Nat → Bool) (nx ny nz : Nat) : List ((Nat × Nat) × (Nat × Nat) × (Nat × Nat)) :=
  (List.range nx).flatMap fun i => (List.range ny).flatMap fun j => (List.range nz).flatMap fun k =>
    cellEdges sg (i + 20 * j + 400 * k) (i + 20 * j + 400 * k + 1) (i + 20 * j + 400 * k + 21)
      (i + 20 * j + 400 * k + 20) (i + 20 * j + 400 * k + 400) (i + 20 * j + 400 * k + 401)
      (i + 20 * j + 400 * k + 421) (i + 20 * j + 400 * k + 420)

/-- The triangles of all cells in the order in which the second pass of
`marching_cubes` visits them, every cell sampling its corners afresh. -/
def freshSoup (lower : Fin 3 → ℚ) (dx dy dz : ℚ) (nx ny nz : Nat) (f : ℚ → ℚ → ℚ → ℚ)
    (isovalue : ℚ) : List Triangle :=
  (List.range nx).flatMap fun i => (List.range ny).flatMap fun j => (List.range nz).flatMap fun k =>
    freshCell f isovalue (lower 0 + dx * (i : ℚ)) (lower 0 + dx * ((i + 1 : Nat) : ℚ))
      (lower 1 + dy * (j : ℚ)) (lower 1 + dy * ((j + 1 : Nat) : ℚ))
      (lower 2 + dz * (k : ℚ)) (lower 2 + dz * ((k + 1 : Nat) : ℚ))

/-- The key under which `add_vertex` files the vertex `v` in `vertex_map`:
`Vector3(v.x, v.y, v.z)`. -/
def vertexKey (v : Vector3) : Vector3 := Vector3.new v.x v.y v.z

/-- The keys of `vertex_map` in the order of their insertion. -/
def seenKeys (s : WeldState) : List Vector3 := (s.vertex_map.map Prod.fst).reverse

/-- On the keys in `U` the lookup of `vertex_map` is exact: a stored key `u` with
the hash code of the searched key `v` that `operator==` accepts is `v` itself. -/
def Faithful (U : List Vector3) : Prop :=
  ∀ u ∈ U, ∀ v ∈ U, Vector3Hash.operatorCall u = Vector3Hash.operatorCall v →
    v.operatorEq u = true → u = v

/-- The index stored with each key is the rank of the key in the insertion order,
and `current_id` is the last rank given. -/
structure WeldOrder (s : WeldState) : Prop where
  ids : ∀ e ∈ s.vertex_map, e.2 = (((seenKeys s).indexOf e.1 : Nat) : Int)
  current : s.current_id = ((seenKeys s).length : Int) - 1

/-- One `polygons.push_back(add_vertex(v))`. -/
def weldVertex (st : WeldState × List Nat) (v : Vector3) : WeldState × List Nat :=
  ((add_vertex st.1 v).2, st.2 ++ [(add_vertex st.1 v).1.toNat])

/-- The triangles of an index sequence `polygons`: its consecutive triples. -/
def meshTriangles : List Nat → List (Nat × Nat × Nat)
  | a :: b :: c :: rest => (a, b, c) :: meshTriangles rest
  | _ => []

/-- The triangle `t` has the undirected edge `{u, v}` as one of its three sides. -/
def hasSide (t : Nat × Nat × Nat) (u v : Nat) : Bool :=
  [(t.1, t.2.1), (t.2.1, t.2.2), (t.2.2, t.1)].any fun s =>
    (s.1 == u && s.2 == v) || (s.1 == v && s.2 == u)

/-- The number of triangles of the index sequence `polygons` that have the
undirected edge `{u, v}` as a side. -/
def edgeUses (polygons : List Nat) (u v : Nat) : Nat :=
  (meshTriangles polygons).countP fun t => hasSide t u v

/-- The number of the undirected pair `{u, v}` of numbers below `2 ^ 26`. -/
def ecode (u v : Nat) : Nat :=
  bif Nat.blt u v then Nat.add (Nat.mul u 67108864) v else Nat.add (Nat.mul v 67108864) u

/-- The numbers of the three sides of a triangle of numbers. -/
def sideCodes (c : Nat × Nat × Nat) : List Nat :=
  [ecode c.1 c.2.1, ecode c.2.1 c.2.2, ecode c.2.2 c.1]

/-- The three entries of a triple. -/
def entries (c : Nat × Nat × Nat) : List Nat := [c.1, c.2.1, c.2.2]

/-- The triple `t` is, in some order, the image of the triple `c` under `J`. -/
def ImageOf (J : Nat → Nat) (t c : Nat × Nat × Nat) : Prop :=
  List.Perm (entries t) ((entries c).map J)

/-- Merge of two lists of numbers, smaller heads first; `fuel` bounds the number of
steps, and when it runs out the rest is appended unmerged. -/
def mergeFuel : Nat → List Nat → List Nat → List Nat
  | 0, xs, ys => xs ++ ys
  | _ + 1, [], ys => ys
  | _ + 1, x :: xs, [] => x :: xs
  | f + 1, x :: xs, y :: ys =>
    bif Nat.ble x y then x :: mergeFuel f xs (y :: ys) else y :: mergeFuel f (x :: xs) ys

/-- One round of a bottom-up merge sort: neighbouring runs are merged in pairs. -/
def mergePairs (m : Nat) : List (List Nat) → List (List Nat)
  | a :: b :: rest => mergeFuel m a b :: mergePairs m rest
  | l => l

/-- At most `f` rounds of `mergePairs`, until one run is left. -/
def mergeAll (m : Nat) : Nat → List (List Nat) → List Nat
  | 0, ls => ls.flatten
  | _ + 1, [] => []
  | _ + 1, [a] => a
  | f + 1, a :: b :: rest => mergeAll m f (mergePairs m (a :: b :: rest))

/-- Bottom-up merge sort with `f` rounds and `m` steps per merge; with too little
fuel the result is still a rearrangement of the input. -/
def msort (m f : Nat) (l : List Nat) : List Nat := mergeAll m f (l.map fun a => [a])

/-- The list is `a, a, b, b, c, c, ...` with `a < b < c < ...`: increasing, every
number in it exactly twice. -/
def twiceEach : List Nat → Bool
  | [] => true
  | [_] => false
  | a :: b :: rest =>
    Nat.beq a b && (match rest with | [] => true | c :: _ => Nat.blt b c) && twiceEach rest

/-- The list is non-decreasing. -/
def sortedAsc : List Nat → Bool
  | a :: b :: rest => Nat.ble a b && sortedAsc (b :: rest)
  | _ => true

/-- The entry `e` passes the test `ok` against the entries that follow it as long
as they have the same quotient by `2 ^ 26` (in a sorted list: against all entries
after it with that quotient). -/
def noClash (ok : Nat → Nat → Bool) (e : Nat) : List Nat → Bool
  | [] => true
  | x :: rest => bif Nat.beq (x / 67108864) (e / 67108864) then ok e x && noClash ok e rest else true

/-- Every entry passes `noClash` against the entries after it. -/
def groupsOk (ok : Nat → Nat → Bool) : List Nat → Bool
  | [] => true
  | e :: rest => noClash ok e rest && groupsOk ok rest

/-- The sign bit of the sample number `g` of the sphere example, in integers:
with `(a, b, c)` the indices of the sample, `361 * f = (4a - 38)^2 + (4b - 38)^2 +
(4c - 38)^2 - 361` is positive. -/
def sphereAbove (g : Nat) : Bool :=
  Nat.blt (361 + 304 * (g % 20 + g / 20 % 20 + g / 400))
    (16 * (g % 20 * (g % 20) + g / 20 % 20 * (g / 20 % 20) + g / 400 * (g / 400)) + 4332)

/-- Bit `g` of the number `m`. -/
def bitAt (m g : Nat) : Bool := Nat.beq (Nat.land (Nat.shiftRight m g) 1) 1

/-- The sign bits of the samples `0 .. i - 1` of row `(j, k)`, as the bits of a number. -/
def rowMask (j k : Nat) : Nat → Nat
  | 0 => 0
  | i + 1 =>
    Nat.lor (rowMask j k i) (bif sphereAbove (i + 20 * j + 400 * k) then Nat.shiftLeft 1 i else 0)

/-- The sign bits of the rows `0 .. j - 1` of slab `k`, as the bits of a number. -/
def slabMask (k : Nat) : Nat → Nat
  | 0 => 0
  | j + 1 => Nat.lor (slabMask k j) (Nat.shiftLeft (rowMask j k 20) (20 * j))

/-- The sign bits of the slabs `0 .. k - 1`, as the bits of a number. -/
def gridMask : Nat → Nat
  | 0 => 0
  | k + 1 => Nat.lor (gridMask k) (Nat.shiftLeft (slabMask k 20) (400 * k))

/-- The sign bits of all `8000` samples: bit `g` is the sign bit of sample `g`. -/
def signMask : Nat := gridMask 20

/-- Bit `b` is set when the sign bit of sample `b` differs from the sign bit of one
of the seven other corners of the cell whose first corner is `b`. -/
def mixedMask : Nat :=
  (signMask ^^^ (signMask >>> 1)) ||| (signMask ^^^ (signMask >>> 20)) |||
    (signMask ^^^ (signMask >>> 21)) ||| (signMask ^^^ (signMask >>> 400)) |||
    (signMask ^^^ (signMask >>> 401)) ||| (signMask ^^^ (signMask >>> 420)) |||
    (signMask ^^^ (signMask >>> 421))

/-- The triangles of the cell with first corner `b`, read off the sign bits in
`signMask`; a cell whose corners all have the same sign bit is skipped. -/
def cellEdgesFast (b : Nat) : List ((Nat × Nat) × (Nat × Nat) × (Nat × Nat)) :=
  bif bitAt mixedMask b then
    cellEdges (bitAt signMask) b (b + 1) (b + 21) (b + 20) (b + 400) (b + 401) (b + 421) (b + 420)
  else []

/-- The triangles of all cells of the sphere example by the edges that carry
their vertices, read off `signMask`. -/
def sphereEdges : List ((Nat × Nat) × (Nat × Nat) × (Nat × Nat)) :=
  (List.range 19).flatMap fun i => (List.range 19).flatMap fun j => (List.range 19).flatMap fun k =>
    cellEdgesFast (i + 20 * j + 400 * k)

/-- The number of the undirected edge between the samples `e.1` and `e.2`. -/
def vcode (e : Nat × Nat) : Nat :=
  bif Nat.blt e.1 e.2 then Nat.add (Nat.mul e.1 8000) e.2 else Nat.add (Nat.mul e.2 8000) e.1

/-- A triangle by the numbers of the three edges that carry its vertices. -/
def triCodes (s : (Nat × Nat) × (Nat × Nat) × (Nat × Nat)) : Nat × Nat × Nat :=
  (vcode s.1, vcode s.2.1, vcode s.2.2)

/-- The triangles of the sphere example by edge numbers. -/
def sphereTris : List (Nat × Nat × Nat) := sphereEdges.map triCodes

/-- The key of the vertex on the edge number `c`. -/
def vpos (c : Nat) : Vector3 :=
  vertexKey (crossing (spherePoint (c / 8000)) (spherePoint (c % 8000)) 0)

/-- The difference `d` of the numbers of two samples joined by an edge of a
tetrahedron: along an axis (`1`, `20`, `400`), along a face diagonal (`19`, `380`,
`401`) or along the diagonal `3 5` of the cell (`381`). -/
def isStep (d : Nat) : Bool :=
  Nat.beq d 1 || Nat.beq d 19 || Nat.beq d 20 || Nat.beq d 380 || Nat.beq d 381 ||
    Nat.beq d 400 || Nat.beq d 401

/-- The two ends of the edge are samples with different sign bits, joined by an
edge of a tetrahedron. -/
def edgeOk (e : Nat × Nat) : Bool :=
  Nat.blt e.1 8000 && Nat.blt e.2 8000 && (bitAt signMask e.1 != bitAt signMask e.2) &&
    isStep (bif Nat.blt e.1 e.2 then e.2 - e.1 else e.1 - e.2)

/-- The three numbers are different. -/
def triOk (t : Nat × Nat × Nat) : Bool :=
  !(Nat.beq t.1 t.2.1) && !(Nat.beq t.2.1 t.2.2) && !(Nat.beq t.2.2 t.1)

/-- Bit `g` is set when the sign bit of sample `g` differs from the sign bit of one
of the samples `g + d`, `d` a step. -/
def crossMask : Nat :=
  (signMask ^^^ (signMask >>> 1)) ||| (signMask ^^^ (signMask >>> 19)) |||
    (signMask ^^^ (signMask >>> 20)) ||| (signMask ^^^ (signMask >>> 380)) |||
    (signMask ^^^ (signMask >>> 381)) ||| (signMask ^^^ (signMask >>> 400)) |||
    (signMask ^^^ (signMask >>> 401))

/-- The number of the edge from sample `g` to sample `g + d`, when both are samples
and their sign bits differ. -/
def edgeAt (g d : Nat) : List Nat :=
  bif Nat.blt (g + d) 8000 && (bitAt signMask g != bitAt signMask (g + d)) then
    [Nat.add (Nat.mul g 8000) (g + d)]
  else []

/-- The numbers of all edges between samples with different sign bits. -/
def edgeList : List Nat :=
  (List.range 8000).flatMap fun g =>
    bif bitAt crossMask g then
      edgeAt g 1 ++ (edgeAt g 19 ++ (edgeAt g 20 ++ (edgeAt g 380 ++ (edgeAt g 381 ++
        (edgeAt g 400 ++ edgeAt g 401)))))
    else []

/-- The coordinate `-2 + 4 / 19 * n` of the sample index `n`, times `19`. -/
def sphereAlpha (n : Nat) : Int := 4 * (n : Int) - 38

/-- The value of the sphere field at the sample number `g`, times `361`. -/
def sphereNum (g : Nat) : Int :=
  sphereAlpha (g % 20) * sphereAlpha (g % 20) +
    sphereAlpha (g / 20 % 20) * sphereAlpha (g / 20 % 20) +
    sphereAlpha (g / 400) * sphereAlpha (g / 400) - 361

/-- The common denominator of the coordinates of the vertex key on the edge number
`c = 8000 * a + b`. -/
def keyDen (c : Nat) : Int := 19 * (sphereNum (c / 8000) - sphereNum (c % 8000))

/-- The numerator of the `x` coordinate of the vertex key on the edge number `c`. -/
def keyNumX (c : Nat) : Int :=
  sphereNum (c / 8000) * sphereAlpha (c % 8000 % 20) -
    sphereNum (c % 8000) * sphereAlpha (c / 8000 % 20)

/-- The numerator of the `y` coordinate of the vertex key on the edge number `c`
(the caller's `z`). -/
def keyNumY (c : Nat) : Int :=
  sphereNum (c / 8000) * sphereAlpha (c % 8000 / 400) -
    sphereNum (c % 8000) * sphereAlpha (c / 8000 / 400)

/-- The numerator of the `z` coordinate of the vertex key on the edge number `c`
(the caller's `y`). -/
def keyNumZ (c : Nat) : Int :=
  sphereNum (c / 8000) * sphereAlpha (c % 8000 / 20 % 20) -
    sphereNum (c % 8000) * sphereAlpha (c / 8000 / 20 % 20)

/-- The hash code `std::hash<int>()((int)(p / q / DBL_EPS))` of a coordinate `p / q`,
in integers. -/
def hashPart (p q : Int) : Nat := Int.toNat (Int.emod (Int.tdiv (10000 * p) q) 18446744073709551616)

/-- The hash code of the vertex key on the edge number `c`, in integers. -/
def keyHash (c : Nat) : Nat :=
  Nat.xor (Nat.xor (hashPart (keyNumX c) (keyDen c) * 73856093 % 18446744073709551616)
    (hashPart (keyNumY c) (keyDen c) * 19349663 % 18446744073709551616))
    (hashPart (keyNumZ c) (keyDen c) * 83492791 % 18446744073709551616)

/-- The comparison `DBL_APPROX(p / q, r / s)` in integers. -/
def closeInt (p q r s : Int) : Bool :=
  Nat.blt (10000 * Int.natAbs (p * s - r * q)) (Int.natAbs (q * s))

/-- The comparison `operator==` of the vertex keys on the edges number `c` and `d`,
in integers. -/
def keyClose (c d : Nat) : Bool :=
  closeInt (keyNumX c) (keyDen c) (keyNumX d) (keyDen d) &&
    closeInt (keyNumY c) (keyDen c) (keyNumY d) (keyDen d) &&
    closeInt (keyNumZ c) (keyDen c) (keyNumZ d) (keyDen d)

/-- The edge number is below `2 ^ 26` and the field takes different values at the
two ends of the edge. -/
def keyOk (c : Nat) : Bool := Nat.blt c 67108864 && !(decide (keyDen c = 0))

/-- The hash codes of the vertex keys, each followed by the edge number in the low
`26` bits, sorted. -/
def sphereKeys : List Nat := msort 2000 12 (edgeList.map fun c => keyHash c * 67108864 + c)

/-- The keys of the edges in the low bits of `e` and `x` are not equal for
`operator==`. -/
def keysApart (e x : Nat) : Bool := !(keyClose (x % 67108864) (e % 67108864))

/-- Checked by evaluation: the triangle list is not empty, every vertex lies on an
edge of a tetrahedron between samples with different sign bits, and the three
vertices of a triangle lie on three different edges. -/
def sphereCheckEdges : Bool :=
  !sphereEdges.isEmpty &&
  sphereEdges.all (fun s => edgeOk s.1 && edgeOk s.2.1 && edgeOk s.2.2) &&
  sphereTris.all triOk

/-- Checked by evaluation: in the sorted list of the sides of all triangles every
side occurs exactly twice. -/
def sphereCheckSides : Bool := twiceEach (msort 8000 14 (sphereTris.flatMap sideCodes))

/-- Checked by evaluation: two different edges never carry vertices with the same
hash code whose keys `operator==` accepts as equal. -/
def sphereCheckKeys : Bool :=
  edgeList.all keyOk && sortedAsc sphereKeys && groupsOk keysApart sphereKeys

/-- The point lies in the bounding box.  The internal order of the coordinates is
that of `marching_cubes`: `x` is the caller's `x`, `z` the caller's `y` and `y` the
caller's `z`. -/
def InBox (lower upper : Fin 3 → ℚ) (v : Vector3) : Prop :=
  (lower 0 ≤ v.x ∧ v.x ≤ upper 0) ∧ (lower 1 ≤ v.z ∧ v.z ≤ upper 1) ∧
    (lower 2 ≤ v.y ∧ v.y ≤ upper 2)

/-- The flat coordinate sequence consists of triples `x, y, z` that lie in the
bounding box, in the caller's axis order. -/
def BoxedVertices (lower upper : Fin 3 → ℚ) (vertices : List ℚ) : Prop :=
  ∃ pts : List (ℚ × ℚ × ℚ), vertices = pts.flatMap (fun p => [p.1, p.2.1, p.2.2]) ∧
    ∀ p ∈ pts, (lower 0 ≤ p.1 ∧ p.1 ≤ upper 0) ∧ (lower 1 ≤ p.2.1 ∧ p.2.1 ≤ upper 1) ∧
      (lower 2 ≤ p.2.2 ∧ p.2.2 ≤ upper 2)

/-- The field `x + y + z - 1/2`. -/
def planeField : ℚ → ℚ → ℚ → ℚ := fun x y z => x + y + z - 1 / 2

/-! ## Double arithmetic: rounding to the nearest double -/

/-- The number of halvings that bring `n` below `2`.  The first argument bounds
the recursion. -/
def halvings : Nat → Nat → Nat
  | 0, _ => 0
  | fuel + 1, n => if n < 2 then 0 else halvings fuel (n / 2) + 1

/-- One step of the binary search for the leading binary digit: `s.2` is the
number shifted right by `s.1` places so far; `k` more places are taken when
something is left after them. -/
def leadingBitStep (s : Nat × Nat) (k : Nat) : Nat × Nat :=
  if s.2 / 2 ^ k = 0 then s else (s.1 + k, s.2 / 2 ^ k)

/-- The position of the leading binary digit of a positive `n`: the `e` with
`2 ^ e ≤ n < 2 ^ (e + 1)`.  Below `2 ^ 2048` it is found by binary search, above
by halving. -/
def leadingBit (n : Nat) : Nat :=
  if n < 2 ^ 2048 then
    ([1024, 512, 256, 128, 64, 32, 16, 8, 4, 2, 1].foldl leadingBitStep (0, n)).1
  else halvings n n

/-- The exponent `e` with `2 ^ e ≤ p / q < 2 ^ (e + 1)`, for positive `p` and `q`. -/
def binaryExponent (p q : Nat) : Int :=
  let d : Int := (leadingBit p : Int) - (leadingBit q : Int)
  if (if 0 ≤ d then decide (q * 2 ^ d.toNat ≤ p) else decide (q ≤ p * 2 ^ (-d).toNat)) then d
  else d - 1

/-- The integer nearest to the non-negative rational `p / q`, the even one of the
two when `p / q` lies half way between them. -/
def roundHalfEven (p q : Nat) : Nat :=
  let n := p / q
  let twice := 2 * (p % q)
  if twice < q then n else if q < twice then n + 1 else if n % 2 = 0 then n else n + 1

/-- The exponent of the binade of a non-zero rational `q` in the `double` format:
`e` with `2 ^ e ≤ |q| < 2 ^ (e + 1)`, but at least `-1022` (below `2 ^ (-1022)` the
numbers of the format are the subnormal ones, equally spaced). -/
def doubleExponent (q : ℚ) : Int := max (binaryExponent q.num.natAbs q.den) (-1022)

/-- Rounding of the exact result of an arithmetic operation to the nearest
`double` (IEEE 754 binary64: 53 significant bits, subnormal numbers below
`2 ^ (-1022)`), a tie going to the even significand.  The spacing of the doubles
around `q` is `2 ^ (doubleExponent q - 52)`.  Results are taken to be finite:
overflow to infinity and NaN are outside the model. -/
def roundDouble (q : ℚ) : ℚ :=
  if q = 0 then 0
  else
    let ulp : ℚ := (2 : ℚ) ^ (doubleExponent q - 52)
    let m : ℚ := |q| / ulp
    let n : Nat := roundHalfEven m.num.natAbs m.den
    if q < 0 then -((n : ℚ) * ulp) else (n : ℚ) * ulp

/-- The conversion `(int)d` of a double to the 32-bit `int`: truncation toward
zero; out of range the conversion instruction of x86-64 gives `INT_MIN`. -/
def castInt32 (d : ℚ) : Int :=
  let n := Int.tdiv d.num d.den
  if -2147483648 ≤ n ∧ n ≤ 2147483647 then n else -2147483648

/-! ## The program with every arithmetic result rounded -/

namespace Rounded

/-- The literal `1e-4` of `#define DBL_EPS 1e-4`. -/
def DBL_EPS (r : ℚ → ℚ) : ℚ := r (1 / 10000)

/-- The comparison `#define DBL_APPROX(a, b) (std::abs((a) - (b)) < DBL_EPS)`: the
difference is rounded, `std::abs` and the comparison are exact. -/
def DBL_APPROX (r : ℚ → ℚ) (a b : ℚ) : Bool := decide (|r (a - b)| < DBL_EPS r)

namespace Vector3

/-- Method `multiply`: each product is rounded. -/
def multiply (r : ℚ → ℚ) (A : Vector3) (s : ℚ) : Vector3 :=
  Vector3.new (r (A.x * s)) (r (A.y * s)) (r (A.z * s))

/-- Method `add`: each sum is rounded. -/
def add (r : ℚ → ℚ) (A B : Vector3) : Vector3 :=
  Vector3.new (r (A.x + B.x)) (r (A.y + B.y)) (r (A.z + B.z))

/-- Method `sub`: each difference is rounded. -/
def sub (r : ℚ → ℚ) (A B : Vector3) : Vector3 :=
  Vector3.new (r (A.x - B.x)) (r (A.y - B.y)) (r (A.z - B.z))

/-- Method `dot`: `(x * x) + (y * y) + (z * z)`, associated to the left, every product
and sum rounded. -/
def dot (r : ℚ → ℚ) (A B : Vector3) : ℚ :=
  r (r (r (A.x * B.x) + r (A.y * B.y)) + r (A.z * B.z))

/-- Method `cross`: every product and difference rounded. -/
def cross (r : ℚ → ℚ) (A B : Vector3) : Vector3 :=
  let i := r (r (A.y * B.z) - r (A.z * B.y))
  let j := r (r (A.z * B.x) - r (A.x * B.z))
  let k := r (r (A.x * B.y) - r (A.y * B.x))
  Vector3.new i j k

/-- Method `interpolate`: `this->multiply(1.0 - t)->add(B->multiply(t))`. -/
def interpolate (r : ℚ → ℚ) (A : Vector3) (t : ℚ) (B : Vector3) : Vector3 :=
  add r (multiply r A (r (1 - t))) (multiply r B t)

/-- The comparison `operator==`: within the tolerance on each axis. -/
def operatorEq (r : ℚ → ℚ) (a b : Vector3) : Bool :=
  DBL_APPROX r a.x b.x && DBL_APPROX r a.y b.y && DBL_APPROX r a.z b.z

end Vector3

namespace Vector3Hash

/-- The call operator of `Vector3Hash`: each coordinate is divided by the double
`1e-4`, the rounded quotient is converted to `int`, and the three hashes are
combined in `size_t` arithmetic (multiplication binds tighter than `^`). -/
def operatorCall (r : ℚ → ℚ) (v : Vector3) : Nat :=
  let x_int := castInt32 (r (v.x / DBL_EPS r))
  let y_int := castInt32 (r (v.y / DBL_EPS r))
  let z_int := castInt32 (r (v.z / DBL_EPS r))
  ((stdHashInt x_int * 73856093) % 2 ^ 64) ^^^
    ((stdHashInt y_int * 19349663) % 2 ^ 64) ^^^
    ((stdHashInt z_int * 83492791) % 2 ^ 64)

end Vector3Hash

namespace Triangle

/-- Method `normal`: `v1->sub(v0)->cross(v2->sub(v0))`. -/
def normal (r : ℚ → ℚ) (T : Triangle) : Vector3 :=
  Vector3.cross r (Vector3.sub r T.v1 T.v0) (Vector3.sub r T.v2 T.v0)

/-- Method `isCCW`: `(v0->sub(V))->dot(normal()) > 0`. -/
def isCCW (r : ℚ → ℚ) (T : Triangle) (V : Vector3) : Bool :=
  decide (Vector3.dot r (Vector3.sub r T.v0 V) (normal r T) > 0)

end Triangle

/-- Function `inverseLinearInterpolation`: `(f - f1) / (f2 - f1)`, the two differences
and the quotient rounded. -/
def inverseLinearInterpolation (r : ℚ → ℚ) (f f1 f2 : ℚ) : ℚ := r (r (f - f1) / r (f2 - f1))

/-- Function `buildTriangle`, with the rounded operations. -/
def buildTriangle (r : ℚ → ℚ) (V0 V1 V2 V3 : Vector3) (isovalue : ℚ) : Option Triangle :=
  let t01 := inverseLinearInterpolation r isovalue V0.info V1.info
  let t02 := inverseLinearInterpolation r isovalue V0.info V2.info
  let t03 := inverseLinearInterpolation r isovalue V0.info V3.info
  let T0 := Vector3.interpolate r V0 t01 V1
  let T1 := Vector3.interpolate r V0 t03 V3
  let T2 := Vector3.interpolate r V0 t02 V2
  let T : Triangle := { v0 := T0, v1 := T1, v2 := T2 }
  let T : Triangle :=
    if Bool.xor (decide (V0.info > isovalue)) (Triangle.isCCW r T V0) then
      { T with v1 := T2, v2 := T1 }
    else T
  if T.isPoint then none else some T

/-- Function `buildTriangles`, with the rounded operations. -/
def buildTriangles (r : ℚ → ℚ) (V0 V1 V2 V3 : Vector3) (isovalue : ℚ) : List Triangle :=
  let t02 := inverseLinearInterpolation r isovalue V0.info V2.info
  let t03 := inverseLinearInterpolation r isovalue V0.info V3.info
  let t12 := inverseLinearInterpolation r isovalue V1.info V2.info
  let t13 := inverseLinearInterpolation r isovalue V1.info V3.info
  let T0 := Vector3.interpolate r V0 t02 V2
  let T1 := Vector3.interpolate r V1 t12 V2
  let T2 := Vector3.interpolate r V1 t13 V3
  let T3 := Vector3.interpolate r V0 t03 V3
  let triangle1 : Triangle := { v0 := T0, v1 := T1, v2 := T2 }
  let triangle1 : Triangle :=
    if Bool.xor (decide (V0.info > isovalue)) (Triangle.isCCW r triangle1 V0) then
      { triangle1 with v1 := T2, v2 := T1 }
    else triangle1
  let triangle2 : Triangle := { v0 := T2, v1 := T3, v2 := T0 }
  let triangle2 : Triangle :=
    if Bool.xor (decide (V0.info > isovalue)) (Triangle.isCCW r triangle2 V0) then
      { triangle2 with v1 := T0, v2 := T3 }
    else triangle2
  let triangles : List Triangle := []
  let triangles := if !triangle1.isPoint then triangles ++ [triangle1] else triangles
  let triangles := if !triangle2.isPoint then triangles ++ [triangle2] else triangles
  triangles

/-- Function `marchTetrahedra`: the sixteen sign patterns, in the order of the source. -/
def marchTetrahedra (r : ℚ → ℚ) (V0 V1 V2 V3 : Vector3) (isovalue : ℚ) : List Triangle :=
  let triangles : List Triangle := []
  let s0 : Int := if V0.info > isovalue then 1 else 0
  let s1 : Int := if V1.info > isovalue then 1 else 0
  let s2 : Int := if V2.info > isovalue then 1 else 0
  let s3 : Int := if V3.info > isovalue then 1 else 0
  if s0 = 0 ∧ s1 = 0 ∧ s2 = 0 ∧ s3 = 0 then triangles
  else if s0 = 1 ∧ s1 = 0 ∧ s2 = 0 ∧ s3 = 0 then
    pushIfNotNull triangles (buildTriangle r V0 V1 V2 V3 isovalue)
  else if s0 = 0 ∧ s1 = 1 ∧ s2 = 0 ∧ s3 = 0 then
    pushIfNotNull triangles (buildTriangle r V1 V2 V0 V3 isovalue)
  else if s0 = 1 ∧ s1 = 1 ∧ s2 = 0 ∧ s3 = 0 then
    pushAll triangles (buildTriangles r V0 V1 V2 V3 isovalue)
  else if s0 = 0 ∧ s1 = 0 ∧ s2 = 1 ∧ s3 = 0 then
    pushIfNotNull triangles (buildTriangle r V2 V0 V1 V3 isovalue)
  else if s0 = 1 ∧ s1 = 0 ∧ s2 = 1 ∧ s3 = 0 then
    pushAll triangles (buildTriangles r V0 V2 V1 V3 isovalue)
  else if s0 = 0 ∧ s1 = 1 ∧ s2 = 1 ∧ s3 = 0 then
    pushAll triangles (buildTriangles r V1 V2 V0 V3 isovalue)
  else if s0 = 1 ∧ s1 = 1 ∧ s2 = 1 ∧ s3 = 0 then
    pushIfNotNull triangles (buildTriangle r V3 V0 V2 V1 isovalue)
  else if s0 = 0 ∧ s1 = 0 ∧ s2 = 0 ∧ s3 = 1 then
    pushIfNotNull triangles (buildTriangle r V3 V2 V1 V0 isovalue)
  else if s0 = 1 ∧ s1 = 0 ∧ s2 = 0 ∧ s3 = 1 then
    pushAll triangles (buildTriangles r V0 V3 V1 V2 isovalue)
  else if s0 = 0 ∧ s1 = 1 ∧ s2 = 0 ∧ s3 = 1 then
    pushAll triangles (buildTriangles r V1 V3 V0 V2 isovalue)
  else if s0 = 1 ∧ s1 = 1 ∧ s2 = 0 ∧ s3 = 1 then
    pushIfNotNull triangles (buildTriangle r V2 V0 V1 V3 isovalue)
  else if s0 = 0 ∧ s1 = 0 ∧ s2 = 1 ∧ s3 = 1 then
    pushAll triangles (buildTriangles r V2 V3 V0 V1 isovalue)
  else if s0 = 1 ∧ s1 = 0 ∧ s2 = 1 ∧ s3 = 1 then
    pushIfNotNull triangles (buildTriangle r V1 V2 V0 V3 isovalue)
  else if s0 = 0 ∧ s1 = 1 ∧ s2 = 1 ∧ s3 = 1 then
    pushIfNotNull triangles (buildTriangle r V0 V1 V2 V3 isovalue)
  else if s0 = 1 ∧ s1 = 1 ∧ s2 = 1 ∧ s3 = 1 then triangles
  else triangles

/-- Function `marchCellTetrahedra`: the six tetrahedra of a cell. -/
def marchCellTetrahedra (r : ℚ → ℚ) (v0 v1 v2 v3 v4 v5 v6 v7 : Vector3) (isovalue : ℚ) :
    List Triangle :=
  let triangles : List Triangle := []
  let tetrahedra1Triangles := marchTetrahedra r v0 v1 v3 v5 isovalue
  let tetrahedra2Triangles := marchTetrahedra r v1 v2 v3 v5 isovalue
  let tetrahedra3Triangles := marchTetrahedra r v0 v3 v4 v5 isovalue
  let tetrahedra4Triangles := marchTetrahedra r v2 v3 v5 v6 isovalue
  let tetrahedra5Triangles := marchTetrahedra r v3 v4 v5 v7 isovalue
  let tetrahedra6Triangles := marchTetrahedra r v3 v5 v6 v7 isovalue
  let triangles := pushAll triangles tetrahedra1Triangles
  let triangles := pushAll triangles tetrahedra2Triangles
  let triangles := pushAll triangles tetrahedra3Triangles
  let triangles := pushAll triangles tetrahedra4Triangles
  let triangles := pushAll triangles tetrahedra5Triangles
  let triangles := pushAll triangles tetrahedra6Triangles
  triangles

/-- The lookup `vertex_map.find(k)`: a node matches when its hash code is that of `k`
and `operator==` accepts its key. -/
def vertexMapFind (r : ℚ → ℚ) (vertex_map : List (Vector3 × Int)) (k : Vector3) : Option Int :=
  (vertex_map.find? fun e =>
    decide (Vector3Hash.operatorCall r e.1 = Vector3Hash.operatorCall r k) &&
      Vector3.operatorEq r k e.1).map Prod.snd

/-- Method `add`: each sum is rounded. -/
def add_vertex (r : ℚ → ℚ) (s : WeldState) (v : Vector3) : Int × WeldState :=
  match vertexMapFind r s.vertex_map (Vector3.new v.x v.y v.z) with
  | none =>
    let vertices := s.vertices ++ [v.x]
    let vertices := vertices ++ [v.z]
    let vertices := vertices ++ [v.y]
    let current_id := s.current_id + 1
    (current_id,
      { vertices := vertices
        vertex_map := (Vector3.new v.x v.y v.z, current_id) :: s.vertex_map
        current_id := current_id })
  | some id => (id, s)

/-- One iteration of the loop over the triangles of a cell in the second pass: the
indices of `v0`, `v2`, `v1` are pushed in this order. -/
def weldTriangle (r : ℚ → ℚ) (st : WeldState × List Nat) (tri : Triangle) :
    WeldState × List Nat :=
  let r0 := add_vertex r st.1 tri.v0
  let polygons := st.2 ++ [r0.1.toNat]
  let r2 := add_vertex r r0.2 tri.v2
  let polygons := polygons ++ [r2.1.toNat]
  let r1 := add_vertex r r2.2 tri.v1
  let polygons := polygons ++ [r1.1.toNat]
  (r1.2, polygons)

/-- The loop over `k` of the first pass for fixed `i` and `j`: `z = lower[2] + dz*k`
and `z_dz = lower[2] + dz*(k+1)` with the product and the sum rounded; the four
samples of the lower face are those of the upper face of the cell below. -/
def zLoop (r : ℚ → ℚ) (f : ℚ → ℚ → ℚ → ℚ) (isovalue lower2 dz x x_dx y y_dy : ℚ) :
    Nat → Nat → ℚ → ℚ → ℚ → ℚ → List (List Triangle)
  | 0, _, _, _, _, _ => []
  | n + 1, k, c4, c5, c6, c7 =>
    let z := r (lower2 + r (dz * (k : ℚ)))
    let z_dz := r (lower2 + r (dz * ((k + 1 : Nat) : ℚ)))
    let c0 := c4
    let c1 := c5
    let c2 := c6
    let c3 := c7
    let c4 := f x y z_dz
    let c5 := f x_dx y z_dz
    let c6 := f x_dx y_dy z_dz
    let c7 := f x y_dy z_dz
    let v0 := { Vector3.new x z y with info := c0 }
    let v1 := { Vector3.new x_dx z y with info := c1 }
    let v2 := { Vector3.new x_dx z y_dy with info := c2 }
    let v3 := { Vector3.new x z y_dy with info := c3 }
    let v4 := { Vector3.new x z_dz y with info := c4 }
    let v5 := { Vector3.new x_dx z_dz y with info := c5 }
    let v6 := { Vector3.new x_dx z_dz y_dy with info := c6 }
    let v7 := { Vector3.new x z_dz y_dy with info := c7 }
    marchCellTetrahedra r v0 v1 v2 v3 v4 v5 v6 v7 isovalue ::
      zLoop r f isovalue lower2 dz x x_dx y y_dy n (k + 1) c4 c5 c6 c7

/-- The first pass of `marching_cubes`: the triangle list of every cell. -/
def cellTriangles (r : ℚ → ℚ) (lower : Fin 3 → ℚ) (dx dy dz : ℚ) (numx numy numz : Int)
    (f : ℚ → ℚ → ℚ → ℚ) (isovalue : ℚ) : List (List (List (List Triangle))) :=
  (List.range numx.toNat).map fun (i : Nat) =>
    let x := r (lower 0 + r (dx * (i : ℚ)))
    let x_dx := r (lower 0 + r (dx * ((i + 1 : Nat) : ℚ)))
    (List.range numy.toNat).map fun (j : Nat) =>
      let y := r (lower 1 + r (dy * (j : ℚ)))
      let y_dy := r (lower 1 + r (dy * ((j + 1 : Nat) : ℚ)))
      zLoop r f isovalue (lower 2) dz x x_dx y y_dy numz.toNat 0
        (f x y (lower 2)) (f x_dx y (lower 2)) (f x_dx y_dy (lower 2)) (f x y_dy (lower 2))

/-- The second pass of `marching_cubes` over the cells in the order `i`, `j`, `k`. -/
def weldAll (r : ℚ → ℚ) (triangles : List (List (List (List Triangle))))
    (st : WeldState × List Nat) : WeldState × List Nat :=
  triangles.foldl (fun st ti =>
    ti.foldl (fun st tij =>
      tij.foldl (fun st tijk => tijk.foldl (weldTriangle r) st) st) st) st

/-- The template function `marching_cubes` in the arithmetic `r`: the steps are
`(upper - lower) / numx` after the decrement of `numx`, difference and quotient
rounded. -/
def marching_cubes (r : ℚ → ℚ) (lower upper : Fin 3 → ℚ) (numx numy numz : Int)
    (f : ℚ → ℚ → ℚ → ℚ)
    (isovalue : ℚ) (vertices : List ℚ) (polygons : List Nat) : List ℚ × List Nat :=
  if numx < 2 ∨ numy < 2 ∨ numz < 2 then (vertices, polygons)
  else if ¬ (lower 0 ≤ upper 0 ∧ lower 1 ≤ upper 1 ∧ lower 2 ≤ upper 2) then (vertices, polygons)
  else
    let numx := numx - 1
    let numy := numy - 1
    let numz := numz - 1
    let dx := r (r (upper 0 - lower 0) / (numx : ℚ))
    let dy := r (r (upper 1 - lower 1) / (numy : ℚ))
    let dz := r (r (upper 2 - lower 2) / (numz : ℚ))
    let triangles := cellTriangles r lower dx dy dz numx numy numz f isovalue
    let st := weldAll r triangles
      ({ vertices := vertices, vertex_map := [], current_id := -1 }, polygons)
    (st.1.vertices, st.2)

/-- The point computed on the edge `A B`: `A->interpolate(t, B)` with
`t = inverseLinearInterpolation(isovalue, A->info, B->info)`. -/
def crossing (r : ℚ → ℚ) (A B : Vector3) (isovalue : ℚ) : Vector3 :=
  Vector3.interpolate r A (inverseLinearInterpolation r isovalue A.info B.info) B

/-- The field `x * x + y * y + z * z - 1` of the sphere example, evaluated from left
to right with every product, sum and difference rounded. -/
def sphereField (r : ℚ → ℚ) : ℚ → ℚ → ℚ → ℚ :=
  fun x y z => r (r (r (r (x * x) + r (y * y)) + r (z * z)) - 1)

end Rounded

/-- The sphere example in double arithmetic: the field `x * x + y * y + z * z - 1` on
the box from `(-2, -2, -2)` to `(2, 2, 2)` with 20 samples per axis and isovalue `0`,
the output sequences empty at the call. -/
def sphereMeshDouble : List ℚ × List Nat :=
  Rounded.marching_cubes roundDouble (fun _ => -2) (fun _ => 2) 20 20 20
    (Rounded.sphereField roundDouble) 0 [] []

/-! ## The cells of the grid, each sampled afresh -/

namespace Rounded

/-- The sample coordinate `lower + d * i` of `marching_cubes`, as computed. -/
def gridPoint (r : ℚ → ℚ) (lower d : ℚ) (i : Nat) : ℚ := r (lower + r (d * (i : ℚ)))

/-- The triangle list of the cell between `(x, y, z)` and `(x_dx, y_dy, z_dz)` when
all eight corners are sampled afresh, in the corner order of `marching_cubes`. -/
def freshCell (r : ℚ → ℚ) (f : ℚ → ℚ → ℚ → ℚ) (isovalue x x_dx y y_dy z z_dz : ℚ) :
    List Triangle :=
  marchCellTetrahedra r (freshCorner f x y z) (freshCorner f x_dx y z)
    (freshCorner f x_dx y_dy z) (freshCorner f x y_dy z) (freshCorner f x y z_dz)
    (freshCorner f x_dx y z_dz) (freshCorner f x_dx y_dy z_dz) (freshCorner f x y_dy z_dz)
    isovalue

/-- The triangles of all cells of an `nx` by `ny` by `nz` grid of cells, in the
order in which the second pass of `marching_cubes` visits them, every cell
sampling its corners afresh. -/
def freshSoup (r : ℚ → ℚ) (lower : Fin 3 → ℚ) (dx dy dz : ℚ) (nx ny nz : Nat)
    (f : ℚ → ℚ → ℚ → ℚ) (isovalue : ℚ) : List Triangle :=
  (List.range nx).flatMap fun i => (List.range ny).flatMap fun j => (List.range nz).flatMap fun k =>
    freshCell r f isovalue (gridPoint r (lower 0) dx i) (gridPoint r (lower 0) dx (i + 1))
      (gridPoint r (lower 1) dy j) (gridPoint r (lower 1) dy (j + 1))
      (gridPoint r (lower 2) dz k) (gridPoint r (lower 2) dz (k + 1))

end Rounded

/-! ## The relation between a triangle and the indices pushed for it -/

/-- The key under which the vertex with index `i` of the flat coordinate sequence
was filed in `vertex_map`: the sequence holds `x`, `z`, `y` of the key. -/
def storedKey (vertices : List ℚ) (i : Nat) : Vector3 :=
  Vector3.new (vertices.getD (3 * i) 0) (vertices.getD (3 * i + 2) 0)
    (vertices.getD (3 * i + 1) 0)

namespace Rounded

/-- The lookup of `add_vertex` for the vertex `v` can end at the node with key `k`:
either `k` is the key of `v`, inserted by the call, or the node has the hash code
of the key of `v` and `operator==` accepts it. -/
def Accepts (r : ℚ → ℚ) (v k : Vector3) : Prop :=
  k = vertexKey v ∨
    (Vector3Hash.operatorCall r k = Vector3Hash.operatorCall r (vertexKey v) ∧
      Vector3.operatorEq r (vertexKey v) k = true)

/-- The index triple `t` pushed for the triangle `T` (in the order `v0`, `v2`, `v1`)
points at stored vertices whose nodes the lookups for the three vertices of `T`
can have ended at. -/
def WeldedTo (r : ℚ → ℚ) (vertices : List ℚ) (T : Triangle) (t : Nat × Nat × Nat) : Prop :=
  (3 * t.1 + 2 < vertices.length ∧ Accepts r T.v0 (storedKey vertices t.1)) ∧
  (3 * t.2.1 + 2 < vertices.length ∧ Accepts r T.v2 (storedKey vertices t.2.1)) ∧
  (3 * t.2.2 + 2 < vertices.length ∧ Accepts r T.v1 (storedKey vertices t.2.2))

/-- The invariant of the welding pass on the map: every node holds an index in
range, and the coordinates stored at that index are those of its key. -/
structure MapInv (s : WeldState) : Prop where
  id_ge : -1 ≤ s.current_id
  vertices_length : s.vertices.length = 3 * (s.current_id + 1).toNat
  stored : ∀ e ∈ s.vertex_map, 0 ≤ e.2 ∧ e.2 ≤ s.current_id ∧
    storedKey s.vertices e.2.toNat = e.1

end Rounded

/-! ## The sphere example in double arithmetic -/

/-- The grid step `dx = dy = dz` of the sphere example in double arithmetic. -/
def sphereStep : ℚ := roundDouble (roundDouble (2 - (-2)) / (((20 : Int) - 1 : Int) : ℚ))

/-- The `i`-th sample coordinate of the sphere example in double arithmetic. -/
def sphereGrid (i : Nat) : ℚ := Rounded.gridPoint roundDouble (-2) sphereStep i

/-- The triangles of the cell `(i, j, k)` of the sphere example in double
arithmetic. -/
def sphereCell (i j k : Nat) : List Triangle :=
  Rounded.freshCell roundDouble (Rounded.sphereField roundDouble) 0
    (sphereGrid i) (sphereGrid (i + 1)) (sphereGrid j) (sphereGrid (j + 1))
    (sphereGrid k) (sphereGrid (k + 1))

/-- The point that tetrahedron 5 of the cell `(5, 7, 8)` computes on the face
diagonal from sample `(6, 7, 9)` to sample `(5, 8, 9)`: its first coordinate is
one unit in the last place above `-0.9375`. -/
def splitPoint : Vector3 :=
  Vector3.new (-(8444249301319679 / 9007199254740992)) (-(474063118670579 / 4503599627370496))
    (-(2933265546774207 / 9007199254740992))

/-- The triangle of tetrahedron 5 of the cell `(5, 7, 8)` of the sphere example in
double arithmetic; its vertex `v2` is `splitPoint`. -/
def splitTriangle : Triangle :=
  { v0 := Vector3.new (-(122528032625143 / 140737488355328))
      (-(4306073327924421 / 18014398509481984)) (-(1767860380042367 / 4503599627370496))
    v1 := Vector3.new (-(3770283240676945 / 4503599627370496))
      (-(474063118670579 / 4503599627370496)) (-(2370315593352893 / 4503599627370496))
    v2 := splitPoint }

/-- The vertex `x` can share a node of `vertex_map` with the vertex `p` in double
arithmetic: the two have the same hash code and differ by less than twice the
tolerance on every axis. -/
def sameSlot (p x : Vector3) : Bool :=
  decide (Rounded.Vector3Hash.operatorCall roundDouble x =
    Rounded.Vector3Hash.operatorCall roundDouble p) &&
  (decide (|x.x - p.x| < 2 * Rounded.DBL_EPS roundDouble) &&
    decide (|x.y - p.y| < 2 * Rounded.DBL_EPS roundDouble) &&
    decide (|x.z - p.z| < 2 * Rounded.DBL_EPS roundDouble))

/-- Some vertex of the triangle `T` can share a node of `vertex_map` with `p`. -/
def touches (p : Vector3) (T : Triangle) : Bool :=
  sameSlot p T.v0 || sameSlot p T.v1 || sameSlot p T.v2

/-- The three coordinates of `V` (in the internal order) lie in the three ranges
and are at most `2` in absolute value. -/
def InRanges (lx ux ly uy lz uz : ℚ) (V : Vector3) : Prop :=
  (lx ≤ V.x ∧ V.x ≤ ux ∧ |V.x| ≤ 2) ∧ (ly ≤ V.y ∧ V.y ≤ uy ∧ |V.y| ≤ 2) ∧
    (lz ≤ V.z ∧ V.z ≤ uz ∧ |V.z| ≤ 2)

/-- The facts about the 20 sample coordinates of the sphere example in double
arithmetic that place `splitPoint`: the coordinates are at most `2` in absolute
value and ascending, and apart from the cells with `i = 5`, `j = 7` and
`k = 8` or `9` every cell stays `1 / 1000` away from `splitPoint` on some axis. -/
def sphereGridCheck : Bool :=
  (List.range 20).all (fun i => decide (|sphereGrid i| ≤ 2)) &&
  (List.range 19).all (fun i => decide (sphereGrid i ≤ sphereGrid (i + 1))) &&
  (List.range 19).all (fun i => i == 5 ||
    decide (sphereGrid (i + 1) + 1 / 1000 ≤ splitPoint.x) ||
    decide (splitPoint.x + 1 / 1000 ≤ sphereGrid i)) &&
  (List.range 19).all (fun j => j == 7 ||
    decide (sphereGrid (j + 1) + 1 / 1000 ≤ splitPoint.z) ||
    decide (splitPoint.z + 1 / 1000 ≤ sphereGrid j)) &&
  (List.range 19).all (fun k => k == 8 || k == 9 ||
    decide (sphereGrid (k + 1) + 1 / 1000 ≤ splitPoint.y) ||
    decide (splitPoint.y + 1 / 1000 ≤ sphereGrid k))

/-! # Theorems -/

/-! ## Basic facts about the list helpers and the classifier -/

theorem pushAll_eq_append (triangles t : List Triangle) : pushAll triangles t = triangles ++ t := by
  unfold pushAll
  induction t generalizing triangles with
  | nil => simp
  | cons a t ih => simp [List.foldl_cons, ih]

theorem pushIfNotNull_length_le (triangle : Option Triangle) :
    (pushIfNotNull [] triangle).length ≤ 1 := by
  cases triangle <;> simp [pushIfNotNull]

theorem buildTriangles_length_le (V0 V1 V2 V3 : Vector3) (isovalue : ℚ) :
    (buildTriangles V0 V1 V2 V3 isovalue).length ≤ 2 := by
  unfold buildTriangles
  simp only []
  split_ifs <;> simp

theorem marchTetrahedra_length_le (V0 V1 V2 V3 : Vector3) (isovalue : ℚ) :
    (marchTetrahedra V0 V1 V2 V3 isovalue).length ≤ 2 := by
  have h1 : ∀ o : Option Triangle, (pushIfNotNull [] o).length ≤ 2 := fun o =>
    le_trans (pushIfNotNull_length_le o) (by norm_num)
  have h2 : ∀ A B C D : Vector3, (pushAll [] (buildTriangles A B C D isovalue)).length ≤ 2 := by
    intro A B C D
    rw [pushAll_eq_append]
    simpa using buildTriangles_length_le A B C D isovalue
  unfold marchTetrahedra
  by_cases c0 : V0.info > isovalue <;> by_cases c1 : V1.info > isovalue <;>
    by_cases c2 : V2.info > isovalue <;> by_cases c3 : V3.info > isovalue <;>
    simp only [c0, c1, c2, c3, if_true, if_false, and_self, and_true, and_false, true_and,
      false_and, one_ne_zero, zero_ne_one, List.length_nil, Nat.zero_le] <;>
    first | exact h1 _ | exact h2 _ _ _ _

theorem marchTetrahedra_not_above (V0 V1 V2 V3 : Vector3) (isovalue : ℚ)
    (h0 : V0.info ≤ isovalue) (h1 : V1.info ≤ isovalue) (h2 : V2.info ≤ isovalue)
    (h3 : V3.info ≤ isovalue) : marchTetrahedra V0 V1 V2 V3 isovalue = [] := by
  unfold marchTetrahedra
  simp [not_lt.mpr h0, not_lt.mpr h1, not_lt.mpr h2, not_lt.mpr h3]

theorem marchCellTetrahedra_eq_append (v0 v1 v2 v3 v4 v5 v6 v7 : Vector3) (isovalue : ℚ) :
    marchCellTetrahedra v0 v1 v2 v3 v4 v5 v6 v7 isovalue =
      marchTetrahedra v0 v1 v3 v5 isovalue ++ marchTetrahedra v1 v2 v3 v5 isovalue ++
        marchTetrahedra v0 v3 v4 v5 isovalue ++ marchTetrahedra v2 v3 v5 v6 isovalue ++
        marchTetrahedra v3 v4 v5 v7 isovalue ++ marchTetrahedra v3 v5 v6 v7 isovalue := by
  unfold marchCellTetrahedra
  simp [pushAll_eq_append]

/-- C1: `marching_cubes` returns the two output sequences exactly as they were
passed in (it appends nothing, so they stay empty when passed in empty), and
being a total function raises no error, whenever one of `numx`, `numy`, `numz`
is below 2 or `lower[a] > upper[a]` on at least one of the three axes. -/
theorem marching_cubes_guard (lower upper : Fin 3 → ℚ) (numx numy numz : Int)
    (f : ℚ → ℚ → ℚ → ℚ) (isovalue : ℚ) (vertices : List ℚ) (polygons : List Nat)
    (h : numx < 2 ∨ numy < 2 ∨ numz < 2 ∨
      lower 0 > upper 0 ∨ lower 1 > upper 1 ∨ lower 2 > upper 2) :
    marching_cubes lower upper numx numy numz f isovalue vertices polygons
      = (vertices, polygons) := by
  unfold marching_cubes
  by_cases hn : numx < 2 ∨ numy < 2 ∨ numz < 2
  · simp [hn]
  · have hb : ¬ (lower 0 ≤ upper 0 ∧ lower 1 ≤ upper 1 ∧ lower 2 ≤ upper 2) := by
      rintro ⟨b0, b1, b2⟩
      rcases h with h | h | h | h | h | h
      · exact hn (Or.inl h)
      · exact hn (Or.inr (Or.inl h))
      · exact hn (Or.inr (Or.inr h))
      · exact absurd b0 (not_le.mpr h)
      · exact absurd b1 (not_le.mpr h)
      · exact absurd b2 (not_le.mpr h)
    rw [if_neg hn, if_pos hb]

/-- The guard at `numx = 1`, with non-empty sequences passed in. -/
theorem marching_cubes_guard_witness :
    marching_cubes ![0, 0, 0] ![1, 1, 1] 1 5 5 (fun x _ _ => x) 0 [7] [3] = ([7], [3]) :=
  marching_cubes_guard ![0, 0, 0] ![1, 1, 1] 1 5 5 (fun x _ _ => x) 0 [7] [3]
    (Or.inl (by decide))

theorem marchCellTetrahedra_not_above (v0 v1 v2 v3 v4 v5 v6 v7 : Vector3) (isovalue : ℚ)
    (h0 : v0.info ≤ isovalue) (h1 : v1.info ≤ isovalue) (h2 : v2.info ≤ isovalue)
    (h3 : v3.info ≤ isovalue) (h4 : v4.info ≤ isovalue) (h5 : v5.info ≤ isovalue)
    (h6 : v6.info ≤ isovalue) (h7 : v7.info ≤ isovalue) :
    marchCellTetrahedra v0 v1 v2 v3 v4 v5 v6 v7 isovalue = [] := by
  rw [marchCellTetrahedra_eq_append]
  simp [marchTetrahedra_not_above, *]

/-- A column of cells none of whose corner samples exceeds the isovalue
contributes only empty triangle lists. -/
theorem zLoop_all_nil (f : ℚ → ℚ → ℚ → ℚ) (isovalue lower2 dz x x_dx y y_dy : ℚ) :
    ∀ (n k : Nat) (c4 c5 c6 c7 : ℚ),
      c4 ≤ isovalue → c5 ≤ isovalue → c6 ≤ isovalue → c7 ≤ isovalue →
      (∀ m : Nat, k < m → m ≤ k + n →
        f x y (lower2 + dz * (m : ℚ)) ≤ isovalue ∧ f x_dx y (lower2 + dz * (m : ℚ)) ≤ isovalue ∧
        f x_dx y_dy (lower2 + dz * (m : ℚ)) ≤ isovalue ∧
        f x y_dy (lower2 + dz * (m : ℚ)) ≤ isovalue) →
      ∀ t ∈ zLoop f isovalue lower2 dz x x_dx y y_dy n k c4 c5 c6 c7, t = [] := by
  intro n
  induction n with
  | zero => intro k c4 c5 c6 c7 _ _ _ _ _ t ht; simp [zLoop] at ht
  | succ n ih =>
    intro k c4 c5 c6 c7 h4 h5 h6 h7 hf t ht
    obtain ⟨g4, g5, g6, g7⟩ := hf (k + 1) (Nat.lt_succ_self k) (by omega)
    simp only [zLoop, List.mem_cons] at ht
    rcases ht with rfl | ht
    · exact marchCellTetrahedra_not_above _ _ _ _ _ _ _ _ _ h4 h5 h6 h7 g4 g5 g6 g7
    · exact ih (k + 1) _ _ _ _ g4 g5 g6 g7 (fun m hm hm2 => hf m (by omega) (by omega)) t ht

theorem foldl_fixed {α β : Type} (g : β → α → β) (l : List α) (s : β)
    (h : ∀ a ∈ l, ∀ b : β, g b a = b) : l.foldl g s = s := by
  induction l generalizing s with
  | nil => rfl
  | cons a l ih =>
    rw [List.foldl_cons, h a (List.mem_cons_self a l)]
    exact ih s (fun a2 ha2 => h a2 (List.mem_cons_of_mem a ha2))

theorem weldAll_of_all_nil (triangles : List (List (List (List Triangle))))
    (h : ∀ ti ∈ triangles, ∀ tij ∈ ti, ∀ tijk ∈ tij, tijk = []) (st : WeldState × List Nat) :
    weldAll triangles st = st := by
  unfold weldAll
  apply foldl_fixed
  intro ti hti b
  apply foldl_fixed
  intro tij htij b2
  apply foldl_fixed
  intro tijk htijk b3
  rw [h ti hti tij htij tijk htijk]
  rfl

/-- C2: for a box with `lower <= upper` on each axis, sample counts of at least 2
and a field whose value at every sampled grid corner
`(gridCoord .. i, gridCoord .. j, gridCoord .. k)` is below the isovalue,
`marching_cubes` started on empty sequences returns empty vertex and index
sequences. -/
theorem marching_cubes_below_isovalue (lower upper : Fin 3 → ℚ) (numx numy numz : Int)
    (f : ℚ → ℚ → ℚ → ℚ) (isovalue : ℚ)
    (hx : 2 ≤ numx) (hy : 2 ≤ numy) (hz : 2 ≤ numz) (hb : ∀ a, lower a ≤ upper a)
    (hf : ∀ i j k : Nat, (i : Int) < numx → (j : Int) < numy → (k : Int) < numz →
      f (gridCoord lower upper numx 0 i) (gridCoord lower upper numy 1 j)
        (gridCoord lower upper numz 2 k) < isovalue) :
    marching_cubes lower upper numx numy numz f isovalue [] [] = ([], []) := by
  unfold marching_cubes
  have hn : ¬ (numx < 2 ∨ numy < 2 ∨ numz < 2) := by omega
  have hb2 : ¬ ¬ (lower 0 ≤ upper 0 ∧ lower 1 ≤ upper 1 ∧ lower 2 ≤ upper 2) :=
    not_not.mpr ⟨hb 0, hb 1, hb 2⟩
  rw [if_neg hn, if_neg hb2]
  simp only []
  rw [weldAll_of_all_nil]
  intro ti hti tij htij tijk htijk
  simp only [cellTriangles, List.mem_map, List.mem_range] at hti
  obtain ⟨i, hi, rfl⟩ := hti
  simp only [List.mem_map, List.mem_range] at htij
  obtain ⟨j, hj, rfl⟩ := htij
  have hi1 : ((i : Nat) : Int) < numx := by omega
  have hi2 : ((i + 1 : Nat) : Int) < numx := by omega
  have hj1 : ((j : Nat) : Int) < numy := by omega
  have hj2 : ((j + 1 : Nat) : Int) < numy := by omega
  have key : ∀ (a b m : Nat), (a : Int) < numx → (b : Int) < numy → (m : Int) < numz →
      f (lower 0 + (upper 0 - lower 0) / ((numx - 1 : Int) : ℚ) * (a : ℚ))
        (lower 1 + (upper 1 - lower 1) / ((numy - 1 : Int) : ℚ) * (b : ℚ))
        (lower 2 + (upper 2 - lower 2) / ((numz - 1 : Int) : ℚ) * (m : ℚ)) ≤ isovalue :=
    fun a b m ha hb hm => le_of_lt (hf a b m ha hb hm)
  have key0 : ∀ (a b : Nat), (a : Int) < numx → (b : Int) < numy →
      f (lower 0 + (upper 0 - lower 0) / ((numx - 1 : Int) : ℚ) * (a : ℚ))
        (lower 1 + (upper 1 - lower 1) / ((numy - 1 : Int) : ℚ) * (b : ℚ))
        (lower 2) ≤ isovalue := by
    intro a b ha hb
    have := key a b 0 ha hb (by omega)
    simpa using this
  refine zLoop_all_nil f isovalue _ _ _ _ _ _ _ 0 _ _ _ _ (key0 _ _ hi1 hj1) (key0 _ _ hi2 hj1)
    (key0 _ _ hi2 hj2) (key0 _ _ hi1 hj2) ?_ tijk htijk
  intro m _ hm
  have hm1 : ((m : Nat) : Int) < numz := by omega
  exact ⟨key _ _ m hi1 hj1 hm1, key _ _ m hi2 hj1 hm1, key _ _ m hi2 hj2 hm1,
    key _ _ m hi1 hj2 hm1⟩

/-- A constant field `-1` below the isovalue `0` on a `3 x 2 x 4` grid. -/
theorem marching_cubes_below_isovalue_witness :
    marching_cubes ![0, 0, 0] ![1, 1, 1] 3 2 4 (fun _ _ _ => -1) 0 [] [] = ([], []) :=
  marching_cubes_below_isovalue ![0, 0, 0] ![1, 1, 1] 3 2 4 (fun _ _ _ => -1) 0
    (by decide) (by decide) (by decide) (by intro a; fin_cases a <;> simp)
    (by intro i j k _ _ _; norm_num)

/-! ## The welding pass keeps the mesh well formed -/

theorem vertexMapFind_mem {vertex_map : List (Vector3 × Int)} {k : Vector3} {id : Int}
    (h : vertexMapFind vertex_map k = some id) : ∃ e ∈ vertex_map, e.2 = id := by
  unfold vertexMapFind at h
  rw [Option.map_eq_some'] at h
  obtain ⟨e, he, rfl⟩ := h
  exact ⟨e, List.mem_of_find?_eq_some he, rfl⟩

theorem add_vertex_inv (s : WeldState) (polygons : List Nat) (v : Vector3)
    (h : WeldInv s polygons) :
    WeldInv (add_vertex s v).2 (polygons ++ [(add_vertex s v).1.toNat]) := by
  obtain ⟨h1, h2, h3, h4, h5⟩ := h
  unfold add_vertex
  cases hfind : vertexMapFind s.vertex_map (Vector3.new v.x v.y v.z) with
  | none =>
    dsimp only
    have e1 : (s.current_id + 1 + 1).toNat = (s.current_id + 1).toNat + 1 := by omega
    refine ⟨?_, ?_, ?_, ?_, ?_⟩ <;> dsimp only
    · omega
    · simp only [List.length_append, List.length_singleton, h2, e1]; omega
    · intro i hi
      rw [List.mem_append, List.mem_singleton] at hi
      rcases hi with hi | hi
      · have := h3 i hi; omega
      · omega
    · intro i hi
      rw [List.mem_append, List.mem_singleton]
      by_cases hlt : i < (s.current_id + 1).toNat
      · exact Or.inl (h4 i hlt)
      · right; omega
    · intro e he
      rw [List.mem_cons] at he
      rcases he with rfl | he
      · dsimp only; omega
      · have := h5 e he; omega
  | some id =>
    dsimp only
    obtain ⟨e, he, rfl⟩ := vertexMapFind_mem hfind
    have hr := h5 e he
    refine ⟨h1, h2, ?_, ?_, h5⟩
    · intro i hi
      rw [List.mem_append, List.mem_singleton] at hi
      rcases hi with hi | hi
      · exact h3 i hi
      · omega
    · intro i hi
      exact List.mem_append_left _ (h4 i hi)

theorem weldTriangle_inv (st : WeldState × List Nat) (tri : Triangle) (h : MeshInv st) :
    MeshInv (weldTriangle st tri) := by
  obtain ⟨h1, h2⟩ := h
  unfold weldTriangle
  refine ⟨?_, ?_⟩
  · exact add_vertex_inv _ _ _ (add_vertex_inv _ _ _ (add_vertex_inv _ _ _ h1))
  · simp only [List.length_append, List.length_singleton]
    omega

theorem foldl_invariant {α β : Type} (P : β → Prop) (g : β → α → β)
    (hstep : ∀ b a, P b → P (g b a)) (l : List α) (s : β) (h0 : P s) : P (l.foldl g s) := by
  induction l generalizing s with
  | nil => exact h0
  | cons a l ih => exact ih (g s a) (hstep s a h0)

theorem weldAll_inv (triangles : List (List (List (List Triangle))))
    (st : WeldState × List Nat) (h : MeshInv st) : MeshInv (weldAll triangles st) := by
  unfold weldAll
  refine foldl_invariant MeshInv _ ?_ _ _ h
  intro b ti hb
  refine foldl_invariant MeshInv _ ?_ _ _ hb
  intro b tij hb
  refine foldl_invariant MeshInv _ ?_ _ _ hb
  intro b tijk hb
  exact foldl_invariant MeshInv _ weldTriangle_inv _ _ hb

theorem meshInv_init : MeshInv ({ vertices := [], vertex_map := [], current_id := -1 }, []) := by
  refine ⟨⟨le_refl _, ?_, ?_, ?_, ?_⟩, ?_⟩ <;> simp

/-- C3: started on empty sequences, `marching_cubes` returns a well-formed indexed
mesh: for some vertex count `V` the vertex sequence has `3 * V` entries, the
length of the index sequence is a multiple of 3, every index is below `V`, and
every index below `V` occurs in the index sequence. -/
theorem marching_cubes_well_formed (lower upper : Fin 3 → ℚ) (numx numy numz : Int)
    (f : ℚ → ℚ → ℚ → ℚ) (isovalue : ℚ) :
    ∃ V : Nat,
      (marching_cubes lower upper numx numy numz f isovalue [] []).1.length = 3 * V ∧
      3 ∣ (marching_cubes lower upper numx numy numz f isovalue [] []).2.length ∧
      (∀ i ∈ (marching_cubes lower upper numx numy numz f isovalue [] []).2, i < V) ∧
      (∀ i : Nat, i < V →
        i ∈ (marching_cubes lower upper numx numy numz f isovalue [] []).2) := by
  unfold marching_cubes
  by_cases hn : numx < 2 ∨ numy < 2 ∨ numz < 2
  · rw [if_pos hn]; exact ⟨0, by simp⟩
  rw [if_neg hn]
  by_cases hb : ¬ (lower 0 ≤ upper 0 ∧ lower 1 ≤ upper 1 ∧ lower 2 ≤ upper 2)
  · rw [if_pos hb]; exact ⟨0, by simp⟩
  rw [if_neg hb]
  dsimp only
  obtain ⟨⟨_, h2, h3, h4, _⟩, h6⟩ := weldAll_inv
    (cellTriangles lower ((upper 0 - lower 0) / ((numx - 1 : Int) : ℚ))
      ((upper 1 - lower 1) / ((numy - 1 : Int) : ℚ))
      ((upper 2 - lower 2) / ((numz - 1 : Int) : ℚ)) (numx - 1) (numy - 1) (numz - 1) f isovalue)
    _ meshInv_init
  exact ⟨_, h2, h6, h3, h4⟩

/-! ## Degenerate triangles -/

theorem marchCellTetrahedra_mem {v0 v1 v2 v3 v4 v5 v6 v7 : Vector3} {isovalue : ℚ} {T : Triangle}
    (h : T ∈ marchCellTetrahedra v0 v1 v2 v3 v4 v5 v6 v7 isovalue) :
    T ∈ marchTetrahedra v0 v1 v3 v5 isovalue ∨ T ∈ marchTetrahedra v1 v2 v3 v5 isovalue ∨
      T ∈ marchTetrahedra v0 v3 v4 v5 isovalue ∨ T ∈ marchTetrahedra v2 v3 v5 v6 isovalue ∨
      T ∈ marchTetrahedra v3 v4 v5 v7 isovalue ∨ T ∈ marchTetrahedra v3 v5 v6 v7 isovalue := by
  rw [marchCellTetrahedra_eq_append] at h
  simp only [List.mem_append] at h
  tauto

/-- C5, evaluated: the points `(0.00009, 0, 0)` and `(0.00011, 0, 0)` are equal
under `operator==` (they differ by `0.00002 < DBL_EPS`), and `Vector3Hash` gives
them different integer triples and different hash codes. -/
theorem vector3Hash_separates_approx_equal :
    (Vector3.new (9 / 100000) 0 0).operatorEq (Vector3.new (11 / 100000) 0 0) = true ∧
    Vector3Hash.key (Vector3.new (9 / 100000) 0 0) = (0, 0, 0) ∧
    Vector3Hash.key (Vector3.new (11 / 100000) 0 0) = (1, 0, 0) ∧
    Vector3Hash.operatorCall (Vector3.new (9 / 100000) 0 0) = 0 ∧
    Vector3Hash.operatorCall (Vector3.new (11 / 100000) 0 0) = 73856093 := by
  decide!

/-- C4, evaluated: on one cell with lower corner `(0.00005, 0.00005, 0.00005)`,
side `6` and the field `spikeField`, the mesh has four vertices; the vertices
with indices `0` and `1` are `(0.00011, 0.00005, 0.00005)` and
`(0.00005, 0.00011, 0.00005)`: they differ by `0.00006 < DBL_EPS` on the x and y
axes and by `0` on the z axis. -/
theorem marching_cubes_near_duplicate_vertices :
    marching_cubes ![1 / 20000, 1 / 20000, 1 / 20000]
        ![6 + 1 / 20000, 6 + 1 / 20000, 6 + 1 / 20000] 2 2 2 spikeField 0 [] [] =
      ([11 / 100000, 1 / 20000, 1 / 20000, 1 / 20000, 11 / 100000, 1 / 20000,
        11 / 100000, 1 / 20000, 11 / 100000, 1 / 20000, 1 / 20000, 11 / 100000],
       [0, 1, 2, 1, 3, 2]) ∧
    meshVertex [11 / 100000, 1 / 20000, 1 / 20000, 1 / 20000, 11 / 100000, 1 / 20000,
        11 / 100000, 1 / 20000, 11 / 100000, 1 / 20000, 1 / 20000, 11 / 100000] 0 =
      (11 / 100000, 1 / 20000, 1 / 20000) ∧
    meshVertex [11 / 100000, 1 / 20000, 1 / 20000, 1 / 20000, 11 / 100000, 1 / 20000,
        11 / 100000, 1 / 20000, 11 / 100000, 1 / 20000, 1 / 20000, 11 / 100000] 1 =
      (1 / 20000, 11 / 100000, 1 / 20000) ∧
    DBL_APPROX (11 / 100000) (1 / 20000) = true ∧ DBL_APPROX (1 / 20000) (11 / 100000) = true ∧
    DBL_APPROX (1 / 20000) (1 / 20000) = true := by
  decide!

theorem normalSide_swap (a b c P : Vector3) :
    normalSide ⟨a, c, b⟩ P = - normalSide ⟨a, b, c⟩ P := by
  simp only [normalSide, Triangle.normal, Vector3.dot, Vector3.cross, Vector3.sub, Vector3.new]
  ring

theorem isCCW_eq (T : Triangle) (V : Vector3) : T.isCCW V = decide (normalSide T V < 0) := by
  simp only [Triangle.isCCW, normalSide, Triangle.normal, Vector3.dot, Vector3.cross, Vector3.sub,
    Vector3.new, decide_eq_decide]
  constructor <;> intro h <;> nlinarith [h]

/-! ### The triangle of `buildTriangle` against the four corners -/

theorem buildTriangle_side0 (V0 V1 V2 V3 : Vector3) (t01 t02 t03 : ℚ) :
    normalSide ⟨V0.interpolate t01 V1, V0.interpolate t03 V3, V0.interpolate t02 V2⟩ V0 =
      t01 * t02 * t03 * tetraDet V0 V1 V2 V3 := by
  simp only [normalSide, tetraDet, Triangle.normal, Vector3.dot, Vector3.cross, Vector3.sub,
    Vector3.interpolate, Vector3.multiply, Vector3.add, Vector3.new]
  ring

theorem buildTriangle_side1 (V0 V1 V2 V3 : Vector3) (t01 t02 t03 : ℚ) :
    normalSide ⟨V0.interpolate t01 V1, V0.interpolate t03 V3, V0.interpolate t02 V2⟩ V1 =
      - ((1 - t01) * t02 * t03 * tetraDet V0 V1 V2 V3) := by
  simp only [normalSide, tetraDet, Triangle.normal, Vector3.dot, Vector3.cross, Vector3.sub,
    Vector3.interpolate, Vector3.multiply, Vector3.add, Vector3.new]
  ring

theorem buildTriangle_side2 (V0 V1 V2 V3 : Vector3) (t01 t02 t03 : ℚ) :
    normalSide ⟨V0.interpolate t01 V1, V0.interpolate t03 V3, V0.interpolate t02 V2⟩ V2 =
      - (t01 * (1 - t02) * t03 * tetraDet V0 V1 V2 V3) := by
  simp only [normalSide, tetraDet, Triangle.normal, Vector3.dot, Vector3.cross, Vector3.sub,
    Vector3.interpolate, Vector3.multiply, Vector3.add, Vector3.new]
  ring

theorem buildTriangle_side3 (V0 V1 V2 V3 : Vector3) (t01 t02 t03 : ℚ) :
    normalSide ⟨V0.interpolate t01 V1, V0.interpolate t03 V3, V0.interpolate t02 V2⟩ V3 =
      - (t01 * t02 * (1 - t03) * tetraDet V0 V1 V2 V3) := by
  simp only [normalSide, tetraDet, Triangle.normal, Vector3.dot, Vector3.cross, Vector3.sub,
    Vector3.interpolate, Vector3.multiply, Vector3.add, Vector3.new]
  ring

/-! ### The two triangles of `buildTriangles` against the four corners -/

theorem buildTriangles_first_side0 (V0 V1 V2 V3 : Vector3) (t02 t12 t13 : ℚ) :
    normalSide ⟨V0.interpolate t02 V2, V1.interpolate t12 V2, V1.interpolate t13 V3⟩ V0 =
      t02 * (1 - t12) * t13 * tetraDet V0 V1 V2 V3 := by
  simp only [normalSide, tetraDet, Triangle.normal, Vector3.dot, Vector3.cross, Vector3.sub,
    Vector3.interpolate, Vector3.multiply, Vector3.add, Vector3.new]
  ring

theorem buildTriangles_first_side1 (V0 V1 V2 V3 : Vector3) (t02 t12 t13 : ℚ) :
    normalSide ⟨V0.interpolate t02 V2, V1.interpolate t12 V2, V1.interpolate t13 V3⟩ V1 =
      (1 - t02) * t12 * t13 * tetraDet V0 V1 V2 V3 := by
  simp only [normalSide, tetraDet, Triangle.normal, Vector3.dot, Vector3.cross, Vector3.sub,
    Vector3.interpolate, Vector3.multiply, Vector3.add, Vector3.new]
  ring

theorem buildTriangles_first_side2 (V0 V1 V2 V3 : Vector3) (t02 t12 t13 : ℚ) :
    normalSide ⟨V0.interpolate t02 V2, V1.interpolate t12 V2, V1.interpolate t13 V3⟩ V2 =
      - ((1 - t02) * (1 - t12) * t13 * tetraDet V0 V1 V2 V3) := by
  simp only [normalSide, tetraDet, Triangle.normal, Vector3.dot, Vector3.cross, Vector3.sub,
    Vector3.interpolate, Vector3.multiply, Vector3.add, Vector3.new]
  ring

theorem buildTriangles_first_side3 (V0 V1 V2 V3 : Vector3) (t02 t12 t13 : ℚ) :
    normalSide ⟨V0.interpolate t02 V2, V1.interpolate t12 V2, V1.interpolate t13 V3⟩ V3 =
      - ((1 - t02) * t12 * (1 - t13) * tetraDet V0 V1 V2 V3) := by
  simp only [normalSide, tetraDet, Triangle.normal, Vector3.dot, Vector3.cross, Vector3.sub,
    Vector3.interpolate, Vector3.multiply, Vector3.add, Vector3.new]
  ring

theorem buildTriangles_second_side0 (V0 V1 V2 V3 : Vector3) (t02 t03 t13 : ℚ) :
    normalSide ⟨V1.interpolate t13 V3, V0.interpolate t03 V3, V0.interpolate t02 V2⟩ V0 =
      t02 * t03 * (1 - t13) * tetraDet V0 V1 V2 V3 := by
  simp only [normalSide, tetraDet, Triangle.normal, Vector3.dot, Vector3.cross, Vector3.sub,
    Vector3.interpolate, Vector3.multiply, Vector3.add, Vector3.new]
  ring

theorem buildTriangles_second_side1 (V0 V1 V2 V3 : Vector3) (t02 t03 t13 : ℚ) :
    normalSide ⟨V1.interpolate t13 V3, V0.interpolate t03 V3, V0.interpolate t02 V2⟩ V1 =
      t02 * (1 - t03) * t13 * tetraDet V0 V1 V2 V3 := by
  simp only [normalSide, tetraDet, Triangle.normal, Vector3.dot, Vector3.cross, Vector3.sub,
    Vector3.interpolate, Vector3.multiply, Vector3.add, Vector3.new]
  ring

theorem buildTriangles_second_side2 (V0 V1 V2 V3 : Vector3) (t02 t03 t13 : ℚ) :
    normalSide ⟨V1.interpolate t13 V3, V0.interpolate t03 V3, V0.interpolate t02 V2⟩ V2 =
      - ((1 - t02) * t03 * (1 - t13) * tetraDet V0 V1 V2 V3) := by
  simp only [normalSide, tetraDet, Triangle.normal, Vector3.dot, Vector3.cross, Vector3.sub,
    Vector3.interpolate, Vector3.multiply, Vector3.add, Vector3.new]
  ring

theorem buildTriangles_second_side3 (V0 V1 V2 V3 : Vector3) (t02 t03 t13 : ℚ) :
    normalSide ⟨V1.interpolate t13 V3, V0.interpolate t03 V3, V0.interpolate t02 V2⟩ V3 =
      - (t02 * (1 - t03) * (1 - t13) * tetraDet V0 V1 V2 V3) := by
  simp only [normalSide, tetraDet, Triangle.normal, Vector3.dot, Vector3.cross, Vector3.sub,
    Vector3.interpolate, Vector3.multiply, Vector3.add, Vector3.new]
  ring

theorem inverseLinearInterpolation_bounds (isovalue a b : ℚ)
    (h : (isovalue < a ∧ b < isovalue) ∨ (a < isovalue ∧ isovalue < b)) :
    0 < inverseLinearInterpolation isovalue a b ∧
      0 < 1 - inverseLinearInterpolation isovalue a b := by
  unfold inverseLinearInterpolation
  rcases h with ⟨h1, h2⟩ | ⟨h1, h2⟩
  · have hd : b - a < 0 := by linarith
    have e : 1 - (isovalue - a) / (b - a) = (b - isovalue) / (b - a) := by
      field_simp [ne_of_lt hd]
    rw [e]
    exact ⟨div_pos_of_neg_of_neg (by linarith) hd, div_pos_of_neg_of_neg (by linarith) hd⟩
  · have hd : 0 < b - a := by linarith
    have e : 1 - (isovalue - a) / (b - a) = (b - isovalue) / (b - a) := by
      field_simp [ne_of_gt hd]
    rw [e]
    exact ⟨div_pos (by linarith) hd, div_pos (by linarith) hd⟩

theorem isPoint_normalSide (T : Triangle) (P : Vector3) (h : T.isPoint = true) :
    normalSide T P = 0 := by
  simp only [Triangle.isPoint, Vector3.equal, Bool.and_eq_true, decide_eq_true_eq] at h
  obtain ⟨⟨⟨h1, h2⟩, h3⟩, ⟨⟨h4, h5⟩, h6⟩⟩ := h
  simp only [normalSide, Triangle.normal, Vector3.dot, Vector3.cross, Vector3.sub, Vector3.new,
    h1, h2, h3, h4, h5, h6]
  ring

theorem isPoint_false_of_normalSide (T : Triangle) (P : Vector3) (h : normalSide T P ≠ 0) :
    T.isPoint = false := by
  cases hp : T.isPoint
  · rfl
  · exact absurd (isPoint_normalSide T P hp) h

theorem some_of_not_isPoint (T : Triangle) (h : T.isPoint = false) :
    (if T.isPoint = true then none else some T) = some T := by
  simp [h]

theorem buildTriangle_spec (V0 V1 V2 V3 : Vector3) (isovalue : ℚ)
    (hdet : tetraDet V0 V1 V2 V3 ≠ 0) (h : LoneCorner V0 V1 V2 V3 isovalue) :
    ∃ T, buildTriangle V0 V1 V2 V3 isovalue = some T ∧ FacesLower T V0 V1 V2 V3 isovalue := by
  have b1 := inverseLinearInterpolation_bounds isovalue V0.info V1.info
    (by rcases h with h | h <;> [left; right] <;> exact ⟨h.1, h.2.1⟩)
  have b2 := inverseLinearInterpolation_bounds isovalue V0.info V2.info
    (by rcases h with h | h <;> [left; right] <;> exact ⟨h.1, h.2.2.1⟩)
  have b3 := inverseLinearInterpolation_bounds isovalue V0.info V3.info
    (by rcases h with h | h <;> [left; right] <;> exact ⟨h.1, h.2.2.2⟩)
  unfold buildTriangle
  dsimp only
  generalize inverseLinearInterpolation isovalue V0.info V1.info = t01 at b1 ⊢
  generalize inverseLinearInterpolation isovalue V0.info V2.info = t02 at b2 ⊢
  generalize inverseLinearInterpolation isovalue V0.info V3.info = t03 at b3 ⊢
  have e0 := buildTriangle_side0 V0 V1 V2 V3 t01 t02 t03
  have e1 := buildTriangle_side1 V0 V1 V2 V3 t01 t02 t03
  have e2 := buildTriangle_side2 V0 V1 V2 V3 t01 t02 t03
  have e3 := buildTriangle_side3 V0 V1 V2 V3 t01 t02 t03
  have p0 : 0 < t01 * t02 * t03 := mul_pos (mul_pos b1.1 b2.1) b3.1
  have p1 : 0 < (1 - t01) * t02 * t03 := mul_pos (mul_pos b1.2 b2.1) b3.1
  have p2 : 0 < t01 * (1 - t02) * t03 := mul_pos (mul_pos b1.1 b2.2) b3.1
  have p3 : 0 < t01 * t02 * (1 - t03) := mul_pos (mul_pos b1.1 b2.1) b3.2
  rw [isCCW_eq, e0]
  rcases lt_or_gt_of_ne hdet with hD | hD
  · have q0 := mul_neg_of_pos_of_neg p0 hD
    have q1 := mul_neg_of_pos_of_neg p1 hD
    have q2 := mul_neg_of_pos_of_neg p2 hD
    have q3 := mul_neg_of_pos_of_neg p3 hD
    rcases h with ⟨h0, h1, h2, h3⟩ | ⟨h0, h1, h2, h3⟩
    · have hx : Bool.xor (decide (V0.info > isovalue))
          (decide (t01 * t02 * t03 * tetraDet V0 V1 V2 V3 < 0)) = false := by
        simp [h0, q0]
      simp only [hx, Bool.false_eq_true, if_false]
      rw [some_of_not_isPoint _ (isPoint_false_of_normalSide _ V0 (by rw [e0]; exact ne_of_lt q0))]
      refine ⟨_, rfl, ?_⟩
      rintro P (rfl | rfl | rfl | rfl) <;> constructor <;> intro hP <;>
        first | (exfalso; linarith) | (simp only [e0, e1, e2, e3]; linarith)
    · have hx : Bool.xor (decide (V0.info > isovalue))
          (decide (t01 * t02 * t03 * tetraDet V0 V1 V2 V3 < 0)) = true := by
        simp [not_lt.mpr (le_of_lt h0), q0]
      simp only [hx, if_true]
      rw [some_of_not_isPoint _ (isPoint_false_of_normalSide _ V0
        (by rw [normalSide_swap, e0]; exact neg_ne_zero.mpr (ne_of_lt q0)))]
      refine ⟨_, rfl, ?_⟩
      rintro P (rfl | rfl | rfl | rfl) <;> constructor <;> intro hP <;>
        first | (exfalso; linarith) | (simp only [normalSide_swap, e0, e1, e2, e3]; linarith)
  · have q0 := mul_pos p0 hD
    have q1 := mul_pos p1 hD
    have q2 := mul_pos p2 hD
    have q3 := mul_pos p3 hD
    rcases h with ⟨h0, h1, h2, h3⟩ | ⟨h0, h1, h2, h3⟩
    · have hx : Bool.xor (decide (V0.info > isovalue))
          (decide (t01 * t02 * t03 * tetraDet V0 V1 V2 V3 < 0)) = true := by
        simp [h0, not_lt.mpr (le_of_lt q0)]
      simp only [hx, if_true]
      rw [some_of_not_isPoint _ (isPoint_false_of_normalSide _ V0
        (by rw [normalSide_swap, e0]; exact neg_ne_zero.mpr (ne_of_gt q0)))]
      refine ⟨_, rfl, ?_⟩
      rintro P (rfl | rfl | rfl | rfl) <;> constructor <;> intro hP <;>
        first | (exfalso; linarith) | (simp only [normalSide_swap, e0, e1, e2, e3]; linarith)
    · have hx : Bool.xor (decide (V0.info > isovalue))
          (decide (t01 * t02 * t03 * tetraDet V0 V1 V2 V3 < 0)) = false := by
        simp [not_lt.mpr (le_of_lt h0), not_lt.mpr (le_of_lt q0)]
      simp only [hx, Bool.false_eq_true, if_false]
      rw [some_of_not_isPoint _ (isPoint_false_of_normalSide _ V0 (by rw [e0]; exact ne_of_gt q0))]
      refine ⟨_, rfl, ?_⟩
      rintro P (rfl | rfl | rfl | rfl) <;> constructor <;> intro hP <;>
        first | (exfalso; linarith) | (simp only [e0, e1, e2, e3]; linarith)

theorem pair_of_not_isPoint (A B : Triangle) (hA : A.isPoint = false) (hB : B.isPoint = false) :
    (if (!B.isPoint) = true then (if (!A.isPoint) = true then [] ++ [A] else []) ++ [B]
      else (if (!A.isPoint) = true then [] ++ [A] else [])) = [A, B] := by
  simp [hA, hB]

theorem buildTriangles_spec (V0 V1 V2 V3 : Vector3) (isovalue : ℚ)
    (hdet : tetraDet V0 V1 V2 V3 ≠ 0) (h : PairCorners V0 V1 V2 V3 isovalue) :
    ∃ A B, buildTriangles V0 V1 V2 V3 isovalue = [A, B] ∧
      FacesLower A V0 V1 V2 V3 isovalue ∧ FacesLower B V0 V1 V2 V3 isovalue := by
  have b02 := inverseLinearInterpolation_bounds isovalue V0.info V2.info
    (by rcases h with h | h <;> [left; right] <;> exact ⟨h.1, h.2.2.1⟩)
  have b03 := inverseLinearInterpolation_bounds isovalue V0.info V3.info
    (by rcases h with h | h <;> [left; right] <;> exact ⟨h.1, h.2.2.2⟩)
  have b12 := inverseLinearInterpolation_bounds isovalue V1.info V2.info
    (by rcases h with h | h <;> [left; right] <;> exact ⟨h.2.1, h.2.2.1⟩)
  have b13 := inverseLinearInterpolation_bounds isovalue V1.info V3.info
    (by rcases h with h | h <;> [left; right] <;> exact ⟨h.2.1, h.2.2.2⟩)
  unfold buildTriangles
  dsimp only
  generalize inverseLinearInterpolation isovalue V0.info V2.info = t02 at b02 ⊢
  generalize inverseLinearInterpolation isovalue V0.info V3.info = t03 at b03 ⊢
  generalize inverseLinearInterpolation isovalue V1.info V2.info = t12 at b12 ⊢
  generalize inverseLinearInterpolation isovalue V1.info V3.info = t13 at b13 ⊢
  have f0 := buildTriangles_first_side0 V0 V1 V2 V3 t02 t12 t13
  have f1 := buildTriangles_first_side1 V0 V1 V2 V3 t02 t12 t13
  have f2 := buildTriangles_first_side2 V0 V1 V2 V3 t02 t12 t13
  have f3 := buildTriangles_first_side3 V0 V1 V2 V3 t02 t12 t13
  have g0 := buildTriangles_second_side0 V0 V1 V2 V3 t02 t03 t13
  have g1 := buildTriangles_second_side1 V0 V1 V2 V3 t02 t03 t13
  have g2 := buildTriangles_second_side2 V0 V1 V2 V3 t02 t03 t13
  have g3 := buildTriangles_second_side3 V0 V1 V2 V3 t02 t03 t13
  have a0 : 0 < t02 * (1 - t12) * t13 := mul_pos (mul_pos b02.1 b12.2) b13.1
  have a1 : 0 < (1 - t02) * t12 * t13 := mul_pos (mul_pos b02.2 b12.1) b13.1
  have a2 : 0 < (1 - t02) * (1 - t12) * t13 := mul_pos (mul_pos b02.2 b12.2) b13.1
  have a3 : 0 < (1 - t02) * t12 * (1 - t13) := mul_pos (mul_pos b02.2 b12.1) b13.2
  have c0 : 0 < t02 * t03 * (1 - t13) := mul_pos (mul_pos b02.1 b03.1) b13.2
  have c1 : 0 < t02 * (1 - t03) * t13 := mul_pos (mul_pos b02.1 b03.2) b13.1
  have c2 : 0 < (1 - t02) * t03 * (1 - t13) := mul_pos (mul_pos b02.2 b03.1) b13.2
  have c3 : 0 < t02 * (1 - t03) * (1 - t13) := mul_pos (mul_pos b02.1 b03.2) b13.2
  rw [isCCW_eq, isCCW_eq, f0, g0]
  rcases lt_or_gt_of_ne hdet with hD | hD
  · have k0 := mul_neg_of_pos_of_neg a0 hD
    have k1 := mul_neg_of_pos_of_neg a1 hD
    have k2 := mul_neg_of_pos_of_neg a2 hD
    have k3 := mul_neg_of_pos_of_neg a3 hD
    have m0 := mul_neg_of_pos_of_neg c0 hD
    have m1 := mul_neg_of_pos_of_neg c1 hD
    have m2 := mul_neg_of_pos_of_neg c2 hD
    have m3 := mul_neg_of_pos_of_neg c3 hD
    rcases h with ⟨h0, h1, h2, h3⟩ | ⟨h0, h1, h2, h3⟩
    · have hx1 : Bool.xor (decide (V0.info > isovalue))
          (decide (t02 * (1 - t12) * t13 * tetraDet V0 V1 V2 V3 < 0)) = false := by
        simp [h0, k0]
      have hx2 : Bool.xor (decide (V0.info > isovalue))
          (decide (t02 * t03 * (1 - t13) * tetraDet V0 V1 V2 V3 < 0)) = false := by
        simp [h0, m0]
      simp only [hx1, hx2, Bool.false_eq_true, if_false]
      rw [pair_of_not_isPoint _ _
        (isPoint_false_of_normalSide _ V0 (by rw [f0]; exact ne_of_lt k0))
        (isPoint_false_of_normalSide _ V0 (by rw [g0]; exact ne_of_lt m0))]
      refine ⟨_, _, rfl, ?_, ?_⟩ <;>
        rintro P (rfl | rfl | rfl | rfl) <;> constructor <;> intro hP <;>
        first
        | (exfalso; linarith)
        | (simp only [f0, f1, f2, f3, g0, g1, g2, g3]; linarith)
    · have hx1 : Bool.xor (decide (V0.info > isovalue))
          (decide (t02 * (1 - t12) * t13 * tetraDet V0 V1 V2 V3 < 0)) = true := by
        simp [not_lt.mpr (le_of_lt h0), k0]
      have hx2 : Bool.xor (decide (V0.info > isovalue))
          (decide (t02 * t03 * (1 - t13) * tetraDet V0 V1 V2 V3 < 0)) = true := by
        simp [not_lt.mpr (le_of_lt h0), m0]
      simp only [hx1, hx2, if_true]
      rw [pair_of_not_isPoint _ _
        (isPoint_false_of_normalSide _ V0
          (by rw [normalSide_swap, f0]; exact neg_ne_zero.mpr (ne_of_lt k0)))
        (isPoint_false_of_normalSide _ V0
          (by rw [normalSide_swap, g0]; exact neg_ne_zero.mpr (ne_of_lt m0)))]
      refine ⟨_, _, rfl, ?_, ?_⟩ <;>
        rintro P (rfl | rfl | rfl | rfl) <;> constructor <;> intro hP <;>
        first
        | (exfalso; linarith)
        | (simp only [normalSide_swap, f0, f1, f2, f3, g0, g1, g2, g3]; linarith)
  · have k0 := mul_pos a0 hD
    have k1 := mul_pos a1 hD
    have k2 := mul_pos a2 hD
    have k3 := mul_pos a3 hD
    have m0 := mul_pos c0 hD
    have m1 := mul_pos c1 hD
    have m2 := mul_pos c2 hD
    have m3 := mul_pos c3 hD
    rcases h with ⟨h0, h1, h2, h3⟩ | ⟨h0, h1, h2, h3⟩
    · have hx1 : Bool.xor (decide (V0.info > isovalue))
          (decide (t02 * (1 - t12) * t13 * tetraDet V0 V1 V2 V3 < 0)) = true := by
        simp [h0, not_lt.mpr (le_of_lt k0)]
      have hx2 : Bool.xor (decide (V0.info > isovalue))
          (decide (t02 * t03 * (1 - t13) * tetraDet V0 V1 V2 V3 < 0)) = true := by
        simp [h0, not_lt.mpr (le_of_lt m0)]
      simp only [hx1, hx2, if_true]
      rw [pair_of_not_isPoint _ _
        (isPoint_false_of_normalSide _ V0
          (by rw [normalSide_swap, f0]; exact neg_ne_zero.mpr (ne_of_gt k0)))
        (isPoint_false_of_normalSide _ V0
          (by rw [normalSide_swap, g0]; exact neg_ne_zero.mpr (ne_of_gt m0)))]
      refine ⟨_, _, rfl, ?_, ?_⟩ <;>
        rintro P (rfl | rfl | rfl | rfl) <;> constructor <;> intro hP <;>
        first
        | (exfalso; linarith)
        | (simp only [normalSide_swap, f0, f1, f2, f3, g0, g1, g2, g3]; linarith)
    · have hx1 : Bool.xor (decide (V0.info > isovalue))
          (decide (t02 * (1 - t12) * t13 * tetraDet V0 V1 V2 V3 < 0)) = false := by
        simp [not_lt.mpr (le_of_lt h0), not_lt.mpr (le_of_lt k0)]
      have hx2 : Bool.xor (decide (V0.info > isovalue))
          (decide (t02 * t03 * (1 - t13) * tetraDet V0 V1 V2 V3 < 0)) = false := by
        simp [not_lt.mpr (le_of_lt h0), not_lt.mpr (le_of_lt m0)]
      simp only [hx1, hx2, Bool.false_eq_true, if_false]
      rw [pair_of_not_isPoint _ _
        (isPoint_false_of_normalSide _ V0 (by rw [f0]; exact ne_of_gt k0))
        (isPoint_false_of_normalSide _ V0 (by rw [g0]; exact ne_of_gt m0))]
      refine ⟨_, _, rfl, ?_, ?_⟩ <;>
        rintro P (rfl | rfl | rfl | rfl) <;> constructor <;> intro hP <;>
        first
        | (exfalso; linarith)
        | (simp only [f0, f1, f2, f3, g0, g1, g2, g3]; linarith)

/-! ### `marchTetrahedra`, one equation per sign pattern (`s0 s1 s2 s3`) -/

theorem marchTetrahedra_0000 (V0 V1 V2 V3 : Vector3) (isovalue : ℚ)
    (c0 : ¬ V0.info > isovalue) (c1 : ¬ V1.info > isovalue) (c2 : ¬ V2.info > isovalue) (c3 : ¬ V3.info > isovalue) :
    marchTetrahedra V0 V1 V2 V3 isovalue = [] := by
  unfold marchTetrahedra
  simp only [c0, c1, c2, c3, if_true, if_false, and_self, and_true, and_false, true_and,
    false_and, one_ne_zero, zero_ne_one]

theorem marchTetrahedra_1111 (V0 V1 V2 V3 : Vector3) (isovalue : ℚ)
    (c0 : V0.info > isovalue) (c1 : V1.info > isovalue) (c2 : V2.info > isovalue) (c3 : V3.info > isovalue) :
    marchTetrahedra V0 V1 V2 V3 isovalue = [] := by
  unfold marchTetrahedra
  simp only [c0, c1, c2, c3, if_true, if_false, and_self, and_true, and_false, true_and,
    false_and, one_ne_zero, zero_ne_one]

theorem marchTetrahedra_1000 (V0 V1 V2 V3 : Vector3) (isovalue : ℚ)
    (c0 : V0.info > isovalue) (c1 : ¬ V1.info > isovalue) (c2 : ¬ V2.info > isovalue) (c3 : ¬ V3.info > isovalue) :
    marchTetrahedra V0 V1 V2 V3 isovalue = pushIfNotNull [] (buildTriangle V0 V1 V2 V3 isovalue) := by
  unfold marchTetrahedra
  simp only [c0, c1, c2, c3, if_true, if_false, and_self, and_true, and_false, true_and,
    false_and, one_ne_zero, zero_ne_one]

theorem marchTetrahedra_0100 (V0 V1 V2 V3 : Vector3) (isovalue : ℚ)
    (c0 : ¬ V0.info > isovalue) (c1 : V1.info > isovalue) (c2 : ¬ V2.info > isovalue) (c3 : ¬ V3.info > isovalue) :
    marchTetrahedra V0 V1 V2 V3 isovalue = pushIfNotNull [] (buildTriangle V1 V2 V0 V3 isovalue) := by
  unfold marchTetrahedra
  simp only [c0, c1, c2, c3, if_true, if_false, and_self, and_true, and_false, true_and,
    false_and, one_ne_zero, zero_ne_one]

theorem marchTetrahedra_1100 (V0 V1 V2 V3 : Vector3) (isovalue : ℚ)
    (c0 : V0.info > isovalue) (c1 : V1.info > isovalue) (c2 : ¬ V2.info > isovalue) (c3 : ¬ V3.info > isovalue) :
    marchTetrahedra V0 V1 V2 V3 isovalue = pushAll [] (buildTriangles V0 V1 V2 V3 isovalue) := by
  unfold marchTetrahedra
  simp only [c0, c1, c2, c3, if_true, if_false, and_self, and_true, and_false, true_and,
    false_and, one_ne_zero, zero_ne_one]

theorem marchTetrahedra_0010 (V0 V1 V2 V3 : Vector3) (isovalue : ℚ)
    (c0 : ¬ V0.info > isovalue) (c1 : ¬ V1.info > isovalue) (c2 : V2.info > isovalue) (c3 : ¬ V3.info > isovalue) :
    marchTetrahedra V0 V1 V2 V3 isovalue = pushIfNotNull [] (buildTriangle V2 V0 V1 V3 isovalue) := by
  unfold marchTetrahedra
  simp only [c0, c1, c2, c3, if_true, if_false, and_self, and_true, and_false, true_and,
    false_and, one_ne_zero, zero_ne_one]

theorem marchTetrahedra_1010 (V0 V1 V2 V3 : Vector3) (isovalue : ℚ)
    (c0 : V0.info > isovalue) (c1 : ¬ V1.info > isovalue) (c2 : V2.info > isovalue) (c3 : ¬ V3.info > isovalue) :
    marchTetrahedra V0 V1 V2 V3 isovalue = pushAll [] (buildTriangles V0 V2 V1 V3 isovalue) := by
  unfold marchTetrahedra
  simp only [c0, c1, c2, c3, if_true, if_false, and_self, and_true, and_false, true_and,
    false_and, one_ne_zero, zero_ne_one]

theorem marchTetrahedra_0110 (V0 V1 V2 V3 : Vector3) (isovalue : ℚ)
    (c0 : ¬ V0.info > isovalue) (c1 : V1.info > isovalue) (c2 : V2.info > isovalue) (c3 : ¬ V3.info > isovalue) :
    marchTetrahedra V0 V1 V2 V3 isovalue = pushAll [] (buildTriangles V1 V2 V0 V3 isovalue) := by
  unfold marchTetrahedra
  simp only [c0, c1, c2, c3, if_true, if_false, and_self, and_true, and_false, true_and,
    false_and, one_ne_zero, zero_ne_one]

theorem marchTetrahedra_1110 (V0 V1 V2 V3 : Vector3) (isovalue : ℚ)
    (c0 : V0.info > isovalue) (c1 : V1.info > isovalue) (c2 : V2.info > isovalue) (c3 : ¬ V3.info > isovalue) :
    marchTetrahedra V0 V1 V2 V3 isovalue = pushIfNotNull [] (buildTriangle V3 V0 V2 V1 isovalue) := by
  unfold marchTetrahedra
  simp only [c0, c1, c2, c3, if_true, if_false, and_self, and_true, and_false, true_and,
    false_and, one_ne_zero, zero_ne_one]

theorem marchTetrahedra_0001 (V0 V1 V2 V3 : Vector3) (isovalue : ℚ)
    (c0 : ¬ V0.info > isovalue) (c1 : ¬ V1.info > isovalue) (c2 : ¬ V2.info > isovalue) (c3 : V3.info > isovalue) :
    marchTetrahedra V0 V1 V2 V3 isovalue = pushIfNotNull [] (buildTriangle V3 V2 V1 V0 isovalue) := by
  unfold marchTetrahedra
  simp only [c0, c1, c2, c3, if_true, if_false, and_self, and_true, and_false, true_and,
    false_and, one_ne_zero, zero_ne_one]

theorem marchTetrahedra_1001 (V0 V1 V2 V3 : Vector3) (isovalue : ℚ)
    (c0 : V0.info > isovalue) (c1 : ¬ V1.info > isovalue) (c2 : ¬ V2.info > isovalue) (c3 : V3.info > isovalue) :
    marchTetrahedra V0 V1 V2 V3 isovalue = pushAll [] (buildTriangles V0 V3 V1 V2 isovalue) := by
  unfold marchTetrahedra
  simp only [c0, c1, c2, c3, if_true, if_false, and_self, and_true, and_false, true_and,
    false_and, one_ne_zero, zero_ne_one]

theorem marchTetrahedra_0101 (V0 V1 V2 V3 : Vector3) (isovalue : ℚ)
    (c0 : ¬ V0.info > isovalue) (c1 : V1.info > isovalue) (c2 : ¬ V2.info > isovalue) (c3 : V3.info > isovalue) :
    marchTetrahedra V0 V1 V2 V3 isovalue = pushAll [] (buildTriangles V1 V3 V0 V2 isovalue) := by
  unfold marchTetrahedra
  simp only [c0, c1, c2, c3, if_true, if_false, and_self, and_true, and_false, true_and,
    false_and, one_ne_zero, zero_ne_one]

theorem marchTetrahedra_1101 (V0 V1 V2 V3 : Vector3) (isovalue : ℚ)
    (c0 : V0.info > isovalue) (c1 : V1.info > isovalue) (c2 : ¬ V2.info > isovalue) (c3 : V3.info > isovalue) :
    marchTetrahedra V0 V1 V2 V3 isovalue = pushIfNotNull [] (buildTriangle V2 V0 V1 V3 isovalue) := by
  unfold marchTetrahedra
  simp only [c0, c1, c2, c3, if_true, if_false, and_self, and_true, and_false, true_and,
    false_and, one_ne_zero, zero_ne_one]

theorem marchTetrahedra_0011 (V0 V1 V2 V3 : Vector3) (isovalue : ℚ)
    (c0 : ¬ V0.info > isovalue) (c1 : ¬ V1.info > isovalue) (c2 : V2.info > isovalue) (c3 : V3.info > isovalue) :
    marchTetrahedra V0 V1 V2 V3 isovalue = pushAll [] (buildTriangles V2 V3 V0 V1 isovalue) := by
  unfold marchTetrahedra
  simp only [c0, c1, c2, c3, if_true, if_false, and_self, and_true, and_false, true_and,
    false_and, one_ne_zero, zero_ne_one]

theorem marchTetrahedra_1011 (V0 V1 V2 V3 : Vector3) (isovalue : ℚ)
    (c0 : V0.info > isovalue) (c1 : ¬ V1.info > isovalue) (c2 : V2.info > isovalue) (c3 : V3.info > isovalue) :
    marchTetrahedra V0 V1 V2 V3 isovalue = pushIfNotNull [] (buildTriangle V1 V2 V0 V3 isovalue) := by
  unfold marchTetrahedra
  simp only [c0, c1, c2, c3, if_true, if_false, and_self, and_true, and_false, true_and,
    false_and, one_ne_zero, zero_ne_one]

theorem marchTetrahedra_0111 (V0 V1 V2 V3 : Vector3) (isovalue : ℚ)
    (c0 : ¬ V0.info > isovalue) (c1 : V1.info > isovalue) (c2 : V2.info > isovalue) (c3 : V3.info > isovalue) :
    marchTetrahedra V0 V1 V2 V3 isovalue = pushIfNotNull [] (buildTriangle V0 V1 V2 V3 isovalue) := by
  unfold marchTetrahedra
  simp only [c0, c1, c2, c3, if_true, if_false, and_self, and_true, and_false, true_and,
    false_and, one_ne_zero, zero_ne_one]

/-! ### The signed volume under the corner orders used by `marchTetrahedra` -/

theorem tetraDet_1203 (V0 V1 V2 V3 : Vector3) :
    tetraDet V1 V2 V0 V3 = tetraDet V0 V1 V2 V3 := by
  simp only [tetraDet, Vector3.dot, Vector3.cross, Vector3.sub, Vector3.new]
  ring

theorem tetraDet_2013 (V0 V1 V2 V3 : Vector3) :
    tetraDet V2 V0 V1 V3 = tetraDet V0 V1 V2 V3 := by
  simp only [tetraDet, Vector3.dot, Vector3.cross, Vector3.sub, Vector3.new]
  ring

theorem tetraDet_3021 (V0 V1 V2 V3 : Vector3) :
    tetraDet V3 V0 V2 V1 = tetraDet V0 V1 V2 V3 := by
  simp only [tetraDet, Vector3.dot, Vector3.cross, Vector3.sub, Vector3.new]
  ring

theorem tetraDet_3210 (V0 V1 V2 V3 : Vector3) :
    tetraDet V3 V2 V1 V0 = tetraDet V0 V1 V2 V3 := by
  simp only [tetraDet, Vector3.dot, Vector3.cross, Vector3.sub, Vector3.new]
  ring

theorem tetraDet_0213 (V0 V1 V2 V3 : Vector3) :
    tetraDet V0 V2 V1 V3 = - tetraDet V0 V1 V2 V3 := by
  simp only [tetraDet, Vector3.dot, Vector3.cross, Vector3.sub, Vector3.new]
  ring

theorem tetraDet_0312 (V0 V1 V2 V3 : Vector3) :
    tetraDet V0 V3 V1 V2 = tetraDet V0 V1 V2 V3 := by
  simp only [tetraDet, Vector3.dot, Vector3.cross, Vector3.sub, Vector3.new]
  ring

theorem tetraDet_1302 (V0 V1 V2 V3 : Vector3) :
    tetraDet V1 V3 V0 V2 = - tetraDet V0 V1 V2 V3 := by
  simp only [tetraDet, Vector3.dot, Vector3.cross, Vector3.sub, Vector3.new]
  ring

theorem tetraDet_2301 (V0 V1 V2 V3 : Vector3) :
    tetraDet V2 V3 V0 V1 = tetraDet V0 V1 V2 V3 := by
  simp only [tetraDet, Vector3.dot, Vector3.cross, Vector3.sub, Vector3.new]
  ring

/-! ### The corner orders used by `marchTetrahedra` list the same four corners -/

theorem bitsAbove_le (V0 V1 V2 V3 : Vector3) (isovalue : ℚ) :
    bitsAbove V0 V1 V2 V3 isovalue ≤ 4 := by
  unfold bitsAbove
  have h0 := Bool.toNat_le (signBit V0 isovalue)
  have h1 := Bool.toNat_le (signBit V1 isovalue)
  have h2 := Bool.toNat_le (signBit V2 isovalue)
  have h3 := Bool.toNat_le (signBit V3 isovalue)
  omega

theorem mem_pushIfNotNull {o : Option Triangle} {T : Triangle} (h : T ∈ pushIfNotNull [] o) :
    o = some T := by
  cases o with
  | none => simp [pushIfNotNull] at h
  | some t => simp [pushIfNotNull] at h; rw [h]

theorem buildTriangle_vertices {V0 V1 V2 V3 : Vector3} {isovalue : ℚ} {T : Triangle}
    (h : buildTriangle V0 V1 V2 V3 isovalue = some T) (P : Vector3)
    (hP : P = T.v0 ∨ P = T.v1 ∨ P = T.v2) :
    P = crossing V0 V1 isovalue ∨ P = crossing V0 V2 isovalue ∨ P = crossing V0 V3 isovalue := by
  unfold buildTriangle at h
  dsimp only at h
  unfold crossing
  split_ifs at h with hx hp hp
  all_goals
    injection h with h
    subst h
    rcases hP with rfl | rfl | rfl <;> simp

theorem buildTriangles_vertices {V0 V1 V2 V3 : Vector3} {isovalue : ℚ} {T : Triangle}
    (h : T ∈ buildTriangles V0 V1 V2 V3 isovalue) (P : Vector3)
    (hP : P = T.v0 ∨ P = T.v1 ∨ P = T.v2) :
    P = crossing V0 V2 isovalue ∨ P = crossing V1 V2 isovalue ∨
      P = crossing V1 V3 isovalue ∨ P = crossing V0 V3 isovalue := by
  unfold buildTriangles at h
  dsimp only at h
  unfold crossing
  split_ifs at h with h1 h2 h3 h4 h5 h6 h7 h8 h9 <;>
    simp only [List.nil_append, List.cons_append, List.mem_cons, List.mem_singleton,
      List.not_mem_nil, or_false] at h
  all_goals rcases h with rfl | rfl <;> rcases hP with rfl | rfl | rfl <;> simp

theorem marchTetrahedra_vertex {V0 V1 V2 V3 : Vector3} {isovalue : ℚ} {T : Triangle}
    (hT : T ∈ marchTetrahedra V0 V1 V2 V3 isovalue) (P : Vector3)
    (hP : P = T.v0 ∨ P = T.v1 ∨ P = T.v2) : IsCrossing V0 V1 V2 V3 isovalue P := by
  unfold IsCrossing
  by_cases c0 : V0.info > isovalue
  · by_cases c1 : V1.info > isovalue
    · by_cases c2 : V2.info > isovalue
      · by_cases c3 : V3.info > isovalue
        · rw [marchTetrahedra_1111 V0 V1 V2 V3 isovalue c0 c1 c2 c3] at hT
          exact absurd hT (List.not_mem_nil T)
        · rw [marchTetrahedra_1110 V0 V1 V2 V3 isovalue c0 c1 c2 c3] at hT
          rcases buildTriangle_vertices (mem_pushIfNotNull hT) P hP with rfl | rfl | rfl
          · exact ⟨V3, V0, Or.inr (Or.inr (Or.inr rfl)), Or.inl rfl, by simp [signBit, c0, c1, c2, c3], rfl⟩
          · exact ⟨V3, V2, Or.inr (Or.inr (Or.inr rfl)), Or.inr (Or.inr (Or.inl rfl)), by simp [signBit, c0, c1, c2, c3], rfl⟩
          · exact ⟨V3, V1, Or.inr (Or.inr (Or.inr rfl)), Or.inr (Or.inl rfl), by simp [signBit, c0, c1, c2, c3], rfl⟩
      · by_cases c3 : V3.info > isovalue
        · rw [marchTetrahedra_1101 V0 V1 V2 V3 isovalue c0 c1 c2 c3] at hT
          rcases buildTriangle_vertices (mem_pushIfNotNull hT) P hP with rfl | rfl | rfl
          · exact ⟨V2, V0, Or.inr (Or.inr (Or.inl rfl)), Or.inl rfl, by simp [signBit, c0, c1, c2, c3], rfl⟩
          · exact ⟨V2, V1, Or.inr (Or.inr (Or.inl rfl)), Or.inr (Or.inl rfl), by simp [signBit, c0, c1, c2, c3], rfl⟩
          · exact ⟨V2, V3, Or.inr (Or.inr (Or.inl rfl)), Or.inr (Or.inr (Or.inr rfl)), by simp [signBit, c0, c1, c2, c3], rfl⟩
        · rw [marchTetrahedra_1100 V0 V1 V2 V3 isovalue c0 c1 c2 c3] at hT
          rw [pushAll_eq_append, List.nil_append] at hT
          rcases buildTriangles_vertices hT P hP with rfl | rfl | rfl | rfl
          · exact ⟨V0, V2, Or.inl rfl, Or.inr (Or.inr (Or.inl rfl)), by simp [signBit, c0, c1, c2, c3], rfl⟩
          · exact ⟨V1, V2, Or.inr (Or.inl rfl), Or.inr (Or.inr (Or.inl rfl)), by simp [signBit, c0, c1, c2, c3], rfl⟩
          · exact ⟨V1, V3, Or.inr (Or.inl rfl), Or.inr (Or.inr (Or.inr rfl)), by simp [signBit, c0, c1, c2, c3], rfl⟩
          · exact ⟨V0, V3, Or.inl rfl, Or.inr (Or.inr (Or.inr rfl)), by simp [signBit, c0, c1, c2, c3], rfl⟩
    · by_cases c2 : V2.info > isovalue
      · by_cases c3 : V3.info > isovalue
        · rw [marchTetrahedra_1011 V0 V1 V2 V3 isovalue c0 c1 c2 c3] at hT
          rcases buildTriangle_vertices (mem_pushIfNotNull hT) P hP with rfl | rfl | rfl
          · exact ⟨V1, V2, Or.inr (Or.inl rfl), Or.inr (Or.inr (Or.inl rfl)), by simp [signBit, c0, c1, c2, c3], rfl⟩
          · exact ⟨V1, V0, Or.inr (Or.inl rfl), Or.inl rfl, by simp [signBit, c0, c1, c2, c3], rfl⟩
          · exact ⟨V1, V3, Or.inr (Or.inl rfl), Or.inr (Or.inr (Or.inr rfl)), by simp [signBit, c0, c1, c2, c3], rfl⟩
        · rw [marchTetrahedra_1010 V0 V1 V2 V3 isovalue c0 c1 c2 c3] at hT
          rw [pushAll_eq_append, List.nil_append] at hT
          rcases buildTriangles_vertices hT P hP with rfl | rfl | rfl | rfl
          · exact ⟨V0, V1, Or.inl rfl, Or.inr (Or.inl rfl), by simp [signBit, c0, c1, c2, c3], rfl⟩
          · exact ⟨V2, V1, Or.inr (Or.inr (Or.inl rfl)), Or.inr (Or.inl rfl), by simp [signBit, c0, c1, c2, c3], rfl⟩
          · exact ⟨V2, V3, Or.inr (Or.inr (Or.inl rfl)), Or.inr (Or.inr (Or.inr rfl)), by simp [signBit, c0, c1, c2, c3], rfl⟩
          · exact ⟨V0, V3, Or.inl rfl, Or.inr (Or.inr (Or.inr rfl)), by simp [signBit, c0, c1, c2, c3], rfl⟩
      · by_cases c3 : V3.info > isovalue
        · rw [marchTetrahedra_1001 V0 V1 V2 V3 isovalue c0 c1 c2 c3] at hT
          rw [pushAll_eq_append, List.nil_append] at hT
          rcases buildTriangles_vertices hT P hP with rfl | rfl | rfl | rfl
          · exact ⟨V0, V1, Or.inl rfl, Or.inr (Or.inl rfl), by simp [signBit, c0, c1, c2, c3], rfl⟩
          · exact ⟨V3, V1, Or.inr (Or.inr (Or.inr rfl)), Or.inr (Or.inl rfl), by simp [signBit, c0, c1, c2, c3], rfl⟩
          · exact ⟨V3, V2, Or.inr (Or.inr (Or.inr rfl)), Or.inr (Or.inr (Or.inl rfl)), by simp [signBit, c0, c1, c2, c3], rfl⟩
          · exact ⟨V0, V2, Or.inl rfl, Or.inr (Or.inr (Or.inl rfl)), by simp [signBit, c0, c1, c2, c3], rfl⟩
        · rw [marchTetrahedra_1000 V0 V1 V2 V3 isovalue c0 c1 c2 c3] at hT
          rcases buildTriangle_vertices (mem_pushIfNotNull hT) P hP with rfl | rfl | rfl
          · exact ⟨V0, V1, Or.inl rfl, Or.inr (Or.inl rfl), by simp [signBit, c0, c1, c2, c3], rfl⟩
          · exact ⟨V0, V2, Or.inl rfl, Or.inr (Or.inr (Or.inl rfl)), by simp [signBit, c0, c1, c2, c3], rfl⟩
          · exact ⟨V0, V3, Or.inl rfl, Or.inr (Or.inr (Or.inr rfl)), by simp [signBit, c0, c1, c2, c3], rfl⟩
  · by_cases c1 : V1.info > isovalue
    · by_cases c2 : V2.info > isovalue
      · by_cases c3 : V3.info > isovalue
        · rw [marchTetrahedra_0111 V0 V1 V2 V3 isovalue c0 c1 c2 c3] at hT
          rcases buildTriangle_vertices (mem_pushIfNotNull hT) P hP with rfl | rfl | rfl
          · exact ⟨V0, V1, Or.inl rfl, Or.inr (Or.inl rfl), by simp [signBit, c0, c1, c2, c3], rfl⟩
          · exact ⟨V0, V2, Or.inl rfl, Or.inr (Or.inr (Or.inl rfl)), by simp [signBit, c0, c1, c2, c3], rfl⟩
          · exact ⟨V0, V3, Or.inl rfl, Or.inr (Or.inr (Or.inr rfl)), by simp [signBit, c0, c1, c2, c3], rfl⟩
        · rw [marchTetrahedra_0110 V0 V1 V2 V3 isovalue c0 c1 c2 c3] at hT
          rw [pushAll_eq_append, List.nil_append] at hT
          rcases buildTriangles_vertices hT P hP with rfl | rfl | rfl | rfl
          · exact ⟨V1, V0, Or.inr (Or.inl rfl), Or.inl rfl, by simp [signBit, c0, c1, c2, c3], rfl⟩
          · exact ⟨V2, V0, Or.inr (Or.inr (Or.inl rfl)), Or.inl rfl, by simp [signBit, c0, c1, c2, c3], rfl⟩
          · exact ⟨V2, V3, Or.inr (Or.inr (Or.inl rfl)), Or.inr (Or.inr (Or.inr rfl)), by simp [signBit, c0, c1, c2, c3], rfl⟩
          · exact ⟨V1, V3, Or.inr (Or.inl rfl), Or.inr (Or.inr (Or.inr rfl)), by simp [signBit, c0, c1, c2, c3], rfl⟩
      · by_cases c3 : V3.info > isovalue
        · rw [marchTetrahedra_0101 V0 V1 V2 V3 isovalue c0 c1 c2 c3] at hT
          rw [pushAll_eq_append, List.nil_append] at hT
          rcases buildTriangles_vertices hT P hP with rfl | rfl | rfl | rfl
          · exact ⟨V1, V0, Or.inr (Or.inl rfl), Or.inl rfl, by simp [signBit, c0, c1, c2, c3], rfl⟩
          · exact ⟨V3, V0, Or.inr (Or.inr (Or.inr rfl)), Or.inl rfl, by simp [signBit, c0, c1, c2, c3], rfl⟩
          · exact ⟨V3, V2, Or.inr (Or.inr (Or.inr rfl)), Or.inr (Or.inr (Or.inl rfl)), by simp [signBit, c0, c1, c2, c3], rfl⟩
          · exact ⟨V1, V2, Or.inr (Or.inl rfl), Or.inr (Or.inr (Or.inl rfl)), by simp [signBit, c0, c1, c2, c3], rfl⟩
        · rw [marchTetrahedra_0100 V0 V1 V2 V3 isovalue c0 c1 c2 c3] at hT
          rcases buildTriangle_vertices (mem_pushIfNotNull hT) P hP with rfl | rfl | rfl
          · exact ⟨V1, V2, Or.inr (Or.inl rfl), Or.inr (Or.inr (Or.inl rfl)), by simp [signBit, c0, c1, c2, c3], rfl⟩
          · exact ⟨V1, V0, Or.inr (Or.inl rfl), Or.inl rfl, by simp [signBit, c0, c1, c2, c3], rfl⟩
          · exact ⟨V1, V3, Or.inr (Or.inl rfl), Or.inr (Or.inr (Or.inr rfl)), by simp [signBit, c0, c1, c2, c3], rfl⟩
    · by_cases c2 : V2.info > isovalue
      · by_cases c3 : V3.info > isovalue
        · rw [marchTetrahedra_0011 V0 V1 V2 V3 isovalue c0 c1 c2 c3] at hT
          rw [pushAll_eq_append, List.nil_append] at hT
          rcases buildTriangles_vertices hT P hP with rfl | rfl | rfl | rfl
          · exact ⟨V2, V0, Or.inr (Or.inr (Or.inl rfl)), Or.inl rfl, by simp [signBit, c0, c1, c2, c3], rfl⟩
          · exact ⟨V3, V0, Or.inr (Or.inr (Or.inr rfl)), Or.inl rfl, by simp [signBit, c0, c1, c2, c3], rfl⟩
          · exact ⟨V3, V1, Or.inr (Or.inr (Or.inr rfl)), Or.inr (Or.inl rfl), by simp [signBit, c0, c1, c2, c3], rfl⟩
          · exact ⟨V2, V1, Or.inr (Or.inr (Or.inl rfl)), Or.inr (Or.inl rfl), by simp [signBit, c0, c1, c2, c3], rfl⟩
        · rw [marchTetrahedra_0010 V0 V1 V2 V3 isovalue c0 c1 c2 c3] at hT
          rcases buildTriangle_vertices (mem_pushIfNotNull hT) P hP with rfl | rfl | rfl
          · exact ⟨V2, V0, Or.inr (Or.inr (Or.inl rfl)), Or.inl rfl, by simp [signBit, c0, c1, c2, c3], rfl⟩
          · exact ⟨V2, V1, Or.inr (Or.inr (Or.inl rfl)), Or.inr (Or.inl rfl), by simp [signBit, c0, c1, c2, c3], rfl⟩
          · exact ⟨V2, V3, Or.inr (Or.inr (Or.inl rfl)), Or.inr (Or.inr (Or.inr rfl)), by simp [signBit, c0, c1, c2, c3], rfl⟩
      · by_cases c3 : V3.info > isovalue
        · rw [marchTetrahedra_0001 V0 V1 V2 V3 isovalue c0 c1 c2 c3] at hT
          rcases buildTriangle_vertices (mem_pushIfNotNull hT) P hP with rfl | rfl | rfl
          · exact ⟨V3, V2, Or.inr (Or.inr (Or.inr rfl)), Or.inr (Or.inr (Or.inl rfl)), by simp [signBit, c0, c1, c2, c3], rfl⟩
          · exact ⟨V3, V1, Or.inr (Or.inr (Or.inr rfl)), Or.inr (Or.inl rfl), by simp [signBit, c0, c1, c2, c3], rfl⟩
          · exact ⟨V3, V0, Or.inr (Or.inr (Or.inr rfl)), Or.inl rfl, by simp [signBit, c0, c1, c2, c3], rfl⟩
        · rw [marchTetrahedra_0000 V0 V1 V2 V3 isovalue c0 c1 c2 c3] at hT
          exact absurd hT (List.not_mem_nil T)

theorem equal_self (A : Vector3) : A.equal A = true := by
  simp [Vector3.equal]

theorem onSegment_crossing (A B : Vector3) (isovalue : ℚ)
    (h : (isovalue < A.info ∧ B.info < isovalue) ∨ (A.info < isovalue ∧ isovalue < B.info)) :
    onSegment A B (crossing A B isovalue) ∧ onSegment B A (crossing A B isovalue) := by
  obtain ⟨h0, h1⟩ := inverseLinearInterpolation_bounds isovalue A.info B.info h
  constructor
  · exact ⟨_, le_of_lt h0, by linarith, equal_self _⟩
  · refine ⟨1 - inverseLinearInterpolation isovalue A.info B.info, le_of_lt h1, by linarith, ?_⟩
    simp only [crossing, Vector3.equal, Vector3.interpolate, Vector3.add, Vector3.multiply,
      Vector3.new, Bool.and_eq_true, decide_eq_true_eq]
    refine ⟨⟨?_, ?_⟩, ?_⟩ <;> ring

theorem single_corner_edge (v : Fin 8 → Vector3) (isovalue : ℚ) (c : Fin 8)
    (hc : isovalue < (v c).info) (hothers : ∀ d : Fin 8, d ≠ c → (v d).info < isovalue)
    (i j : Fin 8) (hij : ∃ t ∈ tetrahedra, i ∈ t ∧ j ∈ t)
    (hs : signBit (v i) isovalue ≠ signBit (v j) isovalue) :
    ∃ d ∈ tetNeighbours c, onSegment (v c) (v d) (crossing (v i) (v j) isovalue) := by
  have hbit : ∀ d : Fin 8, signBit (v d) isovalue = decide (d = c) := by
    intro d
    by_cases hd : d = c
    · subst hd; simp [signBit, hc]
    · simp [signBit, hd, not_lt.mpr (le_of_lt (hothers d hd))]
  have hmem : ∀ a b : Fin 8, (∃ t ∈ tetrahedra, a ∈ t ∧ b ∈ t) → b ≠ a →
      b ∈ tetNeighbours a := by
    intro a b ⟨t, ht, ha, hb⟩ hne
    simp only [tetNeighbours, List.mem_filter, List.mem_finRange, true_and, Bool.and_eq_true,
      decide_eq_true_eq, List.any_eq_true]
    exact ⟨hne, t, ht, ha, hb⟩
  rw [hbit i, hbit j] at hs
  by_cases hi : i = c
  · have hj : j ≠ c := by
      intro hj; apply hs; simp [hi, hj]
    subst hi
    exact ⟨j, hmem i j hij hj,
      (onSegment_crossing (v i) (v j) isovalue (Or.inl ⟨hc, hothers j hj⟩)).1⟩
  · have hj : j = c := by
      by_contra hj; apply hs; simp [hi, hj]
    subst hj
    obtain ⟨t, ht, h1, h2⟩ := hij
    exact ⟨i, hmem j i ⟨t, ht, h2, h1⟩ hi,
      (onSegment_crossing (v i) (v j) isovalue (Or.inr ⟨hothers i hi, hc⟩)).2⟩

theorem single_corner_tetrahedron (v : Fin 8 → Vector3) (isovalue : ℚ) (c : Fin 8)
    (hc : isovalue < (v c).info) (hothers : ∀ d : Fin 8, d ≠ c → (v d).info < isovalue)
    (a b e g : Fin 8) (ht : [a, b, e, g] ∈ tetrahedra) (T : Triangle)
    (hT : T ∈ marchTetrahedra (v a) (v b) (v e) (v g) isovalue) (P : Vector3)
    (hP : P = T.v0 ∨ P = T.v1 ∨ P = T.v2) :
    ∃ d ∈ tetNeighbours c, onSegment (v c) (v d) P := by
  obtain ⟨A, B, hA, hB, hs, rfl⟩ := marchTetrahedra_vertex hT P hP
  have hA2 : ∃ i : Fin 8, i ∈ [a, b, e, g] ∧ A = v i := by
    rcases hA with h | h | h | h
    · exact ⟨a, by simp, h⟩
    · exact ⟨b, by simp, h⟩
    · exact ⟨e, by simp, h⟩
    · exact ⟨g, by simp, h⟩
  have hB2 : ∃ j : Fin 8, j ∈ [a, b, e, g] ∧ B = v j := by
    rcases hB with h | h | h | h
    · exact ⟨a, by simp, h⟩
    · exact ⟨b, by simp, h⟩
    · exact ⟨e, by simp, h⟩
    · exact ⟨g, by simp, h⟩
  obtain ⟨i, hi, rfl⟩ := hA2
  obtain ⟨j, hj, rfl⟩ := hB2
  exact single_corner_edge v isovalue c hc hothers i j ⟨_, ht, hi, hj⟩ hs

/-- C8, counterexample: in the unit cell with only corner `0` above the isovalue,
the point `(1/2, 1/2, 0)`, the middle of the face diagonal from corner `0` to
corner `5`, is a vertex of both returned triangles, and it lies on none of the
three cube edges at corner `0`. -/
theorem face_diagonal_vertex_off_cube_edges :
    marchCellTetrahedra (spikeCell 0) (spikeCell 1) (spikeCell 2) (spikeCell 3) (spikeCell 4)
        (spikeCell 5) (spikeCell 6) (spikeCell 7) 0 =
      [⟨Vector3.new (1 / 2) 0 0, Vector3.new (1 / 2) (1 / 2) 0, Vector3.new 0 0 (1 / 2)⟩,
       ⟨Vector3.new 0 0 (1 / 2), Vector3.new (1 / 2) (1 / 2) 0, Vector3.new 0 (1 / 2) 0⟩] ∧
    ¬ ∃ d ∈ cubeEdgeNeighbours 0,
      onSegment (spikeCell 0) (spikeCell d) (Vector3.new (1 / 2) (1 / 2) 0) := by
  refine ⟨by decide!, ?_⟩
  rintro ⟨d, hd, t, _, _, heq⟩
  simp only [cubeEdgeNeighbours, List.mem_cons, List.mem_singleton, List.not_mem_nil,
    or_false] at hd
  rcases hd with rfl | rfl | rfl <;>
    simp [spikeCell, Vector3.equal, Vector3.interpolate, Vector3.add, Vector3.multiply,
      Vector3.new] at heq

/-- C8, amended: in a cell with exactly one corner `c` above the isovalue and the
other seven below it, every vertex of every triangle returned by
`marchCellTetrahedra` lies on a segment from corner `c` to a corner that shares
one of the six tetrahedra with `c`: on an edge of the decomposition at `c`,
which is a cube edge, a face diagonal or the body diagonal `3 5`. -/
theorem single_corner_vertices_on_tetrahedron_edges (v : Fin 8 → Vector3) (isovalue : ℚ)
    (c : Fin 8) (hc : isovalue < (v c).info)
    (hothers : ∀ d : Fin 8, d ≠ c → (v d).info < isovalue) :
    ∀ T ∈ marchCellTetrahedra (v 0) (v 1) (v 2) (v 3) (v 4) (v 5) (v 6) (v 7) isovalue,
      ∀ P : Vector3, P = T.v0 ∨ P = T.v1 ∨ P = T.v2 →
        ∃ d ∈ tetNeighbours c, onSegment (v c) (v d) P := by
  intro T hT P hP
  rcases marchCellTetrahedra_mem hT with h | h | h | h | h | h
  · exact single_corner_tetrahedron v isovalue c hc hothers 0 1 3 5 (by decide) T h P hP
  · exact single_corner_tetrahedron v isovalue c hc hothers 1 2 3 5 (by decide) T h P hP
  · exact single_corner_tetrahedron v isovalue c hc hothers 0 3 4 5 (by decide) T h P hP
  · exact single_corner_tetrahedron v isovalue c hc hothers 2 3 5 6 (by decide) T h P hP
  · exact single_corner_tetrahedron v isovalue c hc hothers 3 4 5 7 (by decide) T h P hP
  · exact single_corner_tetrahedron v isovalue c hc hothers 3 5 6 7 (by decide) T h P hP

/-- The unit cell with only corner `0` above the isovalue: the vertex
`(1/2, 1/2, 0)` lies on a tetrahedron edge at corner `0`. -/
theorem single_corner_vertices_on_tetrahedron_edges_witness :
    ∃ d ∈ tetNeighbours 0,
      onSegment (spikeCell 0) (spikeCell d) (Vector3.new (1 / 2) (1 / 2) 0) :=
  single_corner_vertices_on_tetrahedron_edges spikeCell 0 0 (by decide!)
    (by intro d hd; fin_cases d <;> first | exact absurd rfl hd | decide!)
    ⟨Vector3.new (1 / 2) 0 0, Vector3.new (1 / 2) (1 / 2) 0, Vector3.new 0 0 (1 / 2)⟩
    (by decide!) (Vector3.new (1 / 2) (1 / 2) 0) (Or.inr (Or.inl rfl))

/-- The table of `tetNeighbours`: corners `3` and `5`, the ends of the body
diagonal shared by all six tetrahedra, are joined to every other corner. -/
theorem tetNeighbours_eq :
    tetNeighbours 0 = [1, 3, 4, 5] ∧ tetNeighbours 1 = [0, 2, 3, 5] ∧
    tetNeighbours 2 = [1, 3, 5, 6] ∧ tetNeighbours 3 = [0, 1, 2, 4, 5, 6, 7] ∧
    tetNeighbours 4 = [0, 3, 5, 7] ∧ tetNeighbours 5 = [0, 1, 2, 3, 4, 6, 7] ∧
    tetNeighbours 6 = [2, 3, 5, 7] ∧ tetNeighbours 7 = [3, 4, 5, 6] := by
  decide

/-- C10: `marchCellTetrahedra` returns the triangles of the six tetrahedra
`(0,1,3,5)`, `(1,2,3,5)`, `(0,3,4,5)`, `(2,3,5,6)`, `(3,4,5,7)`, `(3,5,6,7)`,
concatenated in this order, each list in its own order; so at most 12
triangles. -/
theorem marchCellTetrahedra_is_concatenation (v0 v1 v2 v3 v4 v5 v6 v7 : Vector3)
    (isovalue : ℚ) :
    marchCellTetrahedra v0 v1 v2 v3 v4 v5 v6 v7 isovalue =
      marchTetrahedra v0 v1 v3 v5 isovalue ++ (marchTetrahedra v1 v2 v3 v5 isovalue ++
        (marchTetrahedra v0 v3 v4 v5 isovalue ++ (marchTetrahedra v2 v3 v5 v6 isovalue ++
          (marchTetrahedra v3 v4 v5 v7 isovalue ++ marchTetrahedra v3 v5 v6 v7 isovalue)))) ∧
    (marchCellTetrahedra v0 v1 v2 v3 v4 v5 v6 v7 isovalue).length ≤ 12 := by
  have h := marchCellTetrahedra_eq_append v0 v1 v2 v3 v4 v5 v6 v7 isovalue
  refine ⟨by rw [h]; simp only [List.append_assoc], ?_⟩
  rw [h]
  simp only [List.length_append]
  have h1 := marchTetrahedra_length_le v0 v1 v3 v5 isovalue
  have h2 := marchTetrahedra_length_le v1 v2 v3 v5 isovalue
  have h3 := marchTetrahedra_length_le v0 v3 v4 v5 isovalue
  have h4 := marchTetrahedra_length_le v2 v3 v5 v6 isovalue
  have h5 := marchTetrahedra_length_le v3 v4 v5 v7 isovalue
  have h6 := marchTetrahedra_length_le v3 v5 v6 v7 isovalue
  omega

/-! ## Adjacency of triangles -/

theorem interpolate_swap (A B : Vector3) (a b isovalue : ℚ) (h : a ≠ b) :
    A.interpolate (inverseLinearInterpolation isovalue a b) B =
      B.interpolate (inverseLinearInterpolation isovalue b a) A := by
  have h1 : b - a ≠ 0 := sub_ne_zero.mpr (Ne.symm h)
  have h2 : a - b ≠ 0 := sub_ne_zero.mpr h
  simp only [Vector3.interpolate, Vector3.add, Vector3.multiply, Vector3.new,
    inverseLinearInterpolation, Vector3.mk.injEq, true_and]
  refine ⟨?_, ?_, ?_⟩ <;> field_simp <;> ring

theorem crossing_comm (A B : Vector3) (isovalue : ℚ) (h : A.info ≠ B.info) :
    crossing A B isovalue = crossing B A isovalue :=
  interpolate_swap A B A.info B.info isovalue h

/-- C20: the point computed on an edge does not depend on which end point comes
first: for points `A`, `B` with values `a ≠ b`,
`A.interpolate(inverseLinearInterpolation(iso, a, b), B)` and
`B.interpolate(inverseLinearInterpolation(iso, b, a), A)` are the same point, so
two tetrahedra (or cells) that share the edge compute the identical vertex on
it (`crossing A B = crossing B A`). -/
theorem interpolate_symmetric (A B : Vector3) (a b isovalue : ℚ) (h : a ≠ b) :
    A.interpolate (inverseLinearInterpolation isovalue a b) B =
        B.interpolate (inverseLinearInterpolation isovalue b a) A ∧
      (a = A.info → b = B.info → crossing A B isovalue = crossing B A isovalue) := by
  refine ⟨interpolate_swap A B a b isovalue h, ?_⟩
  intro ha hb
  subst ha; subst hb
  exact crossing_comm A B isovalue h

/-- The edge from `(0, 0, 0)` with value `1` to `(1, 2, 3)` with value `-3`
crosses the isovalue `0` at the same point from either end. -/
theorem interpolate_symmetric_witness :
    (⟨1, 0, 0, 0⟩ : Vector3).interpolate (inverseLinearInterpolation 0 1 (-3)) ⟨-3, 1, 2, 3⟩ =
      (⟨-3, 1, 2, 3⟩ : Vector3).interpolate (inverseLinearInterpolation 0 (-3) 1) ⟨1, 0, 0, 0⟩ :=
  (interpolate_symmetric ⟨1, 0, 0, 0⟩ ⟨-3, 1, 2, 3⟩ 1 (-3) 0 (by decide!)).1

/-! ## The calls of `inverseLinearInterpolation` -/

theorem perm_0123 (V0 V1 V2 V3 : Vector3) :
    List.Perm [V0, V1, V2, V3] [V0, V1, V2, V3] :=
  List.Perm.refl _

theorem perm_0213 (V0 V1 V2 V3 : Vector3) :
    List.Perm [V0, V2, V1, V3] [V0, V1, V2, V3] := by
  have h : List.Perm [(0 : Fin 4), 2, 1, 3] [0, 1, 2, 3] := by decide
  simpa using h.map ![V0, V1, V2, V3]

theorem perm_0312 (V0 V1 V2 V3 : Vector3) :
    List.Perm [V0, V3, V1, V2] [V0, V1, V2, V3] := by
  have h : List.Perm [(0 : Fin 4), 3, 1, 2] [0, 1, 2, 3] := by decide
  simpa using h.map ![V0, V1, V2, V3]

theorem perm_1203 (V0 V1 V2 V3 : Vector3) :
    List.Perm [V1, V2, V0, V3] [V0, V1, V2, V3] := by
  have h : List.Perm [(1 : Fin 4), 2, 0, 3] [0, 1, 2, 3] := by decide
  simpa using h.map ![V0, V1, V2, V3]

theorem perm_1302 (V0 V1 V2 V3 : Vector3) :
    List.Perm [V1, V3, V0, V2] [V0, V1, V2, V3] := by
  have h : List.Perm [(1 : Fin 4), 3, 0, 2] [0, 1, 2, 3] := by decide
  simpa using h.map ![V0, V1, V2, V3]

theorem perm_2013 (V0 V1 V2 V3 : Vector3) :
    List.Perm [V2, V0, V1, V3] [V0, V1, V2, V3] := by
  have h : List.Perm [(2 : Fin 4), 0, 1, 3] [0, 1, 2, 3] := by decide
  simpa using h.map ![V0, V1, V2, V3]

theorem perm_2301 (V0 V1 V2 V3 : Vector3) :
    List.Perm [V2, V3, V0, V1] [V0, V1, V2, V3] := by
  have h : List.Perm [(2 : Fin 4), 3, 0, 1] [0, 1, 2, 3] := by decide
  simpa using h.map ![V0, V1, V2, V3]

theorem perm_3021 (V0 V1 V2 V3 : Vector3) :
    List.Perm [V3, V0, V2, V1] [V0, V1, V2, V3] := by
  have h : List.Perm [(3 : Fin 4), 0, 2, 1] [0, 1, 2, 3] := by decide
  simpa using h.map ![V0, V1, V2, V3]

theorem perm_3210 (V0 V1 V2 V3 : Vector3) :
    List.Perm [V3, V2, V1, V0] [V0, V1, V2, V3] := by
  have h : List.Perm [(3 : Fin 4), 2, 1, 0] [0, 1, 2, 3] := by decide
  simpa using h.map ![V0, V1, V2, V3]

theorem info_ne_of_signBit_ne {A B : Vector3} {isovalue : ℚ}
    (h : signBit A isovalue ≠ signBit B isovalue) : A.info ≠ B.info := by
  intro h0
  apply h
  simp [signBit, h0]

theorem inverseLinearInterpolation_eq_zero_iff (isovalue a b : ℚ) (h : a ≠ b) :
    inverseLinearInterpolation isovalue a b = 0 ↔ a = isovalue := by
  unfold inverseLinearInterpolation
  have hd : b - a ≠ 0 := sub_ne_zero.mpr (Ne.symm h)
  rw [div_eq_zero_iff]
  constructor
  · rintro (h1 | h1)
    · linarith
    · exact absurd h1 hd
  · intro h1
    left; linarith

theorem interpolate_zero (A B : Vector3) : (A.interpolate 0 B).equal A = true := by
  simp [Vector3.interpolate, Vector3.equal, Vector3.add, Vector3.multiply, Vector3.new]

theorem equal_trans_symm {P Q R : Vector3} (h1 : P.equal R = true) (h2 : Q.equal R = true) :
    P.equal Q = true := by
  simp only [Vector3.equal, Bool.and_eq_true, decide_eq_true_eq] at *
  obtain ⟨⟨a1, a2⟩, a3⟩ := h1
  obtain ⟨⟨b1, b2⟩, b3⟩ := h2
  exact ⟨⟨a1.trans b1.symm, a2.trans b2.symm⟩, a3.trans b3.symm⟩

/-- The single triangle of a non-degenerate tetrahedron whose corner `A` has a value
different from the other three: its three points coincide exactly when the value
of `A` is the isovalue, and exactly then `buildTriangle` returns `NULL`. -/
theorem buildTriangle_none_iff (A B C D : Vector3) (isovalue : ℚ)
    (hdet : tetraDet A B C D ≠ 0) (hB : A.info ≠ B.info) (hC : A.info ≠ C.info)
    (hD : A.info ≠ D.info) :
    (buildTriangle A B C D isovalue = none ↔
      ((crossing A B isovalue).equal (crossing A D isovalue) = true ∧
        (crossing A D isovalue).equal (crossing A C isovalue) = true)) ∧
    (((crossing A B isovalue).equal (crossing A D isovalue) = true ∧
        (crossing A D isovalue).equal (crossing A C isovalue) = true) ↔ A.info = isovalue) ∧
    (A.info ≠ isovalue → ∃ T, buildTriangle A B C D isovalue = some T) := by
  have z1 := inverseLinearInterpolation_eq_zero_iff isovalue A.info B.info hB
  have z2 := inverseLinearInterpolation_eq_zero_iff isovalue A.info C.info hC
  have z3 := inverseLinearInterpolation_eq_zero_iff isovalue A.info D.info hD
  have e0 := buildTriangle_side0 A B C D (inverseLinearInterpolation isovalue A.info B.info)
    (inverseLinearInterpolation isovalue A.info C.info)
    (inverseLinearInterpolation isovalue A.info D.info)
  -- the raw triangle is a point exactly when the value of `A` is the isovalue
  have raw : (Triangle.mk (crossing A B isovalue) (crossing A D isovalue)
      (crossing A C isovalue)).isPoint = true ↔ A.info = isovalue := by
    constructor
    · intro hp
      have h0 := isPoint_normalSide _ A hp
      unfold crossing at h0
      rw [e0] at h0
      rcases mul_eq_zero.mp h0 with h1 | h1
      · rcases mul_eq_zero.mp h1 with h2 | h2
        · rcases mul_eq_zero.mp h2 with h3 | h3
          · exact z1.mp h3
          · exact z2.mp h3
        · exact z3.mp h2
      · exact absurd h1 hdet
    · intro hA
      have t1 := z1.mpr hA
      have t2 := z2.mpr hA
      have t3 := z3.mpr hA
      simp only [Triangle.isPoint, crossing, t1, t2, t3, Bool.and_eq_true]
      exact ⟨equal_trans_symm (interpolate_zero A B) (interpolate_zero A D),
        equal_trans_symm (interpolate_zero A D) (interpolate_zero A C)⟩
  have swapped : (Triangle.mk (crossing A B isovalue) (crossing A C isovalue)
      (crossing A D isovalue)).isPoint = true ↔ A.info = isovalue := by
    constructor
    · intro hp
      have h0 := isPoint_normalSide _ A hp
      rw [normalSide_swap] at h0
      unfold crossing at h0
      rw [e0, neg_eq_zero] at h0
      rcases mul_eq_zero.mp h0 with h1 | h1
      · rcases mul_eq_zero.mp h1 with h2 | h2
        · rcases mul_eq_zero.mp h2 with h3 | h3
          · exact z1.mp h3
          · exact z2.mp h3
        · exact z3.mp h2
      · exact absurd h1 hdet
    · intro hA
      have t1 := z1.mpr hA
      have t2 := z2.mpr hA
      have t3 := z3.mpr hA
      simp only [Triangle.isPoint, crossing, t1, t2, t3, Bool.and_eq_true]
      exact ⟨equal_trans_symm (interpolate_zero A B) (interpolate_zero A C),
        equal_trans_symm (interpolate_zero A C) (interpolate_zero A D)⟩
  have coincide : ((crossing A B isovalue).equal (crossing A D isovalue) = true ∧
      (crossing A D isovalue).equal (crossing A C isovalue) = true) ↔ A.info = isovalue := by
    rw [← raw]
    simp [Triangle.isPoint]
  have none_iff : buildTriangle A B C D isovalue = none ↔ A.info = isovalue := by
    unfold buildTriangle
    dsimp only
    by_cases hx : Bool.xor (decide (A.info > isovalue))
        (Triangle.isCCW
          (Triangle.mk (A.interpolate (inverseLinearInterpolation isovalue A.info B.info) B)
            (A.interpolate (inverseLinearInterpolation isovalue A.info D.info) D)
            (A.interpolate (inverseLinearInterpolation isovalue A.info C.info) C)) A) = true
    · rw [if_pos hx]
      rw [← swapped]
      unfold crossing
      split_ifs with hp <;> simp [hp]
    · rw [if_neg hx]
      rw [← raw]
      unfold crossing
      split_ifs with hp <;> simp [hp]
  refine ⟨none_iff.trans coincide.symm, coincide, ?_⟩
  intro hA
  cases hb : buildTriangle A B C D isovalue with
  | none => exact absurd (none_iff.mp hb) hA
  | some T => exact ⟨T, rfl⟩

/-! ## The quadrilateral of a 2-vs-2 pattern -/

theorem buildTriangles_shape {A B C D : Vector3} {isovalue : ℚ} {X Y : Triangle}
    (h : buildTriangles A B C D isovalue = [X, Y]) :
    X.v0 = crossing A C isovalue ∧
    (X.v1 = crossing B C isovalue ∧ X.v2 = crossing B D isovalue ∨
      X.v1 = crossing B D isovalue ∧ X.v2 = crossing B C isovalue) ∧
    Y.v0 = crossing B D isovalue ∧
    (Y.v1 = crossing A D isovalue ∧ Y.v2 = crossing A C isovalue ∨
      Y.v1 = crossing A C isovalue ∧ Y.v2 = crossing A D isovalue) := by
  unfold buildTriangles at h
  dsimp only at h
  unfold crossing
  split_ifs at h <;>
    simp only [List.nil_append, List.cons_append, List.cons.injEq, and_true, reduceCtorEq,
      and_false, false_and] at h
  all_goals
    obtain ⟨rfl, rfl⟩ := h
    simp

theorem zLoop_eq_fresh (f : ℚ → ℚ → ℚ → ℚ) (isovalue lower2 dz x x_dx y y_dy : ℚ) :
    ∀ (n k : Nat) (c4 c5 c6 c7 : ℚ),
      c4 = f x y (lower2 + dz * (k : ℚ)) → c5 = f x_dx y (lower2 + dz * (k : ℚ)) →
      c6 = f x_dx y_dy (lower2 + dz * (k : ℚ)) → c7 = f x y_dy (lower2 + dz * (k : ℚ)) →
      zLoop f isovalue lower2 dz x x_dx y y_dy n k c4 c5 c6 c7 =
        (List.range n).map fun (m : Nat) =>
          freshCell f isovalue x x_dx y y_dy (lower2 + dz * ((k + m : Nat) : ℚ))
            (lower2 + dz * ((k + m + 1 : Nat) : ℚ)) := by
  intro n
  induction n with
  | zero => intro k c4 c5 c6 c7 _ _ _ _; rfl
  | succ n ih =>
    intro k c4 c5 c6 c7 h4 h5 h6 h7
    rw [List.range_succ_eq_map, List.map_cons, List.map_map]
    simp only [zLoop]
    rw [ih (k + 1) _ _ _ _ rfl rfl rfl rfl]
    subst h4 h5 h6 h7
    congr 1
    apply List.map_congr_left
    intro m _
    simp only [Function.comp, Nat.succ_eq_add_one]
    have e1 : k + 1 + m = k + (m + 1) := by omega
    rw [e1]

/-- C18: for every field `f` (a function, so evaluated twice at the same point it
gives the same value) the triangle lists `triangles[i][j][k]` that
`marching_cubes` computes with the cached samples of the slab below are the
lists obtained when each of the eight corner points handed to
`marchCellTetrahedra` is sampled afresh; and a freshly sampled corner carries
the value of `f` at its own grid coordinates `(x, y, z)`, which are stored as
`(x, z, y)`. -/
theorem cached_samples_agree_with_fresh (lower : Fin 3 → ℚ) (dx dy dz : ℚ)
    (numx numy numz : Int) (f : ℚ → ℚ → ℚ → ℚ) (isovalue : ℚ) :
    cellTriangles lower dx dy dz numx numy numz f isovalue =
        cellTrianglesFresh lower dx dy dz numx numy numz f isovalue ∧
      ∀ x y z : ℚ, (freshCorner f x y z).info =
          f (freshCorner f x y z).x (freshCorner f x y z).z (freshCorner f x y z).y ∧
        (freshCorner f x y z).x = x ∧ (freshCorner f x y z).z = y ∧
        (freshCorner f x y z).y = z := by
  refine ⟨?_, fun x y z => ⟨rfl, rfl, rfl, rfl⟩⟩
  unfold cellTriangles cellTrianglesFresh
  apply List.map_congr_left
  intro i _
  apply List.map_congr_left
  intro j _
  dsimp only
  rw [zLoop_eq_fresh f isovalue (lower 2) dz _ _ _ _ numz.toNat 0 _ _ _ _
    (by simp) (by simp) (by simp) (by simp)]
  apply List.map_congr_left
  intro k _
  simp

/-! ## The diagonals of the cube faces -/

theorem cornerOffset_acrossAxis (a : Fin 3) (p : Fin 8) (b : Fin 3) :
    cornerOffset (acrossAxis a p) b = if b = a then !cornerOffset p a else cornerOffset p b := by
  revert a p b
  decide

theorem cellCorner_across (f : ℚ → ℚ → ℚ → ℚ) (x0 x1 x2 y0 y1 y2 z0 z1 z2 : ℚ) (p : Fin 8) :
    (cornerOffset p 0 = true →
      cellCorner f x0 x1 y0 y1 z0 z1 p = cellCorner f x1 x2 y0 y1 z0 z1 (acrossAxis 0 p)) ∧
    (cornerOffset p 1 = true →
      cellCorner f x0 x1 y0 y1 z0 z1 p = cellCorner f x0 x1 y1 y2 z0 z1 (acrossAxis 1 p)) ∧
    (cornerOffset p 2 = true →
      cellCorner f x0 x1 y0 y1 z0 z1 p = cellCorner f x0 x1 y0 y1 z1 z2 (acrossAxis 2 p)) := by
  refine ⟨fun h => ?_, fun h => ?_, fun h => ?_⟩ <;>
    simp only [cellCorner, cornerOffset_acrossAxis, h, Bool.not_true, if_true, if_false,
      Bool.false_eq_true, Fin.reduceEq, Fin.isValue]

/-- C11: with the cube corners positioned as `marching_cubes` assigns them
(`freshCell` is `marchCellTetrahedra` on the corners `cellCorner 0 .. 7`, whose
sides along x, y, z are given by `cornerOffset`), the edges of the six
tetrahedra contain exactly one diagonal of every cube face; the diagonal on the
upper face of each axis is the translate along that axis (`acrossAxis`) of the
diagonal on the lower face; and a corner on the upper face of a cell is the
corner `acrossAxis a p` of the next cell along axis `a`, so that the two cells
use the same diagonal, with the same two end points, on their shared face. -/
theorem face_diagonals_agree :
    (∀ (f : ℚ → ℚ → ℚ → ℚ) (isovalue x x_dx y y_dy z z_dz : ℚ),
      freshCell f isovalue x x_dx y y_dy z z_dz =
        marchCellTetrahedra (cellCorner f x x_dx y y_dy z z_dz 0)
          (cellCorner f x x_dx y y_dy z z_dz 1) (cellCorner f x x_dx y y_dy z z_dz 2)
          (cellCorner f x x_dx y y_dy z z_dz 3) (cellCorner f x x_dx y y_dy z z_dz 4)
          (cellCorner f x x_dx y y_dy z z_dz 5) (cellCorner f x x_dx y y_dy z z_dz 6)
          (cellCorner f x x_dx y y_dy z z_dz 7) isovalue) ∧
    (∀ (a : Fin 3) (s : Bool), (faceDiagonalsUsed a s).length = 1) ∧
    (∀ (a : Fin 3) (p : Fin 8) (b : Fin 3),
      cornerOffset (acrossAxis a p) b = if b = a then !cornerOffset p a else cornerOffset p b) ∧
    (∀ a : Fin 3, faceDiagonalsUsed a true =
      (faceDiagonalsUsed a false).map fun e => (acrossAxis a e.1, acrossAxis a e.2)) ∧
    (∀ (f : ℚ → ℚ → ℚ → ℚ) (x0 x1 x2 y0 y1 y2 z0 z1 z2 : ℚ) (e : Fin 8 × Fin 8),
      (e ∈ faceDiagonalsUsed 0 true →
        (acrossAxis 0 e.1, acrossAxis 0 e.2) ∈ faceDiagonalsUsed 0 false ∧
        cellCorner f x0 x1 y0 y1 z0 z1 e.1 =
          cellCorner f x1 x2 y0 y1 z0 z1 (acrossAxis 0 e.1) ∧
        cellCorner f x0 x1 y0 y1 z0 z1 e.2 =
          cellCorner f x1 x2 y0 y1 z0 z1 (acrossAxis 0 e.2)) ∧
      (e ∈ faceDiagonalsUsed 1 true →
        (acrossAxis 1 e.1, acrossAxis 1 e.2) ∈ faceDiagonalsUsed 1 false ∧
        cellCorner f x0 x1 y0 y1 z0 z1 e.1 =
          cellCorner f x0 x1 y1 y2 z0 z1 (acrossAxis 1 e.1) ∧
        cellCorner f x0 x1 y0 y1 z0 z1 e.2 =
          cellCorner f x0 x1 y1 y2 z0 z1 (acrossAxis 1 e.2)) ∧
      (e ∈ faceDiagonalsUsed 2 true →
        (acrossAxis 2 e.1, acrossAxis 2 e.2) ∈ faceDiagonalsUsed 2 false ∧
        cellCorner f x0 x1 y0 y1 z0 z1 e.1 =
          cellCorner f x0 x1 y0 y1 z1 z2 (acrossAxis 2 e.1) ∧
        cellCorner f x0 x1 y0 y1 z0 z1 e.2 =
          cellCorner f x0 x1 y0 y1 z1 z2 (acrossAxis 2 e.2))) := by
  have hface : ∀ (a : Fin 3) (e : Fin 8 × Fin 8), e ∈ faceDiagonalsUsed a true →
      (acrossAxis a e.1, acrossAxis a e.2) ∈ faceDiagonalsUsed a false ∧
        cornerOffset e.1 a = true ∧ cornerOffset e.2 a = true := by decide
  refine ⟨fun _ _ _ _ _ _ _ _ => rfl, by decide, cornerOffset_acrossAxis, by decide, ?_⟩
  intro f x0 x1 x2 y0 y1 y2 z0 z1 z2 e
  refine ⟨fun he => ?_, fun he => ?_, fun he => ?_⟩
  · obtain ⟨h1, h2, h3⟩ := hface 0 e he
    exact ⟨h1, (cellCorner_across f x0 x1 x2 y0 y1 y2 z0 z1 z2 e.1).1 h2,
      (cellCorner_across f x0 x1 x2 y0 y1 y2 z0 z1 z2 e.2).1 h3⟩
  · obtain ⟨h1, h2, h3⟩ := hface 1 e he
    exact ⟨h1, (cellCorner_across f x0 x1 x2 y0 y1 y2 z0 z1 z2 e.1).2.1 h2,
      (cellCorner_across f x0 x1 x2 y0 y1 y2 z0 z1 z2 e.2).2.1 h3⟩
  · obtain ⟨h1, h2, h3⟩ := hface 2 e he
    exact ⟨h1, (cellCorner_across f x0 x1 x2 y0 y1 y2 z0 z1 z2 e.1).2.2 h2,
      (cellCorner_across f x0 x1 x2 y0 y1 y2 z0 z1 z2 e.2).2.2 h3⟩

/-- The six diagonals used: `3 4` and `2 5` across x, `0 5` and `3 6` across y,
`1 3` and `5 7` across z. -/
theorem faceDiagonalsUsed_eq :
    faceDiagonalsUsed 0 false = [(3, 4)] ∧ faceDiagonalsUsed 0 true = [(2, 5)] ∧
    faceDiagonalsUsed 1 false = [(0, 5)] ∧ faceDiagonalsUsed 1 true = [(3, 6)] ∧
    faceDiagonalsUsed 2 false = [(1, 3)] ∧ faceDiagonalsUsed 2 true = [(5, 7)] := by
  decide

/-! ## The sphere example: the triangles by the edges that carry their vertices -/

theorem single_edges {γ : Type} (P : γ → Vector3) (a b c d : γ) (isovalue : ℚ)
    (hdet : tetraDet (P a) (P b) (P c) (P d) ≠ 0)
    (hl : LoneCorner (P a) (P b) (P c) (P d) isovalue) :
    List.Forall₂ (TriOn P isovalue)
      (pushIfNotNull [] (buildTriangle (P a) (P b) (P c) (P d) isovalue)) (oneEdges a b c d) := by
  obtain ⟨T, hT, -⟩ := buildTriangle_spec (P a) (P b) (P c) (P d) isovalue hdet hl
  rw [hT]
  refine List.Forall₂.cons ?_ List.Forall₂.nil
  unfold buildTriangle at hT
  dsimp only at hT
  unfold TriOn crossing
  split_ifs at hT with hx hp hp
  all_goals
    injection hT with hT
    subst hT
    first
    | exact List.Perm.refl _
    | exact ((List.Perm.swap _ _ _).cons _).symm

theorem double_edges {γ : Type} (P : γ → Vector3) (a b c d : γ) (isovalue : ℚ)
    (hdet : tetraDet (P a) (P b) (P c) (P d) ≠ 0)
    (hl : PairCorners (P a) (P b) (P c) (P d) isovalue) :
    List.Forall₂ (TriOn P isovalue)
      (pushAll [] (buildTriangles (P a) (P b) (P c) (P d) isovalue)) (twoEdges a b c d) := by
  obtain ⟨X, Y, hXY, -, -⟩ := buildTriangles_spec (P a) (P b) (P c) (P d) isovalue hdet hl
  obtain ⟨x0, x12, y0, y12⟩ := buildTriangles_shape hXY
  rw [hXY, pushAll_eq_append]
  refine List.Forall₂.cons ?_ (List.Forall₂.cons ?_ List.Forall₂.nil)
  · show List.Perm [X.v0, X.v1, X.v2] _
    rcases x12 with ⟨h1, h2⟩ | ⟨h1, h2⟩
    · rw [x0, h1, h2]
    · rw [x0, h1, h2]; exact (List.Perm.swap _ _ _).cons _
  · show List.Perm [Y.v0, Y.v1, Y.v2] _
    rcases y12 with ⟨h1, h2⟩ | ⟨h1, h2⟩
    · rw [y0, h1, h2]
    · rw [y0, h1, h2]; exact (List.Perm.swap _ _ _).cons _

/-- On a non-degenerate tetrahedron none of whose corner values equals the
isovalue, `marchTetrahedra` makes exactly the triangles listed by `tetEdges`, up
to the order of the three vertices inside each triangle. -/
theorem marchTetrahedra_edges {γ : Type} (P : γ → Vector3) (a0 a1 a2 a3 : γ) (isovalue : ℚ)
    (hdet : tetraDet (P a0) (P a1) (P a2) (P a3) ≠ 0)
    (n0 : (P a0).info ≠ isovalue) (n1 : (P a1).info ≠ isovalue) (n2 : (P a2).info ≠ isovalue)
    (n3 : (P a3).info ≠ isovalue) :
    List.Forall₂ (TriOn P isovalue)
      (marchTetrahedra (P a0) (P a1) (P a2) (P a3) isovalue)
      (tetEdges (signBit (P a0) isovalue) (signBit (P a1) isovalue) (signBit (P a2) isovalue)
        (signBit (P a3) isovalue) a0 a1 a2 a3) := by
  have d1 : tetraDet (P a1) (P a2) (P a0) (P a3) ≠ 0 := by rw [tetraDet_1203]; exact hdet
  have d2 : tetraDet (P a2) (P a0) (P a1) (P a3) ≠ 0 := by rw [tetraDet_2013]; exact hdet
  have d3 : tetraDet (P a3) (P a0) (P a2) (P a1) ≠ 0 := by rw [tetraDet_3021]; exact hdet
  have d4 : tetraDet (P a3) (P a2) (P a1) (P a0) ≠ 0 := by rw [tetraDet_3210]; exact hdet
  have d5 : tetraDet (P a0) (P a2) (P a1) (P a3) ≠ 0 := by
    rw [tetraDet_0213]; exact neg_ne_zero.mpr hdet
  have d6 : tetraDet (P a0) (P a3) (P a1) (P a2) ≠ 0 := by rw [tetraDet_0312]; exact hdet
  have d7 : tetraDet (P a1) (P a3) (P a0) (P a2) ≠ 0 := by
    rw [tetraDet_1302]; exact neg_ne_zero.mpr hdet
  have d8 : tetraDet (P a2) (P a3) (P a0) (P a1) ≠ 0 := by rw [tetraDet_2301]; exact hdet
  by_cases c0 : (P a0).info > isovalue
  · by_cases c1 : (P a1).info > isovalue
    · by_cases c2 : (P a2).info > isovalue
      · by_cases c3 : (P a3).info > isovalue
        · have s0 : signBit (P a0) isovalue = true := by simp [signBit, c0]
          have s1 : signBit (P a1) isovalue = true := by simp [signBit, c1]
          have s2 : signBit (P a2) isovalue = true := by simp [signBit, c2]
          have s3 : signBit (P a3) isovalue = true := by simp [signBit, c3]
          rw [s0, s1, s2, s3, marchTetrahedra_1111 (P a0) (P a1) (P a2) (P a3) isovalue c0 c1 c2 c3]
          exact List.Forall₂.nil
        · have s0 : signBit (P a0) isovalue = true := by simp [signBit, c0]
          have s1 : signBit (P a1) isovalue = true := by simp [signBit, c1]
          have s2 : signBit (P a2) isovalue = true := by simp [signBit, c2]
          have s3 : signBit (P a3) isovalue = false := by simp [signBit, c3]
          have l3 : (P a3).info < isovalue := lt_of_le_of_ne (not_lt.mp c3) n3
          rw [s0, s1, s2, s3, marchTetrahedra_1110 (P a0) (P a1) (P a2) (P a3) isovalue c0 c1 c2 c3]
          exact single_edges P a3 a0 a2 a1 isovalue d3 (Or.inr ⟨l3, c0, c2, c1⟩)
      · by_cases c3 : (P a3).info > isovalue
        · have s0 : signBit (P a0) isovalue = true := by simp [signBit, c0]
          have s1 : signBit (P a1) isovalue = true := by simp [signBit, c1]
          have s2 : signBit (P a2) isovalue = false := by simp [signBit, c2]
          have l2 : (P a2).info < isovalue := lt_of_le_of_ne (not_lt.mp c2) n2
          have s3 : signBit (P a3) isovalue = true := by simp [signBit, c3]
          rw [s0, s1, s2, s3, marchTetrahedra_1101 (P a0) (P a1) (P a2) (P a3) isovalue c0 c1 c2 c3]
          exact single_edges P a2 a0 a1 a3 isovalue d2 (Or.inr ⟨l2, c0, c1, c3⟩)
        · have s0 : signBit (P a0) isovalue = true := by simp [signBit, c0]
          have s1 : signBit (P a1) isovalue = true := by simp [signBit, c1]
          have s2 : signBit (P a2) isovalue = false := by simp [signBit, c2]
          have l2 : (P a2).info < isovalue := lt_of_le_of_ne (not_lt.mp c2) n2
          have s3 : signBit (P a3) isovalue = false := by simp [signBit, c3]
          have l3 : (P a3).info < isovalue := lt_of_le_of_ne (not_lt.mp c3) n3
          rw [s0, s1, s2, s3, marchTetrahedra_1100 (P a0) (P a1) (P a2) (P a3) isovalue c0 c1 c2 c3]
          exact double_edges P a0 a1 a2 a3 isovalue hdet (Or.inl ⟨c0, c1, l2, l3⟩)
    · by_cases c2 : (P a2).info > isovalue
      · by_cases c3 : (P a3).info > isovalue
        · have s0 : signBit (P a0) isovalue = true := by simp [signBit, c0]
          have s1 : signBit (P a1) isovalue = false := by simp [signBit, c1]
          have l1 : (P a1).info < isovalue := lt_of_le_of_ne (not_lt.mp c1) n1
          have s2 : signBit (P a2) isovalue = true := by simp [signBit, c2]
          have s3 : signBit (P a3) isovalue = true := by simp [signBit, c3]
          rw [s0, s1, s2, s3, marchTetrahedra_1011 (P a0) (P a1) (P a2) (P a3) isovalue c0 c1 c2 c3]
          exact single_edges P a1 a2 a0 a3 isovalue d1 (Or.inr ⟨l1, c2, c0, c3⟩)
        · have s0 : signBit (P a0) isovalue = true := by simp [signBit, c0]
          have s1 : signBit (P a1) isovalue = false := by simp [signBit, c1]
          have l1 : (P a1).info < isovalue := lt_of_le_of_ne (not_lt.mp c1) n1
          have s2 : signBit (P a2) isovalue = true := by simp [signBit, c2]
          have s3 : signBit (P a3) isovalue = false := by simp [signBit, c3]
          have l3 : (P a3).info < isovalue := lt_of_le_of_ne (not_lt.mp c3) n3
          rw [s0, s1, s2, s3, marchTetrahedra_1010 (P a0) (P a1) (P a2) (P a3) isovalue c0 c1 c2 c3]
          exact double_edges P a0 a2 a1 a3 isovalue d5 (Or.inl ⟨c0, c2, l1, l3⟩)
      · by_cases c3 : (P a3).info > isovalue
        · have s0 : signBit (P a0) isovalue = true := by simp [signBit, c0]
          have s1 : signBit (P a1) isovalue = false := by simp [signBit, c1]
          have l1 : (P a1).info < isovalue := lt_of_le_of_ne (not_lt.mp c1) n1
          have s2 : signBit (P a2) isovalue = false := by simp [signBit, c2]
          have l2 : (P a2).info < isovalue := lt_of_le_of_ne (not_lt.mp c2) n2
          have s3 : signBit (P a3) isovalue = true := by simp [signBit, c3]
          rw [s0, s1, s2, s3, marchTetrahedra_1001 (P a0) (P a1) (P a2) (P a3) isovalue c0 c1 c2 c3]
          exact double_edges P a0 a3 a1 a2 isovalue d6 (Or.inl ⟨c0, c3, l1, l2⟩)
        · have s0 : signBit (P a0) isovalue = true := by simp [signBit, c0]
          have s1 : signBit (P a1) isovalue = false := by simp [signBit, c1]
          have l1 : (P a1).info < isovalue := lt_of_le_of_ne (not_lt.mp c1) n1
          have s2 : signBit (P a2) isovalue = false := by simp [signBit, c2]
          have l2 : (P a2).info < isovalue := lt_of_le_of_ne (not_lt.mp c2) n2
          have s3 : signBit (P a3) isovalue = false := by simp [signBit, c3]
          have l3 : (P a3).info < isovalue := lt_of_le_of_ne (not_lt.mp c3) n3
          rw [s0, s1, s2, s3, marchTetrahedra_1000 (P a0) (P a1) (P a2) (P a3) isovalue c0 c1 c2 c3]
          exact single_edges P a0 a1 a2 a3 isovalue hdet (Or.inl ⟨c0, l1, l2, l3⟩)
  · by_cases c1 : (P a1).info > isovalue
    · by_cases c2 : (P a2).info > isovalue
      · by_cases c3 : (P a3).info > isovalue
        · have s0 : signBit (P a0) isovalue = false := by simp [signBit, c0]
          have l0 : (P a0).info < isovalue := lt_of_le_of_ne (not_lt.mp c0) n0
          have s1 : signBit (P a1) isovalue = true := by simp [signBit, c1]
          have s2 : signBit (P a2) isovalue = true := by simp [signBit, c2]
          have s3 : signBit (P a3) isovalue = true := by simp [signBit, c3]
          rw [s0, s1, s2, s3, marchTetrahedra_0111 (P a0) (P a1) (P a2) (P a3) isovalue c0 c1 c2 c3]
          exact single_edges P a0 a1 a2 a3 isovalue hdet (Or.inr ⟨l0, c1, c2, c3⟩)
        · have s0 : signBit (P a0) isovalue = false := by simp [signBit, c0]
          have l0 : (P a0).info < isovalue := lt_of_le_of_ne (not_lt.mp c0) n0
          have s1 : signBit (P a1) isovalue = true := by simp [signBit, c1]
          have s2 : signBit (P a2) isovalue = true := by simp [signBit, c2]
          have s3 : signBit (P a3) isovalue = false := by simp [signBit, c3]
          have l3 : (P a3).info < isovalue := lt_of_le_of_ne (not_lt.mp c3) n3
          rw [s0, s1, s2, s3, marchTetrahedra_0110 (P a0) (P a1) (P a2) (P a3) isovalue c0 c1 c2 c3]
          exact double_edges P a1 a2 a0 a3 isovalue d1 (Or.inl ⟨c1, c2, l0, l3⟩)
      · by_cases c3 : (P a3).info > isovalue
        · have s0 : signBit (P a0) isovalue = false := by simp [signBit, c0]
          have l0 : (P a0).info < isovalue := lt_of_le_of_ne (not_lt.mp c0) n0
          have s1 : signBit (P a1) isovalue = true := by simp [signBit, c1]
          have s2 : signBit (P a2) isovalue = false := by simp [signBit, c2]
          have l2 : (P a2).info < isovalue := lt_of_le_of_ne (not_lt.mp c2) n2
          have s3 : signBit (P a3) isovalue = true := by simp [signBit, c3]
          rw [s0, s1, s2, s3, marchTetrahedra_0101 (P a0) (P a1) (P a2) (P a3) isovalue c0 c1 c2 c3]
          exact double_edges P a1 a3 a0 a2 isovalue d7 (Or.inl ⟨c1, c3, l0, l2⟩)
        · have s0 : signBit (P a0) isovalue = false := by simp [signBit, c0]
          have l0 : (P a0).info < isovalue := lt_of_le_of_ne (not_lt.mp c0) n0
          have s1 : signBit (P a1) isovalue = true := by simp [signBit, c1]
          have s2 : signBit (P a2) isovalue = false := by simp [signBit, c2]
          have l2 : (P a2).info < isovalue := lt_of_le_of_ne (not_lt.mp c2) n2
          have s3 : signBit (P a3) isovalue = false := by simp [signBit, c3]
          have l3 : (P a3).info < isovalue := lt_of_le_of_ne (not_lt.mp c3) n3
          rw [s0, s1, s2, s3, marchTetrahedra_0100 (P a0) (P a1) (P a2) (P a3) isovalue c0 c1 c2 c3]
          exact single_edges P a1 a2 a0 a3 isovalue d1 (Or.inl ⟨c1, l2, l0, l3⟩)
    · by_cases c2 : (P a2).info > isovalue
      · by_cases c3 : (P a3).info > isovalue
        · have s0 : signBit (P a0) isovalue = false := by simp [signBit, c0]
          have l0 : (P a0).info < isovalue := lt_of_le_of_ne (not_lt.mp c0) n0
          have s1 : signBit (P a1) isovalue = false := by simp [signBit, c1]
          have l1 : (P a1).info < isovalue := lt_of_le_of_ne (not_lt.mp c1) n1
          have s2 : signBit (P a2) isovalue = true := by simp [signBit, c2]
          have s3 : signBit (P a3) isovalue = true := by simp [signBit, c3]
          rw [s0, s1, s2, s3, marchTetrahedra_0011 (P a0) (P a1) (P a2) (P a3) isovalue c0 c1 c2 c3]
          exact double_edges P a2 a3 a0 a1 isovalue d8 (Or.inl ⟨c2, c3, l0, l1⟩)
        · have s0 : signBit (P a0) isovalue = false := by simp [signBit, c0]
          have l0 : (P a0).info < isovalue := lt_of_le_of_ne (not_lt.mp c0) n0
          have s1 : signBit (P a1) isovalue = false := by simp [signBit, c1]
          have l1 : (P a1).info < isovalue := lt_of_le_of_ne (not_lt.mp c1) n1
          have s2 : signBit (P a2) isovalue = true := by simp [signBit, c2]
          have s3 : signBit (P a3) isovalue = false := by simp [signBit, c3]
          have l3 : (P a3).info < isovalue := lt_of_le_of_ne (not_lt.mp c3) n3
          rw [s0, s1, s2, s3, marchTetrahedra_0010 (P a0) (P a1) (P a2) (P a3) isovalue c0 c1 c2 c3]
          exact single_edges P a2 a0 a1 a3 isovalue d2 (Or.inl ⟨c2, l0, l1, l3⟩)
      · by_cases c3 : (P a3).info > isovalue
        · have s0 : signBit (P a0) isovalue = false := by simp [signBit, c0]
          have l0 : (P a0).info < isovalue := lt_of_le_of_ne (not_lt.mp c0) n0
          have s1 : signBit (P a1) isovalue = false := by simp [signBit, c1]
          have l1 : (P a1).info < isovalue := lt_of_le_of_ne (not_lt.mp c1) n1
          have s2 : signBit (P a2) isovalue = false := by simp [signBit, c2]
          have l2 : (P a2).info < isovalue := lt_of_le_of_ne (not_lt.mp c2) n2
          have s3 : signBit (P a3) isovalue = true := by simp [signBit, c3]
          rw [s0, s1, s2, s3, marchTetrahedra_0001 (P a0) (P a1) (P a2) (P a3) isovalue c0 c1 c2 c3]
          exact single_edges P a3 a2 a1 a0 isovalue d4 (Or.inl ⟨c3, l2, l1, l0⟩)
        · have s0 : signBit (P a0) isovalue = false := by simp [signBit, c0]
          have l0 : (P a0).info < isovalue := lt_of_le_of_ne (not_lt.mp c0) n0
          have s1 : signBit (P a1) isovalue = false := by simp [signBit, c1]
          have l1 : (P a1).info < isovalue := lt_of_le_of_ne (not_lt.mp c1) n1
          have s2 : signBit (P a2) isovalue = false := by simp [signBit, c2]
          have l2 : (P a2).info < isovalue := lt_of_le_of_ne (not_lt.mp c2) n2
          have s3 : signBit (P a3) isovalue = false := by simp [signBit, c3]
          have l3 : (P a3).info < isovalue := lt_of_le_of_ne (not_lt.mp c3) n3
          rw [s0, s1, s2, s3, marchTetrahedra_0000 (P a0) (P a1) (P a2) (P a3) isovalue c0 c1 c2 c3]
          exact List.Forall₂.nil

theorem marchCellTetrahedra_edges {γ : Type} (P : γ → Vector3) (c0 c1 c2 c3 c4 c5 c6 c7 : γ)
    (isovalue : ℚ)
    (d1 : tetraDet (P c0) (P c1) (P c3) (P c5) ≠ 0) (d2 : tetraDet (P c1) (P c2) (P c3) (P c5) ≠ 0)
    (d3 : tetraDet (P c0) (P c3) (P c4) (P c5) ≠ 0) (d4 : tetraDet (P c2) (P c3) (P c5) (P c6) ≠ 0)
    (d5 : tetraDet (P c3) (P c4) (P c5) (P c7) ≠ 0) (d6 : tetraDet (P c3) (P c5) (P c6) (P c7) ≠ 0)
    (n0 : (P c0).info ≠ isovalue) (n1 : (P c1).info ≠ isovalue) (n2 : (P c2).info ≠ isovalue)
    (n3 : (P c3).info ≠ isovalue) (n4 : (P c4).info ≠ isovalue) (n5 : (P c5).info ≠ isovalue)
    (n6 : (P c6).info ≠ isovalue) (n7 : (P c7).info ≠ isovalue) :
    List.Forall₂ (TriOn P isovalue)
      (marchCellTetrahedra (P c0) (P c1) (P c2) (P c3) (P c4) (P c5) (P c6) (P c7) isovalue)
      (cellEdges (fun c => signBit (P c) isovalue) c0 c1 c2 c3 c4 c5 c6 c7) := by
  rw [marchCellTetrahedra_eq_append]
  simp only [List.append_assoc]
  unfold cellEdges
  exact List.rel_append (marchTetrahedra_edges P c0 c1 c3 c5 isovalue d1 n0 n1 n3 n5)
    (List.rel_append (marchTetrahedra_edges P c1 c2 c3 c5 isovalue d2 n1 n2 n3 n5)
    (List.rel_append (marchTetrahedra_edges P c0 c3 c4 c5 isovalue d3 n0 n3 n4 n5)
    (List.rel_append (marchTetrahedra_edges P c2 c3 c5 c6 isovalue d4 n2 n3 n5 n6)
    (List.rel_append (marchTetrahedra_edges P c3 c4 c5 c7 isovalue d5 n3 n4 n5 n7)
      (marchTetrahedra_edges P c3 c5 c6 c7 isovalue d6 n3 n5 n6 n7)))))

/-- The six tetrahedra of a box with non-zero side lengths are non-degenerate. -/
theorem box_tetraDet (f : ℚ → ℚ → ℚ → ℚ) (x x1 y y1 z z1 : ℚ) (hx : x1 ≠ x) (hy : y1 ≠ y)
    (hz : z1 ≠ z) :
    tetraDet (freshCorner f x y z) (freshCorner f x1 y z) (freshCorner f x y1 z)
        (freshCorner f x1 y z1) ≠ 0 ∧
    tetraDet (freshCorner f x1 y z) (freshCorner f x1 y1 z) (freshCorner f x y1 z)
        (freshCorner f x1 y z1) ≠ 0 ∧
    tetraDet (freshCorner f x y z) (freshCorner f x y1 z) (freshCorner f x y z1)
        (freshCorner f x1 y z1) ≠ 0 ∧
    tetraDet (freshCorner f x1 y1 z) (freshCorner f x y1 z) (freshCorner f x1 y z1)
        (freshCorner f x1 y1 z1) ≠ 0 ∧
    tetraDet (freshCorner f x y1 z) (freshCorner f x y z1) (freshCorner f x1 y z1)
        (freshCorner f x y1 z1) ≠ 0 ∧
    tetraDet (freshCorner f x y1 z) (freshCorner f x1 y z1) (freshCorner f x1 y1 z1)
        (freshCorner f x y1 z1) ≠ 0 := by
  have h : (x1 - x) * (y1 - y) * (z1 - z) ≠ 0 :=
    mul_ne_zero (mul_ne_zero (sub_ne_zero.mpr hx) (sub_ne_zero.mpr hy)) (sub_ne_zero.mpr hz)
  refine ⟨?_, ?_, ?_, ?_, ?_, ?_⟩ <;>
  · refine ne_of_eq_of_ne ?_ (neg_ne_zero.mpr h)
    simp only [tetraDet, freshCorner, Vector3.new, Vector3.sub, Vector3.dot, Vector3.cross]
    ring

theorem cellTriangles_eq_fresh (lower : Fin 3 → ℚ) (dx dy dz : ℚ)
    (numx numy numz : Int) (f : ℚ → ℚ → ℚ → ℚ) (isovalue : ℚ) :
    cellTriangles lower dx dy dz numx numy numz f isovalue =
        cellTrianglesFresh lower dx dy dz numx numy numz f isovalue := by
  unfold cellTriangles cellTrianglesFresh
  apply List.map_congr_left
  intro i _
  apply List.map_congr_left
  intro j _
  dsimp only
  rw [zLoop_eq_fresh f isovalue (lower 2) dz _ _ _ _ numz.toNat 0 _ _ _ _
    (by simp) (by simp) (by simp) (by simp)]
  apply List.map_congr_left
  intro k _
  simp

theorem foldl_flatMap {α β σ : Type} (g : σ → β → σ) (F : α → List β) (l : List α) (s : σ) :
    (l.flatMap F).foldl g s = l.foldl (fun s a => (F a).foldl g s) s := by
  induction l generalizing s with
  | nil => rfl
  | cons a l ih => simp only [List.flatMap_cons, List.foldl_append, List.foldl_cons, ih]

theorem weldAll_fresh (lower : Fin 3 → ℚ) (dx dy dz : ℚ) (numx numy numz : Int)
    (f : ℚ → ℚ → ℚ → ℚ) (isovalue : ℚ) (st : WeldState × List Nat) :
    weldAll (cellTriangles lower dx dy dz numx numy numz f isovalue) st =
      (freshSoup lower dx dy dz numx.toNat numy.toNat numz.toNat f isovalue).foldl
        weldTriangle st := by
  rw [cellTriangles_eq_fresh]
  unfold weldAll cellTrianglesFresh freshSoup
  simp only [foldl_flatMap, List.foldl_map]

theorem marching_cubes_eq_weld (lower upper : Fin 3 → ℚ) (numx numy numz : Int)
    (f : ℚ → ℚ → ℚ → ℚ) (isovalue : ℚ) (h1 : ¬ (numx < 2 ∨ numy < 2 ∨ numz < 2))
    (h2 : lower 0 ≤ upper 0 ∧ lower 1 ≤ upper 1 ∧ lower 2 ≤ upper 2) :
    (marching_cubes lower upper numx numy numz f isovalue [] []).2 =
      ((freshSoup lower ((upper 0 - lower 0) / ((numx - 1 : Int) : ℚ))
          ((upper 1 - lower 1) / ((numy - 1 : Int) : ℚ))
          ((upper 2 - lower 2) / ((numz - 1 : Int) : ℚ))
          (numx - 1).toNat (numy - 1).toNat (numz - 1).toNat f isovalue).foldl
        weldTriangle ({ vertices := [], vertex_map := [], current_id := -1 }, [])).2 := by
  unfold marching_cubes
  rw [if_neg h1, if_neg (not_not.mpr h2)]
  dsimp only
  rw [weldAll_fresh]

theorem sphereMesh_eq :
    sphereMesh.2 = ((freshSoup (fun _ => -2) (4 / 19) (4 / 19) (4 / 19) 19 19 19 sphereField 0).foldl
      weldTriangle ({ vertices := [], vertex_map := [], current_id := -1 }, [])).2 := by
  have e : ((2 : ℚ) - (-2)) / (((20 : Int) - 1 : Int) : ℚ) = 4 / 19 := by norm_num
  have h := marching_cubes_eq_weld (fun _ => -2) (fun _ => 2) 20 20 20 sphereField 0
    (by decide) (by norm_num)
  rw [e] at h
  exact h

theorem spherePoint_code (i j k : Nat) (hi : i < 20) (hj : j < 20) :
    spherePoint (i + 20 * j + 400 * k) =
      freshCorner sphereField (-2 + 4 / 19 * (i : ℚ)) (-2 + 4 / 19 * (j : ℚ))
        (-2 + 4 / 19 * (k : ℚ)) := by
  have e1 : (i + 20 * j + 400 * k) % 20 = i := by omega
  have e2 : (i + 20 * j + 400 * k) / 20 % 20 = j := by omega
  have e3 : (i + 20 * j + 400 * k) / 400 = k := by omega
  unfold spherePoint
  rw [e1, e2, e3]

theorem sphereField_ne_zero (a b c : Nat) :
    sphereField (-2 + 4 / 19 * (a : ℚ)) (-2 + 4 / 19 * (b : ℚ)) (-2 + 4 / 19 * (c : ℚ)) ≠ 0 := by
  intro h
  unfold sphereField at h
  have h2 : (4 * ((2 * (a : ℤ) - 19) ^ 2 + (2 * (b : ℤ) - 19) ^ 2 + (2 * (c : ℤ) - 19) ^ 2) : ℚ)
      = 361 := by
    push_cast
    linear_combination 361 * h
  have h3 : 4 * ((2 * (a : ℤ) - 19) ^ 2 + (2 * (b : ℤ) - 19) ^ 2 + (2 * (c : ℤ) - 19) ^ 2) = 361 := by
    exact_mod_cast h2
  omega

theorem spherePoint_info_ne (g : Nat) : (spherePoint g).info ≠ 0 :=
  sphereField_ne_zero _ _ _

theorem forall₂_flatMap {α β γ : Type} (R : β → γ → Prop) (l : List α) (F : α → List β)
    (G : α → List γ) (h : ∀ a ∈ l, List.Forall₂ R (F a) (G a)) :
    List.Forall₂ R (l.flatMap F) (l.flatMap G) := by
  induction l with
  | nil => exact List.Forall₂.nil
  | cons a l ih =>
    simp only [List.flatMap_cons]
    exact List.rel_append (h a (List.mem_cons_self a l))
      (ih fun b hb => h b (List.mem_cons_of_mem a hb))

theorem sphere_step_ne (i : Nat) : (-2 + 4 / 19 * ((i + 1 : Nat) : ℚ)) ≠ -2 + 4 / 19 * (i : ℚ) := by
  intro h
  push_cast at h
  linarith

/-- The triangles of one cell of the sphere example are those listed by
`cellEdges` for the sample numbers of its eight corners. -/
theorem sphere_cell_edges (i j k : Nat) (hi : i < 19) (hj : j < 19) :
    List.Forall₂ (TriOn spherePoint 0)
      (freshCell sphereField 0 (-2 + 4 / 19 * (i : ℚ)) (-2 + 4 / 19 * ((i + 1 : Nat) : ℚ))
        (-2 + 4 / 19 * (j : ℚ)) (-2 + 4 / 19 * ((j + 1 : Nat) : ℚ))
        (-2 + 4 / 19 * (k : ℚ)) (-2 + 4 / 19 * ((k + 1 : Nat) : ℚ)))
      (cellEdges (fun g => signBit (spherePoint g) 0)
        (i + 20 * j + 400 * k) (i + 20 * j + 400 * k + 1) (i + 20 * j + 400 * k + 21)
        (i + 20 * j + 400 * k + 20) (i + 20 * j + 400 * k + 400) (i + 20 * j + 400 * k + 401)
        (i + 20 * j + 400 * k + 421) (i + 20 * j + 400 * k + 420)) := by
  have c0 := spherePoint_code i j k (by omega) (by omega)
  have c1 := spherePoint_code (i + 1) j k (by omega) (by omega)
  have c2 := spherePoint_code (i + 1) (j + 1) k (by omega) (by omega)
  have c3 := spherePoint_code i (j + 1) k (by omega) (by omega)
  have c4 := spherePoint_code i j (k + 1) (by omega) (by omega)
  have c5 := spherePoint_code (i + 1) j (k + 1) (by omega) (by omega)
  have c6 := spherePoint_code (i + 1) (j + 1) (k + 1) (by omega) (by omega)
  have c7 := spherePoint_code i (j + 1) (k + 1) (by omega) (by omega)
  rw [show i + 1 + 20 * j + 400 * k = i + 20 * j + 400 * k + 1 by omega] at c1
  rw [show i + 1 + 20 * (j + 1) + 400 * k = i + 20 * j + 400 * k + 21 by omega] at c2
  rw [show i + 20 * (j + 1) + 400 * k = i + 20 * j + 400 * k + 20 by omega] at c3
  rw [show i + 20 * j + 400 * (k + 1) = i + 20 * j + 400 * k + 400 by omega] at c4
  rw [show i + 1 + 20 * j + 400 * (k + 1) = i + 20 * j + 400 * k + 401 by omega] at c5
  rw [show i + 1 + 20 * (j + 1) + 400 * (k + 1) = i + 20 * j + 400 * k + 421 by omega] at c6
  rw [show i + 20 * (j + 1) + 400 * (k + 1) = i + 20 * j + 400 * k + 420 by omega] at c7
  obtain ⟨d1, d2, d3, d4, d5, d6⟩ := box_tetraDet sphereField
    (-2 + 4 / 19 * (i : ℚ)) (-2 + 4 / 19 * ((i + 1 : Nat) : ℚ))
    (-2 + 4 / 19 * (j : ℚ)) (-2 + 4 / 19 * ((j + 1 : Nat) : ℚ))
    (-2 + 4 / 19 * (k : ℚ)) (-2 + 4 / 19 * ((k + 1 : Nat) : ℚ))
    (sphere_step_ne i) (sphere_step_ne j) (sphere_step_ne k)
  rw [← c0, ← c1, ← c3, ← c5] at d1
  rw [← c1, ← c2, ← c3, ← c5] at d2
  rw [← c0, ← c3, ← c4, ← c5] at d3
  rw [← c2, ← c3, ← c5, ← c6] at d4
  rw [← c3, ← c4, ← c5, ← c7] at d5
  rw [← c3, ← c5, ← c6, ← c7] at d6
  unfold freshCell
  rw [← c0, ← c1, ← c2, ← c3, ← c4, ← c5, ← c6, ← c7]
  exact marchCellTetrahedra_edges spherePoint _ _ _ _ _ _ _ _ 0 d1 d2 d3 d4 d5 d6
    (spherePoint_info_ne _) (spherePoint_info_ne _) (spherePoint_info_ne _)
    (spherePoint_info_ne _) (spherePoint_info_ne _) (spherePoint_info_ne _)
    (spherePoint_info_ne _) (spherePoint_info_ne _)

/-- The triangle soup of the sphere example, cell by cell, is listed by
`gridEdges` with the sign bits of the samples. -/
theorem sphere_soup_edges :
    List.Forall₂ (TriOn spherePoint 0)
      (freshSoup (fun _ => -2) (4 / 19) (4 / 19) (4 / 19) 19 19 19 sphereField 0)
      (gridEdges (fun g => signBit (spherePoint g) 0) 19 19 19) := by
  unfold freshSoup gridEdges
  refine forall₂_flatMap _ _ _ _ fun i hi => ?_
  refine forall₂_flatMap _ _ _ _ fun j hj => ?_
  refine forall₂_flatMap _ _ _ _ fun k _ => ?_
  exact sphere_cell_edges i j k (List.mem_range.mp hi) (List.mem_range.mp hj)

/-! ## The welding pass as a ranking of the keys -/

theorem operatorEq_self (v : Vector3) : v.operatorEq v = true := by
  simp [Vector3.operatorEq, DBL_APPROX, DBL_EPS]

theorem add_vertex_order (U : List Vector3) (hU : Faithful U) (s : WeldState) (v : Vector3)
    (hs : WeldOrder s) (hsub : seenKeys s ⊆ U) (hv : vertexKey v ∈ U) :
    WeldOrder (add_vertex s v).2 ∧ seenKeys (add_vertex s v).2 ⊆ U ∧
      (∃ ext, seenKeys (add_vertex s v).2 = seenKeys s ++ ext) ∧
      vertexKey v ∈ seenKeys (add_vertex s v).2 ∧
      (add_vertex s v).1 = (((seenKeys (add_vertex s v).2).indexOf (vertexKey v) : Nat) : Int) := by
  unfold add_vertex
  cases h : vertexMapFind s.vertex_map (Vector3.new v.x v.y v.z) with
  | some id =>
    dsimp only
    unfold vertexMapFind at h
    rw [Option.map_eq_some'] at h
    obtain ⟨e, he, rfl⟩ := h
    have hmem : e ∈ s.vertex_map := List.mem_of_find?_eq_some he
    have hp := List.find?_some he
    simp only [Bool.and_eq_true, decide_eq_true_eq] at hp
    have hseen : e.1 ∈ seenKeys s := by
      unfold seenKeys
      exact List.mem_reverse.mpr (List.mem_map_of_mem Prod.fst hmem)
    have hk : e.1 = vertexKey v := hU e.1 (hsub hseen) (vertexKey v) hv hp.1 hp.2
    refine ⟨hs, hsub, ⟨[], by simp⟩, hk ▸ hseen, ?_⟩
    rw [← hk]
    exact hs.ids e hmem
  | none =>
    dsimp only
    unfold vertexMapFind at h
    rw [Option.map_eq_none', List.find?_eq_none] at h
    have hnot : vertexKey v ∉ seenKeys s := by
      intro hin
      unfold seenKeys at hin
      obtain ⟨e, he, hk⟩ := List.mem_map.mp (List.mem_reverse.mp hin)
      apply h e he
      simp only [Bool.and_eq_true, decide_eq_true_eq]
      rw [hk]
      exact ⟨rfl, operatorEq_self _⟩
    have hseen : seenKeys (WeldState.mk (s.vertices ++ [v.x] ++ [v.z] ++ [v.y])
        ((Vector3.new v.x v.y v.z, s.current_id + 1) :: s.vertex_map) (s.current_id + 1)) =
        seenKeys s ++ [vertexKey v] := by
      simp [seenKeys, vertexKey]
    have hidx : (seenKeys s ++ [vertexKey v]).indexOf (vertexKey v) = (seenKeys s).length := by
      rw [List.indexOf_append_of_not_mem hnot, List.indexOf_cons_self]
      rfl
    refine ⟨⟨?_, ?_⟩, ?_, ⟨[vertexKey v], hseen⟩, ?_, ?_⟩
    · intro e he
      rw [hseen]
      rcases List.mem_cons.mp he with rfl | he
      · show s.current_id + 1 = _
        rw [show (Vector3.new v.x v.y v.z) = vertexKey v from rfl, hidx, hs.current]
        ring
      · have hin : e.1 ∈ seenKeys s := by
          unfold seenKeys
          exact List.mem_reverse.mpr (List.mem_map_of_mem Prod.fst he)
        rw [List.indexOf_append_of_mem hin]
        exact hs.ids e he
    · rw [hseen]
      show s.current_id + 1 = _
      rw [hs.current]
      simp
    · rw [hseen]
      intro k hk
      rcases List.mem_append.mp hk with hk | hk
      · exact hsub hk
      · rw [List.mem_singleton.mp hk]; exact hv
    · rw [hseen]; simp
    · rw [hseen, hidx, hs.current]
      ring

theorem weldVertices_order (U : List Vector3) (hU : Faithful U) (vs : List Vector3) :
    ∀ st : WeldState × List Nat, WeldOrder st.1 → seenKeys st.1 ⊆ U →
      (∀ v ∈ vs, vertexKey v ∈ U) →
      WeldOrder (vs.foldl weldVertex st).1 ∧ seenKeys (vs.foldl weldVertex st).1 ⊆ U ∧
        (∃ ext, seenKeys (vs.foldl weldVertex st).1 = seenKeys st.1 ++ ext) ∧
        (∀ v ∈ vs, vertexKey v ∈ seenKeys (vs.foldl weldVertex st).1) ∧
        (vs.foldl weldVertex st).2 =
          st.2 ++ vs.map fun v => (seenKeys (vs.foldl weldVertex st).1).indexOf (vertexKey v) := by
  induction vs with
  | nil =>
    intro st hs hsub _
    exact ⟨hs, hsub, ⟨[], by simp⟩, by simp, by simp⟩
  | cons v vs ih =>
    intro st hs hsub hv
    obtain ⟨a1, a2, ⟨ext1, a3⟩, a4, a5⟩ :=
      add_vertex_order U hU st.1 v hs hsub (hv v (List.mem_cons_self v vs))
    obtain ⟨b1, b2, ⟨ext2, b3⟩, b4, b5⟩ := ih (weldVertex st v) a1 a2
      (fun w hw => hv w (List.mem_cons_of_mem v hw))
    rw [List.foldl_cons]
    have hvin : vertexKey v ∈ seenKeys (List.foldl weldVertex (weldVertex st v) vs).1 := by
      rw [b3]; exact List.mem_append_left _ a4
    refine ⟨b1, b2, ⟨ext1 ++ ext2, ?_⟩, ?_, ?_⟩
    · rw [b3]
      show seenKeys (add_vertex st.1 v).2 ++ ext2 = _
      rw [a3, List.append_assoc]
    · intro w hw
      rcases List.mem_cons.mp hw with rfl | hw
      · exact hvin
      · exact b4 w hw
    · rw [b5]
      show (st.2 ++ [(add_vertex st.1 v).1.toNat]) ++ _ = _
      rw [List.map_cons, List.append_assoc, List.singleton_append]
      congr 2
      rw [a5, Int.toNat_ofNat, b3]
      exact (List.indexOf_append_of_mem a4).symm

theorem weldTriangle_eq (st : WeldState × List Nat) (T : Triangle) :
    weldTriangle st T = [T.v0, T.v2, T.v1].foldl weldVertex st := rfl

theorem weld_soup_eq (L : List Triangle) (st : WeldState × List Nat) :
    L.foldl weldTriangle st = (L.flatMap fun T => [T.v0, T.v2, T.v1]).foldl weldVertex st := by
  rw [foldl_flatMap]
  rfl

/-- Welding a triangle soup whose vertex keys lie in a list `U` on which the
lookup is exact: the index sequence gives every vertex the rank of its key in a
list `seen` of keys, the same for all its occurrences. -/
theorem weld_soup_order (U : List Vector3) (hU : Faithful U) (L : List Triangle)
    (hL : ∀ T ∈ L, vertexKey T.v0 ∈ U ∧ vertexKey T.v1 ∈ U ∧ vertexKey T.v2 ∈ U) :
    ∃ seen : List Vector3,
      (∀ T ∈ L, vertexKey T.v0 ∈ seen ∧ vertexKey T.v1 ∈ seen ∧ vertexKey T.v2 ∈ seen) ∧
      (L.foldl weldTriangle ({ vertices := [], vertex_map := [], current_id := -1 }, [])).2 =
        L.flatMap fun T => [seen.indexOf (vertexKey T.v0), seen.indexOf (vertexKey T.v2),
          seen.indexOf (vertexKey T.v1)] := by
  have hvs : ∀ v ∈ (L.flatMap fun T => [T.v0, T.v2, T.v1]), vertexKey v ∈ U := by
    intro v hv
    obtain ⟨T, hT, hv⟩ := List.mem_flatMap.mp hv
    simp only [List.mem_cons, List.mem_singleton, List.not_mem_nil, or_false] at hv
    rcases hv with rfl | rfl | rfl
    · exact (hL T hT).1
    · exact (hL T hT).2.2
    · exact (hL T hT).2.1
  obtain ⟨-, -, -, c4, c5⟩ := weldVertices_order U hU _
    ({ vertices := [], vertex_map := [], current_id := -1 }, [])
    ⟨by simp, by simp [seenKeys]⟩ (by simp [seenKeys]) hvs
  refine ⟨seenKeys (List.foldl weldVertex
    ({ vertices := [], vertex_map := [], current_id := -1 }, [])
    (L.flatMap fun T => [T.v0, T.v2, T.v1])).1, fun T hT => ⟨?_, ?_, ?_⟩, ?_⟩
  · exact c4 _ (List.mem_flatMap.mpr ⟨T, hT, by simp⟩)
  · exact c4 _ (List.mem_flatMap.mpr ⟨T, hT, by simp⟩)
  · exact c4 _ (List.mem_flatMap.mpr ⟨T, hT, by simp⟩)
  · rw [weld_soup_eq, c5, List.nil_append, List.map_flatMap]
    rfl

/-! ## Counting the triangles at an edge -/

theorem meshTriangles_flatMap {α : Type} (a b c : α → Nat) (L : List α) :
    meshTriangles (L.flatMap fun T => [a T, b T, c T]) = L.map fun T => (a T, b T, c T) := by
  induction L with
  | nil => rfl
  | cons T L ih =>
    rw [List.flatMap_cons, List.map_cons, ← ih]
    rfl

theorem blt_true {x y : Nat} (h : x < y) : Nat.blt x y = true := by
  rw [Nat.blt_eq]; exact h

theorem blt_false {x y : Nat} (h : ¬ x < y) : Nat.blt x y = false := by
  rw [← Bool.not_eq_true, Nat.blt_eq]; exact h

theorem ecode_eq_iff (x y a b : Nat) (hx : x < 67108864) (hy : y < 67108864)
    (ha : a < 67108864) (hb : b < 67108864) :
    ecode x y = ecode a b ↔ (x = a ∧ y = b) ∨ (x = b ∧ y = a) := by
  unfold ecode
  simp only [Nat.add_eq, Nat.mul_eq]
  by_cases h1 : x < y <;> by_cases h2 : a < b <;>
    simp only [blt_true, blt_false, h1, h2, not_false_eq_true, cond_true, cond_false] <;> omega

theorem hasSide_iff (a b c u v : Nat) (hab : a ≠ b) (hbc : b ≠ c) (hca : c ≠ a) :
    hasSide (a, b, c) u v = true ↔ u ≠ v ∧ u ∈ entries (a, b, c) ∧ v ∈ entries (a, b, c) := by
  simp only [hasSide, entries, List.any_cons, List.any_nil, Bool.or_false, Bool.or_eq_true,
    Bool.and_eq_true, beq_iff_eq, List.mem_cons, List.mem_singleton, List.not_mem_nil, or_false]
  constructor
  · rintro ((⟨rfl, rfl⟩ | ⟨rfl, rfl⟩) | (⟨rfl, rfl⟩ | ⟨rfl, rfl⟩) | (⟨rfl, rfl⟩ | ⟨rfl, rfl⟩)) <;>
      simp [hab, hbc, hca, hab.symm, hbc.symm, hca.symm]
  · rintro ⟨hne, rfl | rfl | rfl, rfl | rfl | rfl⟩ <;>
      first
      | exact absurd rfl hne
      | simp

theorem forall₂_mem_left {α β : Type} {R : α → β → Prop} {l1 : List α} {l2 : List β}
    (h : List.Forall₂ R l1 l2) {a : α} (ha : a ∈ l1) : ∃ b ∈ l2, R a b := by
  induction h with
  | nil => simp at ha
  | cons hab _ ih =>
    rcases List.mem_cons.mp ha with rfl | ha
    · exact ⟨_, List.mem_cons_self _ _, hab⟩
    · obtain ⟨b, hb, hr⟩ := ih ha
      exact ⟨b, List.mem_cons_of_mem _ hb, hr⟩

theorem forall₂_countP {α β : Type} {R : α → β → Prop} {l1 : List α} {l2 : List β}
    (p : α → Bool) (q : β → Bool) (h : List.Forall₂ R l1 l2)
    (hpq : ∀ a ∈ l1, ∀ b ∈ l2, R a b → p a = q b) : l1.countP p = l2.countP q := by
  induction h with
  | nil => rfl
  | @cons a b l1 l2 hab _ ih =>
    rw [List.countP_cons, List.countP_cons,
      hpq a (List.mem_cons_self _ _) b (List.mem_cons_self _ _) hab,
      ih fun a ha b hb => hpq a (List.mem_cons_of_mem _ ha) b (List.mem_cons_of_mem _ hb)]

theorem count_three (s1 s2 s3 e : Nat) :
    List.count e [s1, s2, s3] =
      (if s1 = e then 1 else 0) + (if s2 = e then 1 else 0) + (if s3 = e then 1 else 0) := by
  simp only [List.count_cons, List.count_nil, beq_iff_eq]
  omega

theorem count_sideCodes (c : Nat × Nat × Nat) (x y : Nat) (hxy : x ≠ y)
    (hx : x < 67108864) (hy : y < 67108864)
    (hc : c.1 ≠ c.2.1 ∧ c.2.1 ≠ c.2.2 ∧ c.2.2 ≠ c.1)
    (hb : c.1 < 67108864 ∧ c.2.1 < 67108864 ∧ c.2.2 < 67108864) :
    (sideCodes c).count (ecode x y) =
      if x ∈ entries c ∧ y ∈ entries c then 1 else 0 := by
  obtain ⟨a, b, d⟩ := c
  obtain ⟨hab, hbd, hda⟩ := hc
  obtain ⟨ha, hb, hd⟩ := hb
  have e1 := ecode_eq_iff a b x y ha hb hx hy
  have e2 := ecode_eq_iff b d x y hb hd hx hy
  have e3 := ecode_eq_iff d a x y hd ha hx hy
  have m1 : (x ∈ entries (a, b, d) ∧ y ∈ entries (a, b, d)) ↔
      ((x = a ∨ x = b ∨ x = d) ∧ (y = a ∨ y = b ∨ y = d)) := by
    simp [entries]
  have hab' : a ≠ b := hab
  have hbd' : b ≠ d := hbd
  have hda' : d ≠ a := hda
  clear ha hb hd hx hy hab hbd hda
  show List.count (ecode x y) [ecode a b, ecode b d, ecode d a] = _
  rw [count_three]
  simp only [e1, e2, e3, m1]
  clear e1 e2 e3 m1
  by_cases hm : (x = a ∨ x = b ∨ x = d) ∧ (y = a ∨ y = b ∨ y = d)
  · rw [if_pos hm]
    obtain ⟨h1, h2⟩ := hm
    rcases h1 with rfl | rfl | rfl <;> rcases h2 with rfl | rfl | rfl <;>
      first
      | exact absurd rfl hxy
      | simp [hab', hbd', hda', hab'.symm, hbd'.symm, hda'.symm]
  · rw [if_neg hm, if_neg, if_neg, if_neg]
    · rintro (⟨rfl, rfl⟩ | ⟨rfl, rfl⟩) <;> exact hm (by simp)
    · rintro (⟨rfl, rfl⟩ | ⟨rfl, rfl⟩) <;> exact hm (by simp)
    · rintro (⟨rfl, rfl⟩ | ⟨rfl, rfl⟩) <;> exact hm (by simp)

theorem count_flatMap_sideCodes (C : List (Nat × Nat × Nat)) (x y : Nat) (hxy : x ≠ y)
    (hx : x < 67108864) (hy : y < 67108864)
    (hc : ∀ c ∈ C, c.1 ≠ c.2.1 ∧ c.2.1 ≠ c.2.2 ∧ c.2.2 ≠ c.1)
    (hb : ∀ c ∈ C, c.1 < 67108864 ∧ c.2.1 < 67108864 ∧ c.2.2 < 67108864) :
    (C.flatMap sideCodes).count (ecode x y) =
      C.countP fun c => decide (x ∈ entries c ∧ y ∈ entries c) := by
  induction C with
  | nil => rfl
  | cons c C ih =>
    rw [List.flatMap_cons, List.count_append, List.countP_cons,
      ih (fun c hc' => hc c (List.mem_cons_of_mem _ hc'))
        (fun c hc' => hb c (List.mem_cons_of_mem _ hc')),
      count_sideCodes c x y hxy hx hy (hc c (List.mem_cons_self _ _))
        (hb c (List.mem_cons_self _ _))]
    by_cases h : x ∈ entries c ∧ y ∈ entries c
    · simp [h]; ring
    · simp [h]

/-- Triangles that are the images under `J` of triples of numbers in which every
side occurs twice or not at all: every side of a triangle belongs to exactly two
triangles. -/
theorem sides_twice (J : Nat → Nat) (M C : List (Nat × Nat × Nat))
    (hMC : List.Forall₂ (ImageOf J) M C)
    (hc : ∀ c ∈ C, c.1 ≠ c.2.1 ∧ c.2.1 ≠ c.2.2 ∧ c.2.2 ≠ c.1)
    (hb : ∀ c ∈ C, c.1 < 67108864 ∧ c.2.1 < 67108864 ∧ c.2.2 < 67108864)
    (hJ : ∀ c ∈ C, ∀ c' ∈ C, ∀ x ∈ entries c, ∀ y ∈ entries c', J x = J y → x = y)
    (hcount : ∀ e : Nat, (C.flatMap sideCodes).count e = 0 ∨ (C.flatMap sideCodes).count e = 2) :
    ∀ t ∈ M, ∀ u v : Nat, hasSide t u v = true → (M.countP fun t => hasSide t u v) = 2 := by
  have nodup : ∀ t c, c ∈ C → ImageOf J t c →
      t.1 ≠ t.2.1 ∧ t.2.1 ≠ t.2.2 ∧ t.2.2 ≠ t.1 := by
    intro t c hcC hr
    have h1 : ((entries c).map J).Nodup := by
      have := hc c hcC
      have i12 := hJ c hcC c hcC c.1 (by simp [entries]) c.2.1 (by simp [entries])
      have i23 := hJ c hcC c hcC c.2.1 (by simp [entries]) c.2.2 (by simp [entries])
      have i31 := hJ c hcC c hcC c.2.2 (by simp [entries]) c.1 (by simp [entries])
      simp only [entries, List.map_cons, List.map_nil, List.nodup_cons, List.mem_cons,
        List.mem_singleton, List.not_mem_nil, or_false, not_or, not_false_eq_true,
        List.nodup_nil, and_true]
      refine ⟨⟨fun h => this.1 (i12 h), fun h => this.2.2 (i31 h.symm)⟩, fun h => this.2.1 (i23 h)⟩
    have h2 : (entries t).Nodup := hr.nodup_iff.mpr h1
    simp only [entries, List.nodup_cons, List.mem_cons, List.mem_singleton, List.not_mem_nil,
      or_false, not_or, not_false_eq_true, List.nodup_nil, and_true] at h2
    exact ⟨h2.1.1, h2.2, fun h => h2.1.2 h.symm⟩
  have side : ∀ t c, c ∈ C → ImageOf J t c → ∀ u v,
      (hasSide t u v = true ↔ u ≠ v ∧ u ∈ (entries c).map J ∧ v ∈ (entries c).map J) := by
    intro t c hcC hr u v
    obtain ⟨n1, n2, n3⟩ := nodup t c hcC hr
    rw [show t = (t.1, t.2.1, t.2.2) from rfl, hasSide_iff _ _ _ u v n1 n2 n3, hr.mem_iff,
      hr.mem_iff]
  intro t ht u v huv
  obtain ⟨c0, hc0, hr0⟩ := forall₂_mem_left hMC ht
  obtain ⟨hne, hu, hv⟩ := (side t c0 hc0 hr0 u v).mp huv
  obtain ⟨x, hx, rfl⟩ := List.mem_map.mp hu
  obtain ⟨y, hy, rfl⟩ := List.mem_map.mp hv
  have hxy : x ≠ y := fun h => hne (by rw [h])
  have bx : x < 67108864 := by
    have := hb c0 hc0
    simp only [entries, List.mem_cons, List.mem_singleton, List.not_mem_nil, or_false] at hx
    rcases hx with rfl | rfl | rfl <;> omega
  have by' : y < 67108864 := by
    have := hb c0 hc0
    simp only [entries, List.mem_cons, List.mem_singleton, List.not_mem_nil, or_false] at hy
    rcases hy with rfl | rfl | rfl <;> omega
  have e1 : (M.countP fun t => hasSide t (J x) (J y)) =
      C.countP fun c => decide (x ∈ entries c ∧ y ∈ entries c) := by
    refine forall₂_countP _ _ hMC fun t' _ c hcC hr => ?_
    rw [Bool.eq_iff_iff, side t' c hcC hr, decide_eq_true_eq]
    constructor
    · rintro ⟨-, h1, h2⟩
      obtain ⟨x', hx', e⟩ := List.mem_map.mp h1
      obtain ⟨y', hy', e'⟩ := List.mem_map.mp h2
      rw [← hJ c hcC c0 hc0 x' hx' x hx e, ← hJ c hcC c0 hc0 y' hy' y hy e']
      exact ⟨hx', hy'⟩
    · rintro ⟨h1, h2⟩
      exact ⟨hne, List.mem_map_of_mem J h1, List.mem_map_of_mem J h2⟩
  rw [e1, ← count_flatMap_sideCodes C x y hxy bx by' hc hb]
  rcases hcount (ecode x y) with h | h
  · exfalso
    rw [count_flatMap_sideCodes C x y hxy bx by' hc hb, List.countP_eq_zero] at h
    exact h c0 hc0 (by simp [hx, hy])
  · exact h

/-! ## Sorting and the checks on sorted lists -/

theorem mergeFuel_perm (f : Nat) : ∀ xs ys : List Nat, List.Perm (mergeFuel f xs ys) (xs ++ ys) := by
  induction f with
  | zero => intro xs ys; simp [mergeFuel]
  | succ f ih =>
    intro xs ys
    cases xs with
    | nil => simp [mergeFuel]
    | cons x xs =>
      cases ys with
      | nil => simp [mergeFuel]
      | cons y ys =>
        simp only [mergeFuel]
        cases Nat.ble x y with
        | true =>
          simp only [cond_true, List.cons_append]
          exact (ih xs (y :: ys)).cons x
        | false =>
          simp only [cond_false]
          refine ((ih (x :: xs) ys).cons y).trans ?_
          exact (@List.perm_middle _ y (x :: xs) ys).symm

theorem mergePairs_perm (m : Nat) : ∀ ls : List (List Nat),
    List.Perm (mergePairs m ls).flatten ls.flatten
  | [] => by simp [mergePairs]
  | [a] => by simp [mergePairs]
  | a :: b :: rest => by
    simp only [mergePairs, List.flatten_cons]
    rw [← List.append_assoc]
    exact (mergeFuel_perm m a b).append (mergePairs_perm m rest)

theorem mergeAll_perm (m f : Nat) : ∀ ls : List (List Nat), List.Perm (mergeAll m f ls) ls.flatten := by
  induction f with
  | zero => intro ls; simp [mergeAll]
  | succ f ih =>
    intro ls
    match ls with
    | [] => simp [mergeAll]
    | [a] => simp [mergeAll]
    | a :: b :: rest =>
      simp only [mergeAll]
      exact (ih _).trans (mergePairs_perm m _)

theorem msort_perm (m f : Nat) (l : List Nat) : List.Perm (msort m f l) l := by
  unfold msort
  refine (mergeAll_perm m f _).trans ?_
  have : (l.map fun a => [a]).flatten = l := by
    induction l with
    | nil => rfl
    | cons a l ih => simp [ih]
  rw [this]

theorem twiceEach_spec : ∀ l : List Nat, twiceEach l = true →
    (∀ x ∈ l, l.headD 0 ≤ x) ∧ ∀ e : Nat, l.count e = 0 ∨ l.count e = 2
  | [], _ => by simp
  | [_], h => by simp [twiceEach] at h
  | a :: b :: rest, h => by
    simp only [twiceEach, Bool.and_eq_true, Nat.beq_eq] at h
    obtain ⟨⟨hab, hnext⟩, hrest⟩ := h
    subst hab
    obtain ⟨ih1, ih2⟩ := twiceEach_spec rest hrest
    have hgt : ∀ x ∈ rest, a < x := by
      intro x hx
      cases rest with
      | nil => simp at hx
      | cons c rest' =>
        simp only [Nat.blt_eq] at hnext
        have := ih1 x hx
        simp only [List.headD_cons] at this
        omega
    refine ⟨?_, ?_⟩
    · intro x hx
      simp only [List.headD_cons]
      rcases List.mem_cons.mp hx with rfl | hx
      · exact le_refl _
      · rcases List.mem_cons.mp hx with rfl | hx
        · exact le_refl _
        · exact le_of_lt (hgt x hx)
    · intro e
      by_cases he : e = a
      · subst he
        right
        have : rest.count e = 0 := List.count_eq_zero.mpr fun hin => lt_irrefl _ (hgt e hin)
        simp [this]
      · have he' : ¬ a = e := fun h => he h.symm
        simpa [List.count_cons, he'] using ih2 e

theorem twiceEach_count (m f : Nat) (l : List Nat) (h : twiceEach (msort m f l) = true) (e : Nat) :
    l.count e = 0 ∨ l.count e = 2 := by
  rw [← (msort_perm m f l).count_eq e]
  exact (twiceEach_spec _ h).2 e

theorem sortedAsc_spec : ∀ l : List Nat, sortedAsc l = true → l.Pairwise (· ≤ ·)
  | [], _ => List.Pairwise.nil
  | [_], _ => List.pairwise_singleton _ _
  | a :: b :: rest, h => by
    simp only [sortedAsc, Bool.and_eq_true, Nat.ble_eq] at h
    have ih := sortedAsc_spec (b :: rest) h.2
    refine List.Pairwise.cons ?_ ih
    intro x hx
    rcases List.mem_cons.mp hx with rfl | hx
    · exact h.1
    · exact le_trans h.1 (List.rel_of_pairwise_cons ih hx)

theorem noClash_spec (ok : Nat → Nat → Bool) (e : Nat) : ∀ rest : List Nat,
    (∀ x ∈ rest, e ≤ x) → rest.Pairwise (· ≤ ·) → noClash ok e rest = true →
    ∀ x ∈ rest, e / 67108864 = x / 67108864 → ok e x = true
  | [], _, _, _ => by simp
  | y :: rest, hle, hs, h => by
    intro x hx hq
    simp only [noClash] at h
    cases hy : Nat.beq (y / 67108864) (e / 67108864) with
    | true =>
      rw [hy] at h
      simp only [cond_true, Bool.and_eq_true] at h
      rcases List.mem_cons.mp hx with rfl | hx
      · exact h.1
      · exact noClash_spec ok e rest (fun z hz => hle z (List.mem_cons_of_mem _ hz))
          (List.Pairwise.of_cons hs) h.2 x hx hq
    | false =>
      exfalso
      have hne : y / 67108864 ≠ e / 67108864 := by
        intro h'
        rw [← Nat.beq_eq] at h'
        rw [h'] at hy
        exact Bool.noConfusion hy
      have h1 : e ≤ y := hle y (List.mem_cons_self _ _)
      have h2 : y ≤ x := by
        rcases List.mem_cons.mp hx with rfl | hx
        · exact le_refl _
        · exact List.rel_of_pairwise_cons hs hx
      have h3 : e / 67108864 ≤ y / 67108864 := Nat.div_le_div_right h1
      have h4 : y / 67108864 ≤ x / 67108864 := Nat.div_le_div_right h2
      omega

theorem groupsOk_spec (ok : Nat → Nat → Bool) : ∀ l : List Nat,
    l.Pairwise (· ≤ ·) → groupsOk ok l = true →
    l.Pairwise fun e x => e / 67108864 = x / 67108864 → ok e x = true
  | [], _, _ => List.Pairwise.nil
  | e :: rest, hs, h => by
    simp only [groupsOk, Bool.and_eq_true] at h
    refine List.Pairwise.cons ?_ (groupsOk_spec ok rest (List.Pairwise.of_cons hs) h.2)
    exact noClash_spec ok e rest (fun x hx => List.rel_of_pairwise_cons hs hx)
      (List.Pairwise.of_cons hs) h.1

theorem sphereAbove_eq (g : Nat) : signBit (spherePoint g) 0 = sphereAbove g := by
  unfold signBit spherePoint freshCorner sphereAbove sphereField
  rw [Bool.eq_iff_iff, decide_eq_true_eq, Nat.blt_eq]
  generalize g % 20 = a
  generalize g / 20 % 20 = b
  generalize g / 400 = c
  simp only [gt_iff_lt]
  rw [← Nat.cast_lt (α := ℚ)]
  push_cast
  have key : (361 : ℚ) * ((-2 + 4 / 19 * (a : ℚ)) ^ 2 + (-2 + 4 / 19 * (b : ℚ)) ^ 2 +
      (-2 + 4 / 19 * (c : ℚ)) ^ 2 - 1) =
      (16 * ((a : ℚ) * a + b * b + c * c) + 4332) - (361 + 304 * ((a : ℚ) + b + c)) := by ring
  constructor <;> intro h <;> linarith

theorem bitAt_eq_testBit (m g : Nat) : bitAt m g = Nat.testBit m g := by
  unfold bitAt Nat.testBit
  show Nat.beq ((m >>> g) &&& 1) 1 = (1 &&& (m >>> g) != 0)
  rw [Nat.and_one_is_mod, Nat.one_and_eq_mod_two]
  rcases Nat.mod_two_eq_zero_or_one (m >>> g) with h | h <;> rw [h] <;> rfl

theorem mixedMask_false (b : Nat) (h : bitAt mixedMask b = false) :
    bitAt signMask (b + 1) = bitAt signMask b ∧ bitAt signMask (b + 21) = bitAt signMask b ∧
    bitAt signMask (b + 20) = bitAt signMask b ∧ bitAt signMask (b + 400) = bitAt signMask b ∧
    bitAt signMask (b + 401) = bitAt signMask b ∧ bitAt signMask (b + 421) = bitAt signMask b ∧
    bitAt signMask (b + 420) = bitAt signMask b := by
  simp only [bitAt_eq_testBit] at h ⊢
  unfold mixedMask at h
  simp only [Nat.testBit_or, Nat.testBit_xor, Nat.testBit_shiftRight, Bool.or_eq_false_iff,
    bne_eq_false_iff_eq] at h
  obtain ⟨⟨⟨⟨⟨⟨h1, h2⟩, h3⟩, h4⟩, h5⟩, h6⟩, h7⟩ := h
  simp only [Nat.add_comm _ b] at h1 h2 h3 h4 h5 h6 h7
  exact ⟨h1.symm, h3.symm, h2.symm, h4.symm, h5.symm, h7.symm, h6.symm⟩

set_option maxRecDepth 1000000 in

theorem signMask_check :
    ((List.range 8000).all fun g => bitAt signMask g == sphereAbove g) = true := by
  decide!

theorem signMask_bits (g : Nat) (h : g < 8000) : bitAt signMask g = sphereAbove g := by
  have := List.all_eq_true.mp signMask_check g (List.mem_range.mpr h)
  exact beq_iff_eq.mp this

theorem cellEdges_uniform {γ : Type} (sg : γ → Bool) (c0 c1 c2 c3 c4 c5 c6 c7 : γ)
    (h1 : sg c1 = sg c0) (h2 : sg c2 = sg c0) (h3 : sg c3 = sg c0) (h4 : sg c4 = sg c0)
    (h5 : sg c5 = sg c0) (h6 : sg c6 = sg c0) (h7 : sg c7 = sg c0) :
    cellEdges sg c0 c1 c2 c3 c4 c5 c6 c7 = [] := by
  unfold cellEdges
  rw [h1, h2, h3, h4, h5, h6, h7]
  cases sg c0 <;> rfl

theorem cellEdges_congr {γ : Type} (sg sg' : γ → Bool) (c0 c1 c2 c3 c4 c5 c6 c7 : γ)
    (h0 : sg c0 = sg' c0) (h1 : sg c1 = sg' c1) (h2 : sg c2 = sg' c2) (h3 : sg c3 = sg' c3)
    (h4 : sg c4 = sg' c4) (h5 : sg c5 = sg' c5) (h6 : sg c6 = sg' c6) (h7 : sg c7 = sg' c7) :
    cellEdges sg c0 c1 c2 c3 c4 c5 c6 c7 = cellEdges sg' c0 c1 c2 c3 c4 c5 c6 c7 := by
  unfold cellEdges
  rw [h0, h1, h2, h3, h4, h5, h6, h7]

theorem flatMap_congr_mem {α β : Type} (l : List α) (F G : α → List β)
    (h : ∀ a ∈ l, F a = G a) : l.flatMap F = l.flatMap G := by
  induction l with
  | nil => rfl
  | cons a l ih =>
    rw [List.flatMap_cons, List.flatMap_cons, h a (List.mem_cons_self a l),
      ih fun b hb => h b (List.mem_cons_of_mem a hb)]

theorem signMask_sign (g : Nat) (h : g < 8000) :
    bitAt signMask g = signBit (spherePoint g) 0 := by
  rw [signMask_bits g h, sphereAbove_eq]

/-- The list read off `signMask` is the list of the triangles of the sphere example
by edges. -/
theorem sphereEdges_eq :
    sphereEdges = gridEdges (fun g => signBit (spherePoint g) 0) 19 19 19 := by
  unfold sphereEdges gridEdges
  refine flatMap_congr_mem _ _ _ fun i hi => ?_
  refine flatMap_congr_mem _ _ _ fun j hj => ?_
  refine flatMap_congr_mem _ _ _ fun k hk => ?_
  have hi' := List.mem_range.mp hi
  have hj' := List.mem_range.mp hj
  have hk' := List.mem_range.mp hk
  have s0 := signMask_sign (i + 20 * j + 400 * k) (by omega)
  have s1 := signMask_sign (i + 20 * j + 400 * k + 1) (by omega)
  have s2 := signMask_sign (i + 20 * j + 400 * k + 21) (by omega)
  have s3 := signMask_sign (i + 20 * j + 400 * k + 20) (by omega)
  have s4 := signMask_sign (i + 20 * j + 400 * k + 400) (by omega)
  have s5 := signMask_sign (i + 20 * j + 400 * k + 401) (by omega)
  have s6 := signMask_sign (i + 20 * j + 400 * k + 421) (by omega)
  have s7 := signMask_sign (i + 20 * j + 400 * k + 420) (by omega)
  unfold cellEdgesFast
  cases hm : bitAt mixedMask (i + 20 * j + 400 * k) with
  | true =>
    rw [cond_true]
    exact cellEdges_congr _ _ _ _ _ _ _ _ _ _ s0 s1 s2 s3 s4 s5 s6 s7
  | false =>
    rw [cond_false]
    obtain ⟨m1, m2, m3, m4, m5, m6, m7⟩ := mixedMask_false _ hm
    symm
    apply cellEdges_uniform
    · show signBit _ _ = signBit _ _
      rw [← s1, ← s0, m1]
    · show signBit _ _ = signBit _ _
      rw [← s2, ← s0, m2]
    · show signBit _ _ = signBit _ _
      rw [← s3, ← s0, m3]
    · show signBit _ _ = signBit _ _
      rw [← s4, ← s0, m4]
    · show signBit _ _ = signBit _ _
      rw [← s5, ← s0, m5]
    · show signBit _ _ = signBit _ _
      rw [← s6, ← s0, m6]
    · show signBit _ _ = signBit _ _
      rw [← s7, ← s0, m7]

/-! ## The sphere example: vertex keys in integers -/

theorem mul_tdiv_mul_of_pos (c a b : Int) (hc : 0 < c) : (c * a).tdiv (c * b) = a.tdiv b := by
  have key : ∀ a b : Int, 0 ≤ a → 0 ≤ b → (c * a).tdiv (c * b) = a.tdiv b := by
    intro a b ha hb
    rw [Int.tdiv_eq_ediv (Int.mul_nonneg (le_of_lt hc) ha) (Int.mul_nonneg (le_of_lt hc) hb),
      Int.tdiv_eq_ediv ha hb, Int.mul_ediv_mul_of_pos _ _ hc]
  rcases le_total 0 a with ha | ha <;> rcases le_total 0 b with hb | hb
  · exact key a b ha hb
  · have := key a (-b) ha (neg_nonneg.mpr hb)
    rw [mul_neg, Int.tdiv_neg, Int.tdiv_neg] at this
    exact neg_injective this
  · have := key (-a) b (neg_nonneg.mpr ha) hb
    rw [mul_neg, Int.neg_tdiv, Int.neg_tdiv] at this
    exact neg_injective this
  · have := key (-a) (-b) (neg_nonneg.mpr ha) (neg_nonneg.mpr hb)
    rw [mul_neg, mul_neg, Int.neg_tdiv_neg, Int.neg_tdiv_neg] at this
    exact this

theorem mul_tdiv_mul (c a b : Int) (hc : c ≠ 0) : (c * a).tdiv (c * b) = a.tdiv b := by
  rcases lt_or_gt_of_ne hc with h | h
  · have := mul_tdiv_mul_of_pos (-c) a b (neg_pos.mpr h)
    rw [neg_mul, neg_mul, Int.neg_tdiv_neg] at this
    exact this
  · exact mul_tdiv_mul_of_pos c a b h

theorem castInt_divInt (n d : Int) (hd : d ≠ 0) : castInt (Rat.divInt n d) = Int.tdiv n d := by
  generalize hq : Rat.divInt n d = q
  obtain ⟨c, hn, hd'⟩ := Rat.num_den_mk hd hq.symm
  have hc : c ≠ 0 := by
    rintro rfl
    rw [zero_mul] at hd'
    exact hd hd'
  unfold castInt
  rw [hn, hd', mul_tdiv_mul c _ _ hc]

theorem castInt_div (p q : Int) (hq : q ≠ 0) :
    castInt ((p : ℚ) / (q : ℚ) / DBL_EPS) = Int.tdiv (10000 * p) q := by
  have : (p : ℚ) / (q : ℚ) / DBL_EPS = Rat.divInt (10000 * p) q := by
    rw [Rat.divInt_eq_div, DBL_EPS]
    have hq' : (q : ℚ) ≠ 0 := Int.cast_ne_zero.mpr hq
    push_cast
    field_simp
    ring
  rw [this, castInt_divInt _ _ hq]

theorem closeInt_eq (p q r s : Int) (hq : q ≠ 0) (hs : s ≠ 0) :
    DBL_APPROX ((p : ℚ) / (q : ℚ)) ((r : ℚ) / (s : ℚ)) = closeInt p q r s := by
  unfold DBL_APPROX closeInt DBL_EPS
  rw [Bool.eq_iff_iff, decide_eq_true_eq, Nat.blt_eq]
  have hq' : (q : ℚ) ≠ 0 := Int.cast_ne_zero.mpr hq
  have hs' : (s : ℚ) ≠ 0 := Int.cast_ne_zero.mpr hs
  have hpos : (0 : ℚ) < |(q : ℚ) * (s : ℚ)| := abs_pos.mpr (mul_ne_zero hq' hs')
  rw [div_sub_div _ _ hq' hs', abs_div, div_lt_iff₀ hpos, mul_comm (q : ℚ) (r : ℚ)]
  rw [← Nat.cast_lt (α := ℚ)]
  push_cast
  rw [Nat.cast_natAbs, Nat.cast_natAbs]
  push_cast
  constructor <;> intro h <;> linarith

theorem spherePoint_coords (g : Nat) :
    (spherePoint g).x = (sphereAlpha (g % 20) : ℚ) / 19 ∧
    (spherePoint g).y = (sphereAlpha (g / 400) : ℚ) / 19 ∧
    (spherePoint g).z = (sphereAlpha (g / 20 % 20) : ℚ) / 19 ∧
    (spherePoint g).info = (sphereNum g : ℚ) / 361 := by
  unfold spherePoint freshCorner sphereField sphereNum sphereAlpha Vector3.new
  generalize g % 20 = a
  generalize g / 20 % 20 = b
  generalize g / 400 = c
  refine ⟨?_, ?_, ?_, ?_⟩ <;> push_cast <;> ring

theorem interpolate_quotient (ax bx na nb : ℚ) (h : na - nb ≠ 0) :
    ax / 19 * (1 - (0 - na / 361) / (nb / 361 - na / 361)) +
      bx / 19 * ((0 - na / 361) / (nb / 361 - na / 361)) =
      (na * bx - nb * ax) / (19 * (na - nb)) := by
  have h2 : nb - na ≠ 0 := fun h' => h (by linarith)
  have h3 : nb / 361 - na / 361 ≠ 0 := fun h' => h2 (by linarith)
  field_simp
  ring

theorem vpos_coords (c : Nat) (h : keyDen c ≠ 0) :
    vpos c = Vector3.new ((keyNumX c : ℚ) / (keyDen c : ℚ)) ((keyNumY c : ℚ) / (keyDen c : ℚ))
      ((keyNumZ c : ℚ) / (keyDen c : ℚ)) := by
  obtain ⟨ax, ay, az, ai⟩ := spherePoint_coords (c / 8000)
  obtain ⟨bx, by', bz, bi⟩ := spherePoint_coords (c % 8000)
  have hn : ((sphereNum (c / 8000) : ℚ) - (sphereNum (c % 8000) : ℚ)) ≠ 0 := by
    intro h0
    apply h
    unfold keyDen
    have : sphereNum (c / 8000) - sphereNum (c % 8000) = 0 := by exact_mod_cast h0
    rw [this, mul_zero]
  unfold vpos vertexKey crossing inverseLinearInterpolation Vector3.interpolate Vector3.add
    Vector3.multiply keyNumX keyNumY keyNumZ keyDen
  simp only [Vector3.new, ax, ay, az, ai, bx, by', bz, bi, Vector3.mk.injEq, true_and]
  push_cast
  exact ⟨interpolate_quotient _ _ _ _ hn, interpolate_quotient _ _ _ _ hn,
    interpolate_quotient _ _ _ _ hn⟩

theorem hashPart_eq (p q : Int) (hq : q ≠ 0) :
    stdHashInt (castInt ((p : ℚ) / (q : ℚ) / DBL_EPS)) = hashPart p q := by
  rw [castInt_div p q hq]
  rfl

theorem keyHash_eq (c : Nat) (h : keyDen c ≠ 0) :
    Vector3Hash.operatorCall (vpos c) = keyHash c := by
  rw [vpos_coords c h]
  unfold Vector3Hash.operatorCall keyHash
  simp only [Vector3.new, hashPart_eq _ _ h]
  rfl

theorem keyClose_eq (c d : Nat) (hc : keyDen c ≠ 0) (hd : keyDen d ≠ 0) :
    (vpos c).operatorEq (vpos d) = keyClose c d := by
  rw [vpos_coords c hc, vpos_coords d hd]
  unfold Vector3.operatorEq keyClose
  simp only [Vector3.new, closeInt_eq _ _ _ _ hc hd]

theorem operatorEq_comm (a b : Vector3) : a.operatorEq b = b.operatorEq a := by
  unfold Vector3.operatorEq DBL_APPROX
  rw [abs_sub_comm a.x, abs_sub_comm a.y, abs_sub_comm a.z]

/-! ## The sphere example: the facts checked by evaluation -/

set_option maxRecDepth 1000000 in

theorem sphereCheckEdges_true : sphereCheckEdges = true := by decide!

set_option maxRecDepth 1000000 in

theorem sphereCheckSides_true : sphereCheckSides = true := by decide!

set_option maxRecDepth 1000000 in

theorem sphereCheckKeys_true : sphereCheckKeys = true := by decide!

theorem isStep_spec (d : Nat) (h : isStep d = true) :
    d = 1 ∨ d = 19 ∨ d = 20 ∨ d = 380 ∨ d = 381 ∨ d = 400 ∨ d = 401 := by
  simpa [isStep, or_assoc] using h

theorem edgeOk_spec (e : Nat × Nat) (h : edgeOk e = true) :
    e.1 < 8000 ∧ e.2 < 8000 ∧ bitAt signMask e.1 ≠ bitAt signMask e.2 ∧
      ((e.1 < e.2 ∧ isStep (e.2 - e.1) = true) ∨ (e.2 < e.1 ∧ isStep (e.1 - e.2) = true)) := by
  unfold edgeOk at h
  simp only [Bool.and_eq_true, Nat.blt_eq, bne_iff_ne, ne_eq] at h
  obtain ⟨⟨⟨h1, h2⟩, h3⟩, h4⟩ := h
  refine ⟨h1, h2, h3, ?_⟩
  by_cases hlt : e.1 < e.2
  · rw [blt_true hlt, cond_true] at h4
    exact Or.inl ⟨hlt, h4⟩
  · rw [blt_false hlt, cond_false] at h4
    have := isStep_spec _ h4
    exact Or.inr ⟨by omega, h4⟩

theorem bitAt_crossMask (a d : Nat) (hd : isStep d = true)
    (hs : bitAt signMask a ≠ bitAt signMask (a + d)) : bitAt crossMask a = true := by
  simp only [bitAt_eq_testBit] at hs ⊢
  unfold crossMask
  simp only [Nat.testBit_or, Nat.testBit_xor, Nat.testBit_shiftRight, Bool.or_eq_true,
    bne_iff_ne, ne_eq]
  rcases isStep_spec d hd with rfl | rfl | rfl | rfl | rfl | rfl | rfl <;>
    simp only [Nat.add_comm a] at hs <;> tauto

theorem mem_edgeAt (a d : Nat) (h1 : a + d < 8000)
    (hs : bitAt signMask a ≠ bitAt signMask (a + d)) : a * 8000 + (a + d) ∈ edgeAt a d := by
  unfold edgeAt
  rw [blt_true h1, Bool.true_and, bne_iff_ne.mpr hs, cond_true]
  exact List.mem_singleton.mpr rfl

theorem mem_edgeList (a d : Nat) (hd : isStep d = true) (h1 : a + d < 8000)
    (hs : bitAt signMask a ≠ bitAt signMask (a + d)) : a * 8000 + (a + d) ∈ edgeList := by
  have hm := mem_edgeAt a d h1 hs
  have hin : a * 8000 + (a + d) ∈ edgeAt a 1 ++ (edgeAt a 19 ++ (edgeAt a 20 ++ (edgeAt a 380 ++
      (edgeAt a 381 ++ (edgeAt a 400 ++ edgeAt a 401))))) := by
    rcases isStep_spec d hd with rfl | rfl | rfl | rfl | rfl | rfl | rfl
    · exact List.mem_append_left _ hm
    · exact List.mem_append_right _ (List.mem_append_left _ hm)
    · exact List.mem_append_right _ (List.mem_append_right _ (List.mem_append_left _ hm))
    · exact List.mem_append_right _ (List.mem_append_right _ (List.mem_append_right _
        (List.mem_append_left _ hm)))
    · exact List.mem_append_right _ (List.mem_append_right _ (List.mem_append_right _
        (List.mem_append_right _ (List.mem_append_left _ hm))))
    · exact List.mem_append_right _ (List.mem_append_right _ (List.mem_append_right _
        (List.mem_append_right _ (List.mem_append_right _ (List.mem_append_left _ hm)))))
    · exact List.mem_append_right _ (List.mem_append_right _ (List.mem_append_right _
        (List.mem_append_right _ (List.mem_append_right _ (List.mem_append_right _ hm)))))
  have ha : a ∈ List.range 8000 := List.mem_range.mpr (by omega)
  rw [edgeList, List.mem_flatMap]
  refine ⟨a, ha, ?_⟩
  rw [bitAt_crossMask a d hd hs, cond_true]
  exact hin

theorem vcode_mem_edgeList (e : Nat × Nat) (h : edgeOk e = true) : vcode e ∈ edgeList := by
  obtain ⟨h1, h2, h3, h4⟩ := edgeOk_spec e h
  unfold vcode
  rcases h4 with ⟨hlt, hd⟩ | ⟨hlt, hd⟩
  · rw [blt_true hlt, cond_true]
    have e2 : e.2 = e.1 + (e.2 - e.1) := by omega
    have := mem_edgeList e.1 (e.2 - e.1) hd (by omega) (by rw [← e2]; exact h3)
    rw [← e2] at this
    exact this
  · rw [blt_false (by omega), cond_false]
    have e1 : e.1 = e.2 + (e.1 - e.2) := by omega
    have := mem_edgeList e.2 (e.1 - e.2) hd (by omega) (by rw [← e1]; exact fun h => h3 h.symm)
    rw [← e1] at this
    exact this

theorem vcode_lt (e : Nat × Nat) (h : edgeOk e = true) : vcode e < 67108864 := by
  obtain ⟨h1, h2, -, -⟩ := edgeOk_spec e h
  unfold vcode
  by_cases hlt : e.1 < e.2
  · rw [blt_true hlt, cond_true]
    show e.1 * 8000 + e.2 < 67108864
    omega
  · rw [blt_false hlt, cond_false]
    show e.2 * 8000 + e.1 < 67108864
    omega

/-- The key of the vertex computed on an edge between two samples with different
sign bits is the key filed under the number of the edge, whichever end comes
first. -/
theorem vertexKey_crossing (e : Nat × Nat) (h : edgeOk e = true) :
    vertexKey (crossing (spherePoint e.1) (spherePoint e.2) 0) = vpos (vcode e) := by
  obtain ⟨h1, h2, h3, -⟩ := edgeOk_spec e h
  unfold vcode vpos
  by_cases hlt : e.1 < e.2
  · rw [blt_true hlt, cond_true]
    show _ = vertexKey (crossing (spherePoint ((e.1 * 8000 + e.2) / 8000))
      (spherePoint ((e.1 * 8000 + e.2) % 8000)) 0)
    rw [show (e.1 * 8000 + e.2) / 8000 = e.1 by omega, show (e.1 * 8000 + e.2) % 8000 = e.2 by omega]
  · rw [blt_false hlt, cond_false]
    show _ = vertexKey (crossing (spherePoint ((e.2 * 8000 + e.1) / 8000))
      (spherePoint ((e.2 * 8000 + e.1) % 8000)) 0)
    rw [show (e.2 * 8000 + e.1) / 8000 = e.2 by omega, show (e.2 * 8000 + e.1) % 8000 = e.1 by omega]
    rw [crossing_comm]
    refine @info_ne_of_signBit_ne _ _ 0 ?_
    rw [← signMask_sign e.1 h1, ← signMask_sign e.2 h2]
    exact h3

theorem closeInt_symm (p q r s : Int) : closeInt p q r s = closeInt r s p q := by
  unfold closeInt
  rw [← Int.natAbs_neg (p * s - r * q), neg_sub, mul_comm q s]

theorem keyClose_symm (c d : Nat) : keyClose c d = keyClose d c := by
  unfold keyClose
  rw [closeInt_symm (keyNumX c), closeInt_symm (keyNumY c), closeInt_symm (keyNumZ c)]

/-- Two different edges of `edgeList` never carry vertex keys with equal hash codes
that `operator==` accepts as equal. -/
theorem codesApart (c : Nat) (hc : c ∈ edgeList) (d : Nat) (hd : d ∈ edgeList)
    (hh : Vector3Hash.operatorCall (vpos c) = Vector3Hash.operatorCall (vpos d))
    (he : (vpos d).operatorEq (vpos c) = true) : c = d := by
  have hk := sphereCheckKeys_true
  unfold sphereCheckKeys at hk
  simp only [Bool.and_eq_true] at hk
  obtain ⟨⟨hok, hsorted⟩, hgroups⟩ := hk
  have ok : ∀ x ∈ edgeList, x < 67108864 ∧ keyDen x ≠ 0 := by
    intro x hx
    have := List.all_eq_true.mp hok x hx
    unfold keyOk at this
    simp only [Bool.and_eq_true, Nat.blt_eq, Bool.not_eq_true', decide_eq_false_iff_not] at this
    exact this
  by_contra hne
  have hpw := groupsOk_spec keysApart sphereKeys (sortedAsc_spec _ hsorted) hgroups
  have hsymm : Symmetric fun e x : Nat =>
      e / 67108864 = x / 67108864 → keysApart e x = true := by
    intro e x h hq
    have := h hq.symm
    unfold keysApart at this ⊢
    rw [keyClose_symm]
    exact this
  have mem : ∀ x ∈ edgeList, keyHash x * 67108864 + x ∈ sphereKeys := by
    intro x hx
    unfold sphereKeys
    exact (msort_perm _ _ _).mem_iff.mpr (List.mem_map.mpr ⟨x, hx, rfl⟩)
  have hc' := ok c hc
  have hd' := ok d hd
  have key := hpw.forall hsymm (mem c hc) (mem d hd) (by omega)
  have q1 : (keyHash c * 67108864 + c) / 67108864 = keyHash c := by omega
  have q2 : (keyHash d * 67108864 + d) / 67108864 = keyHash d := by omega
  have r1 : (keyHash c * 67108864 + c) % 67108864 = c := by omega
  have r2 : (keyHash d * 67108864 + d) % 67108864 = d := by omega
  rw [q1, q2] at key
  have := key (by rw [← keyHash_eq c hc'.2, ← keyHash_eq d hd'.2]; exact hh)
  unfold keysApart at this
  rw [r1, r2, ← keyClose_eq d c hd'.2 hc'.2, he] at this
  exact Bool.noConfusion this

theorem forall₂_mem_right {α β : Type} {R : α → β → Prop} {l1 : List α} {l2 : List β}
    (h : List.Forall₂ R l1 l2) {b : β} (hb : b ∈ l2) : ∃ a ∈ l1, R a b := by
  induction h with
  | nil => simp at hb
  | cons hab _ ih =>
    rcases List.mem_cons.mp hb with rfl | hb
    · exact ⟨_, List.mem_cons_self _ _, hab⟩
    · obtain ⟨a, ha, hr⟩ := ih hb
      exact ⟨a, List.mem_cons_of_mem _ ha, hr⟩

theorem forall₂_imp_mem {α β : Type} {R S : α → β → Prop} {l1 : List α} {l2 : List β}
    (h : List.Forall₂ R l1 l2) (himp : ∀ a ∈ l1, ∀ b ∈ l2, R a b → S a b) :
    List.Forall₂ S l1 l2 := by
  induction h with
  | nil => exact List.Forall₂.nil
  | cons hab _ ih =>
    exact List.Forall₂.cons (himp _ (List.mem_cons_self _ _) _ (List.mem_cons_self _ _) hab)
      (ih fun a ha b hb => himp a (List.mem_cons_of_mem _ ha) b (List.mem_cons_of_mem _ hb))

theorem sphereEdges_ok (s : (Nat × Nat) × (Nat × Nat) × (Nat × Nat)) (hs : s ∈ sphereEdges) :
    edgeOk s.1 = true ∧ edgeOk s.2.1 = true ∧ edgeOk s.2.2 = true := by
  have h := sphereCheckEdges_true
  unfold sphereCheckEdges at h
  simp only [Bool.and_eq_true] at h
  have := List.all_eq_true.mp h.1.2 s hs
  simp only [Bool.and_eq_true] at this
  exact ⟨this.1.1, this.1.2, this.2⟩

theorem sphereTris_ok (c : Nat × Nat × Nat) (hc : c ∈ sphereTris) :
    (c.1 ≠ c.2.1 ∧ c.2.1 ≠ c.2.2 ∧ c.2.2 ≠ c.1) ∧
      (c.1 < 67108864 ∧ c.2.1 < 67108864 ∧ c.2.2 < 67108864) := by
  have h := sphereCheckEdges_true
  unfold sphereCheckEdges at h
  simp only [Bool.and_eq_true] at h
  have h1 := List.all_eq_true.mp h.2 c hc
  unfold triOk at h1
  simp only [Bool.and_eq_true, Bool.not_eq_true', ← Bool.not_eq_true, Nat.beq_eq] at h1
  refine ⟨⟨h1.1.1, h1.1.2, h1.2⟩, ?_⟩
  unfold sphereTris at hc
  obtain ⟨s, hs, rfl⟩ := List.mem_map.mp hc
  obtain ⟨e1, e2, e3⟩ := sphereEdges_ok s hs
  exact ⟨vcode_lt _ e1, vcode_lt _ e2, vcode_lt _ e3⟩

theorem sphereEdges_ne_nil : sphereEdges ≠ [] := by
  have h := sphereCheckEdges_true
  unfold sphereCheckEdges at h
  simp only [Bool.and_eq_true, Bool.not_eq_true', List.isEmpty_eq_false] at h
  exact h.1.1

/-- The keys of the three vertices of a soup triangle are the keys filed under the
numbers of the three edges that carry them. -/
theorem triOn_keys (T : Triangle) (s : (Nat × Nat) × (Nat × Nat) × (Nat × Nat))
    (hs : s ∈ sphereEdges) (h : TriOn spherePoint 0 T s) :
    List.Perm [vertexKey T.v0, vertexKey T.v1, vertexKey T.v2]
      [vpos (vcode s.1), vpos (vcode s.2.1), vpos (vcode s.2.2)] := by
  obtain ⟨e1, e2, e3⟩ := sphereEdges_ok s hs
  have := h.map vertexKey
  simp only [List.map_cons, List.map_nil] at this
  rw [vertexKey_crossing _ e1, vertexKey_crossing _ e2, vertexKey_crossing _ e3] at this
  exact this

theorem sphere_faithful : Faithful (edgeList.map vpos) := by
  intro u hu v hv hh he
  obtain ⟨c, hc, rfl⟩ := List.mem_map.mp hu
  obtain ⟨d, hd, rfl⟩ := List.mem_map.mp hv
  rw [codesApart c hc d hd hh he]

/-- A triangle soup listed by `sphereEdges` welds to a closed mesh. -/
theorem watertight_of_soup (soup : List Triangle)
    (hS : List.Forall₂ (TriOn spherePoint 0) soup sphereEdges)
    (polygons : List Nat)
    (hp : polygons = (soup.foldl weldTriangle
      ({ vertices := [], vertex_map := [], current_id := -1 }, [])).2) :
    polygons ≠ [] ∧
      ∀ t ∈ meshTriangles polygons, ∀ u v : Nat, hasSide t u v = true →
        edgeUses polygons u v = 2 := by
  have hL : ∀ T ∈ soup, vertexKey T.v0 ∈ edgeList.map vpos ∧
      vertexKey T.v1 ∈ edgeList.map vpos ∧ vertexKey T.v2 ∈ edgeList.map vpos := by
    intro T hT
    obtain ⟨s, hs, hr⟩ := forall₂_mem_left hS hT
    have hk := triOn_keys T s hs hr
    obtain ⟨e1, e2, e3⟩ := sphereEdges_ok s hs
    have hsub : ∀ k ∈ [vpos (vcode s.1), vpos (vcode s.2.1), vpos (vcode s.2.2)],
        k ∈ edgeList.map vpos := by
      intro k hk'
      simp only [List.mem_cons, List.mem_singleton, List.not_mem_nil, or_false] at hk'
      rcases hk' with rfl | rfl | rfl
      · exact List.mem_map_of_mem vpos (vcode_mem_edgeList _ e1)
      · exact List.mem_map_of_mem vpos (vcode_mem_edgeList _ e2)
      · exact List.mem_map_of_mem vpos (vcode_mem_edgeList _ e3)
    exact ⟨hsub _ (hk.mem_iff.mp (by simp)), hsub _ (hk.mem_iff.mp (by simp)),
      hsub _ (hk.mem_iff.mp (by simp))⟩
  obtain ⟨seen, hseen, hpoly⟩ := weld_soup_order (edgeList.map vpos) sphere_faithful soup hL
  rw [hpoly] at hp
  subst hp
  have hmesh := meshTriangles_flatMap (fun T : Triangle => seen.indexOf (vertexKey T.v0))
    (fun T => seen.indexOf (vertexKey T.v2)) (fun T => seen.indexOf (vertexKey T.v1)) soup
  refine ⟨?_, ?_⟩
  · cases soup with
    | nil => exact absurd (List.length_eq_zero.mp hS.length_eq.symm) sphereEdges_ne_nil
    | cons T soup => simp [List.flatMap_cons]
  · unfold edgeUses
    rw [hmesh]
    have hMC : List.Forall₂ (ImageOf fun c => seen.indexOf (vpos c))
        (soup.map fun T => (seen.indexOf (vertexKey T.v0), seen.indexOf (vertexKey T.v2),
          seen.indexOf (vertexKey T.v1))) sphereTris := by
      unfold sphereTris
      rw [List.forall₂_map_left_iff, List.forall₂_map_right_iff]
      refine forall₂_imp_mem hS fun T _ s hs hr => ?_
      have hk := (triOn_keys T s hs hr).map fun k => seen.indexOf k
      unfold ImageOf entries triCodes
      simp only [List.map_cons, List.map_nil] at hk ⊢
      exact ((List.Perm.swap _ _ _).cons _).trans hk
    have hJ : ∀ c ∈ sphereTris, ∀ c' ∈ sphereTris, ∀ x ∈ entries c, ∀ y ∈ entries c',
        seen.indexOf (vpos x) = seen.indexOf (vpos y) → x = y := by
      have hin : ∀ c ∈ sphereTris, ∀ x ∈ entries c, x ∈ edgeList ∧ vpos x ∈ seen := by
        intro c hc x hx
        unfold sphereTris at hc
        obtain ⟨s, hs, rfl⟩ := List.mem_map.mp hc
        obtain ⟨T, hT, hr⟩ := forall₂_mem_right hS hs
        have hk := triOn_keys T s hs hr
        obtain ⟨e1, e2, e3⟩ := sphereEdges_ok s hs
        obtain ⟨k0, k1, k2⟩ := hseen T hT
        have hall : ∀ k ∈ [vertexKey T.v0, vertexKey T.v1, vertexKey T.v2], k ∈ seen := by
          intro k hk'
          simp only [List.mem_cons, List.mem_singleton, List.not_mem_nil, or_false] at hk'
          rcases hk' with rfl | rfl | rfl
          · exact k0
          · exact k1
          · exact k2
        simp only [entries, triCodes, List.mem_cons, List.mem_singleton, List.not_mem_nil,
          or_false] at hx
        rcases hx with rfl | rfl | rfl
        · exact ⟨vcode_mem_edgeList _ e1, hall _ (hk.mem_iff.mpr (by simp))⟩
        · exact ⟨vcode_mem_edgeList _ e2, hall _ (hk.mem_iff.mpr (by simp))⟩
        · exact ⟨vcode_mem_edgeList _ e3, hall _ (hk.mem_iff.mpr (by simp))⟩
      intro c hc c' hc' x hx y hy hxy
      obtain ⟨x1, x2⟩ := hin c hc x hx
      obtain ⟨y1, y2⟩ := hin c' hc' y hy
      have hv : vpos x = vpos y := (List.indexOf_inj x2 y2).mp hxy
      exact codesApart x x1 y y1 (by rw [hv]) (by rw [hv]; exact operatorEq_self _)
    exact sides_twice (fun c => seen.indexOf (vpos c)) _ sphereTris hMC
      (fun c hc => (sphereTris_ok c hc).1) (fun c hc => (sphereTris_ok c hc).2) hJ
      (fun e => twiceEach_count 8000 14 _ sphereCheckSides_true e)

/-- The sphere example in exact arithmetic.  For the field
`f(x, y, z) = x^2 + y^2 + z^2 - 1` sampled over the box from `(-2, -2, -2)` to
`(2, 2, 2)` with `20` samples on each axis and isovalue `0`, the index sequence
that `marching_cubes` returns when no result is rounded is not empty, and every
undirected edge `{u, v}` that is a side of one of its triangles is a side of
exactly two of its triangles.  In double arithmetic the mesh has a side that
belongs to one triangle only (last section). -/
theorem sphere_mesh_watertight :
    sphereMesh.2 ≠ [] ∧
      ∀ t ∈ meshTriangles sphereMesh.2, ∀ u v : Nat, hasSide t u v = true →
        edgeUses sphereMesh.2 u v = 2 :=
  watertight_of_soup _ (by rw [sphereEdges_eq]; exact sphere_soup_edges) _ sphereMesh_eq

/-! ## One side for all normals -/

theorem coord_in_range (lo hi : ℚ) (n : Int) (hn : 1 ≤ n) (h : lo ≤ hi) (i : Nat)
    (hi' : (i : Int) ≤ n) :
    lo ≤ lo + (hi - lo) / (n : ℚ) * (i : ℚ) ∧ lo + (hi - lo) / (n : ℚ) * (i : ℚ) ≤ hi := by
  have npos : (0 : ℚ) < (n : ℚ) := by exact_mod_cast (lt_of_lt_of_le zero_lt_one hn)
  have hin : (i : ℚ) ≤ (n : ℚ) := by exact_mod_cast hi'
  have h0 : 0 ≤ (hi - lo) / (n : ℚ) := div_nonneg (by linarith) (le_of_lt npos)
  have h1 : 0 ≤ (hi - lo) / (n : ℚ) * (i : ℚ) := mul_nonneg h0 (Nat.cast_nonneg i)
  have h2 : (hi - lo) / (n : ℚ) * (i : ℚ) ≤ (hi - lo) / (n : ℚ) * (n : ℚ) :=
    mul_le_mul_of_nonneg_left hin h0
  rw [div_mul_cancel₀ _ (ne_of_gt npos)] at h2
  constructor <;> linarith

theorem interpolate_between (a b t lo hi : ℚ) (ha : lo ≤ a ∧ a ≤ hi) (hb : lo ≤ b ∧ b ≤ hi)
    (t0 : 0 ≤ t) (t1 : t ≤ 1) : lo ≤ a * (1 - t) + b * t ∧ a * (1 - t) + b * t ≤ hi := by
  have s0 : 0 ≤ 1 - t := by linarith
  constructor
  · nlinarith [mul_nonneg (sub_nonneg.mpr ha.1) s0, mul_nonneg (sub_nonneg.mpr hb.1) t0]
  · nlinarith [mul_nonneg (sub_nonneg.mpr ha.2) s0, mul_nonneg (sub_nonneg.mpr hb.2) t0]

theorem crossing_inBox (lower upper : Fin 3 → ℚ) (A B : Vector3) (isovalue : ℚ)
    (hA : InBox lower upper A) (hB : InBox lower upper B)
    (hs : signBit A isovalue ≠ signBit B isovalue) :
    InBox lower upper (crossing A B isovalue) := by
  have ht : 0 ≤ inverseLinearInterpolation isovalue A.info B.info ∧
      inverseLinearInterpolation isovalue A.info B.info ≤ 1 := by
    unfold inverseLinearInterpolation
    unfold signBit at hs
    by_cases a : A.info > isovalue
    · have b : ¬ B.info > isovalue := fun b => hs (by simp [a, b])
      have hd : B.info - A.info < 0 := by linarith [not_lt.mp b]
      constructor
      · exact div_nonneg_of_nonpos (by linarith) (le_of_lt hd)
      · rw [div_le_one_of_neg hd]; linarith [not_lt.mp b]
    · have b : B.info > isovalue := by
        by_contra b
        exact hs (by simp [a, b])
      have hd : 0 < B.info - A.info := by linarith [not_lt.mp a]
      constructor
      · exact div_nonneg (by linarith [not_lt.mp a]) (le_of_lt hd)
      · rw [div_le_one hd]; linarith
  obtain ⟨t0, t1⟩ := ht
  obtain ⟨ax, az, ay⟩ := hA
  obtain ⟨bx, bz, by'⟩ := hB
  unfold InBox crossing Vector3.interpolate Vector3.add Vector3.multiply
  simp only [Vector3.new]
  exact ⟨interpolate_between _ _ _ _ _ ax bx t0 t1, interpolate_between _ _ _ _ _ az bz t0 t1,
    interpolate_between _ _ _ _ _ ay by' t0 t1⟩

theorem marchTetrahedra_inBox (lower upper : Fin 3 → ℚ) {V0 V1 V2 V3 : Vector3} {isovalue : ℚ}
    (h0 : InBox lower upper V0) (h1 : InBox lower upper V1) (h2 : InBox lower upper V2)
    (h3 : InBox lower upper V3) {T : Triangle} (hT : T ∈ marchTetrahedra V0 V1 V2 V3 isovalue) :
    InBox lower upper T.v0 ∧ InBox lower upper T.v1 ∧ InBox lower upper T.v2 := by
  have key : ∀ P : Vector3, P = T.v0 ∨ P = T.v1 ∨ P = T.v2 → InBox lower upper P := by
    intro P hP
    obtain ⟨A, B, hA, hB, hs, rfl⟩ := marchTetrahedra_vertex hT P hP
    have cA : InBox lower upper A := by
      rcases hA with rfl | rfl | rfl | rfl <;> assumption
    have cB : InBox lower upper B := by
      rcases hB with rfl | rfl | rfl | rfl <;> assumption
    exact crossing_inBox lower upper A B isovalue cA cB hs
  exact ⟨key _ (Or.inl rfl), key _ (Or.inr (Or.inl rfl)), key _ (Or.inr (Or.inr rfl))⟩

theorem freshCell_inBox (lower upper : Fin 3 → ℚ) (f : ℚ → ℚ → ℚ → ℚ)
    (isovalue x x1 y y1 z z1 : ℚ)
    (hx : lower 0 ≤ x ∧ x ≤ upper 0) (hx1 : lower 0 ≤ x1 ∧ x1 ≤ upper 0)
    (hy : lower 1 ≤ y ∧ y ≤ upper 1) (hy1 : lower 1 ≤ y1 ∧ y1 ≤ upper 1)
    (hz : lower 2 ≤ z ∧ z ≤ upper 2) (hz1 : lower 2 ≤ z1 ∧ z1 ≤ upper 2)
    {T : Triangle} (hT : T ∈ freshCell f isovalue x x1 y y1 z z1) :
    InBox lower upper T.v0 ∧ InBox lower upper T.v1 ∧ InBox lower upper T.v2 := by
  have c : ∀ a b c : ℚ, (lower 0 ≤ a ∧ a ≤ upper 0) → (lower 1 ≤ b ∧ b ≤ upper 1) →
      (lower 2 ≤ c ∧ c ≤ upper 2) → InBox lower upper (freshCorner f a b c) :=
    fun a b c ha hb hc => ⟨ha, hb, hc⟩
  unfold freshCell at hT
  rcases marchCellTetrahedra_mem hT with h | h | h | h | h | h
  · exact marchTetrahedra_inBox lower upper (c _ _ _ hx hy hz) (c _ _ _ hx1 hy hz)
      (c _ _ _ hx hy1 hz) (c _ _ _ hx1 hy hz1) h
  · exact marchTetrahedra_inBox lower upper (c _ _ _ hx1 hy hz) (c _ _ _ hx1 hy1 hz)
      (c _ _ _ hx hy1 hz) (c _ _ _ hx1 hy hz1) h
  · exact marchTetrahedra_inBox lower upper (c _ _ _ hx hy hz) (c _ _ _ hx hy1 hz)
      (c _ _ _ hx hy hz1) (c _ _ _ hx1 hy hz1) h
  · exact marchTetrahedra_inBox lower upper (c _ _ _ hx1 hy1 hz) (c _ _ _ hx hy1 hz)
      (c _ _ _ hx1 hy hz1) (c _ _ _ hx1 hy1 hz1) h
  · exact marchTetrahedra_inBox lower upper (c _ _ _ hx hy1 hz) (c _ _ _ hx hy hz1)
      (c _ _ _ hx1 hy hz1) (c _ _ _ hx hy1 hz1) h
  · exact marchTetrahedra_inBox lower upper (c _ _ _ hx hy1 hz) (c _ _ _ hx1 hy hz1)
      (c _ _ _ hx1 hy1 hz1) (c _ _ _ hx hy1 hz1) h

theorem add_vertex_boxed (lower upper : Fin 3 → ℚ) (s : WeldState) (v : Vector3)
    (hs : BoxedVertices lower upper s.vertices) (hv : InBox lower upper v) :
    BoxedVertices lower upper (add_vertex s v).2.vertices := by
  unfold add_vertex
  cases vertexMapFind s.vertex_map (Vector3.new v.x v.y v.z) with
  | some id => exact hs
  | none =>
    obtain ⟨pts, hp, hb⟩ := hs
    refine ⟨pts ++ [(v.x, v.z, v.y)], ?_, ?_⟩
    · show s.vertices ++ [v.x] ++ [v.z] ++ [v.y] = _
      rw [hp, List.flatMap_append]
      simp
    · intro p hp'
      rcases List.mem_append.mp hp' with h | h
      · exact hb p h
      · rw [List.mem_singleton.mp h]
        exact hv

theorem weldTriangle_boxed (lower upper : Fin 3 → ℚ) (st : WeldState × List Nat) (tri : Triangle)
    (hs : BoxedVertices lower upper st.1.vertices)
    (ht : InBox lower upper tri.v0 ∧ InBox lower upper tri.v1 ∧ InBox lower upper tri.v2) :
    BoxedVertices lower upper (weldTriangle st tri).1.vertices := by
  unfold weldTriangle
  exact add_vertex_boxed lower upper _ _
    (add_vertex_boxed lower upper _ _ (add_vertex_boxed lower upper _ _ hs ht.1) ht.2.2) ht.2.1

theorem foldl_invariant_mem {α β : Type} (P : β → Prop) (g : β → α → β) (l : List α)
    (hstep : ∀ b, ∀ a ∈ l, P b → P (g b a)) (s : β) (h0 : P s) : P (l.foldl g s) := by
  induction l generalizing s with
  | nil => exact h0
  | cons a l ih =>
    exact ih (fun b a' ha' => hstep b a' (List.mem_cons_of_mem a ha')) (g s a)
      (hstep s a (List.mem_cons_self a l) h0)

theorem weldAll_boxed (lower upper : Fin 3 → ℚ) (triangles : List (List (List (List Triangle))))
    (h : ∀ ti ∈ triangles, ∀ tij ∈ ti, ∀ tijk ∈ tij, ∀ T ∈ tijk,
      InBox lower upper T.v0 ∧ InBox lower upper T.v1 ∧ InBox lower upper T.v2)
    (st : WeldState × List Nat) (hs : BoxedVertices lower upper st.1.vertices) :
    BoxedVertices lower upper (weldAll triangles st).1.vertices := by
  unfold weldAll
  refine foldl_invariant_mem (fun st : WeldState × List Nat => BoxedVertices lower upper st.1.vertices) _ _ ?_ _ hs
  intro b ti hti hb
  refine foldl_invariant_mem (fun st : WeldState × List Nat => BoxedVertices lower upper st.1.vertices) _ _ ?_ _ hb
  intro b tij htij hb
  refine foldl_invariant_mem (fun st : WeldState × List Nat => BoxedVertices lower upper st.1.vertices) _ _ ?_ _ hb
  intro b tijk htijk hb
  refine foldl_invariant_mem (fun st : WeldState × List Nat => BoxedVertices lower upper st.1.vertices) _ _ ?_ _ hb
  intro b T hT hb
  exact weldTriangle_boxed lower upper b T hb (h ti hti tij htij tijk htijk T hT)

theorem meshVertex_flatMap (pts : List (ℚ × ℚ × ℚ)) :
    ∀ i : Nat, i < pts.length →
      meshVertex (pts.flatMap fun p => [p.1, p.2.1, p.2.2]) i ∈ pts := by
  induction pts with
  | nil => intro i hi; simp at hi
  | cons p pts ih =>
    intro i hi
    cases i with
    | zero =>
      simp [meshVertex, List.flatMap_cons]
    | succ i =>
      have := ih i (by simpa using hi)
      refine List.mem_cons_of_mem _ ?_
      unfold meshVertex at this ⊢
      rw [List.flatMap_cons]
      rw [show 3 * (i + 1) = 3 * i + 3 by ring, show 3 * i + 3 + 1 = 3 * i + 1 + 3 by ring,
        show 3 * i + 3 + 2 = 3 * i + 2 + 3 by ring]
      simpa using this

theorem length_flatMap_triples (pts : List (ℚ × ℚ × ℚ)) :
    (pts.flatMap fun p => [p.1, p.2.1, p.2.2]).length = 3 * pts.length := by
  induction pts with
  | nil => rfl
  | cons p pts ih =>
    rw [List.flatMap_cons, List.length_append, ih, List.length_cons]
    simp only [List.length_cons, List.length_nil]
    ring

theorem marching_cubes_boxed (lower upper : Fin 3 → ℚ) (numx numy numz : Int)
    (f : ℚ → ℚ → ℚ → ℚ) (isovalue : ℚ)
    (hl : lower 0 ≤ upper 0 ∧ lower 1 ≤ upper 1 ∧ lower 2 ≤ upper 2)
    (hx : 2 ≤ numx) (hy : 2 ≤ numy) (hz : 2 ≤ numz) :
    BoxedVertices lower upper (marching_cubes lower upper numx numy numz f isovalue [] []).1 := by
  unfold marching_cubes
  rw [if_neg (by omega), if_neg (not_not.mpr hl)]
  dsimp only
  refine weldAll_boxed lower upper _ ?_ _ ⟨[], rfl, by simp⟩
  rw [cellTriangles_eq_fresh]
  intro ti hti tij htij tijk htijk T hT
  simp only [cellTrianglesFresh, List.mem_map, List.mem_range] at hti
  obtain ⟨i, hi, rfl⟩ := hti
  simp only [List.mem_map, List.mem_range] at htij
  obtain ⟨j, hj, rfl⟩ := htij
  simp only [List.mem_map, List.mem_range] at htijk
  obtain ⟨k, hk, rfl⟩ := htijk
  have bi : ((i : Nat) : Int) < numx - 1 := by omega
  have bj : ((j : Nat) : Int) < numy - 1 := by omega
  have bk : ((k : Nat) : Int) < numz - 1 := by omega
  exact freshCell_inBox lower upper f isovalue _ _ _ _ _ _
    (coord_in_range _ _ _ (by omega) hl.1 i (by omega))
    (coord_in_range _ _ _ (by omega) hl.1 (i + 1) (by push_cast; omega))
    (coord_in_range _ _ _ (by omega) hl.2.1 j (by omega))
    (coord_in_range _ _ _ (by omega) hl.2.1 (j + 1) (by push_cast; omega))
    (coord_in_range _ _ _ (by omega) hl.2.2 k (by omega))
    (coord_in_range _ _ _ (by omega) hl.2.2 (k + 1) (by push_cast; omega)) hT

/-- C22: for a bounding box with `lower <= upper` on each axis, sample counts of
at least `2` on each axis, every field and every isovalue, each vertex
`(x, y, z)` of the vertex sequence returned by `marching_cubes` (started on empty
sequences; vertex `i` is the triple at the positions `3 i`, `3 i + 1`, `3 i + 2`)
lies in the bounding box in the caller's axis order: `lower[0] <= x <= upper[0]`,
`lower[1] <= y <= upper[1]` and `lower[2] <= z <= upper[2]`, in exact arithmetic. -/
theorem marching_cubes_vertices_in_box (lower upper : Fin 3 → ℚ) (numx numy numz : Int)
    (f : ℚ → ℚ → ℚ → ℚ) (isovalue : ℚ)
    (hl : lower 0 ≤ upper 0 ∧ lower 1 ≤ upper 1 ∧ lower 2 ≤ upper 2)
    (hx : 2 ≤ numx) (hy : 2 ≤ numy) (hz : 2 ≤ numz) (i : Nat)
    (hi : 3 * i + 2 < (marching_cubes lower upper numx numy numz f isovalue [] []).1.length) :
    (lower 0 ≤ (meshVertex (marching_cubes lower upper numx numy numz f isovalue [] []).1 i).1 ∧
      (meshVertex (marching_cubes lower upper numx numy numz f isovalue [] []).1 i).1 ≤ upper 0) ∧
    (lower 1 ≤ (meshVertex (marching_cubes lower upper numx numy numz f isovalue [] []).1 i).2.1 ∧
      (meshVertex (marching_cubes lower upper numx numy numz f isovalue [] []).1 i).2.1 ≤ upper 1) ∧
    (lower 2 ≤ (meshVertex (marching_cubes lower upper numx numy numz f isovalue [] []).1 i).2.2 ∧
      (meshVertex (marching_cubes lower upper numx numy numz f isovalue [] []).1 i).2.2 ≤
        upper 2) := by
  obtain ⟨pts, hp, hb⟩ := marching_cubes_boxed lower upper numx numy numz f isovalue hl hx hy hz
  rw [hp] at hi ⊢
  rw [length_flatMap_triples] at hi
  exact hb _ (meshVertex_flatMap pts i (by omega))

set_option maxRecDepth 100000 in

/-- On the unit cell with the field `x + y + z - 1/2` and isovalue `0` the first
output vertex lies in the unit box. -/
theorem marching_cubes_vertices_in_box_witness :
    ((0 : ℚ) ≤ (meshVertex (marching_cubes (fun _ => 0) (fun _ => 1) 2 2 2 planeField 0 [] []).1
        0).1 ∧
      (meshVertex (marching_cubes (fun _ => 0) (fun _ => 1) 2 2 2 planeField 0 [] []).1 0).1 ≤ 1) ∧
    ((0 : ℚ) ≤ (meshVertex (marching_cubes (fun _ => 0) (fun _ => 1) 2 2 2 planeField 0 [] []).1
        0).2.1 ∧
      (meshVertex (marching_cubes (fun _ => 0) (fun _ => 1) 2 2 2 planeField 0 [] []).1 0).2.1 ≤
        1) ∧
    ((0 : ℚ) ≤ (meshVertex (marching_cubes (fun _ => 0) (fun _ => 1) 2 2 2 planeField 0 [] []).1
        0).2.2 ∧
      (meshVertex (marching_cubes (fun _ => 0) (fun _ => 1) 2 2 2 planeField 0 [] []).1 0).2.2 ≤
        1) :=
  marching_cubes_vertices_in_box (fun _ => 0) (fun _ => 1) 2 2 2 planeField 0
    ⟨zero_le_one, zero_le_one, zero_le_one⟩ (by decide) (by decide) (by decide) 0 (by decide!)

/-! ## Rounding to the nearest double -/

/-! ## Rounding to the nearest double -/

theorem halvings_spec (fuel n : Nat) (h1 : 1 ≤ n) (hf : n ≤ fuel) :
    2 ^ halvings fuel n ≤ n ∧ n < 2 ^ (halvings fuel n + 1) := by
  induction fuel generalizing n with
  | zero => omega
  | succ fuel ih =>
    unfold halvings
    by_cases h2 : n < 2
    · rw [if_pos h2]
      simp only [pow_zero, zero_add, pow_one]
      omega
    · rw [if_neg h2]
      have hn : 1 ≤ n / 2 := by omega
      have hf2 : n / 2 ≤ fuel := by omega
      obtain ⟨a, b⟩ := ih (n / 2) hn hf2
      constructor
      · rw [pow_succ]
        omega
      · rw [pow_succ]
        omega

theorem leadingBitStep_spec (n : Nat) (s : Nat × Nat) (k m : Nat) (hm : m = 2 * k)
    (h1 : 1 ≤ s.2) (hn : n / 2 ^ s.1 = s.2) (hb : s.2 < 2 ^ m) :
    1 ≤ (leadingBitStep s k).2 ∧ n / 2 ^ (leadingBitStep s k).1 = (leadingBitStep s k).2 ∧
      (leadingBitStep s k).2 < 2 ^ k := by
  unfold leadingBitStep
  have hk : 0 < 2 ^ k := Nat.pow_pos (by norm_num)
  by_cases h : s.2 / 2 ^ k = 0
  · rw [if_pos h]
    refine ⟨h1, hn, ?_⟩
    exact (Nat.div_eq_zero_iff hk).mp h
  · rw [if_neg h]
    dsimp only
    refine ⟨Nat.pos_of_ne_zero h, ?_, ?_⟩
    · rw [pow_add, ← Nat.div_div_eq_div_mul, hn]
    · rw [Nat.div_lt_iff_lt_mul hk, ← pow_add]
      have : k + k = m := by omega
      rw [this]; exact hb

theorem leadingBit_spec (n : Nat) (h1 : 1 ≤ n) :
    2 ^ leadingBit n ≤ n ∧ n < 2 ^ (leadingBit n + 1) := by
  unfold leadingBit
  by_cases hn : n < 2 ^ 2048
  · rw [if_pos hn]
    rw [List.foldl_cons, List.foldl_cons, List.foldl_cons, List.foldl_cons, List.foldl_cons,
      List.foldl_cons, List.foldl_cons, List.foldl_cons, List.foldl_cons, List.foldl_cons,
      List.foldl_cons, List.foldl_nil]
    have s0 : n / 2 ^ ((0, n) : Nat × Nat).1 = ((0, n) : Nat × Nat).2 := by
      show n / 2 ^ 0 = n
      rw [pow_zero, Nat.div_one]
    have s1 := leadingBitStep_spec n _ 1024 2048 rfl h1 s0 hn
    have s2 := leadingBitStep_spec n _ 512 1024 rfl s1.1 s1.2.1 s1.2.2
    have s3 := leadingBitStep_spec n _ 256 512 rfl s2.1 s2.2.1 s2.2.2
    have s4 := leadingBitStep_spec n _ 128 256 rfl s3.1 s3.2.1 s3.2.2
    have s5 := leadingBitStep_spec n _ 64 128 rfl s4.1 s4.2.1 s4.2.2
    have s6 := leadingBitStep_spec n _ 32 64 rfl s5.1 s5.2.1 s5.2.2
    have s7 := leadingBitStep_spec n _ 16 32 rfl s6.1 s6.2.1 s6.2.2
    have s8 := leadingBitStep_spec n _ 8 16 rfl s7.1 s7.2.1 s7.2.2
    have s9 := leadingBitStep_spec n _ 4 8 rfl s8.1 s8.2.1 s8.2.2
    have s10 := leadingBitStep_spec n _ 2 4 rfl s9.1 s9.2.1 s9.2.2
    have s11 := leadingBitStep_spec n _ 1 2 rfl s10.1 s10.2.1 s10.2.2
    obtain ⟨a, b, c⟩ := s11
    generalize (leadingBitStep (leadingBitStep (leadingBitStep (leadingBitStep (leadingBitStep
      (leadingBitStep (leadingBitStep (leadingBitStep (leadingBitStep (leadingBitStep
      (leadingBitStep (0, n) 1024) 512) 256) 128) 64) 32) 16) 8) 4) 2) 1) = s at a b c ⊢
    have e : s.2 = 1 := by
      have : s.2 < 2 := by simpa using c
      omega
    rw [e] at b
    have hp : 0 < 2 ^ s.1 := Nat.pow_pos (by norm_num)
    have hd := Nat.div_add_mod n (2 ^ s.1)
    have hm := Nat.mod_lt n hp
    rw [b] at hd
    constructor
    · omega
    · rw [pow_succ]; omega
  · rw [if_neg hn]
    exact halvings_spec n n h1 le_rfl

theorem binaryExponent_spec (p q : Nat) (hp : 0 < p) (hq : 0 < q) :
    (2 : ℚ) ^ binaryExponent p q ≤ (p : ℚ) / q ∧
      (p : ℚ) / q < (2 : ℚ) ^ (binaryExponent p q + 1) := by
  obtain ⟨p1, p2⟩ := leadingBit_spec p hp
  obtain ⟨q1, q2⟩ := leadingBit_spec q hq
  have hqq : (0 : ℚ) < q := by exact_mod_cast hq
  have hpp : (0 : ℚ) < p := by exact_mod_cast hp
  have P1 : (2 : ℚ) ^ (leadingBit p : Int) ≤ p := by
    rw [zpow_natCast]; exact_mod_cast p1
  have P2 : (p : ℚ) < (2 : ℚ) ^ ((leadingBit p : Int) + 1) := by
    rw [show ((leadingBit p : Int) + 1) = ((leadingBit p + 1 : Nat) : Int) by push_cast; rfl,
      zpow_natCast]
    exact_mod_cast p2
  have Q1 : (2 : ℚ) ^ (leadingBit q : Int) ≤ q := by
    rw [zpow_natCast]; exact_mod_cast q1
  have Q2 : (q : ℚ) < (2 : ℚ) ^ ((leadingBit q : Int) + 1) := by
    rw [show ((leadingBit q : Int) + 1) = ((leadingBit q + 1 : Nat) : Int) by push_cast; rfl,
      zpow_natCast]
    exact_mod_cast q2
  have two : (0 : ℚ) < 2 := by norm_num
  have two0 : (2 : ℚ) ≠ 0 := by norm_num
  unfold binaryExponent
  dsimp only
  generalize (leadingBit p : Int) = lp at P1 P2 ⊢
  generalize (leadingBit q : Int) = lq at Q1 Q2 ⊢
  -- the test of the definition, as a statement about rationals
  have test : (if 0 ≤ lp - lq then decide (q * 2 ^ (lp - lq).toNat ≤ p)
      else decide (q ≤ p * 2 ^ (-(lp - lq)).toNat)) = true ↔ (q : ℚ) * 2 ^ (lp - lq) ≤ p := by
    by_cases hd : 0 ≤ lp - lq
    · rw [if_pos hd, decide_eq_true_eq]
      have e : (2 : ℚ) ^ (lp - lq) = ((2 ^ (lp - lq).toNat : Nat) : ℚ) := by
        conv_lhs => rw [← Int.toNat_of_nonneg hd]
        rw [zpow_natCast]; push_cast; rfl
      rw [e]
      constructor
      · intro h; exact_mod_cast h
      · intro h; exact_mod_cast h
    · rw [if_neg hd, decide_eq_true_eq]
      have hd2 : 0 ≤ -(lp - lq) := by omega
      have e : (2 : ℚ) ^ (lp - lq) = (((2 ^ (-(lp - lq)).toNat : Nat) : ℚ))⁻¹ := by
        have : lp - lq = -((-(lp - lq)).toNat : Int) := by rw [Int.toNat_of_nonneg hd2]; ring
        conv_lhs => rw [this]
        rw [zpow_neg, zpow_natCast]; push_cast; rfl
      rw [e]
      have hpos : (0 : ℚ) < ((2 ^ (-(lp - lq)).toNat : Nat) : ℚ) := by positivity
      rw [← div_eq_mul_inv, div_le_iff₀ hpos]
      constructor
      · intro h; exact_mod_cast h
      · intro h; exact_mod_cast h
  have up : (p : ℚ) / q < (2 : ℚ) ^ (lp - lq + 1) := by
    rw [div_lt_iff₀ hqq]
    have e : (2 : ℚ) ^ (lp - lq + 1) * 2 ^ lq = 2 ^ (lp + 1) := by
      rw [← zpow_add₀ two0]; congr 1; ring
    calc (p : ℚ) < 2 ^ (lp + 1) := P2
      _ = (2 : ℚ) ^ (lp - lq + 1) * 2 ^ lq := e.symm
      _ ≤ (2 : ℚ) ^ (lp - lq + 1) * q := by
        apply mul_le_mul_of_nonneg_left Q1 (le_of_lt (zpow_pos two _))
  have low : (2 : ℚ) ^ (lp - lq - 1) ≤ (p : ℚ) / q := by
    rw [le_div_iff₀ hqq]
    have e : (2 : ℚ) ^ (lp - lq - 1) * 2 ^ (lq + 1) = 2 ^ lp := by
      rw [← zpow_add₀ two0]; congr 1; ring
    calc (2 : ℚ) ^ (lp - lq - 1) * q ≤ (2 : ℚ) ^ (lp - lq - 1) * 2 ^ (lq + 1) := by
          apply mul_le_mul_of_nonneg_left (le_of_lt Q2) (le_of_lt (zpow_pos two _))
      _ = 2 ^ lp := e
      _ ≤ p := P1
  by_cases ht : (if 0 ≤ lp - lq then decide (q * 2 ^ (lp - lq).toNat ≤ p)
      else decide (q ≤ p * 2 ^ (-(lp - lq)).toNat)) = true
  · rw [if_pos ht]
    refine ⟨?_, up⟩
    rw [le_div_iff₀ hqq, mul_comm]
    exact test.mp ht
  · rw [if_neg ht]
    refine ⟨low, ?_⟩
    have h := mt test.mpr ht
    rw [not_le] at h
    rw [show lp - lq - 1 + 1 = lp - lq by ring, div_lt_iff₀ hqq, mul_comm]
    exact h

theorem roundHalfEven_spec (p q : Nat) (hq : 0 < q) :
    |((roundHalfEven p q : Nat) : ℚ) - (p : ℚ) / q| ≤ 1 / 2 := by
  have hqq : (0 : ℚ) < q := by exact_mod_cast hq
  have hdiv : (p : ℚ) = (q : ℚ) * ((p / q : Nat) : ℚ) + ((p % q : Nat) : ℚ) := by
    exact_mod_cast (Nat.div_add_mod p q).symm
  have hrem : p % q < q := Nat.mod_lt p hq
  have e : (p : ℚ) / q = ((p / q : Nat) : ℚ) + ((p % q : Nat) : ℚ) / q := by
    field_simp
    linarith
  have hr0 : (0 : ℚ) ≤ ((p % q : Nat) : ℚ) / q := by positivity
  have hr1 : ((p % q : Nat) : ℚ) / q < 1 := by
    rw [div_lt_one hqq]; exact_mod_cast hrem
  unfold roundHalfEven
  simp only []
  rw [e]
  by_cases c1 : 2 * (p % q) < q
  · rw [if_pos c1]
    have : ((p % q : Nat) : ℚ) / q < 1 / 2 := by
      rw [div_lt_iff₀ hqq]
      have : (2 : ℚ) * ((p % q : Nat) : ℚ) < q := by exact_mod_cast c1
      linarith
    rw [abs_le]
    constructor <;> linarith
  · rw [if_neg c1]
    by_cases c2 : q < 2 * (p % q)
    · rw [if_pos c2]
      have : 1 / 2 < ((p % q : Nat) : ℚ) / q := by
        rw [lt_div_iff₀ hqq]
        have : (q : ℚ) < (2 : ℚ) * ((p % q : Nat) : ℚ) := by exact_mod_cast c2
        linarith
      rw [abs_le]
      push_cast
      constructor <;> linarith
    · rw [if_neg c2]
      have heq : 2 * (p % q) = q := by omega
      have : ((p % q : Nat) : ℚ) / q = 1 / 2 := by
        rw [div_eq_iff (ne_of_gt hqq)]
        have : (2 : ℚ) * ((p % q : Nat) : ℚ) = q := by exact_mod_cast heq
        linarith
      split_ifs
      · rw [abs_le]
        constructor <;> linarith
      · rw [abs_le]
        push_cast
        constructor <;> linarith

/-- Rounding of a non-negative rational to the nearest integer, ties to even. -/
theorem roundHalfEven_near (m : ℚ) (hm : 0 ≤ m) :
    |((roundHalfEven m.num.natAbs m.den : Nat) : ℚ) - m| ≤ 1 / 2 := by
  have h := roundHalfEven_spec m.num.natAbs m.den m.den_pos
  have hn : ((m.num.natAbs : Nat) : ℚ) = (m.num : ℚ) := by
    have h0 : (0 : Int) ≤ m.num := Rat.num_nonneg.mpr hm
    rw [Nat.cast_natAbs, abs_of_nonneg h0]
  rw [hn, Rat.num_div_den] at h
  exact h

theorem roundHalfEven_mono (m1 m2 : ℚ) (h1 : 0 ≤ m1) (h12 : m1 ≤ m2) :
    roundHalfEven m1.num.natAbs m1.den ≤ roundHalfEven m2.num.natAbs m2.den := by
  by_contra hc
  rw [not_le] at hc
  have a1 := roundHalfEven_near m1 h1
  have a2 := roundHalfEven_near m2 (le_trans h1 h12)
  rw [abs_le] at a1 a2
  have hc2 : ((roundHalfEven m2.num.natAbs m2.den : Nat) : ℚ) + 1 ≤
      ((roundHalfEven m1.num.natAbs m1.den : Nat) : ℚ) := by exact_mod_cast hc
  have : m1 = m2 := by linarith
  rw [this] at hc
  exact lt_irrefl _ hc

theorem roundHalfEven_nat (k : Nat) : roundHalfEven ((k : ℚ)).num.natAbs ((k : ℚ)).den = k := by
  simp [roundHalfEven, Nat.mod_one]

theorem roundDouble_zero : roundDouble 0 = 0 := by simp [roundDouble]

theorem roundDouble_of_pos (x : ℚ) (hx : 0 < x) :
    roundDouble x =
      ((roundHalfEven (x / (2 : ℚ) ^ (doubleExponent x - 52)).num.natAbs
        (x / (2 : ℚ) ^ (doubleExponent x - 52)).den : Nat) : ℚ) *
        (2 : ℚ) ^ (doubleExponent x - 52) := by
  unfold roundDouble
  rw [if_neg (ne_of_gt hx)]
  simp only [abs_of_pos hx]
  rw [if_neg (not_lt.mpr (le_of_lt hx))]

theorem doubleExponent_neg (x : ℚ) : doubleExponent (-x) = doubleExponent x := by
  simp [doubleExponent]

theorem roundDouble_neg (x : ℚ) : roundDouble (-x) = -roundDouble x := by
  rcases lt_trichotomy x 0 with h | h | h
  · unfold roundDouble
    have hn : ¬ (-x < 0) := by linarith
    have h1 : -x ≠ 0 := by linarith
    rw [if_neg h1, if_neg (ne_of_lt h)]
    simp only [doubleExponent_neg, abs_neg]
    rw [if_neg hn, if_pos h, neg_neg]
  · subst h; simp [roundDouble_zero]
  · unfold roundDouble
    have hn : -x < 0 := by linarith
    have h1 : -x ≠ 0 := by linarith
    rw [if_neg h1, if_neg (ne_of_gt h)]
    simp only [doubleExponent_neg, abs_neg]
    rw [if_pos hn, if_neg (not_lt.mpr (le_of_lt h))]

theorem binaryExponent_of_pos (x : ℚ) (hx : 0 < x) :
    (2 : ℚ) ^ binaryExponent x.num.natAbs x.den ≤ x ∧
      x < (2 : ℚ) ^ (binaryExponent x.num.natAbs x.den + 1) := by
  have hnum : 0 < x.num := Rat.num_pos.mpr hx
  have hp : 0 < x.num.natAbs := Int.natAbs_pos.mpr (ne_of_gt hnum)
  have h := binaryExponent_spec x.num.natAbs x.den hp x.den_pos
  have hn : ((x.num.natAbs : Nat) : ℚ) = (x.num : ℚ) := by
    rw [Nat.cast_natAbs, abs_of_nonneg (le_of_lt hnum)]
  rw [hn, Rat.num_div_den] at h
  exact h

theorem doubleExponent_upper (x : ℚ) (hx : 0 < x) : x < (2 : ℚ) ^ (doubleExponent x + 1) := by
  have h := (binaryExponent_of_pos x hx).2
  refine lt_of_lt_of_le h ?_
  apply zpow_le_zpow_right₀ (by norm_num)
  unfold doubleExponent
  have := le_max_left (binaryExponent x.num.natAbs x.den) (-1022)
  omega

theorem doubleExponent_lower (x : ℚ) (hx : 0 < x) (hE : -1022 < doubleExponent x) :
    (2 : ℚ) ^ doubleExponent x ≤ x := by
  have h := (binaryExponent_of_pos x hx).1
  have e : doubleExponent x = binaryExponent x.num.natAbs x.den := by
    unfold doubleExponent at hE ⊢
    rcases max_cases (binaryExponent x.num.natAbs x.den) (-1022) with ⟨h1, _⟩ | ⟨h1, _⟩
    · exact h1
    · rw [h1] at hE; exact absurd hE (lt_irrefl _)
  rw [e]
  exact h

theorem doubleExponent_ge (x : ℚ) : -1022 ≤ doubleExponent x := le_max_right _ _

theorem doubleExponent_mono (x y : ℚ) (hx : 0 < x) (hxy : x ≤ y) :
    doubleExponent x ≤ doubleExponent y := by
  by_contra hc
  rw [not_le] at hc
  have hy : 0 < y := lt_of_lt_of_le hx hxy
  have hEx : -1022 < doubleExponent x := lt_of_le_of_lt (doubleExponent_ge y) hc
  have h1 := doubleExponent_lower x hx hEx
  have h2 := doubleExponent_upper y hy
  have h3 : (2 : ℚ) ^ (doubleExponent y + 1) ≤ (2 : ℚ) ^ doubleExponent x :=
    zpow_le_zpow_right₀ (by norm_num) (by omega)
  linarith

theorem zpow_two_add (a b c : Int) (h : a + b = c) : (2 : ℚ) ^ a * (2 : ℚ) ^ b = (2 : ℚ) ^ c := by
  rw [← zpow_add₀ (by norm_num : (2 : ℚ) ≠ 0), h]

theorem roundDouble_nonneg (x : ℚ) (hx : 0 ≤ x) : 0 ≤ roundDouble x := by
  rcases eq_or_lt_of_le hx with h | h
  · rw [← h, roundDouble_zero]
  · rw [roundDouble_of_pos x h]
    positivity

theorem roundDouble_mono_pos (x y : ℚ) (hx : 0 < x) (hxy : x ≤ y) :
    roundDouble x ≤ roundDouble y := by
  have hy : 0 < y := lt_of_lt_of_le hx hxy
  have two : (0 : ℚ) < 2 := by norm_num
  have two0 : (2 : ℚ) ≠ 0 := by norm_num
  have hE := doubleExponent_mono x y hx hxy
  rw [roundDouble_of_pos x hx, roundDouble_of_pos y hy]
  have ux : (0 : ℚ) < (2 : ℚ) ^ (doubleExponent x - 52) := zpow_pos two _
  have uy : (0 : ℚ) < (2 : ℚ) ^ (doubleExponent y - 52) := zpow_pos two _
  have mx0 : 0 ≤ x / (2 : ℚ) ^ (doubleExponent x - 52) := le_of_lt (div_pos hx ux)
  have my0 : 0 ≤ y / (2 : ℚ) ^ (doubleExponent y - 52) := le_of_lt (div_pos hy uy)
  rcases eq_or_lt_of_le hE with he | hlt
  · rw [← he]
    apply mul_le_mul_of_nonneg_right _ (le_of_lt ux)
    have hm : x / (2 : ℚ) ^ (doubleExponent x - 52) ≤ y / (2 : ℚ) ^ (doubleExponent x - 52) :=
      div_le_div_of_nonneg_right hxy (le_of_lt ux)
    have := roundHalfEven_mono _ _ mx0 hm
    exact_mod_cast this
  · -- the rounded `x` stays below the next power of two, the rounded `y` above its own
    have hxu := doubleExponent_upper x hx
    have hyl := doubleExponent_lower y hy (lt_of_le_of_lt (doubleExponent_ge x) hlt)
    have hmx : x / (2 : ℚ) ^ (doubleExponent x - 52) ≤ ((2 ^ 53 : Nat) : ℚ) := by
      rw [div_le_iff₀ ux]
      have e : ((2 ^ 53 : Nat) : ℚ) * (2 : ℚ) ^ (doubleExponent x - 52) =
          (2 : ℚ) ^ (doubleExponent x + 1) := by
        rw [show ((2 ^ 53 : Nat) : ℚ) = (2 : ℚ) ^ (53 : Int) by norm_num]
        exact zpow_two_add _ _ _ (by omega)
      rw [e]; exact le_of_lt hxu
    have hmy : ((2 ^ 52 : Nat) : ℚ) ≤ y / (2 : ℚ) ^ (doubleExponent y - 52) := by
      rw [le_div_iff₀ uy]
      have e : ((2 ^ 52 : Nat) : ℚ) * (2 : ℚ) ^ (doubleExponent y - 52) =
          (2 : ℚ) ^ doubleExponent y := by
        rw [show ((2 ^ 52 : Nat) : ℚ) = (2 : ℚ) ^ (52 : Int) by norm_num]
        exact zpow_two_add _ _ _ (by omega)
      rw [e]; exact hyl
    have r1 := roundHalfEven_mono _ _ mx0 hmx
    rw [roundHalfEven_nat] at r1
    have r2 := roundHalfEven_mono _ _ (by positivity) hmy
    rw [roundHalfEven_nat] at r2
    have r1q : ((roundHalfEven (x / (2 : ℚ) ^ (doubleExponent x - 52)).num.natAbs
        (x / (2 : ℚ) ^ (doubleExponent x - 52)).den : Nat) : ℚ) ≤ (2 : ℚ) ^ (53 : Int) := by
      have : ((roundHalfEven (x / (2 : ℚ) ^ (doubleExponent x - 52)).num.natAbs
        (x / (2 : ℚ) ^ (doubleExponent x - 52)).den : Nat) : ℚ) ≤ ((2 ^ 53 : Nat) : ℚ) := by
        exact_mod_cast r1
      refine le_trans this ?_
      norm_num
    have r2q : (2 : ℚ) ^ (52 : Int) ≤ ((roundHalfEven (y / (2 : ℚ) ^ (doubleExponent y - 52)).num.natAbs
        (y / (2 : ℚ) ^ (doubleExponent y - 52)).den : Nat) : ℚ) := by
      have : ((2 ^ 52 : Nat) : ℚ) ≤ ((roundHalfEven (y / (2 : ℚ) ^ (doubleExponent y - 52)).num.natAbs
        (y / (2 : ℚ) ^ (doubleExponent y - 52)).den : Nat) : ℚ) := by
        exact_mod_cast r2
      refine le_trans ?_ this
      norm_num
    calc _ ≤ (2 : ℚ) ^ (53 : Int) * (2 : ℚ) ^ (doubleExponent x - 52) :=
          mul_le_mul_of_nonneg_right r1q (le_of_lt ux)
      _ = (2 : ℚ) ^ (doubleExponent x + 1) := zpow_two_add _ _ _ (by omega)
      _ ≤ (2 : ℚ) ^ doubleExponent y := zpow_le_zpow_right₀ (by norm_num) (by omega)
      _ = (2 : ℚ) ^ (52 : Int) * (2 : ℚ) ^ (doubleExponent y - 52) :=
          (zpow_two_add _ _ _ (by omega)).symm
      _ ≤ _ := mul_le_mul_of_nonneg_right r2q (le_of_lt uy)

/-- Rounding to the nearest double is monotone. -/
theorem roundDouble_mono (x y : ℚ) (hxy : x ≤ y) : roundDouble x ≤ roundDouble y := by
  rcases lt_or_le 0 x with hx | hx
  · exact roundDouble_mono_pos x y hx hxy
  · rcases le_or_lt 0 y with hy | hy
    · have h1 : roundDouble x ≤ 0 := by
        have := roundDouble_nonneg (-x) (by linarith)
        rw [roundDouble_neg] at this
        linarith
      exact le_trans h1 (roundDouble_nonneg y hy)
    · have := roundDouble_mono_pos (-y) (-x) (by linarith) (by linarith)
      rw [roundDouble_neg, roundDouble_neg] at this
      linarith

/-- The rounding error is at most half the spacing of the doubles around `x`. -/
theorem roundDouble_error (x : ℚ) :
    |roundDouble x - x| ≤ (2 : ℚ) ^ (doubleExponent x - 53) := by
  have two : (0 : ℚ) < 2 := by norm_num
  have two0 : (2 : ℚ) ≠ 0 := by norm_num
  have pos : ∀ y : ℚ, 0 < y → |roundDouble y - y| ≤ (2 : ℚ) ^ (doubleExponent y - 53) := by
    intro y hy
    have uy : (0 : ℚ) < (2 : ℚ) ^ (doubleExponent y - 52) := zpow_pos two _
    have h := roundHalfEven_near (y / (2 : ℚ) ^ (doubleExponent y - 52))
      (le_of_lt (div_pos hy uy))
    rw [roundDouble_of_pos y hy]
    have e : ((roundHalfEven (y / (2 : ℚ) ^ (doubleExponent y - 52)).num.natAbs
        (y / (2 : ℚ) ^ (doubleExponent y - 52)).den : Nat) : ℚ) *
          (2 : ℚ) ^ (doubleExponent y - 52) - y =
        (((roundHalfEven (y / (2 : ℚ) ^ (doubleExponent y - 52)).num.natAbs
          (y / (2 : ℚ) ^ (doubleExponent y - 52)).den : Nat) : ℚ) -
            y / (2 : ℚ) ^ (doubleExponent y - 52)) * (2 : ℚ) ^ (doubleExponent y - 52) := by
      field_simp
    rw [e, abs_mul, abs_of_pos uy]
    have e2 : (2 : ℚ) ^ (doubleExponent y - 53) = 1 / 2 * (2 : ℚ) ^ (doubleExponent y - 52) := by
      rw [show doubleExponent y - 53 = -1 + (doubleExponent y - 52) by omega, zpow_add₀ two0]
      norm_num
    rw [e2]
    exact mul_le_mul_of_nonneg_right h (le_of_lt uy)
  rcases lt_trichotomy x 0 with h | h | h
  · have := pos (-x) (by linarith)
    rw [roundDouble_neg, doubleExponent_neg] at this
    rw [← abs_neg]
    have e : -(roundDouble x - x) = -roundDouble x - -x := by ring
    rw [e]; exact this
  · subst h
    rw [roundDouble_zero]
    simp only [sub_self, abs_zero]
    exact le_of_lt (zpow_pos two _)
  · exact pos x h

/-- Below `4` in absolute value the rounding error is at most `2 ^ (-52)`. -/
theorem roundDouble_error_small (x : ℚ) (hx : |x| < 4) : |roundDouble x - x| ≤ 1 / 2 ^ 52 := by
  refine le_trans (roundDouble_error x) ?_
  have hE : doubleExponent x ≤ 1 := by
    rcases eq_or_ne x 0 with h | h
    · subst h; decide!
    · have hp : 0 < |x| := abs_pos.mpr h
      have e : doubleExponent x = doubleExponent |x| := by
        rcases abs_cases x with ⟨h1, _⟩ | ⟨h1, _⟩
        · rw [h1]
        · rw [h1, doubleExponent_neg]
      rw [e]
      by_contra hc
      rw [not_le] at hc
      have hl := doubleExponent_lower |x| hp (by omega)
      have : (2 : ℚ) ^ (2 : Int) ≤ (2 : ℚ) ^ doubleExponent |x| :=
        zpow_le_zpow_right₀ (by norm_num) (by omega)
      norm_num at this
      linarith
  have : (2 : ℚ) ^ (doubleExponent x - 53) ≤ (2 : ℚ) ^ (-52 : Int) :=
    zpow_le_zpow_right₀ (by norm_num) (by omega)
  refine le_trans this ?_
  norm_num

/-! ## The rounded program: exact arithmetic as an instance, and the sign patterns -/

/-! ## The functions with rounded arithmetic -/

theorem rounded_multiply_exact (A : Vector3) (s : ℚ) :
    Rounded.Vector3.multiply (fun q => q) A s = A.multiply s := rfl

theorem rounded_add_exact (A B : Vector3) : Rounded.Vector3.add (fun q => q) A B = A.add B := rfl

theorem rounded_sub_exact (A B : Vector3) : Rounded.Vector3.sub (fun q => q) A B = A.sub B := rfl

theorem rounded_dot_exact (A B : Vector3) : Rounded.Vector3.dot (fun q => q) A B = A.dot B := rfl

theorem rounded_cross_exact (A B : Vector3) :
    Rounded.Vector3.cross (fun q => q) A B = A.cross B := rfl

theorem rounded_interpolate_exact (A : Vector3) (t : ℚ) (B : Vector3) :
    Rounded.Vector3.interpolate (fun q => q) A t B = A.interpolate t B := rfl

theorem rounded_inverseLinearInterpolation_exact (f f1 f2 : ℚ) :
    Rounded.inverseLinearInterpolation (fun q => q) f f1 f2 = inverseLinearInterpolation f f1 f2 :=
  rfl

theorem rounded_normal_exact (T : Triangle) : Rounded.Triangle.normal (fun q => q) T = T.normal :=
  rfl

theorem rounded_isCCW_exact (T : Triangle) (V : Vector3) :
    Rounded.Triangle.isCCW (fun q => q) T V = T.isCCW V := rfl

theorem rounded_crossing_exact (A B : Vector3) (isovalue : ℚ) :
    Rounded.crossing (fun q => q) A B isovalue = crossing A B isovalue := rfl

theorem rounded_buildTriangle_exact (V0 V1 V2 V3 : Vector3) (isovalue : ℚ) :
    Rounded.buildTriangle (fun q => q) V0 V1 V2 V3 isovalue =
      buildTriangle V0 V1 V2 V3 isovalue := by
  unfold Rounded.buildTriangle buildTriangle
  simp only [rounded_interpolate_exact, rounded_inverseLinearInterpolation_exact,
    rounded_isCCW_exact]

theorem rounded_buildTriangles_exact (V0 V1 V2 V3 : Vector3) (isovalue : ℚ) :
    Rounded.buildTriangles (fun q => q) V0 V1 V2 V3 isovalue =
      buildTriangles V0 V1 V2 V3 isovalue := by
  unfold Rounded.buildTriangles buildTriangles
  simp only [rounded_interpolate_exact, rounded_inverseLinearInterpolation_exact,
    rounded_isCCW_exact]

/-- With no rounding the rounded function is the function in exact arithmetic. -/
theorem rounded_marchTetrahedra_exact (V0 V1 V2 V3 : Vector3) (isovalue : ℚ) :
    Rounded.marchTetrahedra (fun q => q) V0 V1 V2 V3 isovalue =
      marchTetrahedra V0 V1 V2 V3 isovalue := by
  unfold Rounded.marchTetrahedra marchTetrahedra
  simp only [rounded_buildTriangle_exact, rounded_buildTriangles_exact]

theorem rounded_marchTetrahedra_0000 (r : ℚ → ℚ) (V0 V1 V2 V3 : Vector3) (isovalue : ℚ)
    (c0 : ¬ V0.info > isovalue) (c1 : ¬ V1.info > isovalue) (c2 : ¬ V2.info > isovalue) (c3 : ¬ V3.info > isovalue) :
    Rounded.marchTetrahedra r V0 V1 V2 V3 isovalue = [] := by
  unfold Rounded.marchTetrahedra
  simp only [c0, c1, c2, c3, if_true, if_false, and_self, and_true, and_false, true_and,
    false_and, one_ne_zero, zero_ne_one]

theorem rounded_marchTetrahedra_1111 (r : ℚ → ℚ) (V0 V1 V2 V3 : Vector3) (isovalue : ℚ)
    (c0 : V0.info > isovalue) (c1 : V1.info > isovalue) (c2 : V2.info > isovalue) (c3 : V3.info > isovalue) :
    Rounded.marchTetrahedra r V0 V1 V2 V3 isovalue = [] := by
  unfold Rounded.marchTetrahedra
  simp only [c0, c1, c2, c3, if_true, if_false, and_self, and_true, and_false, true_and,
    false_and, one_ne_zero, zero_ne_one]

theorem rounded_marchTetrahedra_1000 (r : ℚ → ℚ) (V0 V1 V2 V3 : Vector3) (isovalue : ℚ)
    (c0 : V0.info > isovalue) (c1 : ¬ V1.info > isovalue) (c2 : ¬ V2.info > isovalue) (c3 : ¬ V3.info > isovalue) :
    Rounded.marchTetrahedra r V0 V1 V2 V3 isovalue = pushIfNotNull [] (Rounded.buildTriangle r V0 V1 V2 V3 isovalue) := by
  unfold Rounded.marchTetrahedra
  simp only [c0, c1, c2, c3, if_true, if_false, and_self, and_true, and_false, true_and,
    false_and, one_ne_zero, zero_ne_one]

theorem rounded_marchTetrahedra_0100 (r : ℚ → ℚ) (V0 V1 V2 V3 : Vector3) (isovalue : ℚ)
    (c0 : ¬ V0.info > isovalue) (c1 : V1.info > isovalue) (c2 : ¬ V2.info > isovalue) (c3 : ¬ V3.info > isovalue) :
    Rounded.marchTetrahedra r V0 V1 V2 V3 isovalue = pushIfNotNull [] (Rounded.buildTriangle r V1 V2 V0 V3 isovalue) := by
  unfold Rounded.marchTetrahedra
  simp only [c0, c1, c2, c3, if_true, if_false, and_self, and_true, and_false, true_and,
    false_and, one_ne_zero, zero_ne_one]

theorem rounded_marchTetrahedra_1100 (r : ℚ → ℚ) (V0 V1 V2 V3 : Vector3) (isovalue : ℚ)
    (c0 : V0.info > isovalue) (c1 : V1.info > isovalue) (c2 : ¬ V2.info > isovalue) (c3 : ¬ V3.info > isovalue) :
    Rounded.marchTetrahedra r V0 V1 V2 V3 isovalue = pushAll [] (Rounded.buildTriangles r V0 V1 V2 V3 isovalue) := by
  unfold Rounded.marchTetrahedra
  simp only [c0, c1, c2, c3, if_true, if_false, and_self, and_true, and_false, true_and,
    false_and, one_ne_zero, zero_ne_one]

theorem rounded_marchTetrahedra_0010 (r : ℚ → ℚ) (V0 V1 V2 V3 : Vector3) (isovalue : ℚ)
    (c0 : ¬ V0.info > isovalue) (c1 : ¬ V1.info > isovalue) (c2 : V2.info > isovalue) (c3 : ¬ V3.info > isovalue) :
    Rounded.marchTetrahedra r V0 V1 V2 V3 isovalue = pushIfNotNull [] (Rounded.buildTriangle r V2 V0 V1 V3 isovalue) := by
  unfold Rounded.marchTetrahedra
  simp only [c0, c1, c2, c3, if_true, if_false, and_self, and_true, and_false, true_and,
    false_and, one_ne_zero, zero_ne_one]

theorem rounded_marchTetrahedra_1010 (r : ℚ → ℚ) (V0 V1 V2 V3 : Vector3) (isovalue : ℚ)
    (c0 : V0.info > isovalue) (c1 : ¬ V1.info > isovalue) (c2 : V2.info > isovalue) (c3 : ¬ V3.info > isovalue) :
    Rounded.marchTetrahedra r V0 V1 V2 V3 isovalue = pushAll [] (Rounded.buildTriangles r V0 V2 V1 V3 isovalue) := by
  unfold Rounded.marchTetrahedra
  simp only [c0, c1, c2, c3, if_true, if_false, and_self, and_true, and_false, true_and,
    false_and, one_ne_zero, zero_ne_one]

theorem rounded_marchTetrahedra_0110 (r : ℚ → ℚ) (V0 V1 V2 V3 : Vector3) (isovalue : ℚ)
    (c0 : ¬ V0.info > isovalue) (c1 : V1.info > isovalue) (c2 : V2.info > isovalue) (c3 : ¬ V3.info > isovalue) :
    Rounded.marchTetrahedra r V0 V1 V2 V3 isovalue = pushAll [] (Rounded.buildTriangles r V1 V2 V0 V3 isovalue) := by
  unfold Rounded.marchTetrahedra
  simp only [c0, c1, c2, c3, if_true, if_false, and_self, and_true, and_false, true_and,
    false_and, one_ne_zero, zero_ne_one]

theorem rounded_marchTetrahedra_1110 (r : ℚ → ℚ) (V0 V1 V2 V3 : Vector3) (isovalue : ℚ)
    (c0 : V0.info > isovalue) (c1 : V1.info > isovalue) (c2 : V2.info > isovalue) (c3 : ¬ V3.info > isovalue) :
    Rounded.marchTetrahedra r V0 V1 V2 V3 isovalue = pushIfNotNull [] (Rounded.buildTriangle r V3 V0 V2 V1 isovalue) := by
  unfold Rounded.marchTetrahedra
  simp only [c0, c1, c2, c3, if_true, if_false, and_self, and_true, and_false, true_and,
    false_and, one_ne_zero, zero_ne_one]

theorem rounded_marchTetrahedra_0001 (r : ℚ → ℚ) (V0 V1 V2 V3 : Vector3) (isovalue : ℚ)
    (c0 : ¬ V0.info > isovalue) (c1 : ¬ V1.info > isovalue) (c2 : ¬ V2.info > isovalue) (c3 : V3.info > isovalue) :
    Rounded.marchTetrahedra r V0 V1 V2 V3 isovalue = pushIfNotNull [] (Rounded.buildTriangle r V3 V2 V1 V0 isovalue) := by
  unfold Rounded.marchTetrahedra
  simp only [c0, c1, c2, c3, if_true, if_false, and_self, and_true, and_false, true_and,
    false_and, one_ne_zero, zero_ne_one]

theorem rounded_marchTetrahedra_1001 (r : ℚ → ℚ) (V0 V1 V2 V3 : Vector3) (isovalue : ℚ)
    (c0 : V0.info > isovalue) (c1 : ¬ V1.info > isovalue) (c2 : ¬ V2.info > isovalue) (c3 : V3.info > isovalue) :
    Rounded.marchTetrahedra r V0 V1 V2 V3 isovalue = pushAll [] (Rounded.buildTriangles r V0 V3 V1 V2 isovalue) := by
  unfold Rounded.marchTetrahedra
  simp only [c0, c1, c2, c3, if_true, if_false, and_self, and_true, and_false, true_and,
    false_and, one_ne_zero, zero_ne_one]

theorem rounded_marchTetrahedra_0101 (r : ℚ → ℚ) (V0 V1 V2 V3 : Vector3) (isovalue : ℚ)
    (c0 : ¬ V0.info > isovalue) (c1 : V1.info > isovalue) (c2 : ¬ V2.info > isovalue) (c3 : V3.info > isovalue) :
    Rounded.marchTetrahedra r V0 V1 V2 V3 isovalue = pushAll [] (Rounded.buildTriangles r V1 V3 V0 V2 isovalue) := by
  unfold Rounded.marchTetrahedra
  simp only [c0, c1, c2, c3, if_true, if_false, and_self, and_true, and_false, true_and,
    false_and, one_ne_zero, zero_ne_one]

theorem rounded_marchTetrahedra_1101 (r : ℚ → ℚ) (V0 V1 V2 V3 : Vector3) (isovalue : ℚ)
    (c0 : V0.info > isovalue) (c1 : V1.info > isovalue) (c2 : ¬ V2.info > isovalue) (c3 : V3.info > isovalue) :
    Rounded.marchTetrahedra r V0 V1 V2 V3 isovalue = pushIfNotNull [] (Rounded.buildTriangle r V2 V0 V1 V3 isovalue) := by
  unfold Rounded.marchTetrahedra
  simp only [c0, c1, c2, c3, if_true, if_false, and_self, and_true, and_false, true_and,
    false_and, one_ne_zero, zero_ne_one]

theorem rounded_marchTetrahedra_0011 (r : ℚ → ℚ) (V0 V1 V2 V3 : Vector3) (isovalue : ℚ)
    (c0 : ¬ V0.info > isovalue) (c1 : ¬ V1.info > isovalue) (c2 : V2.info > isovalue) (c3 : V3.info > isovalue) :
    Rounded.marchTetrahedra r V0 V1 V2 V3 isovalue = pushAll [] (Rounded.buildTriangles r V2 V3 V0 V1 isovalue) := by
  unfold Rounded.marchTetrahedra
  simp only [c0, c1, c2, c3, if_true, if_false, and_self, and_true, and_false, true_and,
    false_and, one_ne_zero, zero_ne_one]

theorem rounded_marchTetrahedra_1011 (r : ℚ → ℚ) (V0 V1 V2 V3 : Vector3) (isovalue : ℚ)
    (c0 : V0.info > isovalue) (c1 : ¬ V1.info > isovalue) (c2 : V2.info > isovalue) (c3 : V3.info > isovalue) :
    Rounded.marchTetrahedra r V0 V1 V2 V3 isovalue = pushIfNotNull [] (Rounded.buildTriangle r V1 V2 V0 V3 isovalue) := by
  unfold Rounded.marchTetrahedra
  simp only [c0, c1, c2, c3, if_true, if_false, and_self, and_true, and_false, true_and,
    false_and, one_ne_zero, zero_ne_one]

theorem rounded_marchTetrahedra_0111 (r : ℚ → ℚ) (V0 V1 V2 V3 : Vector3) (isovalue : ℚ)
    (c0 : ¬ V0.info > isovalue) (c1 : V1.info > isovalue) (c2 : V2.info > isovalue) (c3 : V3.info > isovalue) :
    Rounded.marchTetrahedra r V0 V1 V2 V3 isovalue = pushIfNotNull [] (Rounded.buildTriangle r V0 V1 V2 V3 isovalue) := by
  unfold Rounded.marchTetrahedra
  simp only [c0, c1, c2, c3, if_true, if_false, and_self, and_true, and_false, true_and,
    false_and, one_ne_zero, zero_ne_one]

theorem rounded_marchTetrahedra_relabel (V0 V1 V2 V3 : Vector3) (isovalue : ℚ) :
    ((bitsAbove V0 V1 V2 V3 isovalue = 1 ∨ bitsAbove V0 V1 V2 V3 isovalue = 3) →
      ∃ A B C D : Vector3, List.Perm [A, B, C, D] [V0, V1, V2, V3] ∧
        signBit A isovalue ≠ signBit B isovalue ∧ signBit B isovalue = signBit C isovalue ∧
        signBit C isovalue = signBit D isovalue ∧
        (tetraDet A B C D = tetraDet V0 V1 V2 V3 ∨ tetraDet A B C D = - tetraDet V0 V1 V2 V3) ∧
        ∀ r : ℚ → ℚ, Rounded.marchTetrahedra r V0 V1 V2 V3 isovalue =
          pushIfNotNull [] (Rounded.buildTriangle r A B C D isovalue)) ∧
    (bitsAbove V0 V1 V2 V3 isovalue = 2 →
      ∃ A B C D : Vector3, List.Perm [A, B, C, D] [V0, V1, V2, V3] ∧
        signBit A isovalue = signBit B isovalue ∧ signBit C isovalue = signBit D isovalue ∧
        signBit A isovalue ≠ signBit C isovalue ∧
        (tetraDet A B C D = tetraDet V0 V1 V2 V3 ∨ tetraDet A B C D = - tetraDet V0 V1 V2 V3) ∧
        ∀ r : ℚ → ℚ, Rounded.marchTetrahedra r V0 V1 V2 V3 isovalue =
          pushAll [] (Rounded.buildTriangles r A B C D isovalue)) := by
  by_cases c0 : V0.info > isovalue
  · by_cases c1 : V1.info > isovalue
    · by_cases c2 : V2.info > isovalue
      · by_cases c3 : V3.info > isovalue
        · have hb : bitsAbove V0 V1 V2 V3 isovalue = 4 := by
            simp [bitsAbove, signBit, c0, c1, c2, c3]
          rw [hb]
          exact ⟨fun h => by omega, fun h => by omega⟩
        · have hb : bitsAbove V0 V1 V2 V3 isovalue = 3 := by
            simp [bitsAbove, signBit, c0, c1, c2, c3]
          rw [hb]
          refine ⟨fun _ => ?_, fun h => by omega⟩
          exact ⟨V3, V0, V2, V1, perm_3021 V0 V1 V2 V3,
            by simp [signBit, c0, c1, c2, c3], by simp [signBit, c0, c1, c2, c3],
            by simp [signBit, c0, c1, c2, c3], Or.inl (tetraDet_3021 V0 V1 V2 V3),
            fun r => rounded_marchTetrahedra_1110 r V0 V1 V2 V3 isovalue c0 c1 c2 c3⟩
      · by_cases c3 : V3.info > isovalue
        · have hb : bitsAbove V0 V1 V2 V3 isovalue = 3 := by
            simp [bitsAbove, signBit, c0, c1, c2, c3]
          rw [hb]
          refine ⟨fun _ => ?_, fun h => by omega⟩
          exact ⟨V2, V0, V1, V3, perm_2013 V0 V1 V2 V3,
            by simp [signBit, c0, c1, c2, c3], by simp [signBit, c0, c1, c2, c3],
            by simp [signBit, c0, c1, c2, c3], Or.inl (tetraDet_2013 V0 V1 V2 V3),
            fun r => rounded_marchTetrahedra_1101 r V0 V1 V2 V3 isovalue c0 c1 c2 c3⟩
        · have hb : bitsAbove V0 V1 V2 V3 isovalue = 2 := by
            simp [bitsAbove, signBit, c0, c1, c2, c3]
          rw [hb]
          refine ⟨fun h => by omega, fun _ => ?_⟩
          exact ⟨V0, V1, V2, V3, perm_0123 V0 V1 V2 V3,
            by simp [signBit, c0, c1, c2, c3], by simp [signBit, c0, c1, c2, c3],
            by simp [signBit, c0, c1, c2, c3], Or.inl rfl,
            fun r => rounded_marchTetrahedra_1100 r V0 V1 V2 V3 isovalue c0 c1 c2 c3⟩
    · by_cases c2 : V2.info > isovalue
      · by_cases c3 : V3.info > isovalue
        · have hb : bitsAbove V0 V1 V2 V3 isovalue = 3 := by
            simp [bitsAbove, signBit, c0, c1, c2, c3]
          rw [hb]
          refine ⟨fun _ => ?_, fun h => by omega⟩
          exact ⟨V1, V2, V0, V3, perm_1203 V0 V1 V2 V3,
            by simp [signBit, c0, c1, c2, c3], by simp [signBit, c0, c1, c2, c3],
            by simp [signBit, c0, c1, c2, c3], Or.inl (tetraDet_1203 V0 V1 V2 V3),
            fun r => rounded_marchTetrahedra_1011 r V0 V1 V2 V3 isovalue c0 c1 c2 c3⟩
        · have hb : bitsAbove V0 V1 V2 V3 isovalue = 2 := by
            simp [bitsAbove, signBit, c0, c1, c2, c3]
          rw [hb]
          refine ⟨fun h => by omega, fun _ => ?_⟩
          exact ⟨V0, V2, V1, V3, perm_0213 V0 V1 V2 V3,
            by simp [signBit, c0, c1, c2, c3], by simp [signBit, c0, c1, c2, c3],
            by simp [signBit, c0, c1, c2, c3], Or.inr (tetraDet_0213 V0 V1 V2 V3),
            fun r => rounded_marchTetrahedra_1010 r V0 V1 V2 V3 isovalue c0 c1 c2 c3⟩
      · by_cases c3 : V3.info > isovalue
        · have hb : bitsAbove V0 V1 V2 V3 isovalue = 2 := by
            simp [bitsAbove, signBit, c0, c1, c2, c3]
          rw [hb]
          refine ⟨fun h => by omega, fun _ => ?_⟩
          exact ⟨V0, V3, V1, V2, perm_0312 V0 V1 V2 V3,
            by simp [signBit, c0, c1, c2, c3], by simp [signBit, c0, c1, c2, c3],
            by simp [signBit, c0, c1, c2, c3], Or.inl (tetraDet_0312 V0 V1 V2 V3),
            fun r => rounded_marchTetrahedra_1001 r V0 V1 V2 V3 isovalue c0 c1 c2 c3⟩
        · have hb : bitsAbove V0 V1 V2 V3 isovalue = 1 := by
            simp [bitsAbove, signBit, c0, c1, c2, c3]
          rw [hb]
          refine ⟨fun _ => ?_, fun h => by omega⟩
          exact ⟨V0, V1, V2, V3, perm_0123 V0 V1 V2 V3,
            by simp [signBit, c0, c1, c2, c3], by simp [signBit, c0, c1, c2, c3],
            by simp [signBit, c0, c1, c2, c3], Or.inl rfl,
            fun r => rounded_marchTetrahedra_1000 r V0 V1 V2 V3 isovalue c0 c1 c2 c3⟩
  · by_cases c1 : V1.info > isovalue
    · by_cases c2 : V2.info > isovalue
      · by_cases c3 : V3.info > isovalue
        · have hb : bitsAbove V0 V1 V2 V3 isovalue = 3 := by
            simp [bitsAbove, signBit, c0, c1, c2, c3]
          rw [hb]
          refine ⟨fun _ => ?_, fun h => by omega⟩
          exact ⟨V0, V1, V2, V3, perm_0123 V0 V1 V2 V3,
            by simp [signBit, c0, c1, c2, c3], by simp [signBit, c0, c1, c2, c3],
            by simp [signBit, c0, c1, c2, c3], Or.inl rfl,
            fun r => rounded_marchTetrahedra_0111 r V0 V1 V2 V3 isovalue c0 c1 c2 c3⟩
        · have hb : bitsAbove V0 V1 V2 V3 isovalue = 2 := by
            simp [bitsAbove, signBit, c0, c1, c2, c3]
          rw [hb]
          refine ⟨fun h => by omega, fun _ => ?_⟩
          exact ⟨V1, V2, V0, V3, perm_1203 V0 V1 V2 V3,
            by simp [signBit, c0, c1, c2, c3], by simp [signBit, c0, c1, c2, c3],
            by simp [signBit, c0, c1, c2, c3], Or.inl (tetraDet_1203 V0 V1 V2 V3),
            fun r => rounded_marchTetrahedra_0110 r V0 V1 V2 V3 isovalue c0 c1 c2 c3⟩
      · by_cases c3 : V3.info > isovalue
        · have hb : bitsAbove V0 V1 V2 V3 isovalue = 2 := by
            simp [bitsAbove, signBit, c0, c1, c2, c3]
          rw [hb]
          refine ⟨fun h => by omega, fun _ => ?_⟩
          exact ⟨V1, V3, V0, V2, perm_1302 V0 V1 V2 V3,
            by simp [signBit, c0, c1, c2, c3], by simp [signBit, c0, c1, c2, c3],
            by simp [signBit, c0, c1, c2, c3], Or.inr (tetraDet_1302 V0 V1 V2 V3),
            fun r => rounded_marchTetrahedra_0101 r V0 V1 V2 V3 isovalue c0 c1 c2 c3⟩
        · have hb : bitsAbove V0 V1 V2 V3 isovalue = 1 := by
            simp [bitsAbove, signBit, c0, c1, c2, c3]
          rw [hb]
          refine ⟨fun _ => ?_, fun h => by omega⟩
          exact ⟨V1, V2, V0, V3, perm_1203 V0 V1 V2 V3,
            by simp [signBit, c0, c1, c2, c3], by simp [signBit, c0, c1, c2, c3],
            by simp [signBit, c0, c1, c2, c3], Or.inl (tetraDet_1203 V0 V1 V2 V3),
            fun r => rounded_marchTetrahedra_0100 r V0 V1 V2 V3 isovalue c0 c1 c2 c3⟩
    · by_cases c2 : V2.info > isovalue
      · by_cases c3 : V3.info > isovalue
        · have hb : bitsAbove V0 V1 V2 V3 isovalue = 2 := by
            simp [bitsAbove, signBit, c0, c1, c2, c3]
          rw [hb]
          refine ⟨fun h => by omega, fun _ => ?_⟩
          exact ⟨V2, V3, V0, V1, perm_2301 V0 V1 V2 V3,
            by simp [signBit, c0, c1, c2, c3], by simp [signBit, c0, c1, c2, c3],
            by simp [signBit, c0, c1, c2, c3], Or.inl (tetraDet_2301 V0 V1 V2 V3),
            fun r => rounded_marchTetrahedra_0011 r V0 V1 V2 V3 isovalue c0 c1 c2 c3⟩
        · have hb : bitsAbove V0 V1 V2 V3 isovalue = 1 := by
            simp [bitsAbove, signBit, c0, c1, c2, c3]
          rw [hb]
          refine ⟨fun _ => ?_, fun h => by omega⟩
          exact ⟨V2, V0, V1, V3, perm_2013 V0 V1 V2 V3,
            by simp [signBit, c0, c1, c2, c3], by simp [signBit, c0, c1, c2, c3],
            by simp [signBit, c0, c1, c2, c3], Or.inl (tetraDet_2013 V0 V1 V2 V3),
            fun r => rounded_marchTetrahedra_0010 r V0 V1 V2 V3 isovalue c0 c1 c2 c3⟩
      · by_cases c3 : V3.info > isovalue
        · have hb : bitsAbove V0 V1 V2 V3 isovalue = 1 := by
            simp [bitsAbove, signBit, c0, c1, c2, c3]
          rw [hb]
          refine ⟨fun _ => ?_, fun h => by omega⟩
          exact ⟨V3, V2, V1, V0, perm_3210 V0 V1 V2 V3,
            by simp [signBit, c0, c1, c2, c3], by simp [signBit, c0, c1, c2, c3],
            by simp [signBit, c0, c1, c2, c3], Or.inl (tetraDet_3210 V0 V1 V2 V3),
            fun r => rounded_marchTetrahedra_0001 r V0 V1 V2 V3 isovalue c0 c1 c2 c3⟩
        · have hb : bitsAbove V0 V1 V2 V3 isovalue = 0 := by
            simp [bitsAbove, signBit, c0, c1, c2, c3]
          rw [hb]
          exact ⟨fun h => by omega, fun h => by omega⟩

theorem isPoint_swap (P Q R : Vector3) :
    (Triangle.mk P R Q).isPoint = (Triangle.mk P Q R).isPoint := by
  rw [Bool.eq_iff_iff]
  simp only [Triangle.isPoint, Vector3.equal, Bool.and_eq_true, decide_eq_true_eq]
  constructor
  · rintro ⟨⟨⟨a1, a2⟩, a3⟩, ⟨⟨b1, b2⟩, b3⟩⟩
    exact ⟨⟨⟨a1.trans b1, a2.trans b2⟩, a3.trans b3⟩, ⟨⟨b1.symm, b2.symm⟩, b3.symm⟩⟩
  · rintro ⟨⟨⟨a1, a2⟩, a3⟩, ⟨⟨b1, b2⟩, b3⟩⟩
    exact ⟨⟨⟨a1.trans b1, a2.trans b2⟩, a3.trans b3⟩, ⟨⟨b1.symm, b2.symm⟩, b3.symm⟩⟩

/-- The triangle of `buildTriangle`, in any arithmetic: `NULL` exactly when the
three computed points coincide. -/
theorem rounded_buildTriangle_none_iff (r : ℚ → ℚ) (A B C D : Vector3) (isovalue : ℚ) :
    Rounded.buildTriangle r A B C D isovalue = none ↔
      (Triangle.mk (Rounded.crossing r A B isovalue) (Rounded.crossing r A D isovalue)
        (Rounded.crossing r A C isovalue)).isPoint = true := by
  unfold Rounded.buildTriangle Rounded.crossing
  dsimp only
  split_ifs with hx hp hp
  · simp only [true_iff]
    rw [isPoint_swap] at hp
    exact hp
  · simp only [false_iff, reduceCtorEq, not_false_eq_true]
    rw [isPoint_swap] at hp
    simpa using hp
  · simp only [true_iff]
    exact hp
  · simpa using hp

theorem rounded_buildTriangle_length (r : ℚ → ℚ) (A B C D : Vector3) (isovalue : ℚ) :
    (pushIfNotNull [] (Rounded.buildTriangle r A B C D isovalue)).length =
      if (Triangle.mk (Rounded.crossing r A B isovalue) (Rounded.crossing r A D isovalue)
        (Rounded.crossing r A C isovalue)).isPoint = true then 0 else 1 := by
  have h := rounded_buildTriangle_none_iff r A B C D isovalue
  cases hb : Rounded.buildTriangle r A B C D isovalue with
  | none => rw [if_pos (h.mp hb)]; rfl
  | some T =>
    rw [if_neg (fun hp => by rw [h.mpr hp] at hb; exact absurd hb (by simp))]
    rfl

/-- The two triangles of `buildTriangles`, in any arithmetic: each is left out
exactly when its three computed points coincide. -/
theorem rounded_buildTriangles_length (r : ℚ → ℚ) (A B C D : Vector3) (isovalue : ℚ) :
    (pushAll [] (Rounded.buildTriangles r A B C D isovalue)).length =
      (if (Triangle.mk (Rounded.crossing r A C isovalue) (Rounded.crossing r B C isovalue)
        (Rounded.crossing r B D isovalue)).isPoint = true then 0 else 1) +
      (if (Triangle.mk (Rounded.crossing r B D isovalue) (Rounded.crossing r A D isovalue)
        (Rounded.crossing r A C isovalue)).isPoint = true then 0 else 1) := by
  rw [pushAll_eq_append, List.nil_append]
  unfold Rounded.buildTriangles Rounded.crossing
  dsimp only
  split_ifs <;> simp_all [isPoint_swap]

/-- With a rounding that keeps `0`, the point computed on an edge that leaves a
corner whose value is the isovalue does not depend on the other end. -/
theorem rounded_crossing_on_isovalue (r : ℚ → ℚ) (h0 : r 0 = 0) (A B : Vector3)
    (isovalue : ℚ) (hA : A.info = isovalue) :
    Rounded.crossing r A B isovalue =
      Vector3.new (r (r (A.x * r 1) + 0)) (r (r (A.y * r 1) + 0)) (r (r (A.z * r 1) + 0)) := by
  unfold Rounded.crossing Rounded.inverseLinearInterpolation Rounded.Vector3.interpolate
    Rounded.Vector3.add Rounded.Vector3.multiply
  simp [hA, h0, Vector3.new]

theorem rounded_lone_corner_on_isovalue (r : ℚ → ℚ) (h0 : r 0 = 0) (A B C D : Vector3)
    (isovalue : ℚ) (hA : A.info = isovalue) :
    (Triangle.mk (Rounded.crossing r A B isovalue) (Rounded.crossing r A D isovalue)
      (Rounded.crossing r A C isovalue)).isPoint = true := by
  rw [rounded_crossing_on_isovalue r h0 A B isovalue hA,
    rounded_crossing_on_isovalue r h0 A C isovalue hA,
    rounded_crossing_on_isovalue r h0 A D isovalue hA]
  simp [Triangle.isPoint, Vector3.equal]

/-- In exact arithmetic the first triangle of `buildTriangles` is no point when
the four corner positions are affinely independent, whatever the parameters. -/
theorem buildTriangles_first_not_isPoint (A B C D : Vector3) (t02 t12 t13 : ℚ)
    (hdet : tetraDet A B C D ≠ 0) :
    (Triangle.mk (A.interpolate t02 C) (B.interpolate t12 C) (B.interpolate t13 D)).isPoint =
      false := by
  cases hp : (Triangle.mk (A.interpolate t02 C) (B.interpolate t12 C)
      (B.interpolate t13 D)).isPoint
  · rfl
  · exfalso
    simp only [Triangle.isPoint, Vector3.equal, Vector3.interpolate, Vector3.add,
      Vector3.multiply, Vector3.new, Bool.and_eq_true, decide_eq_true_eq] at hp
    obtain ⟨⟨⟨ax, ay⟩, az⟩, ⟨⟨bx, by_⟩, bz⟩⟩ := hp
    have hd : tetraDet A B C D =
        (B.x - A.x) * ((C.y - A.y) * (D.z - A.z) - (C.z - A.z) * (D.y - A.y)) +
        (B.y - A.y) * ((C.z - A.z) * (D.x - A.x) - (C.x - A.x) * (D.z - A.z)) +
        (B.z - A.z) * ((C.x - A.x) * (D.y - A.y) - (C.y - A.y) * (D.x - A.x)) := by
      simp only [tetraDet, Vector3.dot, Vector3.cross, Vector3.sub, Vector3.new]
    have h12 : (1 - t12) * tetraDet A B C D = 0 := by
      rw [hd]
      linear_combination
        ((A.y - C.y) * (D.z - C.z) - (A.z - C.z) * (D.y - C.y)) * ax +
        ((A.z - C.z) * (D.x - C.x) - (A.x - C.x) * (D.z - C.z)) * ay +
        ((A.x - C.x) * (D.y - C.y) - (A.y - C.y) * (D.x - C.x)) * az
    have e12 : t12 = 1 := by
      rcases mul_eq_zero.mp h12 with h | h
      · linarith
      · exact absurd h hdet
    subst e12
    apply hdet
    rw [hd]
    linear_combination
      ((A.y - B.y) * (D.z - B.z) - (A.z - B.z) * (D.y - B.y)) * bx +
      ((A.z - B.z) * (D.x - B.x) - (A.x - B.x) * (D.z - B.z)) * by_ +
      ((A.x - B.x) * (D.y - B.y) - (A.y - B.y) * (D.x - B.x)) * bz

/-- In exact arithmetic the second triangle of `buildTriangles` is no point when
the four corner positions are affinely independent, whatever the parameters. -/
theorem buildTriangles_second_not_isPoint (A B C D : Vector3) (t02 t03 t13 : ℚ)
    (hdet : tetraDet A B C D ≠ 0) :
    (Triangle.mk (B.interpolate t13 D) (A.interpolate t03 D) (A.interpolate t02 C)).isPoint =
      false := by
  cases hp : (Triangle.mk (B.interpolate t13 D) (A.interpolate t03 D)
      (A.interpolate t02 C)).isPoint
  · rfl
  · exfalso
    simp only [Triangle.isPoint, Vector3.equal, Vector3.interpolate, Vector3.add,
      Vector3.multiply, Vector3.new, Bool.and_eq_true, decide_eq_true_eq] at hp
    obtain ⟨⟨⟨ax, ay⟩, az⟩, ⟨⟨bx, by_⟩, bz⟩⟩ := hp
    have hd : tetraDet A B C D =
        (B.x - A.x) * ((C.y - A.y) * (D.z - A.z) - (C.z - A.z) * (D.y - A.y)) +
        (B.y - A.y) * ((C.z - A.z) * (D.x - A.x) - (C.x - A.x) * (D.z - A.z)) +
        (B.z - A.z) * ((C.x - A.x) * (D.y - A.y) - (C.y - A.y) * (D.x - A.x)) := by
      simp only [tetraDet, Vector3.dot, Vector3.cross, Vector3.sub, Vector3.new]
    have h13 : (1 - t13) * tetraDet A B C D = 0 := by
      rw [hd]
      linear_combination
        ((A.y - D.y) * (C.z - D.z) - (A.z - D.z) * (C.y - D.y)) * ax +
        ((A.z - D.z) * (C.x - D.x) - (A.x - D.x) * (C.z - D.z)) * ay +
        ((A.x - D.x) * (C.y - D.y) - (A.y - D.y) * (C.x - D.x)) * az
    have e13 : t13 = 1 := by
      rcases mul_eq_zero.mp h13 with h | h
      · linarith
      · exact absurd h hdet
    subst e13
    have h03 : t03 * tetraDet A B C D = 0 := by
      rw [hd]
      linear_combination
        ((B.y - A.y) * (C.z - A.z) - (B.z - A.z) * (C.y - A.y)) * bx +
        ((B.z - A.z) * (C.x - A.x) - (B.x - A.x) * (C.z - A.z)) * by_ +
        ((B.x - A.x) * (C.y - A.y) - (B.y - A.y) * (C.x - A.x)) * bz
    have e03 : t03 = 0 := by
      rcases mul_eq_zero.mp h03 with h | h
      · exact h
      · exact absurd h hdet
    subst e03
    apply hdet
    rw [hd]
    linear_combination
      ((B.y - A.y) * (C.z - A.z) - (B.z - A.z) * (C.y - A.y)) * ax +
      ((B.z - A.z) * (C.x - A.x) - (B.x - A.x) * (C.z - A.z)) * ay +
      ((B.x - A.x) * (C.y - A.y) - (B.y - A.y) * (C.x - A.x)) * az

/-- In exact arithmetic `buildTriangles` returns both triangles when the four
corner positions are affinely independent. -/
theorem buildTriangles_length_two (A B C D : Vector3) (isovalue : ℚ)
    (hdet : tetraDet A B C D ≠ 0) : (buildTriangles A B C D isovalue).length = 2 := by
  have h1 := buildTriangles_first_not_isPoint A B C D
    (inverseLinearInterpolation isovalue A.info C.info)
    (inverseLinearInterpolation isovalue B.info C.info)
    (inverseLinearInterpolation isovalue B.info D.info) hdet
  have h2 := buildTriangles_second_not_isPoint A B C D
    (inverseLinearInterpolation isovalue A.info C.info)
    (inverseLinearInterpolation isovalue A.info D.info)
    (inverseLinearInterpolation isovalue B.info D.info) hdet
  have h1s := h1
  have h2s := h2
  rw [← isPoint_swap] at h1s h2s
  unfold buildTriangles
  dsimp only
  split_ifs with a b c d e f g h i <;>
    simp only [h1, h2, h1s, h2s, Bool.not_false, Bool.not_true, Bool.false_eq_true,
      not_true_eq_false, not_false_eq_true] at * <;> rfl

/-! ## When the single triangle is dropped, in any arithmetic -/

theorem rounded_marchTetrahedra_same (r : ℚ → ℚ) (V0 V1 V2 V3 : Vector3) (isovalue : ℚ)
    (hb : bitsAbove V0 V1 V2 V3 isovalue = 0 ∨ bitsAbove V0 V1 V2 V3 isovalue = 4) :
    Rounded.marchTetrahedra r V0 V1 V2 V3 isovalue = [] := by
  by_cases c0 : V0.info > isovalue <;> by_cases c1 : V1.info > isovalue <;>
    by_cases c2 : V2.info > isovalue <;> by_cases c3 : V3.info > isovalue <;>
    first
    | exact rounded_marchTetrahedra_0000 r V0 V1 V2 V3 isovalue c0 c1 c2 c3
    | exact rounded_marchTetrahedra_1111 r V0 V1 V2 V3 isovalue c0 c1 c2 c3
    | (exfalso; simp [bitsAbove, signBit, c0, c1, c2, c3] at hb)

theorem isPoint_iff (P Q R : Vector3) :
    (Triangle.mk P Q R).isPoint = true ↔ (P.equal Q = true ∧ Q.equal R = true) := by
  simp [Triangle.isPoint]

/-- The triangle count of `marchTetrahedra` in any arithmetic, by sign pattern. -/
theorem rounded_marchTetrahedra_length_le (r : ℚ → ℚ) (V0 V1 V2 V3 : Vector3) (isovalue : ℚ) :
    (Rounded.marchTetrahedra r V0 V1 V2 V3 isovalue).length ≤ 2 := by
  have hle := bitsAbove_le V0 V1 V2 V3 isovalue
  obtain ⟨h1, h2⟩ := rounded_marchTetrahedra_relabel V0 V1 V2 V3 isovalue
  have cases : bitsAbove V0 V1 V2 V3 isovalue = 0 ∨ bitsAbove V0 V1 V2 V3 isovalue = 4 ∨
      bitsAbove V0 V1 V2 V3 isovalue = 1 ∨ bitsAbove V0 V1 V2 V3 isovalue = 3 ∨
      bitsAbove V0 V1 V2 V3 isovalue = 2 := by omega
  rcases cases with h | h | h | h | h
  · rw [rounded_marchTetrahedra_same r V0 V1 V2 V3 isovalue (Or.inl h)]; simp
  · rw [rounded_marchTetrahedra_same r V0 V1 V2 V3 isovalue (Or.inr h)]; simp
  · obtain ⟨A, B, C, D, -, -, -, -, -, he⟩ := h1 (Or.inl h)
    rw [he r, rounded_buildTriangle_length]
    split_ifs <;> simp
  · obtain ⟨A, B, C, D, -, -, -, -, -, he⟩ := h1 (Or.inr h)
    rw [he r, rounded_buildTriangle_length]
    split_ifs <;> simp
  · obtain ⟨A, B, C, D, -, -, -, -, -, he⟩ := h2 h
    rw [he r, rounded_buildTriangles_length]
    split_ifs <;> simp

/-- C16, counterexample: in double arithmetic the tetrahedron with corners
`(1,1,1)`, `(0,0,0)`, `(1,0,0)`, `(0,1,0)`, values `1e-17` (the double nearest to
it), `-1`, `-1`, `-1` and isovalue `0` has affinely independent corner positions
and a 1-vs-3 sign pattern, the lone corner's value differs from the isovalue,
and yet `marchTetrahedra` returns the empty list: the parameter `t` of each edge
is about `1e-17`, `1.0 - t` rounds to `1` and all three points round to
`(1,1,1)`. -/
theorem rounding_drops_lone_corner_triangle :
    roundDouble (1 / 10 ^ 17) = 6490371073168535 / 649037107316853453566312041152512 ∧
    tetraDet ⟨6490371073168535 / 649037107316853453566312041152512, 1, 1, 1⟩ ⟨-1, 0, 0, 0⟩
      ⟨-1, 1, 0, 0⟩ ⟨-1, 0, 1, 0⟩ ≠ 0 ∧
    bitsAbove ⟨6490371073168535 / 649037107316853453566312041152512, 1, 1, 1⟩ ⟨-1, 0, 0, 0⟩
      ⟨-1, 1, 0, 0⟩ ⟨-1, 0, 1, 0⟩ 0 = 1 ∧
    (6490371073168535 / 649037107316853453566312041152512 : ℚ) ≠ 0 ∧
    Rounded.marchTetrahedra roundDouble
      ⟨6490371073168535 / 649037107316853453566312041152512, 1, 1, 1⟩ ⟨-1, 0, 0, 0⟩
      ⟨-1, 1, 0, 0⟩ ⟨-1, 0, 1, 0⟩ 0 = [] := by
  decide!

/-- C16, amended: for a tetrahedron in a 1-vs-3 sign pattern, with `A` the
lone-sign corner and `B`, `C`, `D` the other corners as passed to
`buildTriangle`: in any arithmetic (`r` rounds each arithmetic result; the
doubles of the program are `r = roundDouble`, exact arithmetic is `r = id`)
`marchTetrahedra` returns the empty list if and only if the three interpolated
points, as computed, coincide exactly, and otherwise it returns exactly one
triangle; the points coincide whenever the value of `A` equals the isovalue
exactly (for a rounding that keeps `0`); and in exact arithmetic with affinely
independent corner positions they coincide only then. -/
theorem lone_corner_triangle_dropped (V0 V1 V2 V3 : Vector3) (isovalue : ℚ)
    (hb : bitsAbove V0 V1 V2 V3 isovalue = 1 ∨ bitsAbove V0 V1 V2 V3 isovalue = 3) :
    ∃ A B C D : Vector3, List.Perm [A, B, C, D] [V0, V1, V2, V3] ∧
      signBit A isovalue ≠ signBit B isovalue ∧ signBit B isovalue = signBit C isovalue ∧
      signBit C isovalue = signBit D isovalue ∧
      (∀ r : ℚ → ℚ,
        (Rounded.marchTetrahedra r V0 V1 V2 V3 isovalue = [] ↔
          ((Rounded.crossing r A B isovalue).equal (Rounded.crossing r A D isovalue) = true ∧
            (Rounded.crossing r A D isovalue).equal (Rounded.crossing r A C isovalue) = true)) ∧
        (Rounded.marchTetrahedra r V0 V1 V2 V3 isovalue ≠ [] →
          (Rounded.marchTetrahedra r V0 V1 V2 V3 isovalue).length = 1) ∧
        (r 0 = 0 → A.info = isovalue →
          Rounded.marchTetrahedra r V0 V1 V2 V3 isovalue = [])) ∧
      (tetraDet V0 V1 V2 V3 ≠ 0 →
        (marchTetrahedra V0 V1 V2 V3 isovalue = [] ↔ A.info = isovalue)) := by
  obtain ⟨A, B, C, D, hp, s1, s2, s3, hd, he⟩ :=
    (rounded_marchTetrahedra_relabel V0 V1 V2 V3 isovalue).1 hb
  have key : ∀ r : ℚ → ℚ, (Rounded.marchTetrahedra r V0 V1 V2 V3 isovalue = [] ↔
      (Triangle.mk (Rounded.crossing r A B isovalue) (Rounded.crossing r A D isovalue)
        (Rounded.crossing r A C isovalue)).isPoint = true) := by
    intro r
    rw [he r, ← rounded_buildTriangle_none_iff]
    cases Rounded.buildTriangle r A B C D isovalue <;> simp [pushIfNotNull]
  refine ⟨A, B, C, D, hp, s1, s2, s3, fun r => ⟨?_, ?_, ?_⟩, ?_⟩
  · rw [key r, isPoint_iff]
  · intro hne
    rw [he r] at hne ⊢
    cases hbt : Rounded.buildTriangle r A B C D isovalue with
    | none => rw [hbt] at hne; exact absurd rfl hne
    | some T => rfl
  · intro h0 hA
    rw [key r]
    exact rounded_lone_corner_on_isovalue r h0 A B C D isovalue hA
  · intro hdet
    have hdet2 : tetraDet A B C D ≠ 0 := by
      rcases hd with h | h <;> rw [h]
      · exact hdet
      · exact neg_ne_zero.mpr hdet
    have hB : A.info ≠ B.info := info_ne_of_signBit_ne s1
    have hC : A.info ≠ C.info := info_ne_of_signBit_ne (by rw [← s2]; exact s1)
    have hD : A.info ≠ D.info := info_ne_of_signBit_ne (by rw [← s3, ← s2]; exact s1)
    obtain ⟨k1, k2, -⟩ := buildTriangle_none_iff A B C D isovalue hdet2 hB hC hD
    have hex := he (fun q => q)
    rw [rounded_marchTetrahedra_exact, rounded_buildTriangle_exact] at hex
    rw [hex, ← k2, ← k1]
    cases buildTriangle A B C D isovalue <;> simp [pushIfNotNull]

/-- The tetrahedron of the counterexample: its lone corner is `V0`, in double
arithmetic the list is empty, and in exact arithmetic it is not. -/
theorem lone_corner_triangle_dropped_witness :
    ∃ A B C D : Vector3,
      List.Perm [A, B, C, D]
        [⟨6490371073168535 / 649037107316853453566312041152512, 1, 1, 1⟩, ⟨-1, 0, 0, 0⟩,
          ⟨-1, 1, 0, 0⟩, ⟨-1, 0, 1, 0⟩] ∧
      signBit A 0 ≠ signBit B 0 ∧ signBit B 0 = signBit C 0 ∧ signBit C 0 = signBit D 0 ∧
      (∀ r : ℚ → ℚ,
        (Rounded.marchTetrahedra r
            ⟨6490371073168535 / 649037107316853453566312041152512, 1, 1, 1⟩ ⟨-1, 0, 0, 0⟩
            ⟨-1, 1, 0, 0⟩ ⟨-1, 0, 1, 0⟩ 0 = [] ↔
          ((Rounded.crossing r A B 0).equal (Rounded.crossing r A D 0) = true ∧
            (Rounded.crossing r A D 0).equal (Rounded.crossing r A C 0) = true)) ∧
        (Rounded.marchTetrahedra r
            ⟨6490371073168535 / 649037107316853453566312041152512, 1, 1, 1⟩ ⟨-1, 0, 0, 0⟩
            ⟨-1, 1, 0, 0⟩ ⟨-1, 0, 1, 0⟩ 0 ≠ [] →
          (Rounded.marchTetrahedra r
            ⟨6490371073168535 / 649037107316853453566312041152512, 1, 1, 1⟩ ⟨-1, 0, 0, 0⟩
            ⟨-1, 1, 0, 0⟩ ⟨-1, 0, 1, 0⟩ 0).length = 1) ∧
        (r 0 = 0 → A.info = 0 →
          Rounded.marchTetrahedra r
            ⟨6490371073168535 / 649037107316853453566312041152512, 1, 1, 1⟩ ⟨-1, 0, 0, 0⟩
            ⟨-1, 1, 0, 0⟩ ⟨-1, 0, 1, 0⟩ 0 = [])) ∧
      (tetraDet ⟨6490371073168535 / 649037107316853453566312041152512, 1, 1, 1⟩ ⟨-1, 0, 0, 0⟩
          ⟨-1, 1, 0, 0⟩ ⟨-1, 0, 1, 0⟩ ≠ 0 →
        (marchTetrahedra ⟨6490371073168535 / 649037107316853453566312041152512, 1, 1, 1⟩
          ⟨-1, 0, 0, 0⟩ ⟨-1, 1, 0, 0⟩ ⟨-1, 0, 1, 0⟩ 0 = [] ↔ A.info = 0)) :=
  lone_corner_triangle_dropped
    ⟨6490371073168535 / 649037107316853453566312041152512, 1, 1, 1⟩ ⟨-1, 0, 0, 0⟩
    ⟨-1, 1, 0, 0⟩ ⟨-1, 0, 1, 0⟩ 0 (Or.inl (by decide!))

/-! ## The number of triangles, in any arithmetic -/

/-- C9, counterexamples.  In exact arithmetic: the pattern `0111` with the lone
corner's value equal to the isovalue returns no triangle, and a 2-vs-2 pattern
on four coinciding corner positions returns no triangle.  In double arithmetic:
a 1-vs-3 pattern on affinely independent corner positions with no value equal
to the isovalue (lone value `-2^-60`) returns no triangle, and a 2-vs-2
pattern on affinely independent corner positions one unit in the last place
apart, with values `1, 1, -1, -1`, returns no triangle. -/
theorem marchTetrahedra_count_counterexamples :
    (bitsAbove ⟨0, 0, 0, 0⟩ ⟨1, 1, 0, 0⟩ ⟨1, 0, 1, 0⟩ ⟨1, 0, 0, 1⟩ 0 = 3 ∧
      marchTetrahedra ⟨0, 0, 0, 0⟩ ⟨1, 1, 0, 0⟩ ⟨1, 0, 1, 0⟩ ⟨1, 0, 0, 1⟩ 0 = []) ∧
    (bitsAbove ⟨1, 0, 0, 0⟩ ⟨1, 0, 0, 0⟩ ⟨-1, 0, 0, 0⟩ ⟨-1, 0, 0, 0⟩ 0 = 2 ∧
      marchTetrahedra ⟨1, 0, 0, 0⟩ ⟨1, 0, 0, 0⟩ ⟨-1, 0, 0, 0⟩ ⟨-1, 0, 0, 0⟩ 0 = []) ∧
    (bitsAbove ⟨-(1 / 2 ^ 60), 1, 1, 1⟩ ⟨1, 0, 0, 0⟩ ⟨1, 1, 0, 0⟩ ⟨1, 0, 1, 0⟩ 0 = 3 ∧
      tetraDet ⟨-(1 / 2 ^ 60), 1, 1, 1⟩ ⟨1, 0, 0, 0⟩ ⟨1, 1, 0, 0⟩ ⟨1, 0, 1, 0⟩ ≠ 0 ∧
      Rounded.marchTetrahedra roundDouble ⟨-(1 / 2 ^ 60), 1, 1, 1⟩ ⟨1, 0, 0, 0⟩ ⟨1, 1, 0, 0⟩
        ⟨1, 0, 1, 0⟩ 0 = []) ∧
    (bitsAbove ⟨1, 1, 1, 1⟩ ⟨1, 1 + 1 / 2 ^ 52, 1, 1⟩ ⟨-1, 1, 1 + 1 / 2 ^ 52, 1⟩
        ⟨-1, 1, 1, 1 + 1 / 2 ^ 52⟩ 0 = 2 ∧
      tetraDet ⟨1, 1, 1, 1⟩ ⟨1, 1 + 1 / 2 ^ 52, 1, 1⟩ ⟨-1, 1, 1 + 1 / 2 ^ 52, 1⟩
        ⟨-1, 1, 1, 1 + 1 / 2 ^ 52⟩ ≠ 0 ∧
      roundDouble (1 + 1 / 2 ^ 52) = 1 + 1 / 2 ^ 52 ∧
      Rounded.marchTetrahedra roundDouble ⟨1, 1, 1, 1⟩ ⟨1, 1 + 1 / 2 ^ 52, 1, 1⟩
        ⟨-1, 1, 1 + 1 / 2 ^ 52, 1⟩ ⟨-1, 1, 1, 1 + 1 / 2 ^ 52⟩ 0 = []) := by
  decide!

/-- C9, amended: in any arithmetic (`r` rounds each arithmetic result; the doubles
of the program are `r = roundDouble`, exact arithmetic is `r = id`)
`marchTetrahedra` returns no triangle when the four sign bits are equal; in a
1-vs-3 pattern, with `A` the lone-sign corner, it returns exactly one triangle
unless the three points computed on the edges leaving `A` coincide exactly, and
then none; in a 2-vs-2 pattern, with `A`, `B` the corners of one sign and `C`, `D`
those of the other, it returns the two triangles of the quadrilateral except
each one whose three computed points coincide exactly; and it never returns
more than two.  In exact arithmetic with affinely independent corner positions
a 1-vs-3 pattern gives exactly one triangle if and only if the value of the
lone corner differs from the isovalue, and a 2-vs-2 pattern gives exactly
two. -/
theorem marchTetrahedra_count_by_pattern (V0 V1 V2 V3 : Vector3) (isovalue : ℚ) :
    ((bitsAbove V0 V1 V2 V3 isovalue = 0 ∨ bitsAbove V0 V1 V2 V3 isovalue = 4) →
      ∀ r : ℚ → ℚ, Rounded.marchTetrahedra r V0 V1 V2 V3 isovalue = []) ∧
    ((bitsAbove V0 V1 V2 V3 isovalue = 1 ∨ bitsAbove V0 V1 V2 V3 isovalue = 3) →
      ∃ A B C D : Vector3, List.Perm [A, B, C, D] [V0, V1, V2, V3] ∧
        signBit A isovalue ≠ signBit B isovalue ∧ signBit B isovalue = signBit C isovalue ∧
        signBit C isovalue = signBit D isovalue ∧
        (∀ r : ℚ → ℚ, (Rounded.marchTetrahedra r V0 V1 V2 V3 isovalue).length =
          if (Rounded.crossing r A B isovalue).equal (Rounded.crossing r A D isovalue) = true ∧
              (Rounded.crossing r A D isovalue).equal (Rounded.crossing r A C isovalue) = true
          then 0 else 1) ∧
        (tetraDet V0 V1 V2 V3 ≠ 0 →
          ((marchTetrahedra V0 V1 V2 V3 isovalue).length = 1 ↔ A.info ≠ isovalue))) ∧
    (bitsAbove V0 V1 V2 V3 isovalue = 2 →
      ∃ A B C D : Vector3, List.Perm [A, B, C, D] [V0, V1, V2, V3] ∧
        signBit A isovalue = signBit B isovalue ∧ signBit C isovalue = signBit D isovalue ∧
        signBit A isovalue ≠ signBit C isovalue ∧
        (∀ r : ℚ → ℚ, (Rounded.marchTetrahedra r V0 V1 V2 V3 isovalue).length =
          (if (Rounded.crossing r A C isovalue).equal (Rounded.crossing r B C isovalue) = true ∧
              (Rounded.crossing r B C isovalue).equal (Rounded.crossing r B D isovalue) = true
            then 0 else 1) +
          (if (Rounded.crossing r B D isovalue).equal (Rounded.crossing r A D isovalue) = true ∧
              (Rounded.crossing r A D isovalue).equal (Rounded.crossing r A C isovalue) = true
            then 0 else 1)) ∧
        (tetraDet V0 V1 V2 V3 ≠ 0 → (marchTetrahedra V0 V1 V2 V3 isovalue).length = 2)) ∧
    (∀ r : ℚ → ℚ, (Rounded.marchTetrahedra r V0 V1 V2 V3 isovalue).length ≤ 2) := by
  obtain ⟨h1, h2⟩ := rounded_marchTetrahedra_relabel V0 V1 V2 V3 isovalue
  refine ⟨fun hb r => rounded_marchTetrahedra_same r V0 V1 V2 V3 isovalue hb, ?_, ?_,
    fun r => rounded_marchTetrahedra_length_le r V0 V1 V2 V3 isovalue⟩
  · intro hb
    obtain ⟨A, B, C, D, hp, s1, s2, s3, hd, he⟩ := h1 hb
    refine ⟨A, B, C, D, hp, s1, s2, s3, fun r => ?_, ?_⟩
    · rw [he r, rounded_buildTriangle_length]
      simp only [isPoint_iff]
    · intro hdet
      have hdet2 : tetraDet A B C D ≠ 0 := by
        rcases hd with h | h <;> rw [h]
        · exact hdet
        · exact neg_ne_zero.mpr hdet
      have hB : A.info ≠ B.info := info_ne_of_signBit_ne s1
      have hC : A.info ≠ C.info := info_ne_of_signBit_ne (by rw [← s2]; exact s1)
      have hD : A.info ≠ D.info := info_ne_of_signBit_ne (by rw [← s3, ← s2]; exact s1)
      obtain ⟨k1, k2, -⟩ := buildTriangle_none_iff A B C D isovalue hdet2 hB hC hD
      have hex := he (fun q => q)
      rw [rounded_marchTetrahedra_exact, rounded_buildTriangle_exact] at hex
      have hn : buildTriangle A B C D isovalue = none ↔ A.info = isovalue := k1.trans k2
      rw [hex]
      cases hbt : buildTriangle A B C D isovalue with
      | none =>
        have hA := hn.mp hbt
        simp [pushIfNotNull, hA]
      | some T =>
        have hA : A.info ≠ isovalue := fun h => by
          rw [hn.mpr h] at hbt
          exact absurd hbt (by simp)
        simp [pushIfNotNull, hA]
  · intro hb
    obtain ⟨A, B, C, D, hp, s1, s2, s3, hd, he⟩ := h2 hb
    refine ⟨A, B, C, D, hp, s1, s2, s3, fun r => ?_, ?_⟩
    · rw [he r, rounded_buildTriangles_length]
      simp only [isPoint_iff]
    · intro hdet
      have hdet2 : tetraDet A B C D ≠ 0 := by
        rcases hd with h | h <;> rw [h]
        · exact hdet
        · exact neg_ne_zero.mpr hdet
      have hex := he (fun q => q)
      rw [rounded_marchTetrahedra_exact, rounded_buildTriangles_exact, pushAll_eq_append,
        List.nil_append] at hex
      rw [hex]
      exact buildTriangles_length_two A B C D isovalue hdet2

/-- The unit tetrahedron with values `1, 1, -1, -1` and isovalue `0` is in a 2-vs-2
pattern with affinely independent corner positions: exact arithmetic gives
exactly two triangles. -/
theorem marchTetrahedra_count_by_pattern_witness :
    bitsAbove ⟨1, 0, 0, 0⟩ ⟨1, 1, 0, 0⟩ ⟨-1, 0, 1, 0⟩ ⟨-1, 0, 0, 1⟩ 0 = 2 ∧
    tetraDet ⟨1, 0, 0, 0⟩ ⟨1, 1, 0, 0⟩ ⟨-1, 0, 1, 0⟩ ⟨-1, 0, 0, 1⟩ ≠ 0 ∧
    (marchTetrahedra ⟨1, 0, 0, 0⟩ ⟨1, 1, 0, 0⟩ ⟨-1, 0, 1, 0⟩ ⟨-1, 0, 0, 1⟩ 0).length = 2 := by
  refine ⟨by decide!, by decide!, ?_⟩
  obtain ⟨A, B, C, D, -, -, -, -, -, h⟩ :=
    (marchTetrahedra_count_by_pattern ⟨1, 0, 0, 0⟩ ⟨1, 1, 0, 0⟩ ⟨-1, 0, 1, 0⟩ ⟨-1, 0, 0, 1⟩
      0).2.2.1 (by decide!)
  exact h (by decide!)

/-! ## Where the vertices of a cell lie in double arithmetic -/

theorem rounded_buildTriangle_vertices {r : ℚ → ℚ} {V0 V1 V2 V3 : Vector3} {isovalue : ℚ}
    {T : Triangle} (h : Rounded.buildTriangle r V0 V1 V2 V3 isovalue = some T) (P : Vector3)
    (hP : P = T.v0 ∨ P = T.v1 ∨ P = T.v2) :
    P = Rounded.crossing r V0 V1 isovalue ∨ P = Rounded.crossing r V0 V2 isovalue ∨
      P = Rounded.crossing r V0 V3 isovalue := by
  unfold Rounded.buildTriangle at h
  dsimp only at h
  unfold Rounded.crossing
  split_ifs at h with hx hp hp
  all_goals
    injection h with h
    subst h
    rcases hP with rfl | rfl | rfl <;> simp

theorem rounded_buildTriangles_vertices {r : ℚ → ℚ} {V0 V1 V2 V3 : Vector3} {isovalue : ℚ}
    {T : Triangle} (h : T ∈ Rounded.buildTriangles r V0 V1 V2 V3 isovalue) (P : Vector3)
    (hP : P = T.v0 ∨ P = T.v1 ∨ P = T.v2) :
    P = Rounded.crossing r V0 V2 isovalue ∨ P = Rounded.crossing r V1 V2 isovalue ∨
      P = Rounded.crossing r V1 V3 isovalue ∨ P = Rounded.crossing r V0 V3 isovalue := by
  unfold Rounded.buildTriangles at h
  dsimp only at h
  unfold Rounded.crossing
  split_ifs at h with h1 h2 h3 h4 h5 h6 h7 h8 h9 <;>
    simp only [List.nil_append, List.cons_append, List.mem_cons, List.mem_singleton,
      List.not_mem_nil, or_false] at h
  all_goals rcases h with rfl | rfl <;> rcases hP with rfl | rfl | rfl <;> simp

theorem mem_of_perm_four {A B C D V0 V1 V2 V3 : Vector3}
    (hp : List.Perm [A, B, C, D] [V0, V1, V2, V3]) (X : Vector3)
    (hX : X = A ∨ X = B ∨ X = C ∨ X = D) : X = V0 ∨ X = V1 ∨ X = V2 ∨ X = V3 := by
  have hm : X ∈ [A, B, C, D] := by
    rcases hX with rfl | rfl | rfl | rfl <;> simp
  have := hp.mem_iff.mp hm
  simpa using this

/-- In any arithmetic every vertex of every triangle of `marchTetrahedra` is the
point computed on an edge of the tetrahedron whose ends have different sign
bits. -/
theorem rounded_marchTetrahedra_vertex {r : ℚ → ℚ} {V0 V1 V2 V3 : Vector3} {isovalue : ℚ}
    {T : Triangle} (hT : T ∈ Rounded.marchTetrahedra r V0 V1 V2 V3 isovalue) (P : Vector3)
    (hP : P = T.v0 ∨ P = T.v1 ∨ P = T.v2) :
    ∃ A B : Vector3, (A = V0 ∨ A = V1 ∨ A = V2 ∨ A = V3) ∧ (B = V0 ∨ B = V1 ∨ B = V2 ∨ B = V3) ∧
      signBit A isovalue ≠ signBit B isovalue ∧ P = Rounded.crossing r A B isovalue := by
  have hle := bitsAbove_le V0 V1 V2 V3 isovalue
  obtain ⟨h1, h2⟩ := rounded_marchTetrahedra_relabel V0 V1 V2 V3 isovalue
  have cases : (bitsAbove V0 V1 V2 V3 isovalue = 0 ∨ bitsAbove V0 V1 V2 V3 isovalue = 4) ∨
      (bitsAbove V0 V1 V2 V3 isovalue = 1 ∨ bitsAbove V0 V1 V2 V3 isovalue = 3) ∨
      bitsAbove V0 V1 V2 V3 isovalue = 2 := by omega
  rcases cases with h | h | h
  · rw [rounded_marchTetrahedra_same r V0 V1 V2 V3 isovalue h] at hT
    exact absurd hT (List.not_mem_nil T)
  · obtain ⟨A, B, C, D, hp, s1, s2, s3, -, he⟩ := h1 h
    rw [he r] at hT
    have mA := mem_of_perm_four hp A (Or.inl rfl)
    have mB := mem_of_perm_four hp B (Or.inr (Or.inl rfl))
    have mC := mem_of_perm_four hp C (Or.inr (Or.inr (Or.inl rfl)))
    have mD := mem_of_perm_four hp D (Or.inr (Or.inr (Or.inr rfl)))
    rcases rounded_buildTriangle_vertices (mem_pushIfNotNull hT) P hP with e | e | e
    · exact ⟨A, B, mA, mB, s1, e⟩
    · exact ⟨A, C, mA, mC, by rw [← s2]; exact s1, e⟩
    · exact ⟨A, D, mA, mD, by rw [← s3, ← s2]; exact s1, e⟩
  · obtain ⟨A, B, C, D, hp, s1, s2, s3, -, he⟩ := h2 h
    rw [he r, pushAll_eq_append, List.nil_append] at hT
    have mA := mem_of_perm_four hp A (Or.inl rfl)
    have mB := mem_of_perm_four hp B (Or.inr (Or.inl rfl))
    have mC := mem_of_perm_four hp C (Or.inr (Or.inr (Or.inl rfl)))
    have mD := mem_of_perm_four hp D (Or.inr (Or.inr (Or.inr rfl)))
    rcases rounded_buildTriangles_vertices hT P hP with e | e | e | e
    · exact ⟨A, C, mA, mC, s3, e⟩
    · exact ⟨B, C, mB, mC, by rw [← s1]; exact s3, e⟩
    · exact ⟨B, D, mB, mD, by rw [← s1, ← s2]; exact s3, e⟩
    · exact ⟨A, D, mA, mD, by rw [← s2]; exact s3, e⟩

theorem rounded_marchCellTetrahedra_eq_append (r : ℚ → ℚ) (v0 v1 v2 v3 v4 v5 v6 v7 : Vector3)
    (isovalue : ℚ) :
    Rounded.marchCellTetrahedra r v0 v1 v2 v3 v4 v5 v6 v7 isovalue =
      Rounded.marchTetrahedra r v0 v1 v3 v5 isovalue ++
        Rounded.marchTetrahedra r v1 v2 v3 v5 isovalue ++
        Rounded.marchTetrahedra r v0 v3 v4 v5 isovalue ++
        Rounded.marchTetrahedra r v2 v3 v5 v6 isovalue ++
        Rounded.marchTetrahedra r v3 v4 v5 v7 isovalue ++
        Rounded.marchTetrahedra r v3 v5 v6 v7 isovalue := by
  unfold Rounded.marchCellTetrahedra
  simp [pushAll_eq_append]

/-- In any arithmetic every vertex of every triangle of a cell is the point
computed on a segment between two of the eight corners with different sign
bits. -/
theorem rounded_marchCellTetrahedra_vertex {r : ℚ → ℚ} {v0 v1 v2 v3 v4 v5 v6 v7 : Vector3}
    {isovalue : ℚ} {T : Triangle}
    (hT : T ∈ Rounded.marchCellTetrahedra r v0 v1 v2 v3 v4 v5 v6 v7 isovalue) (P : Vector3)
    (hP : P = T.v0 ∨ P = T.v1 ∨ P = T.v2) :
    ∃ A B : Vector3, A ∈ [v0, v1, v2, v3, v4, v5, v6, v7] ∧ B ∈ [v0, v1, v2, v3, v4, v5, v6, v7] ∧
      signBit A isovalue ≠ signBit B isovalue ∧ P = Rounded.crossing r A B isovalue := by
  rw [rounded_marchCellTetrahedra_eq_append] at hT
  simp only [List.mem_append] at hT
  rcases hT with ((((h | h) | h) | h) | h) | h <;>
  · obtain ⟨A, B, hA, hB, hs, e⟩ := rounded_marchTetrahedra_vertex h P hP
    refine ⟨A, B, ?_, ?_, hs, e⟩
    · rcases hA with rfl | rfl | rfl | rfl <;> simp
    · rcases hB with rfl | rfl | rfl | rfl <;> simp

theorem roundDouble_one : roundDouble 1 = 1 := by decide!

/-- In double arithmetic the parameter computed for an edge whose ends have
different sign bits lies between `0` and `1`. -/
theorem rounded_parameter_bounds (isovalue a b : ℚ)
    (h : decide (a > isovalue) ≠ decide (b > isovalue)) :
    0 ≤ Rounded.inverseLinearInterpolation roundDouble isovalue a b ∧
      Rounded.inverseLinearInterpolation roundDouble isovalue a b ≤ 1 := by
  unfold Rounded.inverseLinearInterpolation
  have key : ∀ N D : ℚ, (D ≤ N ∧ N ≤ 0) ∨ (0 ≤ N ∧ N ≤ D) → 0 ≤ N / D ∧ N / D ≤ 1 := by
    intro N D hND
    rcases hND with ⟨h1, h2⟩ | ⟨h1, h2⟩
    · rcases eq_or_lt_of_le (le_trans h1 h2) with hD | hD
      · rw [hD]; simp
      · exact ⟨div_nonneg_of_nonpos h2 (le_of_lt hD), (div_le_one_of_neg hD).mpr h1⟩
    · rcases eq_or_lt_of_le (le_trans h1 h2) with hD | hD
      · rw [← hD]; simp
      · exact ⟨div_nonneg h1 (le_of_lt hD), (div_le_one hD).mpr h2⟩
  have hq : 0 ≤ roundDouble (isovalue - a) / roundDouble (b - a) ∧
      roundDouble (isovalue - a) / roundDouble (b - a) ≤ 1 := by
    apply key
    by_cases ha : a > isovalue
    · have hb : ¬ b > isovalue := by
        intro hb; apply h; simp [ha, hb]
      left
      constructor
      · exact roundDouble_mono _ _ (by linarith)
      · have := roundDouble_mono (isovalue - a) 0 (by linarith)
        rwa [roundDouble_zero] at this
    · have hb : b > isovalue := by
        by_contra hb; apply h; simp [ha, hb]
      right
      constructor
      · have := roundDouble_mono 0 (isovalue - a) (by linarith)
        rwa [roundDouble_zero] at this
      · exact roundDouble_mono _ _ (by linarith)
  constructor
  · have := roundDouble_mono _ _ hq.1
    rwa [roundDouble_zero] at this
  · have := roundDouble_mono _ _ hq.2
    rwa [roundDouble_one] at this

/-- In double arithmetic a coordinate `a * (1 - t) + b * t` computed with `0 ≤ t ≤ 1`
from two coordinates of absolute value at most `2` that lie in `[lo, hi]` lies in
`[lo, hi]` up to `2 ^ (-49)`. -/
theorem rounded_interpolate_coord (a b t lo hi : ℚ) (ht0 : 0 ≤ t) (ht1 : t ≤ 1)
    (ha : |a| ≤ 2) (hb : |b| ≤ 2) (la : lo ≤ a) (ua : a ≤ hi) (lb : lo ≤ b) (ub : b ≤ hi) :
    lo - 1 / 2 ^ 49 ≤ roundDouble (roundDouble (a * roundDouble (1 - t)) + roundDouble (b * t)) ∧
      roundDouble (roundDouble (a * roundDouble (1 - t)) + roundDouble (b * t)) ≤
        hi + 1 / 2 ^ 49 := by
  have ha' := abs_le.mp ha
  have hb' := abs_le.mp hb
  have p49 : (1 : ℚ) / 2 ^ 49 = 8 * (1 / 2 ^ 52) := by norm_num
  have small : (1 : ℚ) / 2 ^ 52 ≤ 1 / 4 := by norm_num
  have small0 : (0 : ℚ) ≤ 1 / 2 ^ 52 := by norm_num
  rw [p49]
  -- the rounded `1 - t`
  have s0 : 0 ≤ roundDouble (1 - t) := by
    have := roundDouble_mono 0 (1 - t) (by linarith)
    rwa [roundDouble_zero] at this
  have s1 : roundDouble (1 - t) ≤ 1 := by
    have := roundDouble_mono (1 - t) 1 (by linarith)
    rwa [roundDouble_one] at this
  have es := roundDouble_error_small (1 - t) (by rw [abs_lt]; constructor <;> linarith)
  generalize roundDouble (1 - t) = s at s0 s1 es ⊢
  -- the two products
  have as1 : a * s ≤ 2 * s := mul_le_mul_of_nonneg_right ha'.2 s0
  have as2 : -2 * s ≤ a * s := by
    have := mul_le_mul_of_nonneg_right ha'.1 s0
    linarith
  have bt1 : b * t ≤ 2 * t := mul_le_mul_of_nonneg_right hb'.2 ht0
  have bt2 : -2 * t ≤ b * t := by
    have := mul_le_mul_of_nonneg_right hb'.1 ht0
    linarith
  have e1 := roundDouble_error_small (a * s) (by rw [abs_lt]; constructor <;> linarith)
  have e2 := roundDouble_error_small (b * t) (by rw [abs_lt]; constructor <;> linarith)
  generalize roundDouble (a * s) = u at e1 ⊢
  generalize roundDouble (b * t) = v at e2 ⊢
  -- the error of the rounded `1 - t` enters through `a`
  have d1 : |a * s - a * (1 - t)| ≤ 2 * (1 / 2 ^ 52) := by
    have : a * s - a * (1 - t) = a * (s - (1 - t)) := by ring
    rw [this, abs_mul]
    exact mul_le_mul ha es (abs_nonneg _) (by norm_num)
  -- the exact combination lies in `[lo, hi]`
  have c1 : lo ≤ a * (1 - t) + b * t := by
    have h1 := mul_le_mul_of_nonneg_right la (by linarith : (0 : ℚ) ≤ 1 - t)
    have h2 := mul_le_mul_of_nonneg_right lb ht0
    have h3 : lo * (1 - t) + lo * t = lo := by ring
    linarith
  have c2 : a * (1 - t) + b * t ≤ hi := by
    have h1 := mul_le_mul_of_nonneg_right ua (by linarith : (0 : ℚ) ≤ 1 - t)
    have h2 := mul_le_mul_of_nonneg_right ub ht0
    have h3 : hi * (1 - t) + hi * t = hi := by ring
    linarith
  rw [abs_le] at es e1 e2 d1
  have e3 := roundDouble_error_small (u + v) (by rw [abs_lt]; constructor <;> linarith)
  rw [abs_le] at e3
  generalize roundDouble (u + v) = w at e3 ⊢
  constructor <;> linarith

/-! ## The two passes of `marching_cubes` in any arithmetic -/

theorem rounded_zLoop_eq_fresh (r : ℚ → ℚ) (f : ℚ → ℚ → ℚ → ℚ)
    (isovalue lower2 dz x x_dx y y_dy : ℚ) :
    ∀ (n k : Nat) (c4 c5 c6 c7 : ℚ),
      c4 = f x y (r (lower2 + r (dz * (k : ℚ)))) → c5 = f x_dx y (r (lower2 + r (dz * (k : ℚ)))) →
      c6 = f x_dx y_dy (r (lower2 + r (dz * (k : ℚ)))) →
      c7 = f x y_dy (r (lower2 + r (dz * (k : ℚ)))) →
      Rounded.zLoop r f isovalue lower2 dz x x_dx y y_dy n k c4 c5 c6 c7 =
        (List.range n).map fun (m : Nat) =>
          Rounded.freshCell r f isovalue x x_dx y y_dy (r (lower2 + r (dz * ((k + m : Nat) : ℚ))))
            (r (lower2 + r (dz * ((k + m + 1 : Nat) : ℚ)))) := by
  intro n
  induction n with
  | zero => intro k c4 c5 c6 c7 _ _ _ _; rfl
  | succ n ih =>
    intro k c4 c5 c6 c7 h4 h5 h6 h7
    rw [List.range_succ_eq_map, List.map_cons, List.map_map]
    simp only [Rounded.zLoop]
    rw [ih (k + 1) _ _ _ _ rfl rfl rfl rfl]
    subst h4 h5 h6 h7
    congr 1
    apply List.map_congr_left
    intro m _
    simp only [Function.comp, Nat.succ_eq_add_one]
    have e1 : k + 1 + m = k + (m + 1) := by omega
    rw [e1]

/-- The second pass over the cached sweep is the fold of `weldTriangle` over the
triangles of the freshly sampled cells, when the rounding keeps `0` and the lower
bound `lower[2]` is a number of the format. -/
theorem rounded_weldAll_fresh (r : ℚ → ℚ) (h0 : r 0 = 0) (lower : Fin 3 → ℚ)
    (hl : r (lower 2) = lower 2) (dx dy dz : ℚ)
    (numx numy numz : Int) (f : ℚ → ℚ → ℚ → ℚ) (isovalue : ℚ) (st : WeldState × List Nat) :
    Rounded.weldAll r (Rounded.cellTriangles r lower dx dy dz numx numy numz f isovalue) st =
      (Rounded.freshSoup r lower dx dy dz numx.toNat numy.toNat numz.toNat f isovalue).foldl
        (Rounded.weldTriangle r) st := by
  have z0 : r (lower 2 + r (dz * ((0 : Nat) : ℚ))) = lower 2 := by
    simp [h0, hl]
  have hc : Rounded.cellTriangles r lower dx dy dz numx numy numz f isovalue =
      (List.range numx.toNat).map fun (i : Nat) =>
        (List.range numy.toNat).map fun (j : Nat) =>
          (List.range numz.toNat).map fun (k : Nat) =>
            Rounded.freshCell r f isovalue (Rounded.gridPoint r (lower 0) dx i)
              (Rounded.gridPoint r (lower 0) dx (i + 1))
              (Rounded.gridPoint r (lower 1) dy j) (Rounded.gridPoint r (lower 1) dy (j + 1))
              (Rounded.gridPoint r (lower 2) dz k) (Rounded.gridPoint r (lower 2) dz (k + 1)) := by
    unfold Rounded.cellTriangles Rounded.gridPoint
    apply List.map_congr_left
    intro i _
    apply List.map_congr_left
    intro j _
    dsimp only
    rw [rounded_zLoop_eq_fresh r f isovalue (lower 2) dz _ _ _ _ numz.toNat 0 _ _ _ _
      (by rw [z0]) (by rw [z0]) (by rw [z0]) (by rw [z0])]
    apply List.map_congr_left
    intro k _
    simp
  rw [hc]
  unfold Rounded.weldAll Rounded.freshSoup
  simp only [foldl_flatMap, List.foldl_map]

theorem rounded_marching_cubes_eq_weld (r : ℚ → ℚ) (h0 : r 0 = 0) (lower upper : Fin 3 → ℚ)
    (hl : r (lower 2) = lower 2) (numx numy numz : Int)
    (f : ℚ → ℚ → ℚ → ℚ) (isovalue : ℚ) (h1 : ¬ (numx < 2 ∨ numy < 2 ∨ numz < 2))
    (h2 : lower 0 ≤ upper 0 ∧ lower 1 ≤ upper 1 ∧ lower 2 ≤ upper 2) :
    Rounded.marching_cubes r lower upper numx numy numz f isovalue [] [] =
      (((Rounded.freshSoup r lower (r (r (upper 0 - lower 0) / ((numx - 1 : Int) : ℚ)))
          (r (r (upper 1 - lower 1) / ((numy - 1 : Int) : ℚ)))
          (r (r (upper 2 - lower 2) / ((numz - 1 : Int) : ℚ)))
          (numx - 1).toNat (numy - 1).toNat (numz - 1).toNat f isovalue).foldl
        (Rounded.weldTriangle r)
          ({ vertices := [], vertex_map := [], current_id := -1 }, [])).1.vertices,
       ((Rounded.freshSoup r lower (r (r (upper 0 - lower 0) / ((numx - 1 : Int) : ℚ)))
          (r (r (upper 1 - lower 1) / ((numy - 1 : Int) : ℚ)))
          (r (r (upper 2 - lower 2) / ((numz - 1 : Int) : ℚ)))
          (numx - 1).toNat (numy - 1).toNat (numz - 1).toNat f isovalue).foldl
        (Rounded.weldTriangle r)
          ({ vertices := [], vertex_map := [], current_id := -1 }, [])).2) := by
  unfold Rounded.marching_cubes
  rw [if_neg h1, if_neg (not_not.mpr h2)]
  dsimp only
  rw [rounded_weldAll_fresh r h0 lower hl]

theorem storedKey_append (vs l : List ℚ) (i : Nat) (h : 3 * i + 2 < vs.length) :
    storedKey (vs ++ l) i = storedKey vs i := by
  unfold storedKey
  rw [List.getD_append _ _ _ _ (by omega), List.getD_append _ _ _ _ (by omega),
    List.getD_append _ _ _ _ (by omega)]

theorem rounded_vertexMapFind_some {r : ℚ → ℚ} {vertex_map : List (Vector3 × Int)}
    {k : Vector3} {id : Int} (h : Rounded.vertexMapFind r vertex_map k = some id) :
    ∃ e ∈ vertex_map, e.2 = id ∧
      Rounded.Vector3Hash.operatorCall r e.1 = Rounded.Vector3Hash.operatorCall r k ∧
      Rounded.Vector3.operatorEq r k e.1 = true := by
  unfold Rounded.vertexMapFind at h
  rw [Option.map_eq_some'] at h
  obtain ⟨e, he, rfl⟩ := h
  have hp := List.find?_some he
  simp only [Bool.and_eq_true, decide_eq_true_eq] at hp
  exact ⟨e, List.mem_of_find?_eq_some he, rfl, hp.1, hp.2⟩

/-- One call of `add_vertex`, in any arithmetic: the invariant is kept, the
coordinate sequence only grows, and the returned index points at a stored vertex
whose node the lookup can have ended at. -/
theorem rounded_add_vertex_spec (r : ℚ → ℚ) (s : WeldState) (v : Vector3)
    (h : Rounded.MapInv s) :
    Rounded.MapInv (Rounded.add_vertex r s v).2 ∧
    (∃ l, (Rounded.add_vertex r s v).2.vertices = s.vertices ++ l) ∧
    3 * (Rounded.add_vertex r s v).1.toNat + 2 < (Rounded.add_vertex r s v).2.vertices.length ∧
    Rounded.Accepts r v
      (storedKey (Rounded.add_vertex r s v).2.vertices (Rounded.add_vertex r s v).1.toNat) := by
  obtain ⟨h1, h2, h3⟩ := h
  unfold Rounded.add_vertex
  cases hfind : Rounded.vertexMapFind r s.vertex_map (Vector3.new v.x v.y v.z) with
  | none =>
    dsimp only
    have e1 : (s.current_id + 1 + 1).toNat = (s.current_id + 1).toNat + 1 := by omega
    have ea : s.vertices ++ [v.x] ++ [v.z] ++ [v.y] = s.vertices ++ [v.x, v.z, v.y] := by simp
    have hlen : 3 * (s.current_id + 1).toNat = s.vertices.length := h2.symm
    have hnew : storedKey (s.vertices ++ [v.x, v.z, v.y]) (s.current_id + 1).toNat =
        Vector3.new v.x v.y v.z := by
      unfold storedKey
      rw [List.getD_append_right _ _ _ _ (by omega), List.getD_append_right _ _ _ _ (by omega),
        List.getD_append_right _ _ _ _ (by omega)]
      have a0 : 3 * (s.current_id + 1).toNat - s.vertices.length = 0 := by omega
      have a1 : 3 * (s.current_id + 1).toNat + 1 - s.vertices.length = 1 := by omega
      have a2 : 3 * (s.current_id + 1).toNat + 2 - s.vertices.length = 2 := by omega
      rw [a0, a1, a2]
      rfl
    rw [ea]
    refine ⟨⟨?_, ?_, ?_⟩, ⟨_, rfl⟩, ?_, ?_⟩
    · dsimp only; omega
    · dsimp only
      simp only [List.length_append, List.length_cons, List.length_nil, h2, e1]; omega
    · intro e he
      dsimp only at he ⊢
      rw [List.mem_cons] at he
      rcases he with rfl | he
      · dsimp only
        exact ⟨by omega, le_refl _, hnew⟩
      · obtain ⟨b1, b2, b3⟩ := h3 e he
        refine ⟨b1, by omega, ?_⟩
        rw [storedKey_append _ _ _ (by omega)]
        exact b3
    · dsimp only
      simp only [List.length_append, List.length_cons, List.length_nil]
      omega
    · dsimp only
      rw [hnew]
      exact Or.inl rfl
  | some id =>
    dsimp only
    obtain ⟨e, he, rfl, hh, heq⟩ := rounded_vertexMapFind_some hfind
    obtain ⟨b1, b2, b3⟩ := h3 e he
    refine ⟨⟨h1, h2, h3⟩, ⟨[], by simp⟩, by omega, ?_⟩
    rw [b3]
    exact Or.inr ⟨hh, heq⟩

theorem rounded_accepts_append {r : ℚ → ℚ} {vs : List ℚ} (l : List ℚ) {v : Vector3} {i : Nat}
    (h : 3 * i + 2 < vs.length ∧ Rounded.Accepts r v (storedKey vs i)) :
    3 * i + 2 < (vs ++ l).length ∧ Rounded.Accepts r v (storedKey (vs ++ l) i) := by
  refine ⟨by rw [List.length_append]; omega, ?_⟩
  rw [storedKey_append _ _ _ h.1]
  exact h.2

theorem rounded_weldedTo_append {r : ℚ → ℚ} {vs : List ℚ} (l : List ℚ) {T : Triangle}
    {t : Nat × Nat × Nat} (h : Rounded.WeldedTo r vs T t) : Rounded.WeldedTo r (vs ++ l) T t :=
  ⟨rounded_accepts_append l h.1, rounded_accepts_append l h.2.1, rounded_accepts_append l h.2.2⟩

/-- One step of the second pass, in any arithmetic. -/
theorem rounded_weldTriangle_spec (r : ℚ → ℚ) (st : WeldState × List Nat) (T : Triangle)
    (h : Rounded.MapInv st.1) :
    Rounded.MapInv (Rounded.weldTriangle r st T).1 ∧
    (∃ l, (Rounded.weldTriangle r st T).1.vertices = st.1.vertices ++ l) ∧
    ∃ t : Nat × Nat × Nat, (Rounded.weldTriangle r st T).2 = st.2 ++ [t.1, t.2.1, t.2.2] ∧
      Rounded.WeldedTo r (Rounded.weldTriangle r st T).1.vertices T t := by
  unfold Rounded.weldTriangle
  dsimp only
  obtain ⟨i0, ⟨l0, e0⟩, b0, a0⟩ := rounded_add_vertex_spec r st.1 T.v0 h
  obtain ⟨i2, ⟨l2, e2⟩, b2, a2⟩ := rounded_add_vertex_spec r _ T.v2 i0
  obtain ⟨i1, ⟨l1, e1⟩, b1, a1⟩ := rounded_add_vertex_spec r _ T.v1 i2
  refine ⟨i1, ⟨l0 ++ l2 ++ l1, ?_⟩,
    ((Rounded.add_vertex r st.1 T.v0).1.toNat,
      (Rounded.add_vertex r (Rounded.add_vertex r st.1 T.v0).2 T.v2).1.toNat,
      (Rounded.add_vertex r (Rounded.add_vertex r (Rounded.add_vertex r st.1 T.v0).2 T.v2).2
        T.v1).1.toNat), ?_, ?_⟩
  · rw [e1, e2, e0]; simp
  · simp
  · refine ⟨?_, ?_, ⟨b1, a1⟩⟩
    · have := rounded_accepts_append l1 (rounded_accepts_append l2 ⟨b0, a0⟩)
      rw [e1, e2]
      exact this
    · have := rounded_accepts_append l1 ⟨b2, a2⟩
      rw [e1]
      exact this

theorem forall₂_append_one {α β : Type} {R : α → β → Prop} {l1 : List α} {l2 : List β}
    (h : List.Forall₂ R l1 l2) {a : α} {b : β} (hab : R a b) :
    List.Forall₂ R (l1 ++ [a]) (l2 ++ [b]) :=
  List.rel_append h (List.Forall₂.cons hab List.Forall₂.nil)

/-- The second pass, in any arithmetic: the index triples pushed for a list of
triangles correspond to the triangles one to one, in order, and each triple
points at stored vertices whose nodes the three lookups can have ended at. -/
theorem rounded_weld_soup (r : ℚ → ℚ) (L : List Triangle) :
    ∀ (st : WeldState × List Nat) (L0 : List Triangle) (M0 : List (Nat × Nat × Nat)),
      Rounded.MapInv st.1 → st.2 = M0.flatMap (fun t => [t.1, t.2.1, t.2.2]) →
      List.Forall₂ (Rounded.WeldedTo r st.1.vertices) L0 M0 →
      List.Forall₂ (Rounded.WeldedTo r (L.foldl (Rounded.weldTriangle r) st).1.vertices)
        (L0 ++ L) (meshTriangles (L.foldl (Rounded.weldTriangle r) st).2) := by
  induction L with
  | nil =>
    intro st L0 M0 _ hp hf
    rw [List.foldl_nil, List.append_nil, hp, meshTriangles_flatMap]
    simpa using hf
  | cons T L ih =>
    intro st L0 M0 hi hp hf
    rw [List.foldl_cons]
    obtain ⟨hi', ⟨l, hv⟩, t, ht, hw⟩ := rounded_weldTriangle_spec r st T hi
    have := ih (Rounded.weldTriangle r st T) (L0 ++ [T]) (M0 ++ [t]) hi'
      (by rw [ht, hp]; simp)
      (forall₂_append_one (by
        rw [hv]
        exact hf.imp fun _ _ h => rounded_weldedTo_append l h) hw)
    simpa using this

/-! ## The sphere example in double arithmetic: a vertex that is not welded -/

theorem doubleEps_facts :
    roundDouble (Rounded.DBL_EPS roundDouble) = Rounded.DBL_EPS roundDouble ∧
      0 < Rounded.DBL_EPS roundDouble ∧ Rounded.DBL_EPS roundDouble < 1 / 5000 := by
  decide!

/-- In double arithmetic two numbers that `DBL_APPROX` accepts differ by less than
the tolerance. -/
theorem near_of_approx (a b : ℚ) (h : Rounded.DBL_APPROX roundDouble a b = true) :
    |a - b| < Rounded.DBL_EPS roundDouble := by
  obtain ⟨hE, hpos, -⟩ := doubleEps_facts
  unfold Rounded.DBL_APPROX at h
  rw [decide_eq_true_eq] at h
  by_contra hc
  rw [not_lt] at hc
  rcases le_abs'.mp hc with h1 | h1
  · have := roundDouble_mono _ _ h1
    rw [roundDouble_neg, hE] at this
    have h2 := abs_lt.mp h
    linarith
  · have := roundDouble_mono _ _ h1
    rw [hE] at this
    have h2 := abs_lt.mp h
    linarith

theorem near_of_accepts {x k : Vector3} (h : Rounded.Accepts roundDouble x k) :
    Rounded.Vector3Hash.operatorCall roundDouble k = Rounded.Vector3Hash.operatorCall roundDouble x ∧
    |x.x - k.x| < Rounded.DBL_EPS roundDouble ∧ |x.y - k.y| < Rounded.DBL_EPS roundDouble ∧
      |x.z - k.z| < Rounded.DBL_EPS roundDouble := by
  obtain ⟨-, hpos, -⟩ := doubleEps_facts
  rcases h with h | ⟨h1, h2⟩
  · subst h
    simp [vertexKey, Vector3.new, Rounded.Vector3Hash.operatorCall, hpos]
  · unfold Rounded.Vector3.operatorEq at h2
    simp only [Bool.and_eq_true] at h2
    obtain ⟨⟨a, b⟩, c⟩ := h2
    exact ⟨h1, near_of_approx _ _ a, near_of_approx _ _ b, near_of_approx _ _ c⟩

/-- Two vertices whose lookups can end at the same node share the slot. -/
theorem sameSlot_of_accepts {p x k : Vector3} (hx : Rounded.Accepts roundDouble x k)
    (hp : Rounded.Accepts roundDouble p k) : sameSlot p x = true := by
  obtain ⟨hx0, hx1, hx2, hx3⟩ := near_of_accepts hx
  obtain ⟨hp0, hp1, hp2, hp3⟩ := near_of_accepts hp
  have tri : ∀ a b c : ℚ, |a - c| < Rounded.DBL_EPS roundDouble →
      |b - c| < Rounded.DBL_EPS roundDouble → |a - b| < 2 * Rounded.DBL_EPS roundDouble := by
    intro a b c h1 h2
    rw [abs_lt] at *
    constructor <;> linarith [h1.1, h1.2, h2.1, h2.2]
  unfold sameSlot
  simp only [Bool.and_eq_true, decide_eq_true_eq]
  exact ⟨hx0.symm.trans hp0, ⟨tri _ _ _ hx1 hp1, tri _ _ _ hx2 hp2⟩, tri _ _ _ hx3 hp3⟩

/-- In double arithmetic the point computed on a segment whose ends have different
sign bits stays in the ranges of the two ends, up to `2 ^ (-49)` on each axis. -/
theorem rounded_crossing_box (A B : Vector3) (isovalue : ℚ)
    (hs : signBit A isovalue ≠ signBit B isovalue) (lx ux ly uy lz uz : ℚ)
    (hA : InRanges lx ux ly uy lz uz A) (hB : InRanges lx ux ly uy lz uz B) :
    (lx - 1 / 2 ^ 49 ≤ (Rounded.crossing roundDouble A B isovalue).x ∧
      (Rounded.crossing roundDouble A B isovalue).x ≤ ux + 1 / 2 ^ 49) ∧
    (ly - 1 / 2 ^ 49 ≤ (Rounded.crossing roundDouble A B isovalue).y ∧
      (Rounded.crossing roundDouble A B isovalue).y ≤ uy + 1 / 2 ^ 49) ∧
    (lz - 1 / 2 ^ 49 ≤ (Rounded.crossing roundDouble A B isovalue).z ∧
      (Rounded.crossing roundDouble A B isovalue).z ≤ uz + 1 / 2 ^ 49) := by
  obtain ⟨t0, t1⟩ := rounded_parameter_bounds isovalue A.info B.info hs
  obtain ⟨⟨a1, a2, a3⟩, ⟨a4, a5, a6⟩, ⟨a7, a8, a9⟩⟩ := hA
  obtain ⟨⟨b1, b2, b3⟩, ⟨b4, b5, b6⟩, ⟨b7, b8, b9⟩⟩ := hB
  exact ⟨rounded_interpolate_coord A.x B.x _ lx ux t0 t1 a3 b3 a1 a2 b1 b2,
    rounded_interpolate_coord A.y B.y _ ly uy t0 t1 a6 b6 a4 a5 b4 b5,
    rounded_interpolate_coord A.z B.z _ lz uz t0 t1 a9 b9 a7 a8 b7 b8⟩

/-- In double arithmetic every vertex of every triangle of a cell stays in the
cell, up to `2 ^ (-49)` on each axis. -/
theorem rounded_freshCell_box (f : ℚ → ℚ → ℚ → ℚ) (isovalue x x_dx y y_dy z z_dz : ℚ)
    (hx : x ≤ x_dx) (hy : y ≤ y_dy) (hz : z ≤ z_dz)
    (bx : |x| ≤ 2 ∧ |x_dx| ≤ 2) (by_ : |y| ≤ 2 ∧ |y_dy| ≤ 2) (bz : |z| ≤ 2 ∧ |z_dz| ≤ 2)
    {T : Triangle} (hT : T ∈ Rounded.freshCell roundDouble f isovalue x x_dx y y_dy z z_dz)
    (P : Vector3) (hP : P = T.v0 ∨ P = T.v1 ∨ P = T.v2) :
    (x - 1 / 2 ^ 49 ≤ P.x ∧ P.x ≤ x_dx + 1 / 2 ^ 49) ∧
    (z - 1 / 2 ^ 49 ≤ P.y ∧ P.y ≤ z_dz + 1 / 2 ^ 49) ∧
    (y - 1 / 2 ^ 49 ≤ P.z ∧ P.z ≤ y_dy + 1 / 2 ^ 49) := by
  unfold Rounded.freshCell at hT
  obtain ⟨A, B, hA, hB, hs, rfl⟩ := rounded_marchCellTetrahedra_vertex hT P hP
  have corners : ∀ C ∈ [freshCorner f x y z, freshCorner f x_dx y z, freshCorner f x_dx y_dy z,
      freshCorner f x y_dy z, freshCorner f x y z_dz, freshCorner f x_dx y z_dz,
      freshCorner f x_dx y_dy z_dz, freshCorner f x y_dy z_dz],
      InRanges x x_dx z z_dz y y_dy C := by
    intro C hC
    simp only [List.mem_cons, List.mem_singleton, List.not_mem_nil, or_false] at hC
    rcases hC with rfl | rfl | rfl | rfl | rfl | rfl | rfl | rfl <;>
      exact ⟨⟨by simp [freshCorner, Vector3.new, hx], by simp [freshCorner, Vector3.new, hx],
          by simp [freshCorner, Vector3.new, bx.1, bx.2]⟩,
        ⟨by simp [freshCorner, Vector3.new, hz], by simp [freshCorner, Vector3.new, hz],
          by simp [freshCorner, Vector3.new, bz.1, bz.2]⟩,
        ⟨by simp [freshCorner, Vector3.new, hy], by simp [freshCorner, Vector3.new, hy],
          by simp [freshCorner, Vector3.new, by_.1, by_.2]⟩⟩
  exact rounded_crossing_box A B isovalue hs _ _ _ _ _ _ (corners A hA) (corners B hB)

set_option maxRecDepth 100000 in
theorem sphereGridCheck_true : sphereGridCheck = true := by decide!

theorem sphereGrid_facts :
    (∀ i, i < 20 → |sphereGrid i| ≤ 2) ∧ (∀ i, i < 19 → sphereGrid i ≤ sphereGrid (i + 1)) ∧
    (∀ i, i < 19 → i ≠ 5 → sphereGrid (i + 1) + 1 / 1000 ≤ splitPoint.x ∨
      splitPoint.x + 1 / 1000 ≤ sphereGrid i) ∧
    (∀ j, j < 19 → j ≠ 7 → sphereGrid (j + 1) + 1 / 1000 ≤ splitPoint.z ∨
      splitPoint.z + 1 / 1000 ≤ sphereGrid j) ∧
    (∀ k, k < 19 → k ≠ 8 → k ≠ 9 → sphereGrid (k + 1) + 1 / 1000 ≤ splitPoint.y ∨
      splitPoint.y + 1 / 1000 ≤ sphereGrid k) := by
  have h := sphereGridCheck_true
  unfold sphereGridCheck at h
  simp only [Bool.and_eq_true, List.all_eq_true, List.mem_range, decide_eq_true_eq,
    Bool.or_eq_true, beq_iff_eq] at h
  obtain ⟨⟨⟨⟨h1, h2⟩, h3⟩, h4⟩, h5⟩ := h
  refine ⟨h1, h2, ?_, ?_, ?_⟩
  · intro i hi hne
    rcases h3 i hi with (h | h) | h
    · exact absurd h hne
    · exact Or.inl h
    · exact Or.inr h
  · intro j hj hne
    rcases h4 j hj with (h | h) | h
    · exact absurd h hne
    · exact Or.inl h
    · exact Or.inr h
  · intro k hk hne8 hne9
    rcases h5 k hk with ((h | h) | h) | h
    · exact absurd h hne8
    · exact absurd h hne9
    · exact Or.inl h
    · exact Or.inr h

theorem sameSlot_far (p x : Vector3)
    (h : 2 * Rounded.DBL_EPS roundDouble ≤ |x.x - p.x| ∨
      2 * Rounded.DBL_EPS roundDouble ≤ |x.y - p.y| ∨
      2 * Rounded.DBL_EPS roundDouble ≤ |x.z - p.z|) : sameSlot p x = false := by
  unfold sameSlot
  rw [Bool.and_eq_false_iff]
  right
  rcases h with h | h | h
  · simp [not_lt.mpr h]
  · simp [not_lt.mpr h]
  · simp [not_lt.mpr h]

theorem far_of_range (c lo hi p : ℚ) (h1 : lo - 1 / 2 ^ 49 ≤ c) (h2 : c ≤ hi + 1 / 2 ^ 49)
    (h : hi + 1 / 1000 ≤ p ∨ p + 1 / 1000 ≤ lo) : 2 * Rounded.DBL_EPS roundDouble ≤ |c - p| := by
  obtain ⟨-, -, hE⟩ := doubleEps_facts
  have d : (1 : ℚ) / 2 ^ 49 ≤ 1 / 2000 := by norm_num
  rcases h with h | h
  · rw [abs_sub_comm, le_abs]
    left; linarith
  · rw [le_abs]
    left; linarith

/-- In the sphere example in double arithmetic no triangle of a cell other than
`(5, 7, 8)` and `(5, 7, 9)` has a vertex that can share a node with `splitPoint`. -/
theorem sphereCell_far (i j k : Nat) (hi : i < 19) (hj : j < 19) (hk : k < 19)
    (h : i ≠ 5 ∨ j ≠ 7 ∨ (k ≠ 8 ∧ k ≠ 9)) :
    ∀ T ∈ sphereCell i j k, touches splitPoint T = false := by
  obtain ⟨g1, g2, g3, g4, g5⟩ := sphereGrid_facts
  intro T hT
  have box := rounded_freshCell_box (Rounded.sphereField roundDouble) 0 (sphereGrid i)
    (sphereGrid (i + 1)) (sphereGrid j) (sphereGrid (j + 1)) (sphereGrid k) (sphereGrid (k + 1))
    (g2 i hi) (g2 j hj) (g2 k hk) ⟨g1 i (by omega), g1 (i + 1) (by omega)⟩
    ⟨g1 j (by omega), g1 (j + 1) (by omega)⟩ ⟨g1 k (by omega), g1 (k + 1) (by omega)⟩ hT
  have far : ∀ P : Vector3, P = T.v0 ∨ P = T.v1 ∨ P = T.v2 → sameSlot splitPoint P = false := by
    intro P hP
    obtain ⟨⟨x1, x2⟩, ⟨y1, y2⟩, ⟨z1, z2⟩⟩ := box P hP
    apply sameSlot_far
    rcases h with h | h | ⟨h8, h9⟩
    · exact Or.inl (far_of_range _ _ _ _ x1 x2 (g3 i hi h))
    · exact Or.inr (Or.inr (far_of_range _ _ _ _ z1 z2 (g4 j hj h)))
    · exact Or.inr (Or.inl (far_of_range _ _ _ _ y1 y2 (g5 k hk h8 h9)))
  unfold touches
  rw [far T.v0 (Or.inl rfl), far T.v1 (Or.inr (Or.inl rfl)), far T.v2 (Or.inr (Or.inr rfl))]
  rfl

theorem countP_flatMap_range_zero {α : Type} (p : α → Bool) (F : Nat → List α) (n : Nat)
    (h : ∀ i, i < n → ∀ T ∈ F i, p T = false) : ((List.range n).flatMap F).countP p = 0 := by
  rw [List.countP_eq_zero]
  intro T hT
  rw [List.mem_flatMap] at hT
  obtain ⟨i, hi, hTi⟩ := hT
  rw [h i (List.mem_range.mp hi) T hTi]
  simp

theorem countP_flatMap_range_single {α : Type} (p : α → Bool) (F : Nat → List α) (n a : Nat)
    (ha : a < n) (h : ∀ i, i < n → i ≠ a → ∀ T ∈ F i, p T = false) :
    ((List.range n).flatMap F).countP p = (F a).countP p := by
  induction n with
  | zero => omega
  | succ n ih =>
    rw [List.range_succ, List.flatMap_append, List.countP_append]
    simp only [List.flatMap_cons, List.flatMap_nil, List.append_nil]
    rcases Nat.lt_succ_iff_lt_or_eq.mp ha with hlt | heq
    · rw [ih hlt (fun i hi hne => h i (by omega) hne)]
      have : (F n).countP p = 0 := by
        rw [List.countP_eq_zero]
        intro T hT
        rw [h n (by omega) (by omega) T hT]
        simp
      rw [this, Nat.add_zero]
    · subst heq
      rw [countP_flatMap_range_zero p F a (fun i hi => h i (by omega) (by omega)), Nat.zero_add]

set_option maxRecDepth 1000000 in
theorem sphereCell_near :
    splitTriangle ∈ sphereCell 5 7 8 ∧
    (sphereCell 5 7 8).countP (touches splitPoint) = 1 ∧
    (sphereCell 5 7 9).countP (touches splitPoint) = 0 := by
  decide!

/-- The triangles of all cells of the sphere example in double arithmetic. -/
theorem sphereSoup_eq :
    Rounded.freshSoup roundDouble (fun _ => -2) sphereStep sphereStep sphereStep 19 19 19
      (Rounded.sphereField roundDouble) 0 =
    (List.range 19).flatMap fun i => (List.range 19).flatMap fun j =>
      (List.range 19).flatMap fun k => sphereCell i j k := rfl

/-- In the sphere example in double arithmetic exactly one triangle has a vertex
that can share a node of `vertex_map` with `splitPoint`. -/
theorem sphereSoup_touches :
    (Rounded.freshSoup roundDouble (fun _ => -2) sphereStep sphereStep sphereStep 19 19 19
      (Rounded.sphereField roundDouble) 0).countP (touches splitPoint) = 1 := by
  obtain ⟨-, n8, n9⟩ := sphereCell_near
  rw [sphereSoup_eq]
  rw [countP_flatMap_range_single (touches splitPoint) _ 19 5 (by norm_num)]
  · rw [countP_flatMap_range_single (touches splitPoint) _ 19 7 (by norm_num)]
    · rw [countP_flatMap_range_single (touches splitPoint) _ 19 8 (by norm_num)]
      · exact n8
      · intro k hk hne T hT
        by_cases h9 : k = 9
        · subst h9
          have := List.countP_eq_zero.mp n9 T hT
          simpa using this
        · exact sphereCell_far 5 7 k (by norm_num) (by norm_num) hk (Or.inr (Or.inr ⟨hne, h9⟩)) T hT
    · intro j hj hne T hT
      rw [List.mem_flatMap] at hT
      obtain ⟨k, hk, hTk⟩ := hT
      exact sphereCell_far 5 j k (by norm_num) hj (List.mem_range.mp hk) (Or.inr (Or.inl hne)) T hTk
  · intro i hi hne T hT
    rw [List.mem_flatMap] at hT
    obtain ⟨j, hj, hT⟩ := hT
    rw [List.mem_flatMap] at hT
    obtain ⟨k, hk, hTk⟩ := hT
    exact sphereCell_far i j k hi (List.mem_range.mp hj) (List.mem_range.mp hk) (Or.inl hne) T hTk

theorem roundDouble_neg_two : roundDouble (-2) = -2 := by decide!

theorem snd_eq_of_eq_pair {α β : Type} (p : α × β) (a : α) (b : β) (h : p = (a, b)) :
    p.2 = b := by
  rw [h]

theorem sphereMeshDouble_eq :
    sphereMeshDouble.2 =
      ((Rounded.freshSoup roundDouble (fun _ => -2) sphereStep sphereStep sphereStep 19 19 19
          (Rounded.sphereField roundDouble) 0).foldl (Rounded.weldTriangle roundDouble)
          ({ vertices := [], vertex_map := [], current_id := -1 }, [])).2 :=
  snd_eq_of_eq_pair sphereMeshDouble
    ((Rounded.freshSoup roundDouble (fun _ => -2) sphereStep sphereStep sphereStep 19 19 19
          (Rounded.sphereField roundDouble) 0).foldl (Rounded.weldTriangle roundDouble)
          ({ vertices := [], vertex_map := [], current_id := -1 }, [])).1.vertices _
    (rounded_marching_cubes_eq_weld roundDouble roundDouble_zero (fun _ => -2)
      (fun _ => 2) roundDouble_neg_two 20 20 20 (Rounded.sphereField roundDouble) 0 (by decide)
      (by norm_num))

theorem forall₂_countP_le {α β : Type} {R : α → β → Prop} {l1 : List α} {l2 : List β}
    (p : α → Bool) (q : β → Bool) (h : List.Forall₂ R l1 l2)
    (hpq : ∀ a b, R a b → q b = true → p a = true) : l2.countP q ≤ l1.countP p := by
  induction h with
  | nil => simp
  | @cons a b l1 l2 hab _ ih =>
    rw [List.countP_cons, List.countP_cons]
    by_cases hq : q b = true
    · rw [hpq a b hab hq, hq]
      simp only [if_true]
      omega
    · rw [Bool.not_eq_true] at hq
      rw [hq]
      simp only [Bool.false_eq_true, if_false, add_zero]
      exact le_trans ih (Nat.le_add_right _ _)

theorem hasSide_entry (t : Nat × Nat × Nat) (u v : Nat) (h : hasSide t u v = true) :
    u = t.1 ∨ u = t.2.1 ∨ u = t.2.2 := by
  unfold hasSide at h
  simp only [List.any_cons, List.any_nil, Bool.or_false, Bool.or_eq_true, Bool.and_eq_true,
    beq_iff_eq] at h
  rcases h with (⟨a, -⟩ | ⟨-, a⟩) | (⟨a, -⟩ | ⟨-, a⟩) | (⟨a, -⟩ | ⟨-, a⟩)
  · exact Or.inl a.symm
  · exact Or.inr (Or.inl a.symm)
  · exact Or.inr (Or.inl a.symm)
  · exact Or.inr (Or.inr a.symm)
  · exact Or.inr (Or.inr a.symm)
  · exact Or.inl a.symm

/-- The second pass in double arithmetic on a list of triangles of which exactly one
has a vertex that can share a node of `vertex_map` with the point `p`, that
triangle having `p` as its vertex `v2`: the index pushed for `p` belongs to one
triangle only, so the sides of that triangle at `p` appear in no other
triangle. -/
theorem open_edge_of_soup (S : List Triangle) (T : Triangle) (p : Vector3) (hT : T ∈ S)
    (hv2 : T.v2 = p) (hcount : S.countP (touches p) = 1) :
    ∃ t ∈ meshTriangles (S.foldl (Rounded.weldTriangle roundDouble)
        ({ vertices := [], vertex_map := [], current_id := -1 }, [])).2,
      ∃ u v : Nat, hasSide t u v = true ∧
        edgeUses (S.foldl (Rounded.weldTriangle roundDouble)
          ({ vertices := [], vertex_map := [], current_id := -1 }, [])).2 u v = 1 := by
  have hW := rounded_weld_soup roundDouble S
    ({ vertices := [], vertex_map := [], current_id := -1 }, []) [] []
    ⟨le_refl _, rfl, fun e he => absurd he (List.not_mem_nil e)⟩ rfl List.Forall₂.nil
  rw [List.nil_append] at hW
  obtain ⟨t, ht, hWt⟩ := forall₂_mem_left hW hT
  have side : hasSide t t.2.1 t.1 = true := by
    unfold hasSide
    simp
  refine ⟨t, ht, t.2.1, t.1, side, ?_⟩
  -- the lookup for `p` ended at the node of index `t.2.1`
  have hp := hWt.2.1.2
  rw [hv2] at hp
  apply le_antisymm
  · unfold edgeUses
    rw [← hcount]
    refine forall₂_countP_le (touches p) _ hW ?_
    intro T' s hTs hs
    unfold touches
    rcases hasSide_entry s _ _ hs with e | e | e
    · have := sameSlot_of_accepts (by rw [e]; exact hTs.1.2) hp
      simp [this]
    · have := sameSlot_of_accepts (by rw [e]; exact hTs.2.1.2) hp
      simp [this]
    · have := sameSlot_of_accepts (by rw [e]; exact hTs.2.2.2) hp
      simp [this]
  · unfold edgeUses
    rw [Nat.succ_le_iff, List.countP_pos_iff]
    exact ⟨t, ht, side⟩

/-- C12: the sphere example in double arithmetic (`marching_cubes` for the field
`x * x + y * y + z * z - 1` on the box from `(-2, -2, -2)` to `(2, 2, 2)` with 20
samples per axis and isovalue `0`, every arithmetic result rounded to the nearest
double) gives a mesh in which some triangle has a side that no other triangle
shares: the undirected edge appears in exactly one triangle.  The vertex at one
end of the side is the point that tetrahedron 5 of the cell `(5, 7, 8)` computes
on a face diagonal; tetrahedron 6 of the same cell and the cell above compute
the point on that diagonal from the other end, one unit in the last place away
and across a boundary of the lattice of `Vector3Hash`, so the lookup of
`add_vertex` does not find it. -/
theorem sphere_mesh_double_has_open_edge :
    ∃ t ∈ meshTriangles sphereMeshDouble.2, ∃ u v : Nat, hasSide t u v = true ∧
      edgeUses sphereMeshDouble.2 u v = 1 := by
  rw [sphereMeshDouble_eq]
  refine open_edge_of_soup _ splitTriangle splitPoint ?_ rfl sphereSoup_touches
  rw [sphereSoup_eq]
  simp only [List.mem_flatMap, List.mem_range]
  exact ⟨5, by norm_num, 7, by norm_num, 8, by norm_num, sphereCell_near.1⟩

end PyMTets
